import Mathlib

/-!
# ChiLow: a shallow embedding of `verification/chilow.c`

Machine words are natural numbers.  Every place where the C code narrows a value
(an assignment to a `uint32_t`, a left shift or a complement of a `uint64_t`) carries
an explicit reduction modulo `2^32` or `2^64`.  The five global matrix arrays are an
explicit state record that is passed to the functions reading them; the array reads
`ROUND_CONSTANTS[round]` are fallible, so the decryption routines return an `Option`.
The round count `num_rounds` is a C `int`, here an integer.  The population-count
builtins of the compiler are computed byte by byte and proved equal to the bit count
`popcount_bits`.
-/

namespace ChiLow

/-! ## Constants and types -/

def NUM_ROUNDS : Nat := 8

def BITMASK_15 : Nat := 0x7FFF
def BITMASK_17 : Nat := 0x1FFFF
def BITMASK_19 : Nat := 0x7FFFF
def BITMASK_21 : Nat := 0x1FFFFF
def BITMASK_31 : Nat := 0x7FFFFFFF
def BITMASK_32 : Nat := 0xFFFFFFFF
def BITMASK_33 : Nat := 0x1FFFFFFFF
def BITMASK_40 : Nat := 0xFFFFFFFFFF
def BITMASK_63 : Nat := 0x7FFFFFFFFFFFFFFF

/-- Round constants of the 32+tau variant (an array of `NUM_ROUNDS` words). -/
def ROUND_CONSTANTS : List Nat :=
  [0x0000001000000000, 0x0000002100000000, 0x0000004200000000, 0x0000008300000000,
   0x0000010400000000, 0x0000020500000000, 0x0000040600000000, 0x0000080700000000]

/-- Round constants of the 40-bit variant. -/
def ROUND_CONSTANTS_40 : List Nat :=
  [0x8000001000000000, 0x8000002100000000, 0x8000004200000000, 0x8000008300000000,
   0x8000010400000000, 0x8000020500000000, 0x8000040600000000, 0x8000080700000000]

/-- The 128-bit integer structure: two 64-bit words. -/
structure uint128_t where
  lo : Nat
  hi : Nat
deriving DecidableEq, Repr

/-- Linear transformation parameters `alpha[3]`, `beta[3]`.  The source declares them
`int`; the model holds the non-negative ones as natural numbers. -/
structure linear_params_t where
  alpha : Nat → Nat
  beta : Nat → Nat

/-- An array initialiser `{a, b, c}`. -/
def triple (a b c : Nat) : Nat → Nat := fun k => [a, b, c].getD k 0

/-- The global matrix storage: each array is a map from the row index to the row. -/
structure Matrices where
  linear_matrix_32_state : Nat → Nat
  linear_matrix_32_prf : Nat → Nat
  linear_matrix_40 : Nat → Nat
  linear_matrix_64 : Nat → Nat
  linear_matrix_128 : Nat → uint128_t

/-- Contents of the static arrays at program start: all zero. -/
def zero_matrices : Matrices :=
  ⟨fun _ => 0, fun _ => 0, fun _ => 0, fun _ => 0, fun _ => ⟨0, 0⟩⟩

/-! ## Machine arithmetic -/

/-- Reduction to a `uint32_t`. -/
def u32 (x : Nat) : Nat := x % 2 ^ 32

/-- Reduction to a `uint64_t`. -/
def u64 (x : Nat) : Nat := x % 2 ^ 64

/-- Left shift of a `uint64_t`. -/
def shl64 (x n : Nat) : Nat := u64 (x <<< n)

/-- Left shift of a `uint32_t`. -/
def shl32 (x n : Nat) : Nat := u32 (x <<< n)

/-- Bitwise complement of a `uint64_t`. -/
def not64 (x : Nat) : Nat := u64 x ^^^ 0xFFFFFFFFFFFFFFFF

/-- Writing one cell of an array. -/
def store {α : Type} (a : Nat → α) (i : Nat) (v : α) : Nat → α :=
  fun j => if j = i then v else a j

/-! ## Utility functions -/

/-- Number of set bits among the low `w` bits of `x`. -/
def popcount_bits : Nat → Nat → Nat
  | 0, _ => 0
  | w + 1, x => ((x >>> w) &&& 1) + popcount_bits w x

/-- The numbers of set bits of the 256 byte values, packed four bits each: the nibble at
position `b` is the number of set bits of the byte `b`. -/
def BYTE_WEIGHTS : Nat :=
  0x8776766576656554766565546554544376656554655454436554544354434332766565546554544365545443544343326554544354434332544343324332322176656554655454436554544354434332655454435443433254434332433232216554544354434332544343324332322154434332433232214332322132212110

/-- Number of set bits of a byte, read from `BYTE_WEIGHTS`. -/
def byte_weight (b : Nat) : Nat := (BYTE_WEIGHTS >>> (4 * b)) &&& 15

/-- The compiler builtin `__builtin_popcount` (not part of the sources): the number of set
bits of a `uint32_t`, summed byte by byte.  It equals `popcount_bits 32`
(`popcount32_eq_bits`). -/
def popcount32 (x : Nat) : Nat :=
  byte_weight ((x >>> 0) &&& 255) +
    byte_weight ((x >>> 8) &&& 255) +
    byte_weight ((x >>> 16) &&& 255) +
    byte_weight ((x >>> 24) &&& 255)

/-- The compiler builtin `__builtin_popcountll` (not part of the sources): the number of
set bits of a `uint64_t`, summed byte by byte.  It equals `popcount_bits 64`
(`popcount64_eq_bits`). -/
def popcount64 (x : Nat) : Nat :=
  byte_weight ((x >>> 0) &&& 255) +
    byte_weight ((x >>> 8) &&& 255) +
    byte_weight ((x >>> 16) &&& 255) +
    byte_weight ((x >>> 24) &&& 255) +
    byte_weight ((x >>> 32) &&& 255) +
    byte_weight ((x >>> 40) &&& 255) +
    byte_weight ((x >>> 48) &&& 255) +
    byte_weight ((x >>> 56) &&& 255)

def rotr64 (value shift width : Nat) : Nat :=
  let mask := u64 (shl64 1 width + 2 ^ 64 - 1)
  let value := value &&& mask
  ((value >>> shift) ||| shl64 value (width - shift)) &&& mask

/-! ## Chi operations -/

def chi_transform (input mask bit_width : Nat) : Nat :=
  let rot1 := rotr64 input 1 bit_width &&& mask
  let rot2 := rotr64 input 2 bit_width &&& mask
  (input ^^^ (not64 rot1 &&& rot2)) &&& mask

def chichi_transform (input small_mask large_mask split_pos : Nat) : Nat :=
  let lower_part := input &&& small_mask
  let upper_part := (input >>> (split_pos - 1)) &&& large_mask
  let transformed_lower := chi_transform lower_part small_mask (split_pos - 1)
  let transformed_upper := chi_transform upper_part large_mask (split_pos + 1)
  let linear_mix := 0
  let linear_mix := linear_mix |||
    shl64 (((input >>> split_pos) ^^^ (input >>> (split_pos - 3))) &&& 1) (split_pos - 3)
  let linear_mix := linear_mix |||
    shl64 (((input >>> (split_pos - 1)) ^^^ (input >>> (split_pos - 2))) &&& 1) (split_pos - 2)
  let linear_mix := linear_mix |||
    shl64 (((input >>> (split_pos - 3)) ^^^ (input >>> (split_pos - 1)) ^^^ (input >>> split_pos))
      &&& 1) (split_pos - 1)
  let linear_mix := linear_mix |||
    shl64 (((input >>> split_pos) ^^^ (input >>> (split_pos - 2))) &&& 1) split_pos
  (shl64 transformed_upper (split_pos - 1) ||| transformed_lower) ^^^ linear_mix

def chichi_transform_128 (input : uint128_t) : uint128_t :=
  let lower_63 := input.lo &&& BITMASK_63
  let chi_lower := chi_transform lower_63 BITMASK_63 63
  let upper_65 := shl64 input.hi 1 ||| ((input.lo >>> 63) &&& 1)
  let upper_msb := (input.hi >>> 63) &&& 1
  let rot1_val := shl64 upper_msb 63 ||| ((upper_65 >>> 1) &&& BITMASK_63)
  let rot1_msb := upper_65 &&& 1
  let rot2_val := shl64 rot1_msb 63 ||| ((rot1_val >>> 1) &&& BITMASK_63)
  let rot2_msb := rot1_val &&& 1
  let chi_upper_msb := (upper_msb ^^^ (not64 rot1_msb &&& rot2_msb)) &&& 1
  let chi_upper_val := upper_65 ^^^ (not64 rot1_val &&& rot2_val)
  let chi_lower := (chi_lower &&& BITMASK_63) ||| shl64 (chi_upper_val &&& 1) 63
  let chi_upper_val := ((chi_upper_val >>> 1) &&& BITMASK_63) ||| shl64 chi_upper_msb 63
  let mix_lo := 0
  let mix_hi := 0
  let mix_lo := mix_lo ||| shl64 (((input.hi &&& 1) ^^^ (input.lo >>> 61)) &&& 1) 61
  let mix_lo := mix_lo ||| shl64 (((input.lo >>> 63) ^^^ (input.lo >>> 62)) &&& 1) 62
  let mix_lo := mix_lo |||
    shl64 (((input.lo >>> 61) ^^^ (input.lo >>> 63) ^^^ (input.hi &&& 1)) &&& 1) 63
  let mix_hi := mix_hi ||| (((input.hi &&& 1) ^^^ (input.lo >>> 62)) &&& 1)
  { hi := chi_upper_val ^^^ mix_hi, lo := chi_lower ^^^ mix_lo }

/-! ## Linear layer -/

/-- The generator of the matrices with 32 columns.  The source computes the column
`(alpha[term] * row + beta[term]) % 32` in `int`; the natural-number expression of the
model is that value as long as `alpha[term] * row + beta[term] < 2^31` (it is at most
`17 * 127 + 50` for the five parameter sets of `initialize_linear_matrices`). -/
def generate_linear_matrix_32 (matrix : Nat → Nat) (params : linear_params_t) : Nat → Nat :=
  (List.range 32).foldl (fun matrix row =>
    let matrix_row := (List.range 3).foldl (fun matrix_row term =>
      let col := (params.alpha term * row + params.beta term) % 32
      matrix_row ||| shl32 1 col) 0
    store matrix row matrix_row) matrix

/-- The generator of the matrices with 40 columns.  The source computes the column
`(alpha[term] * row + beta[term]) % 40` in `int`; the natural-number expression of the
model is that value as long as `alpha[term] * row + beta[term] < 2^31` (it is at most
`17 * 127 + 50` for the five parameter sets of `initialize_linear_matrices`). -/
def generate_linear_matrix_40 (matrix : Nat → Nat) (params : linear_params_t) : Nat → Nat :=
  (List.range 40).foldl (fun matrix row =>
    let matrix_row := (List.range 3).foldl (fun matrix_row term =>
      let col := (params.alpha term * row + params.beta term) % 40
      matrix_row ||| shl64 1 col) 0
    store matrix row matrix_row) matrix

/-- The generator of the matrices with 64 columns.  The source computes the column
`(alpha[term] * row + beta[term]) % 64` in `int`; the natural-number expression of the
model is that value as long as `alpha[term] * row + beta[term] < 2^31` (it is at most
`17 * 127 + 50` for the five parameter sets of `initialize_linear_matrices`). -/
def generate_linear_matrix_64 (matrix : Nat → Nat) (params : linear_params_t) : Nat → Nat :=
  (List.range 64).foldl (fun matrix row =>
    let matrix_row := (List.range 3).foldl (fun matrix_row term =>
      let col := (params.alpha term * row + params.beta term) % 64
      matrix_row ||| shl64 1 col) 0
    store matrix row matrix_row) matrix

/-- The generator of the matrix with 128 columns.  The source computes the column
`(alpha[term] * row + beta[term]) % 128` in `int`; the natural-number expression of the
model is that value as long as `alpha[term] * row + beta[term] < 2^31`. -/
def generate_linear_matrix_128 (matrix : Nat → uint128_t) (params : linear_params_t) :
    Nat → uint128_t :=
  (List.range 128).foldl (fun matrix row =>
    let matrix_row := (List.range 3).foldl (fun (matrix_row : uint128_t) term =>
      let col := (params.alpha term * row + params.beta term) % 128
      if col < 64 then { matrix_row with lo := matrix_row.lo ||| shl64 1 col }
      else { matrix_row with hi := matrix_row.hi ||| shl64 1 (col - 64) }) ⟨0, 0⟩
    store matrix row matrix_row) matrix

def apply_linear_32 (input : Nat) (matrix : Nat → Nat) : Nat :=
  (List.range 32).foldl (fun output bit =>
    let parity := popcount32 (matrix bit &&& input) &&& 1
    output ||| shl32 parity bit) 0

def apply_linear_40 (input : Nat) (matrix : Nat → Nat) : Nat :=
  let input := input &&& BITMASK_40
  (List.range 40).foldl (fun output bit =>
    let parity := popcount64 (matrix bit &&& input) &&& 1
    output ||| shl64 parity bit) 0

def apply_linear_64 (input : Nat) (matrix : Nat → Nat) : Nat :=
  (List.range 64).foldl (fun output bit =>
    let parity := popcount64 (matrix bit &&& input) &&& 1
    output ||| shl64 parity bit) 0

def apply_linear_128 (input : uint128_t) (matrix : Nat → uint128_t) : uint128_t :=
  let output : uint128_t := ⟨0, 0⟩
  let output := (List.range 64).foldl (fun (output : uint128_t) bit =>
    let parity := (popcount64 ((matrix bit).lo &&& input.lo) ^^^
                   popcount64 ((matrix bit).hi &&& input.hi)) &&& 1
    { output with lo := output.lo ||| shl64 parity bit }) output
  (List.range' 64 64).foldl (fun (output : uint128_t) bit =>
    let parity := (popcount64 ((matrix bit).lo &&& input.lo) ^^^
                   popcount64 ((matrix bit).hi &&& input.hi)) &&& 1
    { output with hi := output.hi ||| shl64 parity (bit - 64) }) output

/-! ## Initialization -/

def state_params : linear_params_t := ⟨triple 11 11 11, triple 5 9 12⟩
def prf_params : linear_params_t := ⟨triple 11 11 11, triple 1 26 30⟩
def state40_params : linear_params_t := ⟨triple 17 17 17, triple 1 9 30⟩
def tweak_params : linear_params_t := ⟨triple 3 3 3, triple 1 26 50⟩
def key_params : linear_params_t := ⟨triple 17 17 17, triple 7 11 14⟩

def initialize_linear_matrices (g : Matrices) : Matrices :=
  { linear_matrix_32_state := generate_linear_matrix_32 g.linear_matrix_32_state state_params
    linear_matrix_32_prf := generate_linear_matrix_32 g.linear_matrix_32_prf prf_params
    linear_matrix_40 := generate_linear_matrix_40 g.linear_matrix_40 state40_params
    linear_matrix_64 := generate_linear_matrix_64 g.linear_matrix_64 tweak_params
    linear_matrix_128 := generate_linear_matrix_128 g.linear_matrix_128 key_params }

def chilow_init (g : Matrices) : Matrices := initialize_linear_matrices g

/-! ## Main algorithms -/

/-- Local variables of the 32+tau routines. -/
structure State32 where
  plaintext : Nat
  tag : Nat
  tweak : Nat
  key : uint128_t
deriving DecidableEq, Repr

/-- Local variables of the 40-bit routines. -/
structure State40 where
  plaintext : Nat
  tweak : Nat
  key : uint128_t
deriving DecidableEq, Repr

/-- A loop `for (int round = r; round < r + count; round++) body`, whose body may fail. -/
def for_rounds {σ : Type} (body : Nat → σ → Option σ) : Nat → Nat → σ → Option σ
  | 0, _, s => some s
  | count + 1, round, s => (body round s).bind (for_rounds body count (round + 1))

/-- Initial whitening of the 32+tau routines (the same three statements in each of them). -/
def whitening_32 (ciphertext tweak : Nat) (key : uint128_t) : State32 :=
  { plaintext := u32 (ciphertext ^^^ (key.hi &&& BITMASK_32))
    tag := u32 (ciphertext ^^^ ((key.hi >>> 32) &&& BITMASK_32))
    tweak := tweak ^^^ key.lo
    key := key }

/-- Body of the round loop of the 32+tau routines (the same statements in each of them).
The read `ROUND_CONSTANTS[round]` fails outside the table. -/
def main_round_32 (g : Matrices) (round : Nat) (s : State32) : Option State32 :=
  (ROUND_CONSTANTS.get? round).map fun rc =>
    /- Add round constant to key -/
    let key : uint128_t := { s.key with hi := s.key.hi ^^^ rc }
    /- Nonlinear layer -/
    let plaintext := u32 (chichi_transform s.plaintext BITMASK_15 BITMASK_17 16)
    let tag := u32 (chichi_transform s.tag BITMASK_15 BITMASK_17 16)
    let tweak := chichi_transform s.tweak BITMASK_31 BITMASK_33 32
    let key := chichi_transform_128 key
    /- Linear layer -/
    let plaintext := apply_linear_32 plaintext g.linear_matrix_32_state
    let tag := apply_linear_32 tag g.linear_matrix_32_prf
    let tweak := apply_linear_64 tweak g.linear_matrix_64
    let key := apply_linear_128 key g.linear_matrix_128
    /- Interaction layer -/
    let plaintext := u32 (plaintext ^^^ (tweak &&& BITMASK_32))
    let tag := u32 (tag ^^^ ((tweak >>> 32) &&& BITMASK_32))
    let tweak := tweak ^^^ key.lo
    { plaintext := plaintext, tag := tag, tweak := tweak, key := key }

/-- The return expression `((uint64_t)tag << 32) | (plaintext & BITMASK_32)`. -/
def pack_32 (s : State32) : Nat :=
  shl64 s.tag 32 ||| (s.plaintext &&& BITMASK_32)

def chilow_decrypt_32 (g : Matrices) (ciphertext tweak : Nat) (key : uint128_t) : Option Nat :=
  (for_rounds (main_round_32 g) (NUM_ROUNDS - 1) 0 (whitening_32 ciphertext tweak key)).map
    fun s =>
      /- Final round (simplified) -/
      let plaintext := u32 (chichi_transform s.plaintext BITMASK_15 BITMASK_17 16)
      let tag := u32 (chichi_transform s.tag BITMASK_15 BITMASK_17 16)
      let tweak := apply_linear_64 s.tweak g.linear_matrix_64
      let plaintext := u32 (plaintext ^^^ (tweak &&& BITMASK_32))
      let tag := u32 (tag ^^^ ((tweak >>> 32) &&& BITMASK_32))
      pack_32 { s with plaintext := plaintext, tag := tag, tweak := tweak }

/-- The routine `chilow_decrypt_32_reduced`.  `num_rounds` is a C `int` and the loop bound
`num_rounds - 1` is computed in `int`: the model follows the source for
`-2^31 < num_rounds < 2^31`.  A read of the round-constant table past its end fails here;
the `_mem` variants below take the words after the table as an argument. -/
def chilow_decrypt_32_reduced (g : Matrices) (ciphertext tweak : Nat) (key : uint128_t)
    (num_rounds : Int) : Option Nat :=
  (for_rounds (main_round_32 g) (num_rounds - 1).toNat 0
      (whitening_32 ciphertext tweak key)).map
    fun s =>
      /- Final round (simplified) if we have at least one round -/
      if num_rounds > 0 then
        let plaintext := u32 (chichi_transform s.plaintext BITMASK_15 BITMASK_17 16)
        let tag := u32 (chichi_transform s.tag BITMASK_15 BITMASK_17 16)
        let tweak := apply_linear_64 s.tweak g.linear_matrix_64
        let plaintext := u32 (plaintext ^^^ (tweak &&& BITMASK_32))
        let tag := u32 (tag ^^^ ((tweak >>> 32) &&& BITMASK_32))
        pack_32 { s with plaintext := plaintext, tag := tag, tweak := tweak }
      else pack_32 s

/-- The routine `chilow_decrypt_32_half_reduced`.  `num_rounds` is a C `int` and the loop bound
`num_rounds - 1` is computed in `int`: the model follows the source for
`-2^31 < num_rounds < 2^31`.  A read of the round-constant table past its end fails here;
the `_mem` variants below take the words after the table as an argument. -/
def chilow_decrypt_32_half_reduced (g : Matrices) (ciphertext tweak : Nat) (key : uint128_t)
    (num_rounds : Int) : Option Nat :=
  (for_rounds (main_round_32 g) (num_rounds - 1).toNat 0
      (whitening_32 ciphertext tweak key)).map
    fun s =>
      /- Final round without linear layer (only nonlinear + interaction) -/
      if num_rounds > 0 then
        let plaintext := u32 (chichi_transform s.plaintext BITMASK_15 BITMASK_17 16)
        let tag := u32 (chichi_transform s.tag BITMASK_15 BITMASK_17 16)
        let plaintext := u32 (plaintext ^^^ (s.tweak &&& BITMASK_32))
        let tag := u32 (tag ^^^ ((s.tweak >>> 32) &&& BITMASK_32))
        pack_32 { s with plaintext := plaintext, tag := tag }
      else pack_32 s

/-- Initial whitening of the 40-bit routines (the same two statements in each of them). -/
def whitening_40 (ciphertext tweak : Nat) (key : uint128_t) : State40 :=
  { plaintext := ciphertext ^^^ (key.hi &&& BITMASK_40)
    tweak := tweak ^^^ key.lo
    key := key }

/-- Body of the round loop of the 40-bit routines (the same statements in each of them).
The read `ROUND_CONSTANTS_40[round]` fails outside the table. -/
def main_round_40 (g : Matrices) (round : Nat) (s : State40) : Option State40 :=
  (ROUND_CONSTANTS_40.get? round).map fun rc =>
    /- Add round constant to key -/
    let key : uint128_t := { s.key with hi := s.key.hi ^^^ rc }
    /- Nonlinear layer -/
    let plaintext := chichi_transform s.plaintext BITMASK_19 BITMASK_21 20
    let tweak := chichi_transform s.tweak BITMASK_31 BITMASK_33 32
    let key := chichi_transform_128 key
    /- Linear layer -/
    let plaintext := apply_linear_40 plaintext g.linear_matrix_40
    let tweak := apply_linear_64 tweak g.linear_matrix_64
    let key := apply_linear_128 key g.linear_matrix_128
    /- Interaction layer -/
    let plaintext := plaintext ^^^ (tweak &&& BITMASK_40)
    let tweak := tweak ^^^ key.lo
    { plaintext := plaintext, tweak := tweak, key := key }

def chilow_decrypt_40 (g : Matrices) (ciphertext tweak : Nat) (key : uint128_t) : Option Nat :=
  (for_rounds (main_round_40 g) (NUM_ROUNDS - 1) 0 (whitening_40 ciphertext tweak key)).map
    fun s =>
      /- Final round (simplified) -/
      let plaintext := chichi_transform s.plaintext BITMASK_19 BITMASK_21 20
      let tweak := apply_linear_64 s.tweak g.linear_matrix_64
      let plaintext := (plaintext ^^^ (tweak &&& BITMASK_40)) &&& BITMASK_40
      plaintext

/-- The routine `chilow_decrypt_40_reduced`.  `num_rounds` is a C `int` and the loop bound
`num_rounds - 1` is computed in `int`: the model follows the source for
`-2^31 < num_rounds < 2^31`.  A read of the round-constant table past its end fails here;
the `_mem` variants below take the words after the table as an argument. -/
def chilow_decrypt_40_reduced (g : Matrices) (ciphertext tweak : Nat) (key : uint128_t)
    (num_rounds : Int) : Option Nat :=
  (for_rounds (main_round_40 g) (num_rounds - 1).toNat 0
      (whitening_40 ciphertext tweak key)).map
    fun s =>
      /- Final round (simplified) if we have at least one round -/
      if num_rounds > 0 then
        let plaintext := chichi_transform s.plaintext BITMASK_19 BITMASK_21 20
        let tweak := apply_linear_64 s.tweak g.linear_matrix_64
        let plaintext := (plaintext ^^^ (tweak &&& BITMASK_40)) &&& BITMASK_40
        plaintext
      else s.plaintext

/-- The routine `chilow_decrypt_40_half_reduced`.  `num_rounds` is a C `int` and the loop bound
`num_rounds - 1` is computed in `int`: the model follows the source for
`-2^31 < num_rounds < 2^31`.  A read of the round-constant table past its end fails here;
the `_mem` variants below take the words after the table as an argument. -/
def chilow_decrypt_40_half_reduced (g : Matrices) (ciphertext tweak : Nat) (key : uint128_t)
    (num_rounds : Int) : Option Nat :=
  (for_rounds (main_round_40 g) (num_rounds - 1).toNat 0
      (whitening_40 ciphertext tweak key)).map
    fun s =>
      /- Final round without linear layer (only nonlinear + interaction) -/
      if num_rounds > 0 then
        let plaintext := chichi_transform s.plaintext BITMASK_19 BITMASK_21 20
        let plaintext := (plaintext ^^^ (s.tweak &&& BITMASK_40)) &&& BITMASK_40
        plaintext
      else s.plaintext

/-! ## Public interface -/

def chilow_decrypt_32bit (g : Matrices) (ciphertext tweak key_hi key_lo : Nat) : Option Nat :=
  let key : uint128_t := ⟨key_lo, key_hi⟩
  chilow_decrypt_32 g ciphertext tweak key

def chilow_decrypt_40bit (g : Matrices) (ciphertext tweak key_hi key_lo : Nat) : Option Nat :=
  let key : uint128_t := ⟨key_lo, key_hi⟩
  chilow_decrypt_40 g ciphertext tweak key

def chilow_reduced_round_32bit (g : Matrices) (ciphertext tweak key_hi key_lo : Nat)
    (num_rounds : Int) : Option Nat :=
  let key : uint128_t := ⟨key_lo, key_hi⟩
  chilow_decrypt_32_reduced g ciphertext tweak key num_rounds

def chilow_reduced_round_40bit (g : Matrices) (ciphertext tweak key_hi key_lo : Nat)
    (num_rounds : Int) : Option Nat :=
  let key : uint128_t := ⟨key_lo, key_hi⟩
  chilow_decrypt_40_reduced g ciphertext tweak key num_rounds

def chilow_half_reduced_round_32bit (g : Matrices) (ciphertext tweak key_hi key_lo : Nat)
    (num_rounds : Int) : Option Nat :=
  let key : uint128_t := ⟨key_lo, key_hi⟩
  chilow_decrypt_32_half_reduced g ciphertext tweak key num_rounds

def chilow_half_reduced_round_40bit (g : Matrices) (ciphertext tweak key_hi key_lo : Nat)
    (num_rounds : Int) : Option Nat :=
  let key : uint128_t := ⟨key_lo, key_hi⟩
  chilow_decrypt_40_half_reduced g ciphertext tweak key num_rounds


/-! ## Auxiliary definitions used by the proofs -/

/-- The row that `generate_linear_matrix_32` stores at index `row`. -/
def matrix_row_32 (params : linear_params_t) (row : Nat) : Nat :=
  (List.range 3).foldl (fun matrix_row term =>
    let col := (params.alpha term * row + params.beta term) % 32
    matrix_row ||| shl32 1 col) 0

/-- The row that `generate_linear_matrix_40` stores at index `row`. -/
def matrix_row_40 (params : linear_params_t) (row : Nat) : Nat :=
  (List.range 3).foldl (fun matrix_row term =>
    let col := (params.alpha term * row + params.beta term) % 40
    matrix_row ||| shl64 1 col) 0

/-- The row that `generate_linear_matrix_64` stores at index `row`. -/
def matrix_row_64 (params : linear_params_t) (row : Nat) : Nat :=
  (List.range 3).foldl (fun matrix_row term =>
    let col := (params.alpha term * row + params.beta term) % 64
    matrix_row ||| shl64 1 col) 0

/-- The row that `generate_linear_matrix_128` stores at index `row`. -/
def matrix_row_128 (params : linear_params_t) (row : Nat) : uint128_t :=
  (List.range 3).foldl (fun (matrix_row : uint128_t) term =>
    let col := (params.alpha term * row + params.beta term) % 128
    if col < 64 then { matrix_row with lo := matrix_row.lo ||| shl64 1 col }
    else { matrix_row with hi := matrix_row.hi ||| shl64 1 (col - 64) }) ⟨0, 0⟩

/-- The matrices after `chilow_init`, row by row, with the cells the generators never
write taken from `g`. -/
def generated_matrices (g : Matrices) : Matrices :=
  { linear_matrix_32_state := fun i =>
      if i < 32 then matrix_row_32 state_params i else g.linear_matrix_32_state i
    linear_matrix_32_prf := fun i =>
      if i < 32 then matrix_row_32 prf_params i else g.linear_matrix_32_prf i
    linear_matrix_40 := fun i =>
      if i < 40 then matrix_row_40 state40_params i else g.linear_matrix_40 i
    linear_matrix_64 := fun i =>
      if i < 64 then matrix_row_64 tweak_params i else g.linear_matrix_64 i
    linear_matrix_128 := fun i =>
      if i < 128 then matrix_row_128 key_params i else g.linear_matrix_128 i }

/-- Two matrix states hold the same rows (the cells inside the five arrays). -/
def same_rows (g h : Matrices) : Prop :=
  (∀ i, i < 32 → g.linear_matrix_32_state i = h.linear_matrix_32_state i) ∧
  (∀ i, i < 32 → g.linear_matrix_32_prf i = h.linear_matrix_32_prf i) ∧
  (∀ i, i < 40 → g.linear_matrix_40 i = h.linear_matrix_40 i) ∧
  (∀ i, i < 64 → g.linear_matrix_64 i = h.linear_matrix_64 i) ∧
  (∀ i, i < 128 → g.linear_matrix_128 i = h.linear_matrix_128 i)

/-- Column of the set bit that term `term` contributes to row `row` of a matrix of
width `w`: `(alpha[term] * row + beta[term]) mod w`. -/
def column (params : linear_params_t) (w row term : Nat) : Nat :=
  (params.alpha term * row + params.beta term) % w

/-- The set of the three columns of row `row`. -/
def columns (params : linear_params_t) (w row : Nat) : Finset Nat :=
  {column params w row 0, column params w row 1, column params w row 2}

/-- One term of the row loop of `generate_linear_matrix_128`: the bit of column `col` is set
in the low or in the high word. -/
def row_128_step (matrix_row : uint128_t) (col : Nat) : uint128_t :=
  if col < 64 then { matrix_row with lo := matrix_row.lo ||| shl64 1 col }
  else { matrix_row with hi := matrix_row.hi ||| shl64 1 (col - 64) }

/-! ## The original implementation (`kiki.c`, `kiki.h`, `chichi.h`, `linearLayer.h`)

The printing of `decryption` and `decryption40` (under `PRINT`) has no effect on the
returned value and is left out.  `unsigned long` is a 64-bit word. -/

def MASK32 : Nat := 0xFFFFFFFF
def MASK40 : Nat := 0xFFFFFFFFFF
def MASK15 : Nat := 0x7FFF
def MASK17 : Nat := 0x1FFFF
def MASK19 : Nat := 0x7FFFF
def MASK21 : Nat := 0x1FFFFF
def MASK31 : Nat := 0x7FFFFFFF
def MASK33 : Nat := 0x1FFFFFFFF
def MASK63 : Nat := 0x7FFFFFFFFFFFFFFF

/-- The 128-bit structure of `kiki.h`. -/
structure U128 where
  high : Nat
  low : Nat
deriving DecidableEq, Repr

def alphaState : Nat → Nat := triple 11 11 11
def betaState : Nat → Nat := triple 5 9 12
def alphaPrf : Nat → Nat := triple 11 11 11
def betaPrf : Nat → Nat := triple 1 26 30
def alphaTweak : Nat → Nat := triple 3 3 3
def betaTweak : Nat → Nat := triple 1 26 50
def alphaKey : Nat → Nat := triple 17 17 17
def betaKey : Nat → Nat := triple 7 11 14
def alphaState40 : Nat → Nat := triple 17 17 17
def betaState40 : Nat → Nat := triple 1 9 30

/-- The global matrix arrays of `kiki.c`. -/
structure KikiMatrices where
  M32_0 : Nat → Nat
  M32_1 : Nat → Nat
  M40 : Nat → Nat
  M64 : Nat → Nat
  M128 : Nat → U128

/-- The compiler builtin `__builtin_parity` (not part of the sources): the number of set
bits of an `unsigned int`, modulo 2. -/
def builtin_parity (x : Nat) : Nat := popcount32 x % 2

/-- The compiler builtin `__builtin_parityl` (not part of the sources): the number of set
bits of an `unsigned long`, modulo 2. -/
def builtin_parityl (x : Nat) : Nat := popcount64 x % 2

def chi (x mask size : Nat) : Nat :=
  let x1 := ((x >>> 1) ||| shl64 x (size - 1)) &&& mask
  let x2 := ((x >>> 2) ||| shl64 x (size - 2)) &&& mask
  let y := (x ^^^ (not64 x1 &&& x2)) &&& mask
  y

def chichi (x mask_small mask_big m : Nat) : Nat :=
  let x0 := x &&& mask_small
  let x1 := (x >>> (m - 1)) &&& mask_big
  let y0 := chi x0 mask_small (m - 1)
  let y1 := chi x1 mask_big (m + 1)
  let L := 0
  let L := L ||| shl64 (((x >>> m) ^^^ (x >>> (m - 3))) &&& 0x01) (m - 3)
  let L := L ||| shl64 (((x >>> (m - 1)) ^^^ (x >>> (m - 2))) &&& 0x01) (m - 2)
  let L := L ||| shl64 (((x >>> (m - 3)) ^^^ (x >>> (m - 1)) ^^^ (x >>> m)) &&& 0x01) (m - 1)
  let L := L ||| shl64 (((x >>> m) ^^^ (x >>> (m - 2))) &&& 0x01) m
  let y := (shl64 y1 (m - 1) ||| y0) ^^^ L
  y

/-- Right rotate by 1 bit; returns `(*y_msb, *y)`. -/
def rotate65 (x_msb x : Nat) : Nat × Nat :=
  let y := shl64 x_msb 63 ||| ((x >>> 1) &&& MASK63)
  let y_msb := x &&& 0x01
  (y_msb, y)

def chichi128 (x : U128) : U128 :=
  let m := 64
  let x0 := x.low &&& MASK63
  let y0 := chi x0 MASK63 (m - 1)
  let x1 := shl64 x.high 1 ||| ((x.low >>> 63) &&& 0x1)
  let x1_msb := (x.high >>> 63) &&& 0x1
  let (a_msb, a) := rotate65 x1_msb x1
  let (b_msb, b) := rotate65 a_msb a
  let y1_msb := (x1_msb ^^^ (not64 a_msb &&& b_msb)) &&& 0x1
  let y1 := x1 ^^^ (not64 a &&& b)
  let y0 := (y0 &&& MASK63) ||| shl64 (y1 &&& 0x01) 63
  let y1 := ((y1 >>> 1) &&& MASK63) ||| shl64 y1_msb 63
  let L0 := 0
  let L1 := 0
  let L0 := L0 ||| shl64 (((x.high &&& 0x01) ^^^ (x.low >>> (m - 3))) &&& 0x01) (m - 3)
  let L0 := L0 ||| shl64 (((x.low >>> (m - 1)) ^^^ (x.low >>> (m - 2))) &&& 0x01) (m - 2)
  let L0 := L0 |||
    shl64 (((x.low >>> (m - 3)) ^^^ (x.low >>> (m - 1)) ^^^ (x.high &&& 0x01)) &&& 0x01) (m - 1)
  let L1 := L1 ||| (((x.high &&& 0x01) ^^^ (x.low >>> (m - 2))) &&& 0x01)
  { high := y1 ^^^ L1, low := y0 ^^^ L0 }

def generateMatrix32 (M : Nat → Nat) (alpha beta : Nat → Nat) : Nat → Nat :=
  let size := 32
  (List.range size).foldl (fun M i =>
    let i0 := u32 (u32 (alpha 0 * i) + beta 0) % size
    let i1 := u32 (u32 (alpha 1 * i) + beta 1) % size
    let i2 := u32 (u32 (alpha 2 * i) + beta 2) % size
    let y := u32 (shl64 1 i0 ||| shl64 1 i1 ||| shl64 1 i2)
    store M i y) M

def generateMatrix64 (M : Nat → Nat) (alpha beta : Nat → Nat) : Nat → Nat :=
  let size := 64
  (List.range size).foldl (fun M i =>
    let i0 := u32 (u32 (alpha 0 * i) + beta 0) % size
    let i1 := u32 (u32 (alpha 1 * i) + beta 1) % size
    let i2 := u32 (u32 (alpha 2 * i) + beta 2) % size
    let y := shl64 1 i0 ||| shl64 1 i1 ||| shl64 1 i2
    store M i y) M

def generateMatrix40 (M : Nat → Nat) (alpha beta : Nat → Nat) : Nat → Nat :=
  let size := 40
  (List.range size).foldl (fun M i =>
    let i0 := u32 (u32 (alpha 0 * i) + beta 0) % size
    let i1 := u32 (u32 (alpha 1 * i) + beta 1) % size
    let i2 := u32 (u32 (alpha 2 * i) + beta 2) % size
    let y := shl64 1 i0 ||| shl64 1 i1 ||| shl64 1 i2
    store M i y) M

def generateMatrix128 (M : Nat → U128) (alpha beta : Nat → Nat) : Nat → U128 :=
  let size := 128
  (List.range size).foldl (fun M i =>
    let i0 := u32 (u32 (alpha 0 * i) + beta 0) % size
    let i1 := u32 (u32 (alpha 1 * i) + beta 1) % size
    let i2 := u32 (u32 (alpha 2 * i) + beta 2) % size
    let y0 := 0
    let y1 := 0
    let (y0, y1) := if i0 < 64 then (y0 ||| shl64 1 i0, y1) else (y0, y1 ||| shl64 1 (i0 - 64))
    let (y0, y1) := if i1 < 64 then (y0 ||| shl64 1 i1, y1) else (y0, y1 ||| shl64 1 (i1 - 64))
    let (y0, y1) := if i2 < 64 then (y0 ||| shl64 1 i2, y1) else (y0, y1 ||| shl64 1 (i2 - 64))
    store M i { low := y0, high := y1 }) M

def linearLayer32 (x : Nat) (M : Nat → Nat) : Nat :=
  (List.range 32).foldl (fun y i =>
    let b := builtin_parity (M i &&& x)
    y ||| shl32 b i) 0

def linearLayer40 (x : Nat) (M : Nat → Nat) : Nat :=
  (List.range 40).foldl (fun y i =>
    let b := builtin_parityl ((M i &&& x) &&& MASK40)
    y ||| shl64 b i) 0

def linearLayer64 (x : Nat) (M : Nat → Nat) : Nat :=
  (List.range 64).foldl (fun y i =>
    let b := builtin_parityl (M i &&& x)
    y ||| shl64 b i) 0

def linearLayer128 (x : U128) (M : Nat → U128) : U128 :=
  let y : U128 := { low := 0, high := 0 }
  let y := (List.range 64).foldl (fun (y : U128) i =>
    let b := (builtin_parityl ((M i).low &&& x.low) ^^^
              builtin_parityl ((M i).high &&& x.high)) &&& 0x01
    { y with low := y.low ||| shl64 b i }) y
  (List.range' 64 64).foldl (fun (y : U128) i =>
    let b := (builtin_parityl ((M i).low &&& x.low) ^^^
              builtin_parityl ((M i).high &&& x.high)) &&& 0x01
    { y with high := y.high ||| shl64 b (i - 64) }) y

def setLinearLayer (k : KikiMatrices) : KikiMatrices :=
  { M32_0 := generateMatrix32 k.M32_0 alphaState betaState
    M32_1 := generateMatrix32 k.M32_1 alphaPrf betaPrf
    M40 := generateMatrix40 k.M40 alphaState40 betaState40
    M64 := generateMatrix64 k.M64 alphaTweak betaTweak
    M128 := generateMatrix128 k.M128 alphaKey betaKey }

/-- Local variables of `decryption`. -/
structure KikiState where
  p : Nat
  tag : Nat
  T : Nat
  K : U128

/-- Local variables of `decryption40`. -/
structure KikiState40 where
  p : Nat
  T : Nat
  K : U128

/-- The local array `RC` of `decryption`. -/
def RC : List Nat :=
  [0x0000001000000000, 0x0000002100000000, 0x0000004200000000, 0x0000008300000000,
   0x0000010400000000, 0x0000020500000000, 0x0000040600000000, 0x0000080700000000]

/-- The local array `RC` of `decryption40`. -/
def RC40 : List Nat :=
  [0x8000001000000000, 0x8000002100000000, 0x8000004200000000, 0x8000008300000000,
   0x8000010400000000, 0x8000020500000000, 0x8000040600000000, 0x8000080700000000]

/-- Body of the round loop of `decryption`; the read `RC[i]` fails outside the array. -/
def decryption_round (k : KikiMatrices) (i : Nat) (s : KikiState) : Option KikiState :=
  (RC.get? i).map fun rc =>
    let K : U128 := { s.K with high := s.K.high ^^^ rc }
    let p := u32 (chichi s.p MASK15 MASK17 16)
    let tag := u32 (chichi s.tag MASK15 MASK17 16)
    let T := chichi s.T MASK31 MASK33 32
    let K := chichi128 K
    let p := linearLayer32 p k.M32_0
    let tag := linearLayer32 tag k.M32_1
    let T := linearLayer64 T k.M64
    let K := linearLayer128 K k.M128
    let p := u32 (p ^^^ (T &&& MASK32))
    let tag := u32 (tag ^^^ ((T >>> 32) &&& MASK32))
    let T := T ^^^ K.low
    { p := p, tag := tag, T := T, K := K }

def decryption (k : KikiMatrices) (C T : Nat) (K : U128) (rounds : Int) : Option Nat :=
  let p := u32 (C ^^^ (K.high &&& MASK32))
  let tag := u32 (C ^^^ ((K.high >>> 32) &&& MASK32))
  let T := T ^^^ K.low
  (for_rounds (decryption_round k) (rounds - 1).toNat 0
      { p := p, tag := tag, T := T, K := K }).map
    fun s =>
      /- Last Round -/
      let p := u32 (chichi s.p MASK15 MASK17 16)
      let tag := u32 (chichi s.tag MASK15 MASK17 16)
      let T := linearLayer64 s.T k.M64
      let p := u32 (p ^^^ (T &&& MASK32))
      let tag := u32 (tag ^^^ ((T >>> 32) &&& MASK32))
      let OUT := shl64 tag 32 ||| (p &&& MASK32)
      OUT

/-- Body of the round loop of `decryption40`; the read `RC[i]` fails outside the array. -/
def decryption40_round (k : KikiMatrices) (i : Nat) (s : KikiState40) : Option KikiState40 :=
  (RC40.get? i).map fun rc =>
    let K : U128 := { s.K with high := s.K.high ^^^ rc }
    let p := chichi s.p MASK19 MASK21 20
    let T := chichi s.T MASK31 MASK33 32
    let K := chichi128 K
    let p := linearLayer40 p k.M40
    let T := linearLayer64 T k.M64
    let K := linearLayer128 K k.M128
    let p := p ^^^ (T &&& MASK40)
    let T := T ^^^ K.low
    { p := p, T := T, K := K }

def decryption40 (k : KikiMatrices) (C T : Nat) (K : U128) (rounds : Int) : Option Nat :=
  let p := C ^^^ (K.high &&& MASK40)
  let T := T ^^^ K.low
  (for_rounds (decryption40_round k) (rounds - 1).toNat 0 { p := p, T := T, K := K }).map
    fun s =>
      /- Last Round -/
      let p := chichi s.p MASK19 MASK21 20
      let T := linearLayer64 s.T k.M64
      let p := (p ^^^ (T &&& MASK40)) &&& MASK40
      p

/-- The `uint128_t` of `chilow.c` with the same two words as a `U128`. -/
def U128.toUint128 (x : U128) : uint128_t := { lo := x.low, hi := x.high }

/-- The `chilow.c` state that corresponds to a state of `decryption`. -/
def KikiState.toState32 (s : KikiState) : State32 :=
  { plaintext := s.p, tag := s.tag, tweak := s.T, key := s.K.toUint128 }

/-- The `chilow.c` state that corresponds to a state of `decryption40`. -/
def KikiState40.toState40 (s : KikiState40) : State40 :=
  { plaintext := s.p, tweak := s.T, key := s.K.toUint128 }

/-- The `chilow.c` matrix state that holds the same rows as a matrix state of `kiki.c`. -/
def KikiMatrices.toMatrices (k : KikiMatrices) : Matrices :=
  { linear_matrix_32_state := k.M32_0
    linear_matrix_32_prf := k.M32_1
    linear_matrix_40 := k.M40
    linear_matrix_64 := k.M64
    linear_matrix_128 := fun i => (k.M128 i).toUint128 }


/-- The row that `generateMatrix32` stores at index `i`. -/
def generateMatrix32_row (alpha beta : Nat → Nat) (i : Nat) : Nat :=
  let size := 32
  let i0 := u32 (u32 (alpha 0 * i) + beta 0) % size
  let i1 := u32 (u32 (alpha 1 * i) + beta 1) % size
  let i2 := u32 (u32 (alpha 2 * i) + beta 2) % size
  u32 (shl64 1 i0 ||| shl64 1 i1 ||| shl64 1 i2)

/-- The row that `generateMatrix40` and `generateMatrix64` store at index `i`, for the
width `size`. -/
def generateMatrix64_row (size : Nat) (alpha beta : Nat → Nat) (i : Nat) : Nat :=
  let i0 := u32 (u32 (alpha 0 * i) + beta 0) % size
  let i1 := u32 (u32 (alpha 1 * i) + beta 1) % size
  let i2 := u32 (u32 (alpha 2 * i) + beta 2) % size
  shl64 1 i0 ||| shl64 1 i1 ||| shl64 1 i2

/-- The row that `generateMatrix128` stores at index `i`. -/
def generateMatrix128_row (alpha beta : Nat → Nat) (i : Nat) : U128 :=
  let size := 128
  let i0 := u32 (u32 (alpha 0 * i) + beta 0) % size
  let i1 := u32 (u32 (alpha 1 * i) + beta 1) % size
  let i2 := u32 (u32 (alpha 2 * i) + beta 2) % size
  let y0 := 0
  let y1 := 0
  let (y0, y1) := if i0 < 64 then (y0 ||| shl64 1 i0, y1) else (y0, y1 ||| shl64 1 (i0 - 64))
  let (y0, y1) := if i1 < 64 then (y0 ||| shl64 1 i1, y1) else (y0, y1 ||| shl64 1 (i1 - 64))
  let (y0, y1) := if i2 < 64 then (y0 ||| shl64 1 i2, y1) else (y0, y1 ||| shl64 1 (i2 - 64))
  { low := y0, high := y1 }

/-! ## The generic chichi construction over unbounded integers

These definitions follow the description of `rotr`, `chi` and `chichi` word for word, on
natural numbers of any size; they are what `chichi_transform_128` is compared with. -/

/-- Right rotation of the low `w` bits of `x` by `s` positions; upper bits are zero. -/
def rotr_wide (x s w : Nat) : Nat :=
  ((x % 2 ^ w) >>> s) ||| (((x % 2 ^ w) <<< (w - s)) % 2 ^ w)

/-- `chi` on a ring of `w` bits: `x XOR ((NOT rotr(x,1,w)) AND rotr(x,2,w))`, masked to `w`
bits (the complement is taken on `w` bits). -/
def chi_wide (x w : Nat) : Nat :=
  (x ^^^ (((2 ^ w - 1) ^^^ rotr_wide x 1 w) &&& rotr_wide x 2 w)) % 2 ^ w

/-- The word with the single bit `b` at position `k`. -/
def bit_at (b : Bool) (k : Nat) : Nat := if b then 2 ^ k else 0

/-- The 4-bit affine correction `L` at positions `m−3, m−2, m−1, m`. -/
def correction_wide (x m : Nat) : Nat :=
  bit_at (xor (x.testBit m) (x.testBit (m - 3))) (m - 3) |||
  bit_at (xor (x.testBit (m - 1)) (x.testBit (m - 2))) (m - 2) |||
  bit_at (xor (xor (x.testBit (m - 3)) (x.testBit (m - 1))) (x.testBit m)) (m - 1) |||
  bit_at (xor (x.testBit m) (x.testBit (m - 2))) m

/-- The generic chichi on a lane of `2m` bits: chi on the lower ring of `m−1` bits and on the
upper ring of `m+1` bits, glued and corrected by `L`. -/
def chichi_wide (x m : Nat) : Nat :=
  ((chi_wide (x >>> (m - 1)) (m + 1) <<< (m - 1)) ||| chi_wide (x % 2 ^ (m - 1)) (m - 1))
    ^^^ correction_wide x m

/-! ## Derivatives of word functions

The integral property of the 32+tau variant is about the XOR of the outputs over a cube of
inputs, that is, about an iterated derivative of the plaintext lane as a function of the
ciphertext.  The definitions below bound the set bits of such derivatives by masks that are
computed along the operations of the code. -/

/-- Derivative of `f` in the direction of bit `k`: `f x XOR f (x XOR 2^k)`. -/
def xor_diff (k : Nat) (f : Nat → Nat) : Nat → Nat := fun x => f x ^^^ f (x ^^^ 2 ^ k)

/-- Iterated derivative in the directions of a list of bits. -/
def xor_diffs : List Nat → (Nat → Nat) → Nat → Nat
  | [], f => f
  | k :: ks, f => xor_diffs ks (xor_diff k f)

/-- Every set bit of `v` is set in `m`. -/
def within (v m : Nat) : Prop := ∀ i, v.testBit i = true → m.testBit i = true

/-- Masks for a function and its derivatives: for directions `k :: ks`, `node keep diff`
holds the masks of the function (`keep`) and of its derivative in direction `k` (`diff`),
each for the remaining directions `ks`. -/
inductive MaskTree where
  | leaf (m : Nat) : MaskTree
  | node (keep diff : MaskTree) : MaskTree

/-- The function `f` and its derivatives in the listed directions have their set bits
inside the masks of the tree, at every input. -/
def bounded : List Nat → MaskTree → (Nat → Nat) → Prop
  | [], MaskTree.leaf m, f => ∀ x, within (f x) m
  | k :: ks, MaskTree.node keep diff, f => bounded ks keep f ∧ bounded ks diff (xor_diff k f)
  | _, _, _ => False

/-- Apply a mask transformer to every mask of the tree (for XOR-linear operations). -/
def mask_map (op : Nat → Nat) : MaskTree → MaskTree
  | MaskTree.leaf m => MaskTree.leaf (op m)
  | MaskTree.node keep diff => MaskTree.node (mask_map op keep) (mask_map op diff)

/-- Masks of a constant function with set bits inside `m`, shaped like the given tree. -/
def mask_like : MaskTree → Nat → MaskTree
  | MaskTree.leaf _, m => MaskTree.leaf m
  | MaskTree.node keep diff, m => MaskTree.node (mask_like keep m) (mask_like diff 0)

/-- Masks of the XOR of two functions. -/
def mask_join : MaskTree → MaskTree → MaskTree
  | MaskTree.leaf a, MaskTree.leaf b => MaskTree.leaf (a ||| b)
  | MaskTree.node a0 a1, MaskTree.node b0 b1 => MaskTree.node (mask_join a0 b0) (mask_join a1 b1)
  | _, _ => MaskTree.leaf 0

/-- Masks of the AND of two functions: the derivative of a product `f AND g` is
`(Df AND g) XOR (f AND Dg) XOR (Df AND Dg)`. -/
def mask_meet : MaskTree → MaskTree → MaskTree
  | MaskTree.leaf a, MaskTree.leaf b => MaskTree.leaf (a &&& b)
  | MaskTree.node a0 a1, MaskTree.node b0 b1 =>
      MaskTree.node (mask_meet a0 b0)
        (mask_join (mask_join (mask_meet a1 b0) (mask_meet a0 b1)) (mask_meet a1 b1))
  | _, _ => MaskTree.leaf 0

/-- Masks of the OR of two functions, from `f OR g = f XOR g XOR (f AND g)`. -/
def mask_or (a b : MaskTree) : MaskTree := mask_join (mask_join a b) (mask_meet a b)

/-- The mask of the iterated derivative in all directions. -/
def mask_top : MaskTree → Nat
  | MaskTree.leaf m => m
  | MaskTree.node _ diff => mask_top diff

/-- Masks of `rotr64 (f x) shift width`, following the statements of `rotr64`. -/
def mask_rotr64 (t : MaskTree) (shift width : Nat) : MaskTree :=
  let mask := u64 (shl64 1 width + 2 ^ 64 - 1)
  let value := mask_map (fun m => m &&& mask) t
  mask_map (fun m => m &&& mask)
    (mask_or (mask_map (fun m => m >>> shift) value)
      (mask_map (fun m => shl64 m (width - shift)) value))

/-- Masks of `not64 (f x)`. -/
def mask_not64 (t : MaskTree) : MaskTree :=
  mask_join (mask_map u64 t) (mask_like t 0xFFFFFFFFFFFFFFFF)

/-- Masks of `chi_transform (f x) mask bit_width`, following its statements. -/
def mask_chi_transform (t : MaskTree) (mask bit_width : Nat) : MaskTree :=
  let rot1 := mask_map (fun m => m &&& mask) (mask_rotr64 t 1 bit_width)
  let rot2 := mask_map (fun m => m &&& mask) (mask_rotr64 t 2 bit_width)
  mask_map (fun m => m &&& mask) (mask_join t (mask_meet (mask_not64 rot1) rot2))

/-- Masks of `shl64 ((f x >> a) XOR (f x >> b)) AND 1) pos`, one bit of the correction. -/
def mask_mix2 (t : MaskTree) (a b pos : Nat) : MaskTree :=
  mask_map (fun m => shl64 m pos) (mask_map (fun m => m &&& 1)
    (mask_join (mask_map (fun m => m >>> a) t) (mask_map (fun m => m >>> b) t)))

/-- Masks of `shl64 ((f x >> a) XOR (f x >> b) XOR (f x >> c)) AND 1) pos`. -/
def mask_mix3 (t : MaskTree) (a b c pos : Nat) : MaskTree :=
  mask_map (fun m => shl64 m pos) (mask_map (fun m => m &&& 1)
    (mask_join (mask_join (mask_map (fun m => m >>> a) t) (mask_map (fun m => m >>> b) t))
      (mask_map (fun m => m >>> c) t)))

/-- Masks of `chichi_transform (f x) small_mask large_mask split_pos`, following its
statements. -/
def mask_chichi_transform (t : MaskTree) (small_mask large_mask split_pos : Nat) : MaskTree :=
  let lower_part := mask_map (fun m => m &&& small_mask) t
  let upper_part := mask_map (fun m => m &&& large_mask)
    (mask_map (fun m => m >>> (split_pos - 1)) t)
  let transformed_lower := mask_chi_transform lower_part small_mask (split_pos - 1)
  let transformed_upper := mask_chi_transform upper_part large_mask (split_pos + 1)
  let linear_mix := mask_like t 0
  let linear_mix := mask_or linear_mix (mask_mix2 t split_pos (split_pos - 3) (split_pos - 3))
  let linear_mix := mask_or linear_mix
    (mask_mix2 t (split_pos - 1) (split_pos - 2) (split_pos - 2))
  let linear_mix := mask_or linear_mix
    (mask_mix3 t (split_pos - 3) (split_pos - 1) split_pos (split_pos - 1))
  let linear_mix := mask_or linear_mix (mask_mix2 t split_pos (split_pos - 2) split_pos)
  mask_join
    (mask_or (mask_map (fun m => shl64 m (split_pos - 1)) transformed_upper) transformed_lower)
    linear_mix

/-- Mask of `apply_linear_32 v matrix` for `v` inside `m`: output bit `bit` can be set only
when row `bit` of the matrix meets `m`. -/
def mask_linear_32 (m : Nat) (matrix : Nat → Nat) : Nat :=
  (List.range 32).foldl (fun output bit =>
    output ||| shl32 (if matrix bit &&& m = 0 then 0 else 1) bit) 0

/-- The plaintext lane of one round of the 32+tau routines, `t` being the tweak word after
its linear layer: nonlinear layer, linear layer, interaction layer. -/
def plaintext_round (g : Matrices) (t p : Nat) : Nat :=
  u32 (apply_linear_32 (u32 (chichi_transform p BITMASK_15 BITMASK_17 16))
    g.linear_matrix_32_state ^^^ (t &&& BITMASK_32))

/-- The plaintext lane of the final round of `chilow_decrypt_32_reduced`. -/
def plaintext_final (t p : Nat) : Nat :=
  u32 (u32 (chichi_transform p BITMASK_15 BITMASK_17 16) ^^^ (t &&& BITMASK_32))

/-- The plaintext lane of `chilow_decrypt_32_reduced` with three rounds as a function of
the ciphertext, `k0` being the whitening key word and `t1`, `t2`, `t3` the tweak words. -/
def plaintext_lane_3 (g : Matrices) (k0 t1 t2 t3 : Nat) (C : Nat) : Nat :=
  plaintext_final t3 (plaintext_round g t2 (plaintext_round g t1 (u32 (C ^^^ k0))))

/-- Masks of `plaintext_round`. -/
def mask_plaintext_round (g : Matrices) (t : MaskTree) : MaskTree :=
  mask_map u32 (mask_join
    (mask_map (fun m => mask_linear_32 m g.linear_matrix_32_state)
      (mask_map u32 (mask_chichi_transform t BITMASK_15 BITMASK_17 16)))
    (mask_like t BITMASK_32))

/-- Masks of `plaintext_final`. -/
def mask_plaintext_final (t : MaskTree) : MaskTree :=
  mask_map u32 (mask_join (mask_map u32 (mask_chichi_transform t BITMASK_15 BITMASK_17 16))
    (mask_like t BITMASK_32))

/-- Masks of the whitened ciphertext `u32 (C XOR k0)` for the listed directions. -/
def mask_whitening : List Nat → MaskTree
  | [] => MaskTree.leaf BITMASK_32
  | k :: ks => MaskTree.node (mask_whitening ks) (mask_like (mask_whitening ks) (2 ^ k))

/-- Masks of `plaintext_lane_3` for the listed directions. -/
def mask_plaintext_lane_3 (g : Matrices) (ks : List Nat) : MaskTree :=
  mask_plaintext_final (mask_plaintext_round g (mask_plaintext_round g (mask_whitening ks)))

/-- The ciphertext of the integral experiment, `((cnt&1)<<21) ^ rnd ^ ((cnt&2)<<22) ^
((cnt&4)<<23)`: the base value with the bits 21, 23, 25 flipped by the bits of `cnt`. -/
def integral_input (rnd cnt : Nat) : Nat :=
  u32 (shl32 (cnt &&& 1) 21 ^^^ rnd ^^^ shl32 (cnt &&& 2) 22 ^^^ shl32 (cnt &&& 4) 23)

/-- The tweak lane of one round of the 32+tau routines before the key is added: nonlinear
layer and linear layer. -/
def tweak_round (g : Matrices) (tweak : Nat) : Nat :=
  apply_linear_64 (chichi_transform tweak BITMASK_31 BITMASK_33 32) g.linear_matrix_64

/-- The key lane of one round of the 32+tau routines with round constant `rc`. -/
def key_round (g : Matrices) (rc : Nat) (key : uint128_t) : uint128_t :=
  apply_linear_128 (chichi_transform_128 { key with hi := key.hi ^^^ rc }) g.linear_matrix_128

/-! ## Storage of the linear matrices -/

/-- The five global arrays `linear_matrix_32_state`, `linear_matrix_32_prf`,
`linear_matrix_40`, `linear_matrix_64`, `linear_matrix_128` as declared: number of elements
and size of an element in bytes (`uint32_t` 4, `uint64_t` 8, the structure `uint128_t` of two
`uint64_t` 16). -/
def linear_matrix_storage : List (Nat × Nat) :=
  [(32, 4), (32, 4), (40, 8), (64, 8), (128, 16)]

/-- Total size in bytes of the five arrays. -/
def linear_matrix_bytes : Nat := (linear_matrix_storage.map fun a => a.1 * a.2).sum

/-! ## Bit-level description of chichi -/

/-- Successor of a position on the upper ring of chichi (positions `m−1 .. 2m−1`):
`n(i) = i + 1` for `i < 2m − 1` and `n(2m − 1) = m − 1`. -/
def chichi_next (m i : Nat) : Nat := if i < 2 * m - 1 then i + 1 else m - 1

/-- Bit `i` of chichi at split position `m`, as a function of the bits of the input: chi on
the lower ring of `m−1` bits and on the upper ring of `m+1` bits, with the four corrected
positions `m−3 .. m` spelled out; positions from `2m` on are zero. -/
def chichi_bit (m x i : Nat) : Bool :=
  if i < m - 3 then xor (x.testBit i) (!x.testBit (i + 1) && x.testBit (i + 2))
  else if i = m - 3 then xor (x.testBit m) (!x.testBit (m - 2) && x.testBit 0)
  else if i = m - 2 then xor (x.testBit (m - 1)) (!x.testBit 0 && x.testBit 1)
  else if i = m - 1 then
    xor (xor (x.testBit (m - 3)) (x.testBit m)) (!x.testBit m && x.testBit (m + 1))
  else if i = m then xor (x.testBit (m - 2)) (!x.testBit (m + 1) && x.testBit (m + 2))
  else if i < 2 * m then
    xor (x.testBit i)
      (!x.testBit (chichi_next m i) && x.testBit (chichi_next m (chichi_next m i)))
  else false

/-! ## The 40-bit data lane, step by step -/

/-- Body of the round loop of the 40-bit routines, recording the values that the variable
`plaintext` takes: the statements of `main_round_40`, with the list of the values assigned
so far carried along (after the nonlinear, the linear and the interaction layer). -/
def main_round_40_traced (g : Matrices) (round : Nat) (ts : List Nat × State40) :
    Option (List Nat × State40) :=
  (ROUND_CONSTANTS_40.get? round).map fun rc =>
    /- Add round constant to key -/
    let key : uint128_t := { ts.2.key with hi := ts.2.key.hi ^^^ rc }
    /- Nonlinear layer -/
    let plaintext1 := chichi_transform ts.2.plaintext BITMASK_19 BITMASK_21 20
    let tweak := chichi_transform ts.2.tweak BITMASK_31 BITMASK_33 32
    let key := chichi_transform_128 key
    /- Linear layer -/
    let plaintext2 := apply_linear_40 plaintext1 g.linear_matrix_40
    let tweak := apply_linear_64 tweak g.linear_matrix_64
    let key := apply_linear_128 key g.linear_matrix_128
    /- Interaction layer -/
    let plaintext3 := plaintext2 ^^^ (tweak &&& BITMASK_40)
    let tweak := tweak ^^^ key.lo
    (ts.1 ++ [plaintext1, plaintext2, plaintext3],
      { plaintext := plaintext3, tweak := tweak, key := key })

/-- The routine `chilow_decrypt_40_reduced` recording the values that the variable
`plaintext` takes, from the initial whitening to the returned value: the list of the values
in order, and the returned value. -/
def chilow_decrypt_40_reduced_traced (g : Matrices) (ciphertext tweak : Nat) (key : uint128_t)
    (num_rounds : Int) : Option (List Nat × Nat) :=
  (for_rounds (main_round_40_traced g) (num_rounds - 1).toNat 0
      ([(whitening_40 ciphertext tweak key).plaintext],
        whitening_40 ciphertext tweak key)).map
    fun ts =>
      /- Final round (simplified) if we have at least one round -/
      if num_rounds > 0 then
        let plaintext1 := chichi_transform ts.2.plaintext BITMASK_19 BITMASK_21 20
        let tweak := apply_linear_64 ts.2.tweak g.linear_matrix_64
        let plaintext2 := (plaintext1 ^^^ (tweak &&& BITMASK_40)) &&& BITMASK_40
        (ts.1 ++ [plaintext1, plaintext2], plaintext2)
      else (ts.1, ts.2.plaintext)

/-! ## Inverses of the data-lane matrices over GF(2) -/

/-- XOR of the rows `j < n` of a matrix selected by the set bits of `sel`: the row of the
product of the row vector `sel` with the matrix. -/
def row_combination (sel : Nat) (matrix : Nat → Nat) : Nat → Nat
  | 0 => 0
  | n + 1 => row_combination sel matrix n ^^^ (if sel.testBit n then matrix n else 0)

/-- Rows of the inverse of the State32 matrix over GF(2) (computed by Gaussian elimination
and checked in `state32_inverse_check`). -/
def STATE32_INVERSE : List Nat :=
  [0xD346E5E8, 0x9A372F46, 0xD1B97A34, 0x8DCBD1A6, 0x6E5E8D34, 0x72F469A3, 0x97A34D1B,
   0xBD1A68DC, 0xE8D346E5, 0x469A372F, 0x34D1B97A, 0xA68DCBD1, 0x346E5E8D, 0xA372F469,
   0x1B97A34D, 0xDCBD1A68, 0xE5E8D346, 0x2F469A37, 0x7A34D1B9, 0xD1A68DCB, 0x8D346E5E,
   0x69A372F4, 0x4D1B97A3, 0x68DCBD1A, 0x46E5E8D3, 0x372F469A, 0xB97A34D1, 0xCBD1A68D,
   0x5E8D346E, 0xF469A372, 0xA34D1B97, 0x1A68DCBD]

/-- Rows of the inverse of the State40 matrix over GF(2) (computed by Gaussian elimination
and checked in `state40_inverse_check`). -/
def STATE40_INVERSE : List Nat :=
  [0xF3A0EE6DD4, 0xA9E741DCDB, 0xB753CE83B9, 0x736EA79D07, 0x0EE6DD4F3A, 0x741DCDBA9E,
   0x3CE83B9B75, 0xEA79D07736, 0x6DD4F3A0EE, 0xDCDBA9E741, 0x83B9B753CE, 0x9D07736EA7,
   0x4F3A0EE6DD, 0xBA9E741DCD, 0x9B753CE83B, 0x7736EA79D0, 0xA0EE6DD4F3, 0xE741DCDBA9,
   0x53CE83B9B7, 0x6EA79D0773, 0xE6DD4F3A0E, 0x1DCDBA9E74, 0xE83B9B753C, 0x79D07736EA,
   0xD4F3A0EE6D, 0xDBA9E741DC, 0xB9B753CE83, 0x07736EA79D, 0x3A0EE6DD4F, 0x9E741DCDBA,
   0x753CE83B9B, 0x36EA79D077, 0xEE6DD4F3A0, 0x41DCDBA9E7, 0xCE83B9B753, 0xA79D07736E,
   0xDD4F3A0EE6, 0xCDBA9E741D, 0x3B9B753CE8, 0xD07736EA79]

/-- The inverse of State32 as a matrix array. -/
def state32_inverse (i : Nat) : Nat := STATE32_INVERSE.getD i 0

/-- The inverse of State40 as a matrix array. -/
def state40_inverse (i : Nat) : Nat := STATE40_INVERSE.getD i 0

/-! ## Columns of the linear matrices -/

/-- Number of rows `i < w` of a single-word matrix whose bit `j` is set: the number of ones
in column `j`. -/
def column_weight (w : Nat) (rows : Nat → Nat) (j : Nat) : Nat :=
  ((List.range w).filter fun i => (rows i).testBit j).length

/-- Bit `j < 128` of a row of the 128-bit matrix: bit `j` of the low word if `j < 64`, else
bit `j − 64` of the high word. -/
def row_128_bit (row : uint128_t) (j : Nat) : Bool :=
  if j < 64 then row.lo.testBit j else row.hi.testBit (j - 64)

/-- Number of rows `i < 128` of the 128-bit matrix whose bit `j` is set. -/
def column_weight_128 (rows : Nat → uint128_t) (j : Nat) : Nat :=
  ((List.range 128).filter fun i => row_128_bit (rows i) j).length

/-- The 128-bit word with only bit `j < 128` set. -/
def unit_128 (j : Nat) : uint128_t :=
  if j < 64 then ⟨2 ^ j, 0⟩ else ⟨0, 2 ^ (j - 64)⟩

/-- XOR of two 128-bit words. -/
def xor_128 (a b : uint128_t) : uint128_t := ⟨a.lo ^^^ b.lo, a.hi ^^^ b.hi⟩

/-- Number of set bits of a 128-bit word. -/
def popcount_128 (a : uint128_t) : Nat := popcount_bits 64 a.lo + popcount_bits 64 a.hi

/-! ## Pairs of inputs of chi with equal outputs -/

/-- One output bit of chi: `a0 ^ (~a1 & a2)`. -/
def chi_bit (a0 a1 a2 : Bool) : Bool := xor a0 (!a1 && a2)

/-- Membership of a pair of four-bit tuples in a set of such pairs given as a 256-bit
truth table. -/
def pair_table (t : Nat) (a0 a1 a2 a3 b0 b1 b2 b3 : Bool) : Bool :=
  t.testBit (a0.toNat + 2 * a1.toNat + 4 * a2.toNat + 8 * a3.toNat + 16 * b0.toNat +
    32 * b1.toNat + 64 * b2.toNat + 128 * b3.toNat)

/-- Pairs `(a0, a1, ak, ak1; b0, b1, bk, bk1)` that two bit sequences with equal chi outputs
at the positions `0 .. k − 1` can show, for even `k ≥ 4`. -/
def PAIRS_EVEN : Nat := 0x8A8845442F231F13B8BA7475B2BA71758A8845442F231F138A8845443A323531

/-- The same for odd `k ≥ 5`. -/
def PAIRS_ODD : Nat := 0x8B8A47452B2A1715A8A85454F2F3F1F38B8A47452B2A1715A8A85454A3A25351

/-- Pairs `(x13, x14, x15, x16; y13, y14, y15, y16)` that the lower ring of chichi at split
position 16 allows for two inputs with equal outputs at the positions `0 .. 14`. -/
def PAIRS_LOWER : Nat := 0xF530FA30F5C0FAC05F03AF035F0CAF0C30F530FAC0F5C0FA035F03AF0C5F0CAF

/-- Pairs `(x13, x14, x15, x16; y13, y14, y15, y16)` that the upper ring of chichi at split
position 16 allows for two inputs with equal outputs at the positions `15 .. 31`. -/
def PAIRS_UPPER : Nat := 0x8ACD45CE2A37153BA8DC54ECA27351B3CD8ACE45372A3B15DCA8EC5473A2B351

/-- The upper ring of chichi at split position 16, started at position 17:
`17, 18, …, 31, 15, 16`. -/
def upper_ring (j : Nat) : Nat := if j < 15 then j + 17 else j

/-- Two runs with the same tweak and key lanes: the plaintext lanes stay 32-bit values,
and equal plaintext lanes force the proposition `Q`. -/
def lanes_related (Q : Prop) (s1 s2 : State32) : Prop :=
  s1.tweak = s2.tweak ∧ s1.key = s2.key ∧ s1.plaintext < 2 ^ 32 ∧ s2.plaintext < 2 ^ 32 ∧
    (s1.plaintext = s2.plaintext → Q)

/-! ## The integral harness (integral.c) -/

/-- Setting or clearing one bit of a `uint64_t`.  The shift `1ULL << position` is defined
for `0 ≤ position < 64` only. -/
def set_bit (value : Nat) (position : Int) (bit_value : Nat) : Option Nat :=
  if 0 ≤ position ∧ position < 64 then
    if bit_value ≠ 0 then some (value ||| shl64 1 position.toNat)
    else some (value &&& not64 (shl64 1 position.toNat))
  else none

/-- Reading one bit of a `uint64_t`.  The shift `value >> position` is defined for
`0 ≤ position < 64` only. -/
def get_bit (value : Nat) (position : Int) : Option Nat :=
  if 0 ≤ position ∧ position < 64 then some ((value >>> position.toNat) &&& 1) else none

/-- The loops of `test_integral_distinguisher` over the active positions
(`for (bit = 0; bit < num_active; bit++) … set_bit(…, active_positions[bit], bit_value)`),
on the pair `(ciphertext_32, ciphertext_40)`; the list holds `active_positions[bit ..]` and
`bit_value` gives the value written at each loop index (constantly 0 in the clearing
loop, `(input >> bit) & 1` in the setting loop).  The 32-bit branch casts the result of
`set_bit` to `uint32_t`. -/
def set_active_bits (use_40bit : Int) (bit_value : Nat → Nat) :
    List Int → Nat → Nat × Nat → Option (Nat × Nat)
  | [], _, c => some c
  | p :: ps, bit, c =>
    if use_40bit ≠ 0 then
      (set_bit c.2 p (bit_value bit)).bind fun v =>
        set_active_bits use_40bit bit_value ps (bit + 1) (c.1, v)
    else
      (set_bit c.1 p (bit_value bit)).bind fun v =>
        set_active_bits use_40bit bit_value ps (bit + 1) (u32 v, c.2)

/-- The loop over the balanced positions, on the pair `(all_balanced, balanced_count)`. -/
def check_balanced (xor_sum : Nat) : List Int → Nat × Nat → Option (Nat × Nat)
  | [], st => some st
  | bit_pos :: ps, st =>
    (get_bit xor_sum bit_pos).bind fun b =>
      if b = 0 then check_balanced xor_sum ps (st.1, st.2 + 1)
      else check_balanced xor_sum ps (0, st.2)

/-- What one repetition of `test_integral_distinguisher` computes. -/
structure repetition_result where
  xor_sum : Nat
  all_balanced : Nat
  balanced_count : Nat
deriving DecidableEq, Repr

/-- One repetition of the loop of `test_integral_distinguisher`, with the five random base
values as arguments.  The two cipher routines that the harness calls are arguments too
(ciphertext, tweak, key_hi, key_lo, rounds).  `num_active` and `num_balanced` are the
lengths of the two lists; `1 << num_active` is an `int` shift, defined up to 30. -/
def integral_repetition (cipher_32 cipher_40 : Nat → Nat → Nat → Nat → Int → Nat)
    (rounds : Int) (active_positions balanced_positions : List Int) (use_40bit : Int)
    (base_ciphertext_32 base_ciphertext_40 base_tweak base_key_hi base_key_lo : Nat) :
    Option repetition_result :=
  let num_active := active_positions.length
  (if num_active < 31 then some (1 <<< num_active) else none).bind fun total_inputs =>
    /- Clear active bit positions in base values -/
    (set_active_bits use_40bit (fun _ => 0) active_positions 0
        (base_ciphertext_32, base_ciphertext_40)).bind fun base =>
      /- Compute XOR sum over all possible active bit combinations -/
      (for_rounds (fun input xor_sum =>
          /- Set active bits according to input pattern -/
          (set_active_bits use_40bit (fun bit => (input >>> bit) &&& 1) active_positions 0
              base).map fun c =>
            let result :=
              if use_40bit ≠ 0 then cipher_40 c.2 base_tweak base_key_hi base_key_lo rounds
              else cipher_32 c.1 base_tweak base_key_hi base_key_lo rounds
            xor_sum ^^^ result) total_inputs 0 0).bind fun xor_sum =>
        /- Check if all specified balanced bits are actually balanced (zero) -/
        (check_balanced xor_sum balanced_positions (1, 0)).map fun st =>
          { xor_sum := xor_sum, all_balanced := st.1, balanced_count := st.2 }

/-- The value that `set_bit` returns where it is defined. -/
def set_bit_value (value position bit_value : Nat) : Nat :=
  if bit_value ≠ 0 then value ||| shl64 1 position
  else value &&& not64 (shl64 1 position)

/-- One lane of `set_active_bits` where every shift is defined, `cast` being the cast of
the branch. -/
def build_lane (cast : Nat → Nat) (bit_value : Nat → Nat) : List Int → Nat → Nat → Nat
  | [], _, v => v
  | p :: ps, bit, v =>
    build_lane cast bit_value ps (bit + 1) (cast (set_bit_value v p.toNat (bit_value bit)))

/-- The words `v` and `w` agree in every bit except possibly bit `p`. -/
def agree_off (p v w : Nat) : Prop := ∀ i, i ≠ p → v.testBit i = w.testBit i

/-- XOR of `f r, f (r + 1), …, f (r + count − 1)`. -/
def xor_range (f : Nat → Nat) : Nat → Nat → Nat
  | _, 0 => 0
  | r, count + 1 => f r ^^^ xor_range f (r + 1) count

/-! ## The reduced-round routines in a process image

The reduced-round routines index the round-constant tables with the loop counter and
put no bound on `num_rounds`.  A read inside the table yields the table entry; a read
past its end yields whatever the process holds at that address, or faults. -/

/-- The read `table[round]` in a process image: the table entry for an index inside the
table; past its end the word `beyond k` that lies `k` entries after the end of the table,
`none` where that address is not readable. -/
def read_table (table : List Nat) (beyond : Nat → Option Nat) (round : Nat) : Option Nat :=
  if round < table.length then table.get? round else beyond (round - table.length)

/-- Body of the round loop of the 32+tau routines, the read `ROUND_CONSTANTS[round]` going
through `read_table`. -/
def main_round_32_mem (beyond : Nat → Option Nat) (g : Matrices) (round : Nat) (s : State32) :
    Option State32 :=
  (read_table ROUND_CONSTANTS beyond round).map fun rc =>
    /- Add round constant to key -/
    let key : uint128_t := { s.key with hi := s.key.hi ^^^ rc }
    /- Nonlinear layer -/
    let plaintext := u32 (chichi_transform s.plaintext BITMASK_15 BITMASK_17 16)
    let tag := u32 (chichi_transform s.tag BITMASK_15 BITMASK_17 16)
    let tweak := chichi_transform s.tweak BITMASK_31 BITMASK_33 32
    let key := chichi_transform_128 key
    /- Linear layer -/
    let plaintext := apply_linear_32 plaintext g.linear_matrix_32_state
    let tag := apply_linear_32 tag g.linear_matrix_32_prf
    let tweak := apply_linear_64 tweak g.linear_matrix_64
    let key := apply_linear_128 key g.linear_matrix_128
    /- Interaction layer -/
    let plaintext := u32 (plaintext ^^^ (tweak &&& BITMASK_32))
    let tag := u32 (tag ^^^ ((tweak >>> 32) &&& BITMASK_32))
    let tweak := tweak ^^^ key.lo
    { plaintext := plaintext, tag := tag, tweak := tweak, key := key }

/-- Body of the round loop of the 40-bit routines, the read `ROUND_CONSTANTS_40[round]`
going through `read_table`. -/
def main_round_40_mem (beyond : Nat → Option Nat) (g : Matrices) (round : Nat) (s : State40) :
    Option State40 :=
  (read_table ROUND_CONSTANTS_40 beyond round).map fun rc =>
    /- Add round constant to key -/
    let key : uint128_t := { s.key with hi := s.key.hi ^^^ rc }
    /- Nonlinear layer -/
    let plaintext := chichi_transform s.plaintext BITMASK_19 BITMASK_21 20
    let tweak := chichi_transform s.tweak BITMASK_31 BITMASK_33 32
    let key := chichi_transform_128 key
    /- Linear layer -/
    let plaintext := apply_linear_40 plaintext g.linear_matrix_40
    let tweak := apply_linear_64 tweak g.linear_matrix_64
    let key := apply_linear_128 key g.linear_matrix_128
    /- Interaction layer -/
    let plaintext := plaintext ^^^ (tweak &&& BITMASK_40)
    let tweak := tweak ^^^ key.lo
    { plaintext := plaintext, tweak := tweak, key := key }

def chilow_decrypt_32_reduced_mem (beyond : Nat → Option Nat) (g : Matrices)
    (ciphertext tweak : Nat) (key : uint128_t) (num_rounds : Int) : Option Nat :=
  (for_rounds (main_round_32_mem beyond g) (num_rounds - 1).toNat 0
      (whitening_32 ciphertext tweak key)).map
    fun s =>
      /- Final round (simplified) if we have at least one round -/
      if num_rounds > 0 then
        let plaintext := u32 (chichi_transform s.plaintext BITMASK_15 BITMASK_17 16)
        let tag := u32 (chichi_transform s.tag BITMASK_15 BITMASK_17 16)
        let tweak := apply_linear_64 s.tweak g.linear_matrix_64
        let plaintext := u32 (plaintext ^^^ (tweak &&& BITMASK_32))
        let tag := u32 (tag ^^^ ((tweak >>> 32) &&& BITMASK_32))
        pack_32 { s with plaintext := plaintext, tag := tag, tweak := tweak }
      else pack_32 s

def chilow_decrypt_32_half_reduced_mem (beyond : Nat → Option Nat) (g : Matrices)
    (ciphertext tweak : Nat) (key : uint128_t) (num_rounds : Int) : Option Nat :=
  (for_rounds (main_round_32_mem beyond g) (num_rounds - 1).toNat 0
      (whitening_32 ciphertext tweak key)).map
    fun s =>
      /- Final round without linear layer (only nonlinear + interaction) -/
      if num_rounds > 0 then
        let plaintext := u32 (chichi_transform s.plaintext BITMASK_15 BITMASK_17 16)
        let tag := u32 (chichi_transform s.tag BITMASK_15 BITMASK_17 16)
        let plaintext := u32 (plaintext ^^^ (s.tweak &&& BITMASK_32))
        let tag := u32 (tag ^^^ ((s.tweak >>> 32) &&& BITMASK_32))
        pack_32 { s with plaintext := plaintext, tag := tag }
      else pack_32 s

def chilow_decrypt_40_reduced_mem (beyond : Nat → Option Nat) (g : Matrices)
    (ciphertext tweak : Nat) (key : uint128_t) (num_rounds : Int) : Option Nat :=
  (for_rounds (main_round_40_mem beyond g) (num_rounds - 1).toNat 0
      (whitening_40 ciphertext tweak key)).map
    fun s =>
      /- Final round (simplified) if we have at least one round -/
      if num_rounds > 0 then
        let plaintext := chichi_transform s.plaintext BITMASK_19 BITMASK_21 20
        let tweak := apply_linear_64 s.tweak g.linear_matrix_64
        let plaintext := (plaintext ^^^ (tweak &&& BITMASK_40)) &&& BITMASK_40
        plaintext
      else s.plaintext

def chilow_decrypt_40_half_reduced_mem (beyond : Nat → Option Nat) (g : Matrices)
    (ciphertext tweak : Nat) (key : uint128_t) (num_rounds : Int) : Option Nat :=
  (for_rounds (main_round_40_mem beyond g) (num_rounds - 1).toNat 0
      (whitening_40 ciphertext tweak key)).map
    fun s =>
      /- Final round without linear layer (only nonlinear + interaction) -/
      if num_rounds > 0 then
        let plaintext := chichi_transform s.plaintext BITMASK_19 BITMASK_21 20
        let plaintext := (plaintext ^^^ (s.tweak &&& BITMASK_40)) &&& BITMASK_40
        plaintext
      else s.plaintext

def chilow_reduced_round_32bit_mem (beyond : Nat → Option Nat) (g : Matrices)
    (ciphertext tweak key_hi key_lo : Nat) (num_rounds : Int) : Option Nat :=
  let key : uint128_t := ⟨key_lo, key_hi⟩
  chilow_decrypt_32_reduced_mem beyond g ciphertext tweak key num_rounds

def chilow_reduced_round_40bit_mem (beyond : Nat → Option Nat) (g : Matrices)
    (ciphertext tweak key_hi key_lo : Nat) (num_rounds : Int) : Option Nat :=
  let key : uint128_t := ⟨key_lo, key_hi⟩
  chilow_decrypt_40_reduced_mem beyond g ciphertext tweak key num_rounds

def chilow_half_reduced_round_32bit_mem (beyond : Nat → Option Nat) (g : Matrices)
    (ciphertext tweak key_hi key_lo : Nat) (num_rounds : Int) : Option Nat :=
  let key : uint128_t := ⟨key_lo, key_hi⟩
  chilow_decrypt_32_half_reduced_mem beyond g ciphertext tweak key num_rounds

def chilow_half_reduced_round_40bit_mem (beyond : Nat → Option Nat) (g : Matrices)
    (ciphertext tweak key_hi key_lo : Nat) (num_rounds : Int) : Option Nat :=
  let key : uint128_t := ⟨key_lo, key_hi⟩
  chilow_decrypt_40_half_reduced_mem beyond g ciphertext tweak key num_rounds

/-- A process image in which the `2^20` words after the table are readable (each holding
`0xFFFFFFFFFFFFFFFF`) and the addresses after them are not. -/
def small_process (k : Nat) : Option Nat :=
  if k < 2 ^ 20 then some 0xFFFFFFFFFFFFFFFF else none

/-! # Theorems -/

/-! ## The population count -/

theorem popcount_bits_split (a x : Nat) :
    ∀ b, popcount_bits (a + b) x = popcount_bits a x + popcount_bits b (x >>> a) := by
  intro b
  induction b with
  | zero => simp [popcount_bits]
  | succ k ih =>
    rw [← Nat.add_assoc]
    simp only [popcount_bits, ih, Nat.shiftRight_add]
    omega

/-- Masking to `n` bits does not change bit `k < n`. -/
theorem shr_and_one_of_mask (x k n : Nat) (h : k < n) :
    ((x &&& (2 ^ n - 1)) >>> k) &&& 1 = (x >>> k) &&& 1 := by
  apply Nat.eq_of_testBit_eq; intro i
  have h1 : (1 : Nat) = 2 ^ 1 - 1 := by decide
  rw [h1]
  simp only [Nat.testBit_and, Nat.testBit_shiftRight, Nat.testBit_two_pow_sub_one]
  by_cases hi : i < 1
  · have : k + i < n := by omega
    simp [hi, this]
  · simp [hi]

theorem popcount_bits_of_mask (x n : Nat) :
    ∀ w, w ≤ n → popcount_bits w (x &&& (2 ^ n - 1)) = popcount_bits w x := by
  intro w
  induction w with
  | zero => intro _; rfl
  | succ k ih =>
    intro h
    simp only [popcount_bits, ih (by omega), shr_and_one_of_mask x k n (by omega)]

theorem byte_weight_table : ∀ b, b < 256 → byte_weight b = popcount_bits 8 b := by
  decide!

theorem byte_weight_eq_bits (y : Nat) : byte_weight (y &&& 255) = popcount_bits 8 y := by
  have h : y &&& 255 < 256 := Nat.and_lt_two_pow y (by decide : 255 < 2 ^ 8)
  rw [byte_weight_table _ h]
  exact popcount_bits_of_mask y 8 8 (le_refl 8)

/-- The byte-wise population count of a 32-bit word counts its set bits. -/
theorem popcount32_eq_bits (x : Nat) : popcount32 x = popcount_bits 32 x := by
  have s := popcount_bits_split
  rw [show 32 = 8 + (8 + (8 + 8)) from rfl, s, s, s]
  simp only [popcount32, byte_weight_eq_bits, Nat.shiftRight_add, Nat.shiftRight_zero,
    Nat.add_assoc]
  simp only [← Nat.shiftRight_add, Nat.reduceAdd]

/-- The byte-wise population count of a 64-bit word counts its set bits. -/
theorem popcount64_eq_bits (x : Nat) : popcount64 x = popcount_bits 64 x := by
  have s := popcount_bits_split
  rw [show 64 = 8 + (8 + (8 + (8 + (8 + (8 + (8 + 8)))))) from rfl, s, s, s, s, s, s, s]
  simp only [popcount64, byte_weight_eq_bits, Nat.shiftRight_add, Nat.shiftRight_zero,
    Nat.add_assoc]
  simp only [← Nat.shiftRight_add, Nat.reduceAdd]

/-! ## Totality of the round loops -/

theorem for_rounds_total {σ : Type} (body : Nat → σ → Option σ) (n : Nat)
    (hbody : ∀ r s, r < n → ∃ s', body r s = some s') :
    ∀ (count round : Nat) (s : σ), round + count ≤ n →
      ∃ s', for_rounds body count round s = some s' := by
  intro count
  induction count with
  | zero => intro round s _; exact ⟨s, rfl⟩
  | succ k ih =>
    intro round s h
    obtain ⟨s1, h1⟩ := hbody round s (by omega)
    obtain ⟨s2, h2⟩ := ih (round + 1) s1 (by omega)
    exact ⟨s2, by simp [for_rounds, h1, h2]⟩

theorem round_constants_get (round : Nat) (h : round < 8) :
    ∃ rc, ROUND_CONSTANTS.get? round = some rc := by
  have hlen : round < ROUND_CONSTANTS.length := by simpa [ROUND_CONSTANTS] using h
  exact ⟨ROUND_CONSTANTS.get ⟨round, hlen⟩, List.get?_eq_get hlen⟩

theorem round_constants_40_get (round : Nat) (h : round < 8) :
    ∃ rc, ROUND_CONSTANTS_40.get? round = some rc := by
  have hlen : round < ROUND_CONSTANTS_40.length := by simpa [ROUND_CONSTANTS_40] using h
  exact ⟨ROUND_CONSTANTS_40.get ⟨round, hlen⟩, List.get?_eq_get hlen⟩

theorem main_round_32_total (g : Matrices) (round : Nat) (s : State32) (h : round < 8) :
    ∃ s', main_round_32 g round s = some s' := by
  obtain ⟨rc, hrc⟩ := round_constants_get round h
  exact ⟨_, by rw [main_round_32, hrc, Option.map_some']⟩

theorem main_round_40_total (g : Matrices) (round : Nat) (s : State40) (h : round < 8) :
    ∃ s', main_round_40 g round s = some s' := by
  obtain ⟨rc, hrc⟩ := round_constants_40_get round h
  exact ⟨_, by rw [main_round_40, hrc, Option.map_some']⟩

theorem rounds_32_total (g : Matrices) (count : Nat) (s : State32) (h : count ≤ 8) :
    ∃ s', for_rounds (main_round_32 g) count 0 s = some s' :=
  for_rounds_total _ 8 (fun r s hr => main_round_32_total g r s hr) count 0 s (by omega)

theorem rounds_40_total (g : Matrices) (count : Nat) (s : State40) (h : count ≤ 8) :
    ∃ s', for_rounds (main_round_40 g) count 0 s = some s' :=
  for_rounds_total _ 8 (fun r s hr => main_round_40_total g r s hr) count 0 s (by omega)

/-! ## The generated matrices -/

theorem foldl_store_range {α : Type} (f : Nat → α) (m0 : Nat → α) (n : Nat) :
    (List.range n).foldl (fun m r => store m r (f r)) m0 =
      fun i => if i < n then f i else m0 i := by
  induction n with
  | zero => simp
  | succ k ih =>
    rw [List.range_succ, List.foldl_append, ih]
    funext i
    simp only [List.foldl_cons, List.foldl_nil, store]
    by_cases h1 : i = k
    · simp [h1]
    · by_cases h2 : i < k
      · simp [h1, h2, Nat.lt_succ_of_lt h2]
      · have h3 : ¬ i < k + 1 := by omega
        simp [h1, h2, h3]

theorem chilow_init_eq (g : Matrices) : chilow_init g = generated_matrices g := by
  simp only [chilow_init, initialize_linear_matrices, generated_matrices,
    generate_linear_matrix_32, generate_linear_matrix_40, generate_linear_matrix_64,
    generate_linear_matrix_128]
  congr 1 <;> exact foldl_store_range _ _ _

theorem same_rows_generated (g h : Matrices) :
    same_rows (generated_matrices g) (generated_matrices h) := by
  refine ⟨?_, ?_, ?_, ?_, ?_⟩ <;> intro i hi <;> simp [generated_matrices, hi]

theorem apply_linear_32_congr (x : Nat) (m n : Nat → Nat) (h : ∀ i, i < 32 → m i = n i) :
    apply_linear_32 x m = apply_linear_32 x n := by
  unfold apply_linear_32
  apply List.foldl_ext
  intro a b hb
  rw [h b (List.mem_range.mp hb)]

theorem apply_linear_40_congr (x : Nat) (m n : Nat → Nat) (h : ∀ i, i < 40 → m i = n i) :
    apply_linear_40 x m = apply_linear_40 x n := by
  unfold apply_linear_40
  apply List.foldl_ext
  intro a b hb
  rw [h b (List.mem_range.mp hb)]

theorem apply_linear_64_congr (x : Nat) (m n : Nat → Nat) (h : ∀ i, i < 64 → m i = n i) :
    apply_linear_64 x m = apply_linear_64 x n := by
  unfold apply_linear_64
  apply List.foldl_ext
  intro a b hb
  rw [h b (List.mem_range.mp hb)]

theorem apply_linear_128_congr (x : uint128_t) (m n : Nat → uint128_t)
    (h : ∀ i, i < 128 → m i = n i) : apply_linear_128 x m = apply_linear_128 x n := by
  unfold apply_linear_128
  have h1 : ∀ (a : uint128_t), List.foldl (fun (output : uint128_t) bit =>
      let parity := (popcount64 ((m bit).lo &&& x.lo) ^^^
                     popcount64 ((m bit).hi &&& x.hi)) &&& 1
      { output with lo := output.lo ||| shl64 parity bit }) a (List.range 64) =
      List.foldl (fun (output : uint128_t) bit =>
      let parity := (popcount64 ((n bit).lo &&& x.lo) ^^^
                     popcount64 ((n bit).hi &&& x.hi)) &&& 1
      { output with lo := output.lo ||| shl64 parity bit }) a (List.range 64) := by
    intro a
    apply List.foldl_ext
    intro a b hb
    rw [h b (by have := List.mem_range.mp hb; omega)]
  simp only [h1]
  apply List.foldl_ext
  intro a b hb
  rw [h b (by have := List.mem_range'_1.mp hb; omega)]

theorem main_round_32_congr (g h : Matrices) (hs : same_rows g h) :
    main_round_32 g = main_round_32 h := by
  obtain ⟨h1, h2, _, h4, h5⟩ := hs
  funext round s
  simp only [main_round_32, apply_linear_32_congr _ _ _ h1, apply_linear_32_congr _ _ _ h2,
    apply_linear_64_congr _ _ _ h4, apply_linear_128_congr _ _ _ h5]

theorem main_round_40_congr (g h : Matrices) (hs : same_rows g h) :
    main_round_40 g = main_round_40 h := by
  obtain ⟨_, _, h3, h4, h5⟩ := hs
  funext round s
  simp only [main_round_40, apply_linear_40_congr _ _ _ h3,
    apply_linear_64_congr _ _ _ h4, apply_linear_128_congr _ _ _ h5]

theorem chilow_decrypt_32_congr (g h : Matrices) (hs : same_rows g h) (C T : Nat)
    (K : uint128_t) : chilow_decrypt_32 g C T K = chilow_decrypt_32 h C T K := by
  simp only [chilow_decrypt_32, main_round_32_congr g h hs,
    apply_linear_64_congr _ _ _ hs.2.2.2.1]

theorem chilow_decrypt_40_congr (g h : Matrices) (hs : same_rows g h) (C T : Nat)
    (K : uint128_t) : chilow_decrypt_40 g C T K = chilow_decrypt_40 h C T K := by
  simp only [chilow_decrypt_40, main_round_40_congr g h hs,
    apply_linear_64_congr _ _ _ hs.2.2.2.1]

/-! ## Known-answer tests -/

set_option maxRecDepth 100000 in
/-- The published 32+tau vector, evaluated with the matrices given row by row. -/
theorem decrypt32_known_answer_generated :
    chilow_decrypt_32 (generated_matrices zero_matrices) 0x01234567 0x0011223344556677
      ⟨0x7766554433221100, 0xFEDCBA9876543210⟩ = some 0x0FBC7E642E75D127 := by
  decide!

set_option maxRecDepth 100000 in
/-- The published 40-bit vector, evaluated with the matrices given row by row. -/
theorem decrypt40_known_answer_generated :
    chilow_decrypt_40 (generated_matrices zero_matrices) 0x317C83E4A7 0x0011223344556677
      ⟨0x7766554433221100, 0xFEDCBA9876543210⟩ = some 0x0000000090545706 := by
  decide!

/-- C1: once `chilow_init` has run (from any previous contents of the matrix arrays), the
full 8-round 32+tau decryption of ciphertext `0x01234567` under tweak
`0x0011223344556677` and key `K_hi = 0xFEDCBA9876543210`, `K_lo = 0x7766554433221100`
returns `0x0FBC7E642E75D127`. -/
theorem C1_decrypt32_known_answer (g : Matrices) :
    chilow_decrypt_32bit (chilow_init g) 0x01234567 0x0011223344556677
      0xFEDCBA9876543210 0x7766554433221100 = some 0x0FBC7E642E75D127 := by
  rw [chilow_decrypt_32bit, chilow_init_eq,
    chilow_decrypt_32_congr _ _ (same_rows_generated g zero_matrices)]
  exact decrypt32_known_answer_generated

/-- C2: once `chilow_init` has run (from any previous contents of the matrix arrays), the
full 8-round 40-bit decryption of ciphertext `0x317C83E4A7` under tweak
`0x0011223344556677` and key `K_hi = 0xFEDCBA9876543210`, `K_lo = 0x7766554433221100`
returns `0x0000000090545706`. -/
theorem C2_decrypt40_known_answer (g : Matrices) :
    chilow_decrypt_40bit (chilow_init g) 0x317C83E4A7 0x0011223344556677
      0xFEDCBA9876543210 0x7766554433221100 = some 0x0000000090545706 := by
  rw [chilow_decrypt_40bit, chilow_init_eq,
    chilow_decrypt_40_congr _ _ (same_rows_generated g zero_matrices)]
  exact decrypt40_known_answer_generated


/-! ## Reduced-round routines at the full round count -/

/-- C3: for every ciphertext, tweak and key (and whatever the matrices hold),
`chilow_reduced_round_32bit` called with 8 rounds returns exactly what
`chilow_decrypt_32bit` returns, and both return a value. -/
theorem C3_reduced32_eight_eq_decrypt32 (g : Matrices) (C T K_hi K_lo : Nat) :
    chilow_reduced_round_32bit g C T K_hi K_lo 8 = chilow_decrypt_32bit g C T K_hi K_lo ∧
      ∃ v, chilow_decrypt_32bit g C T K_hi K_lo = some v := by
  have h7 : ((8 : Int) - 1).toNat = NUM_ROUNDS - 1 := by decide
  obtain ⟨s, hs⟩ := rounds_32_total g (NUM_ROUNDS - 1) (whitening_32 C T ⟨K_lo, K_hi⟩)
    (by decide)
  refine ⟨?_, _, by rw [chilow_decrypt_32bit, chilow_decrypt_32, hs, Option.map_some']⟩
  simp only [chilow_reduced_round_32bit, chilow_decrypt_32bit, chilow_decrypt_32_reduced,
    chilow_decrypt_32, h7]
  congr 1

/-- C4: for every ciphertext, tweak and key (and whatever the matrices hold),
`chilow_reduced_round_40bit` called with 8 rounds returns exactly what
`chilow_decrypt_40bit` returns, and both return a value. -/
theorem C4_reduced40_eight_eq_decrypt40 (g : Matrices) (C T K_hi K_lo : Nat) :
    chilow_reduced_round_40bit g C T K_hi K_lo 8 = chilow_decrypt_40bit g C T K_hi K_lo ∧
      ∃ v, chilow_decrypt_40bit g C T K_hi K_lo = some v := by
  have h7 : ((8 : Int) - 1).toNat = NUM_ROUNDS - 1 := by decide
  obtain ⟨s, hs⟩ := rounds_40_total g (NUM_ROUNDS - 1) (whitening_40 C T ⟨K_lo, K_hi⟩)
    (by decide)
  refine ⟨?_, _, by rw [chilow_decrypt_40bit, chilow_decrypt_40, hs, Option.map_some']⟩
  simp only [chilow_reduced_round_40bit, chilow_decrypt_40bit, chilow_decrypt_40_reduced,
    chilow_decrypt_40, h7]
  congr 1

/-- C5: for every ciphertext argument (bits 40..63 may be set), tweak and key,
`chilow_decrypt_40bit` returns a value, and that value has bits 40..63 (indeed every bit
from 40 upwards) equal to zero. -/
theorem C5_decrypt40_upper_bits_zero (g : Matrices) (C T K_hi K_lo : Nat) :
    ∃ v, chilow_decrypt_40bit g C T K_hi K_lo = some v ∧ v < 2 ^ 40 ∧
      ∀ i, 40 ≤ i → v.testBit i = false := by
  obtain ⟨s, hs⟩ := rounds_40_total g (NUM_ROUNDS - 1) (whitening_40 C T ⟨K_lo, K_hi⟩)
    (by decide)
  have hlt : ∀ x : Nat, x &&& BITMASK_40 < 2 ^ 40 := fun x =>
    Nat.and_lt_two_pow x (by decide)
  refine ⟨_, by rw [chilow_decrypt_40bit, chilow_decrypt_40, hs, Option.map_some'],
    hlt _, fun i hi => Nat.testBit_eq_false_of_lt ?_⟩
  exact lt_of_lt_of_le (hlt _) (Nat.pow_le_pow_right (by decide) hi)

/-! ## Bit-level facts -/

theorem BITMASK_40_eq : BITMASK_40 = 2 ^ 40 - 1 := by decide
theorem BITMASK_32_eq : BITMASK_32 = 2 ^ 32 - 1 := by decide
theorem BITMASK_19_eq : BITMASK_19 = 2 ^ 19 - 1 := by decide
theorem BITMASK_21_eq : BITMASK_21 = 2 ^ 21 - 1 := by decide

/-- Masking to `n` bits does not change a field of `w` bits starting at bit `k` when
`k + w ≤ n`. -/
theorem shr_and_mask_of_mask (x k w n : Nat) (h : k + w ≤ n) :
    ((x &&& (2 ^ n - 1)) >>> k) &&& (2 ^ w - 1) = (x >>> k) &&& (2 ^ w - 1) := by
  apply Nat.eq_of_testBit_eq; intro i
  simp only [Nat.testBit_and, Nat.testBit_shiftRight, Nat.testBit_two_pow_sub_one]
  by_cases hi : i < w
  · have : k + i < n := by omega
    simp [hi, this]
  · simp [hi]

theorem and_mask_of_mask (x w n : Nat) (h : w ≤ n) :
    (x &&& (2 ^ n - 1)) &&& (2 ^ w - 1) = x &&& (2 ^ w - 1) := by
  have := shr_and_mask_of_mask x 0 w n (by omega)
  simpa using this

/-- The 40-bit chichi reads only the low 40 bits of its input. -/
theorem chichi_40_of_mask (x : Nat) :
    chichi_transform (x &&& BITMASK_40) BITMASK_19 BITMASK_21 20 =
      chichi_transform x BITMASK_19 BITMASK_21 20 := by
  have e1 : (x &&& BITMASK_40) &&& BITMASK_19 = x &&& BITMASK_19 := by
    rw [BITMASK_40_eq, BITMASK_19_eq]; exact and_mask_of_mask x 19 40 (by decide)
  have e2 : ((x &&& BITMASK_40) >>> 19) &&& BITMASK_21 = (x >>> 19) &&& BITMASK_21 := by
    rw [BITMASK_40_eq, BITMASK_21_eq]; exact shr_and_mask_of_mask x 19 21 40 (by decide)
  have b (k : Nat) (hk : k < 40) : ((x &&& BITMASK_40) >>> k) &&& 1 = (x >>> k) &&& 1 := by
    rw [BITMASK_40_eq]; exact shr_and_one_of_mask x k 40 hk
  simp only [chichi_transform, Nat.and_xor_distrib_right, Nat.reduceSub, e1, e2,
    b 20 (by decide), b 19 (by decide), b 18 (by decide), b 17 (by decide)]

theorem chichi_40_congr (x y : Nat) (h : x &&& BITMASK_40 = y &&& BITMASK_40) :
    chichi_transform x BITMASK_19 BITMASK_21 20 = chichi_transform y BITMASK_19 BITMASK_21 20 := by
  rw [← chichi_40_of_mask x, h, chichi_40_of_mask]

theorem whitening_40_plaintext_mask (C T : Nat) (K : uint128_t) :
    (whitening_40 (C &&& BITMASK_40) T K).plaintext &&& BITMASK_40 =
      (whitening_40 C T K).plaintext &&& BITMASK_40 := by
  simp only [whitening_40, Nat.and_xor_distrib_right, Nat.and_assoc, Nat.and_self]

/-- A 40-bit main round reads the data lane only through its low 40 bits. -/
theorem main_round_40_congr_state (g : Matrices) (round : Nat) (s t : State40)
    (hp : s.plaintext &&& BITMASK_40 = t.plaintext &&& BITMASK_40)
    (ht : s.tweak = t.tweak) (hk : s.key = t.key) :
    main_round_40 g round s = main_round_40 g round t := by
  simp only [main_round_40, chichi_40_congr _ _ hp, ht, hk]

theorem rounds_40_congr_state (g : Matrices) (count : Nat) (s t : State40)
    (hp : s.plaintext &&& BITMASK_40 = t.plaintext &&& BITMASK_40)
    (ht : s.tweak = t.tweak) (hk : s.key = t.key) :
    for_rounds (main_round_40 g) (count + 1) 0 s =
      for_rounds (main_round_40 g) (count + 1) 0 t := by
  simp only [for_rounds, main_round_40_congr_state g 0 s t hp ht hk]

theorem chilow_decrypt_40_of_mask (g : Matrices) (C T : Nat) (K : uint128_t) :
    chilow_decrypt_40 g (C &&& BITMASK_40) T K = chilow_decrypt_40 g C T K := by
  have h7 : NUM_ROUNDS - 1 = 6 + 1 := by decide
  simp only [chilow_decrypt_40, h7]
  rw [rounds_40_congr_state g 6 _ _ (whitening_40_plaintext_mask C T K) rfl rfl]

theorem chilow_decrypt_40_reduced_of_mask (g : Matrices) (C T : Nat) (K : uint128_t)
    (R : Int) (hR : 1 ≤ R) :
    chilow_decrypt_40_reduced g (C &&& BITMASK_40) T K R =
      chilow_decrypt_40_reduced g C T K R := by
  have hpos : R > 0 := by omega
  simp only [chilow_decrypt_40_reduced, if_pos hpos]
  cases hc : (R - 1).toNat with
  | zero =>
    simp only [for_rounds, Option.map_some',
      chichi_40_congr _ _ (whitening_40_plaintext_mask C T K)]
    rfl
  | succ k =>
    rw [rounds_40_congr_state g k _ _ (whitening_40_plaintext_mask C T K) rfl rfl]

theorem chilow_decrypt_40_reduced_total (g : Matrices) (C T : Nat) (K : uint128_t)
    (R : Int) (hR : R ≤ 9) : ∃ v, chilow_decrypt_40_reduced g C T K R = some v := by
  obtain ⟨s, hs⟩ := rounds_40_total g (R - 1).toNat (whitening_40 C T K) (by omega)
  exact ⟨_, by rw [chilow_decrypt_40_reduced, hs, Option.map_some']⟩

theorem chilow_decrypt_40_total (g : Matrices) (C T : Nat) (K : uint128_t) :
    ∃ v, chilow_decrypt_40 g C T K = some v := by
  obtain ⟨s, hs⟩ := rounds_40_total g (NUM_ROUNDS - 1) (whitening_40 C T K) (by decide)
  exact ⟨_, by rw [chilow_decrypt_40, hs, Option.map_some']⟩

/-- C6: bits above bit 39 of the ciphertext argument of the 40-bit routines are ignored.
For every ciphertext `C`, tweak, key and round count `R` in 1..8 (and whatever the matrices
hold), `chilow_reduced_round_40bit` returns a value, and returns the same value for
`C AND 0xFFFFFFFFFF`; likewise `chilow_decrypt_40bit` returns a value, and returns the same
value for `C AND 0xFFFFFFFFFF`. -/
theorem C6_ciphertext40_upper_bits_ignored (g : Matrices) (C T K_hi K_lo : Nat) (R : Int)
    (h1 : 1 ≤ R) (h8 : R ≤ 8) :
    (∃ v, chilow_reduced_round_40bit g C T K_hi K_lo R = some v ∧
        chilow_reduced_round_40bit g (C &&& 0xFFFFFFFFFF) T K_hi K_lo R = some v) ∧
    (∃ w, chilow_decrypt_40bit g C T K_hi K_lo = some w ∧
        chilow_decrypt_40bit g (C &&& 0xFFFFFFFFFF) T K_hi K_lo = some w) := by
  obtain ⟨v, hv⟩ := chilow_decrypt_40_reduced_total g C T ⟨K_lo, K_hi⟩ R (by omega)
  obtain ⟨w, hw⟩ := chilow_decrypt_40_total g C T ⟨K_lo, K_hi⟩
  have e : (0xFFFFFFFFFF : Nat) = BITMASK_40 := rfl
  refine ⟨⟨v, hv, ?_⟩, ⟨w, hw, ?_⟩⟩
  · rw [e, chilow_reduced_round_40bit, chilow_decrypt_40_reduced_of_mask g C T _ R h1]
    exact hv
  · rw [e, chilow_decrypt_40bit, chilow_decrypt_40_of_mask]
    exact hw

/-- C6 at a ciphertext argument with bits above bit 39 set and `R = 3`. -/
theorem C6_ciphertext40_upper_bits_ignored_witness :
    (∃ v, chilow_reduced_round_40bit (chilow_init zero_matrices)
          0xABCDEF0123456789 5 6 7 3 = some v ∧
        chilow_reduced_round_40bit (chilow_init zero_matrices)
          (0xABCDEF0123456789 &&& 0xFFFFFFFFFF) 5 6 7 3 = some v) ∧
    (∃ w, chilow_decrypt_40bit (chilow_init zero_matrices)
          0xABCDEF0123456789 5 6 7 = some w ∧
        chilow_decrypt_40bit (chilow_init zero_matrices)
          (0xABCDEF0123456789 &&& 0xFFFFFFFFFF) 5 6 7 = some w) :=
  C6_ciphertext40_upper_bits_ignored (chilow_init zero_matrices) 0xABCDEF0123456789 5 6 7 3
    (by decide) (by decide)

theorem chilow_decrypt_40_half_reduced_total (g : Matrices) (C T : Nat) (K : uint128_t)
    (R : Int) (hR : R ≤ 9) : ∃ v, chilow_decrypt_40_half_reduced g C T K R = some v := by
  obtain ⟨s, hs⟩ := rounds_40_total g (R - 1).toNat (whitening_40 C T K) (by omega)
  exact ⟨_, by rw [chilow_decrypt_40_half_reduced, hs, Option.map_some']⟩

theorem and_BITMASK_40_lt (x : Nat) : x &&& BITMASK_40 < 2 ^ 40 :=
  Nat.and_lt_two_pow x (by decide)

/-- The 40-bit reduced-round routine with at least one round returns a masked value. -/
theorem chilow_decrypt_40_reduced_lt (g : Matrices) (C T : Nat) (K : uint128_t) (R : Int)
    (hR : 1 ≤ R) (v : Nat) (hv : chilow_decrypt_40_reduced g C T K R = some v) :
    v < 2 ^ 40 := by
  have hpos : R > 0 := by omega
  simp only [chilow_decrypt_40_reduced, if_pos hpos, Option.map_eq_some'] at hv
  obtain ⟨s, _, rfl⟩ := hv
  exact and_BITMASK_40_lt _

/-- The 40-bit half-reduced routine with at least one round returns a masked value. -/
theorem chilow_decrypt_40_half_reduced_lt (g : Matrices) (C T : Nat) (K : uint128_t)
    (R : Int) (hR : 1 ≤ R) (v : Nat)
    (hv : chilow_decrypt_40_half_reduced g C T K R = some v) : v < 2 ^ 40 := by
  have hpos : R > 0 := by omega
  simp only [chilow_decrypt_40_half_reduced, if_pos hpos, Option.map_eq_some'] at hv
  obtain ⟨s, _, rfl⟩ := hv
  exact and_BITMASK_40_lt _

/-- With no round at all the 40-bit routines return the whitened data lane as it is. -/
theorem chilow_decrypt_40_reduced_no_round (g : Matrices) (C T : Nat) (K : uint128_t)
    (R : Int) (hR : R ≤ 0) :
    chilow_decrypt_40_reduced g C T K R = some (C ^^^ (K.hi &&& BITMASK_40)) ∧
    chilow_decrypt_40_half_reduced g C T K R = some (C ^^^ (K.hi &&& BITMASK_40)) := by
  have hneg : ¬ R > 0 := by omega
  have hc : (R - 1).toNat = 0 := by omega
  simp only [chilow_decrypt_40_reduced, chilow_decrypt_40_half_reduced, if_neg hneg, hc,
    for_rounds, Option.map_some', whitening_40, and_self]

/-- C7 (counterexample): with `R = 0` and ciphertext argument `2^40` (tweak and key zero),
`chilow_reduced_round_40bit` returns `2^40`, whose bit 40 is set: the result is not confined
to 40 bits. -/
theorem C7_counterexample :
    chilow_reduced_round_40bit (chilow_init zero_matrices) 0x10000000000 0 0 0 0
        = some 0x10000000000 ∧
      Nat.testBit 0x10000000000 40 = true ∧ ¬ ((0x10000000000 : Nat) < 2 ^ 40) := by
  refine ⟨?_, by decide, by decide⟩
  exact (chilow_decrypt_40_reduced_no_round _ 0x10000000000 0 ⟨0, 0⟩ 0 (by decide)).1

/-- C7 (amended): for every ciphertext argument, tweak and key and every round count `R`
with `-2^31 < R ≤ 9`, the loop bound `num_rounds - 1` is an `int` (no overflow) and the
40-bit reduced-round and half-reduced-round entry points return a value.  For `1 ≤ R` that
value is below `2^40` (it is masked with `mask40` in the final round, so its upper 24 bits
are zero).  For `R ≤ 0` no round and no final round run, and the value is the unmasked
whitened lane `C XOR (K_hi AND mask40)`. -/
theorem C7_reduced40_output (g : Matrices) (C T K_hi K_lo : Nat) (R : Int)
    (hmin : -2 ^ 31 < R) (h9 : R ≤ 9) :
    (-2 ^ 31 ≤ R - 1 ∧ R - 1 < 2 ^ 31) ∧
    ∃ v w, chilow_reduced_round_40bit g C T K_hi K_lo R = some v ∧
      chilow_half_reduced_round_40bit g C T K_hi K_lo R = some w ∧
      (1 ≤ R → v < 2 ^ 40 ∧ w < 2 ^ 40) ∧
      (R ≤ 0 → v = C ^^^ (K_hi &&& 0xFFFFFFFFFF) ∧ w = C ^^^ (K_hi &&& 0xFFFFFFFFFF)) := by
  obtain ⟨v, hv⟩ := chilow_decrypt_40_reduced_total g C T ⟨K_lo, K_hi⟩ R h9
  obtain ⟨w, hw⟩ := chilow_decrypt_40_half_reduced_total g C T ⟨K_lo, K_hi⟩ R h9
  refine ⟨⟨by omega, by omega⟩, v, w, hv, hw, fun h1 => ⟨?_, ?_⟩, fun h0 => ?_⟩
  · exact chilow_decrypt_40_reduced_lt g C T _ R h1 v hv
  · exact chilow_decrypt_40_half_reduced_lt g C T _ R h1 w hw
  · obtain ⟨e1, e2⟩ := chilow_decrypt_40_reduced_no_round g C T ⟨K_lo, K_hi⟩ R h0
    rw [hv] at e1
    rw [hw] at e2
    exact ⟨Option.some.inj e1, Option.some.inj e2⟩

/-- C7 (amended) at the published 40-bit vector and `R = 3`. -/
theorem C7_reduced40_output_witness :
    (-2 ^ 31 : Int) < 3 ∧ (3 : Int) ≤ 9 ∧
    ((-2 ^ 31 : Int) ≤ 3 - 1 ∧ (3 : Int) - 1 < 2 ^ 31) ∧
    ∃ v w, chilow_reduced_round_40bit (chilow_init zero_matrices) 0x317C83E4A7
        0x0011223344556677 0xFEDCBA9876543210 0x7766554433221100 3 = some v ∧
      chilow_half_reduced_round_40bit (chilow_init zero_matrices) 0x317C83E4A7
        0x0011223344556677 0xFEDCBA9876543210 0x7766554433221100 3 = some w ∧
      ((1 : Int) ≤ 3 → v < 2 ^ 40 ∧ w < 2 ^ 40) ∧
      ((3 : Int) ≤ 0 → v = 0x317C83E4A7 ^^^ (0xFEDCBA9876543210 &&& 0xFFFFFFFFFF) ∧
        w = 0x317C83E4A7 ^^^ (0xFEDCBA9876543210 &&& 0xFFFFFFFFFF)) :=
  ⟨by decide, by decide,
    C7_reduced40_output (chilow_init zero_matrices) 0x317C83E4A7 0x0011223344556677
      0xFEDCBA9876543210 0x7766554433221100 3 (by decide) (by decide)⟩

/-! ## The 32+tau routines with zero and one round -/

theorem u32_of_lt (x : Nat) (h : x < 2 ^ 32) : u32 x = x := Nat.mod_eq_of_lt h

theorem and_BITMASK_32_of_lt (x : Nat) (h : x < 2 ^ 32) : x &&& BITMASK_32 = x := by
  rw [BITMASK_32_eq, Nat.and_pow_two_sub_one_eq_mod, Nat.mod_eq_of_lt h]

theorem shr_32_lt (x : Nat) (h : x < 2 ^ 64) : x >>> 32 < 2 ^ 32 := by
  rw [Nat.shiftRight_eq_div_pow]
  exact Nat.div_lt_of_lt_mul (by simpa [← Nat.pow_add] using h)

theorem shl64_32_of_lt (x : Nat) (h : x < 2 ^ 32) : shl64 x 32 = x <<< 32 := by
  rw [shl64, u64, Nat.shiftLeft_eq]
  apply Nat.mod_eq_of_lt
  calc x * 2 ^ 32 < 2 ^ 32 * 2 ^ 32 := Nat.mul_lt_mul_of_pos_right h (by decide)
    _ = 2 ^ 64 := by norm_num

/-- The return expression of the 32+tau routines, when both lanes fit in 32 bits. -/
theorem pack_32_of_lt (s : State32) (hp : s.plaintext < 2 ^ 32) (ht : s.tag < 2 ^ 32) :
    pack_32 s = (s.tag <<< 32) ||| s.plaintext := by
  rw [pack_32, shl64_32_of_lt _ ht, and_BITMASK_32_of_lt _ hp]

/-- C8: called with `R = 0`, `chilow_reduced_round_32bit` returns the whitened state
`((C XOR (K_hi >> 32)) << 32) OR (C XOR (K_hi AND 0xFFFFFFFF))` for every 32-bit `C`,
every tweak and every key with a 64-bit `K_hi` (no round and no final round is applied),
and so does `chilow_half_reduced_round_32bit`. -/
theorem C8_reduced32_zero_rounds (g : Matrices) (C T K_hi K_lo : Nat)
    (hC : C < 2 ^ 32) (hK : K_hi < 2 ^ 64) :
    chilow_reduced_round_32bit g C T K_hi K_lo 0 =
        some (((C ^^^ (K_hi >>> 32)) <<< 32) ||| (C ^^^ (K_hi &&& 0xFFFFFFFF))) ∧
    chilow_half_reduced_round_32bit g C T K_hi K_lo 0 =
        some (((C ^^^ (K_hi >>> 32)) <<< 32) ||| (C ^^^ (K_hi &&& 0xFFFFFFFF))) := by
  have e : (0xFFFFFFFF : Nat) = BITMASK_32 := rfl
  have hneg : ¬ (0 : Int) > 0 := by decide
  have hc : ((0 : Int) - 1).toNat = 0 := by decide
  have hshr : K_hi >>> 32 < 2 ^ 32 := shr_32_lt K_hi hK
  have hp : C ^^^ (K_hi &&& BITMASK_32) < 2 ^ 32 :=
    Nat.xor_lt_two_pow hC (Nat.and_lt_two_pow _ (by decide))
  have ht : C ^^^ (K_hi >>> 32) < 2 ^ 32 := Nat.xor_lt_two_pow hC hshr
  have hpack : pack_32 (whitening_32 C T ⟨K_lo, K_hi⟩) =
      ((C ^^^ (K_hi >>> 32)) <<< 32) ||| (C ^^^ (K_hi &&& BITMASK_32)) := by
    have hw : whitening_32 C T ⟨K_lo, K_hi⟩ =
        ⟨C ^^^ (K_hi &&& BITMASK_32), C ^^^ (K_hi >>> 32), T ^^^ K_lo, ⟨K_lo, K_hi⟩⟩ := by
      simp only [whitening_32, and_BITMASK_32_of_lt _ hshr, u32_of_lt _ hp, u32_of_lt _ ht]
    rw [hw, pack_32_of_lt _ hp ht]
  rw [e]
  simp only [chilow_reduced_round_32bit, chilow_half_reduced_round_32bit,
    chilow_decrypt_32_reduced, chilow_decrypt_32_half_reduced, if_neg hneg, hc, for_rounds,
    Option.map_some', hpack, and_self]

/-- C8 at the published 32+tau vector. -/
theorem C8_reduced32_zero_rounds_witness :
    chilow_reduced_round_32bit (chilow_init zero_matrices) 0x01234567 0x0011223344556677
        0xFEDCBA9876543210 0x7766554433221100 0 =
        some (((0x01234567 ^^^ (0xFEDCBA9876543210 >>> 32)) <<< 32) |||
          (0x01234567 ^^^ (0xFEDCBA9876543210 &&& 0xFFFFFFFF))) ∧
    chilow_half_reduced_round_32bit (chilow_init zero_matrices) 0x01234567
        0x0011223344556677 0xFEDCBA9876543210 0x7766554433221100 0 =
        some (((0x01234567 ^^^ (0xFEDCBA9876543210 >>> 32)) <<< 32) |||
          (0x01234567 ^^^ (0xFEDCBA9876543210 &&& 0xFFFFFFFF))) :=
  C8_reduced32_zero_rounds (chilow_init zero_matrices) 0x01234567 0x0011223344556677
    0xFEDCBA9876543210 0x7766554433221100 (by decide) (by decide)

theorem u32_lt (x : Nat) : u32 x < 2 ^ 32 := Nat.mod_lt _ (by decide)

theorem shl64_lt (x n : Nat) : shl64 x n < 2 ^ 64 := Nat.mod_lt _ (by decide)

theorem shl64_le (x n : Nat) : shl64 x n ≤ x <<< n := Nat.mod_le _ _

theorem shl64_lt_of_lt (x n k : Nat) (h : x < 2 ^ k) : shl64 x n < 2 ^ (k + n) := by
  apply lt_of_le_of_lt (shl64_le x n)
  rw [Nat.shiftLeft_eq, Nat.pow_add]
  exact Nat.mul_lt_mul_of_pos_right h (Nat.pow_pos (by decide))

theorem and_one_lt (x : Nat) : x &&& 1 < 2 ^ 1 := Nat.and_lt_two_pow x (by decide)

/-- The chi output is confined by its mask. -/
theorem chi_transform_lt (x mask w n : Nat) (h : mask < 2 ^ n) :
    chi_transform x mask w < 2 ^ n :=
  Nat.and_lt_two_pow _ h

/-- The 32-bit chichi output fits in 32 bits. -/
theorem chichi_32_lt (x : Nat) : chichi_transform x BITMASK_15 BITMASK_17 16 < 2 ^ 32 := by
  have mono : ∀ {a k : Nat}, a < 2 ^ k → k ≤ 32 → a < 2 ^ 32 := fun h hk =>
    lt_of_lt_of_le h (Nat.pow_le_pow_right (by decide) hk)
  have hup : ∀ y, shl64 (chi_transform y BITMASK_17 17) 15 < 2 ^ 32 := fun y =>
    shl64_lt_of_lt _ 15 17 (chi_transform_lt _ _ _ 17 (by decide))
  have hlo : ∀ y, chi_transform y BITMASK_15 15 < 2 ^ 32 := fun y =>
    mono (chi_transform_lt _ _ _ 15 (by decide)) (by decide)
  have hbit : ∀ y k, k ≤ 31 → shl64 (y &&& 1) k < 2 ^ 32 := fun y k hk =>
    mono (shl64_lt_of_lt _ k 1 (and_one_lt y)) (by omega)
  have h0 : (0 : Nat) < 2 ^ 32 := by decide
  simp only [chichi_transform, Nat.reduceSub, Nat.reduceAdd]
  exact Nat.xor_lt_two_pow (Nat.or_lt_two_pow (hup _) (hlo _))
    (Nat.or_lt_two_pow (Nat.or_lt_two_pow (Nat.or_lt_two_pow (Nat.or_lt_two_pow h0
      (hbit _ 13 (by decide))) (hbit _ 14 (by decide))) (hbit _ 15 (by decide)))
      (hbit _ 16 (by decide)))

theorem foldl_or_shl64_lt (f : Nat → Nat) :
    ∀ (l : List Nat) (acc : Nat), acc < 2 ^ 64 →
      l.foldl (fun output bit => output ||| shl64 (f bit) bit) acc < 2 ^ 64 := by
  intro l
  induction l with
  | nil => intro acc h; exact h
  | cons b l ih =>
    intro acc h
    exact ih _ (Nat.or_lt_two_pow h (shl64_lt _ _))

/-- The 64-bit linear layer returns a 64-bit word, whatever the matrix holds. -/
theorem apply_linear_64_lt (x : Nat) (m : Nat → Nat) : apply_linear_64 x m < 2 ^ 64 :=
  foldl_or_shl64_lt (fun bit => popcount64 (m bit &&& x) &&& 1) (List.range 64) 0
    (by decide)

/-- The two lanes of the 32+tau routines after the interaction step of a final round whose
tweak word is `l`. -/
theorem pack_32_final (p t l tw : Nat) (k : uint128_t) (hl : l < 2 ^ 64) :
    pack_32 { plaintext := u32 (u32 p ^^^ (l &&& BITMASK_32)),
              tag := u32 (u32 t ^^^ ((l >>> 32) &&& BITMASK_32)),
              tweak := tw, key := k } =
      ((u32 t ^^^ (l >>> 32)) <<< 32) ||| (u32 p ^^^ (l &&& BITMASK_32)) := by
  have hshr : l >>> 32 < 2 ^ 32 := shr_32_lt l hl
  have hp : u32 p ^^^ (l &&& BITMASK_32) < 2 ^ 32 :=
    Nat.xor_lt_two_pow (u32_lt p) (Nat.and_lt_two_pow _ (by decide))
  have ht : u32 t ^^^ (l >>> 32) < 2 ^ 32 := Nat.xor_lt_two_pow (u32_lt t) hshr
  rw [and_BITMASK_32_of_lt _ hshr, pack_32_of_lt _ (by simpa using u32_lt _)
    (by simpa using u32_lt _)]
  simp only [u32_of_lt _ hp, u32_of_lt _ ht]

/-- C9: called with `R = 1`, the 32+tau reduced-round routine runs no main round and one
final round.  For every 32-bit `C`, every tweak `T` and every key with a 64-bit `K_hi`,
writing `T'` for the 64-bit linear layer (the array `linear_matrix_64`, which holds Tweak64
after `chilow_init`) applied to `T XOR K_lo`, the routine returns
`((chichi(C XOR (K_hi >> 32)) XOR (T' >> 32)) << 32) OR
 (chichi(C XOR (K_hi AND mask32)) XOR (T' AND mask32))`,
with chichi taken with `mask15`, `mask17` and split position 16. -/
theorem C9_reduced32_one_round (g : Matrices) (C T K_hi K_lo : Nat)
    (hC : C < 2 ^ 32) (hK : K_hi < 2 ^ 64) :
    chilow_reduced_round_32bit g C T K_hi K_lo 1 =
      some (((chichi_transform (C ^^^ (K_hi >>> 32)) BITMASK_15 BITMASK_17 16 ^^^
              (apply_linear_64 (T ^^^ K_lo) g.linear_matrix_64 >>> 32)) <<< 32) |||
            (chichi_transform (C ^^^ (K_hi &&& BITMASK_32)) BITMASK_15 BITMASK_17 16 ^^^
              (apply_linear_64 (T ^^^ K_lo) g.linear_matrix_64 &&& BITMASK_32))) := by
  have hpos : (1 : Int) > 0 := by decide
  have hc : ((1 : Int) - 1).toNat = 0 := by decide
  have hshr : K_hi >>> 32 < 2 ^ 32 := shr_32_lt K_hi hK
  have hp : C ^^^ (K_hi &&& BITMASK_32) < 2 ^ 32 :=
    Nat.xor_lt_two_pow hC (Nat.and_lt_two_pow _ (by decide))
  have ht : C ^^^ (K_hi >>> 32) < 2 ^ 32 := Nat.xor_lt_two_pow hC hshr
  simp only [chilow_reduced_round_32bit, chilow_decrypt_32_reduced, if_pos hpos, hc,
    for_rounds, Option.map_some', whitening_32, and_BITMASK_32_of_lt _ hshr,
    u32_of_lt _ hp, u32_of_lt _ ht]
  rw [pack_32_final _ _ _ _ _ (apply_linear_64_lt _ _), u32_of_lt _ (chichi_32_lt _),
    u32_of_lt _ (chichi_32_lt _)]

/-- C9 at the published 32+tau vector. -/
theorem C9_reduced32_one_round_witness :
    chilow_reduced_round_32bit (chilow_init zero_matrices) 0x01234567 0x0011223344556677
        0xFEDCBA9876543210 0x7766554433221100 1 =
      some (((chichi_transform (0x01234567 ^^^ (0xFEDCBA9876543210 >>> 32))
                BITMASK_15 BITMASK_17 16 ^^^
              (apply_linear_64 (0x0011223344556677 ^^^ 0x7766554433221100)
                (chilow_init zero_matrices).linear_matrix_64 >>> 32)) <<< 32) |||
            (chichi_transform (0x01234567 ^^^ (0xFEDCBA9876543210 &&& BITMASK_32))
                BITMASK_15 BITMASK_17 16 ^^^
              (apply_linear_64 (0x0011223344556677 ^^^ 0x7766554433221100)
                (chilow_init zero_matrices).linear_matrix_64 &&& BITMASK_32))) :=
  C9_reduced32_one_round (chilow_init zero_matrices) 0x01234567 0x0011223344556677
    0xFEDCBA9876543210 0x7766554433221100 (by decide) (by decide)

/-! ## Reduced against half-reduced 32+tau routines -/

theorem for_rounds_invariant {σ : Type} (body : Nat → σ → Option σ) (P : σ → Prop)
    (hbody : ∀ r s s', body r s = some s' → P s') :
    ∀ (count round : Nat) (s s' : σ), P s → for_rounds body count round s = some s' →
      P s' := by
  intro count
  induction count with
  | zero =>
    intro round s s' hs h
    simp only [for_rounds, Option.some.injEq] at h
    exact h ▸ hs
  | succ k ih =>
    intro round s s' _ h
    simp only [for_rounds, Option.bind_eq_some] at h
    obtain ⟨s1, h1, h2⟩ := h
    exact ih (round + 1) s1 s' (hbody round s s1 h1) h2

theorem foldl_hi_keeps_lo (f : uint128_t → Nat → Nat) :
    ∀ (l : List Nat) (acc : uint128_t),
      (l.foldl (fun (output : uint128_t) bit => { output with hi := f output bit }) acc).lo
        = acc.lo := by
  intro l
  induction l with
  | nil => intro acc; rfl
  | cons b l ih => intro acc; rw [List.foldl_cons, ih]

theorem foldl_lo_or_shl64_lt (f : Nat → Nat) :
    ∀ (l : List Nat) (acc : uint128_t), acc.lo < 2 ^ 64 →
      (l.foldl (fun (output : uint128_t) bit =>
        { output with lo := output.lo ||| shl64 (f bit) bit }) acc).lo < 2 ^ 64 := by
  intro l
  induction l with
  | nil => intro acc h; exact h
  | cons b l ih =>
    intro acc h
    rw [List.foldl_cons]
    exact ih _ (Nat.or_lt_two_pow h (shl64_lt _ _))

/-- The low word returned by the 128-bit linear layer is a 64-bit word. -/
theorem apply_linear_128_lo_lt (x : uint128_t) (m : Nat → uint128_t) :
    (apply_linear_128 x m).lo < 2 ^ 64 := by
  unfold apply_linear_128
  rw [foldl_hi_keeps_lo (fun output bit => output.hi ||| shl64
    ((popcount64 ((m bit).lo &&& x.lo) ^^^ popcount64 ((m bit).hi &&& x.hi)) &&& 1)
    (bit - 64))]
  exact foldl_lo_or_shl64_lt (fun bit =>
    (popcount64 ((m bit).lo &&& x.lo) ^^^ popcount64 ((m bit).hi &&& x.hi)) &&& 1)
    (List.range 64) ⟨0, 0⟩ (by decide)

/-- After a 32+tau main round the tweak lane is a 64-bit word. -/
theorem main_round_32_tweak_lt (g : Matrices) (round : Nat) (s s' : State32)
    (h : main_round_32 g round s = some s') : s'.tweak < 2 ^ 64 := by
  simp only [main_round_32, Option.map_eq_some'] at h
  obtain ⟨rc, _, rfl⟩ := h
  exact Nat.xor_lt_two_pow (apply_linear_64_lt _ _) (apply_linear_128_lo_lt _ _)

/-- The packed outputs of two final rounds that differ only in the tweak word XORed into
the two lanes differ by the XOR of the two tweak words. -/
theorem pack_xor_pack (p t l l' : Nat) (hp : p < 2 ^ 32) :
    (((t ^^^ (l >>> 32)) <<< 32) ||| (p ^^^ (l &&& BITMASK_32))) ^^^
      (((t ^^^ (l' >>> 32)) <<< 32) ||| (p ^^^ (l' &&& BITMASK_32))) = l ^^^ l' := by
  apply Nat.eq_of_testBit_eq; intro i
  rw [BITMASK_32_eq]
  simp only [Nat.testBit_xor, Nat.testBit_or, Nat.testBit_and, Nat.testBit_shiftLeft,
    Nat.testBit_shiftRight, Nat.testBit_two_pow_sub_one]
  by_cases hi : i < 32
  · have h1 : ¬ i ≥ 32 := by omega
    simp only [hi, h1, decide_True, decide_False, Bool.false_and, Bool.and_true,
      Bool.false_or]
    cases p.testBit i <;> cases l.testBit i <;> cases l'.testBit i <;> rfl
  · have h1 : i ≥ 32 := by omega
    have h2 : 32 + (i - 32) = i := by omega
    have h3 : p.testBit i = false :=
      Nat.testBit_eq_false_of_lt (lt_of_lt_of_le hp (Nat.pow_le_pow_right (by decide) h1))
    simp only [hi, h1, h2, h3, decide_True, decide_False, Bool.true_and, Bool.and_false,
      Bool.xor_false, Bool.or_false, Bool.false_xor]
    cases t.testBit (i - 32) <;> cases l.testBit i <;> cases l'.testBit i <;> rfl

/-- C10: the reduced and half-reduced 32+tau routines differ only in the linear layer
applied to the tweak in the final round.  For every ciphertext, every 64-bit tweak `T`,
every key with a 64-bit `K_lo` and every `R` in 1..8, the round loop of `R − 1` main rounds
ends in a state `s` (for `R = 1` its tweak lane is `T XOR K_lo`), both routines return a
value, and the XOR of the two values is `(Tweak64 · T') XOR T'` where `T'` is the tweak lane
of `s` and the product is the 64-bit linear layer with the array `linear_matrix_64`. -/
theorem C10_reduced32_xor_half_reduced32 (g : Matrices) (C T K_hi K_lo : Nat) (R : Int)
    (hT : T < 2 ^ 64) (hK : K_lo < 2 ^ 64) (h1 : 1 ≤ R) (h8 : R ≤ 8) :
    ∃ s a b,
      for_rounds (main_round_32 g) (R - 1).toNat 0 (whitening_32 C T ⟨K_lo, K_hi⟩) = some s ∧
      chilow_reduced_round_32bit g C T K_hi K_lo R = some a ∧
      chilow_half_reduced_round_32bit g C T K_hi K_lo R = some b ∧
      a ^^^ b = apply_linear_64 s.tweak g.linear_matrix_64 ^^^ s.tweak ∧
      (R = 1 → s.tweak = T ^^^ K_lo) := by
  have hpos : R > 0 := by omega
  obtain ⟨s, hs⟩ := rounds_32_total g (R - 1).toNat (whitening_32 C T ⟨K_lo, K_hi⟩)
    (by omega)
  have htw : s.tweak < 2 ^ 64 :=
    for_rounds_invariant (main_round_32 g) (fun u => u.tweak < 2 ^ 64)
      (fun r u u' h => main_round_32_tweak_lt g r u u' h) _ 0 _ s
      (Nat.xor_lt_two_pow hT hK) hs
  have ha : chilow_reduced_round_32bit g C T K_hi K_lo R = some
      (((u32 (chichi_transform s.tag BITMASK_15 BITMASK_17 16) ^^^
          (apply_linear_64 s.tweak g.linear_matrix_64 >>> 32)) <<< 32) |||
        (u32 (chichi_transform s.plaintext BITMASK_15 BITMASK_17 16) ^^^
          (apply_linear_64 s.tweak g.linear_matrix_64 &&& BITMASK_32))) := by
    rw [chilow_reduced_round_32bit, chilow_decrypt_32_reduced, hs, Option.map_some',
      if_pos hpos]
    exact congrArg some (pack_32_final _ _ _ _ _ (apply_linear_64_lt _ _))
  have hb : chilow_half_reduced_round_32bit g C T K_hi K_lo R = some
      (((u32 (chichi_transform s.tag BITMASK_15 BITMASK_17 16) ^^^
          (s.tweak >>> 32)) <<< 32) |||
        (u32 (chichi_transform s.plaintext BITMASK_15 BITMASK_17 16) ^^^
          (s.tweak &&& BITMASK_32))) := by
    rw [chilow_half_reduced_round_32bit, chilow_decrypt_32_half_reduced, hs,
      Option.map_some', if_pos hpos]
    exact congrArg some (pack_32_final _ _ _ _ _ htw)
  refine ⟨s, _, _, hs, ha, hb, pack_xor_pack _ _ _ _ (u32_lt _), ?_⟩
  intro hR
  have hc : (R - 1).toNat = 0 := by omega
  rw [hc] at hs
  simp only [for_rounds, Option.some.injEq] at hs
  rw [← hs]
  rfl

/-- C10 at the published 32+tau vector and `R = 3`. -/
theorem C10_reduced32_xor_half_reduced32_witness :
    ∃ s a b,
      for_rounds (main_round_32 (chilow_init zero_matrices)) ((3 : Int) - 1).toNat 0
        (whitening_32 0x01234567 0x0011223344556677
          ⟨0x7766554433221100, 0xFEDCBA9876543210⟩) = some s ∧
      chilow_reduced_round_32bit (chilow_init zero_matrices) 0x01234567 0x0011223344556677
        0xFEDCBA9876543210 0x7766554433221100 3 = some a ∧
      chilow_half_reduced_round_32bit (chilow_init zero_matrices) 0x01234567
        0x0011223344556677 0xFEDCBA9876543210 0x7766554433221100 3 = some b ∧
      a ^^^ b = apply_linear_64 s.tweak (chilow_init zero_matrices).linear_matrix_64
        ^^^ s.tweak ∧
      ((3 : Int) = 1 → s.tweak = 0x0011223344556677 ^^^ 0x7766554433221100) :=
  C10_reduced32_xor_half_reduced32 (chilow_init zero_matrices) 0x01234567
    0x0011223344556677 0xFEDCBA9876543210 0x7766554433221100 3
    (by decide) (by decide) (by decide) (by decide)

/-! ## Idempotence of the initialisation -/

theorem generated_matrices_idem (g : Matrices) :
    generated_matrices (generated_matrices g) = generated_matrices g := by
  simp only [generated_matrices]
  congr 1 <;> funext i <;> split <;> rfl

/-- C14: `chilow_init` is idempotent.  From any contents of the five matrix arrays, running
it twice leaves the arrays in exactly the state reached after running it once, and the rows
it leaves in the five arrays do not depend on the previous contents. -/
theorem C14_init_idempotent (g h : Matrices) :
    chilow_init (chilow_init g) = chilow_init g ∧
      same_rows (chilow_init g) (chilow_init h) := by
  refine ⟨?_, ?_⟩
  · rw [chilow_init_eq, chilow_init_eq, generated_matrices_idem]
  · rw [chilow_init_eq, chilow_init_eq]
    exact same_rows_generated g h

/-! ## Round-constant lookups -/

/-- The round loop consults its body only at the indices `round, …, round + count − 1`:
a body that fails outside `[round, round + count)` gives the same result. -/
theorem for_rounds_guard {σ : Type} (body : Nat → σ → Option σ) (P : Nat → Prop)
    [DecidablePred P] :
    ∀ (count round : Nat) (s : σ), (∀ r, round ≤ r → r < round + count → P r) →
      for_rounds (fun r u => if P r then body r u else none) count round s =
        for_rounds body count round s := by
  intro count
  induction count with
  | zero => intro round s _; rfl
  | succ k ih =>
    intro round s h
    have h0 : P round := h round (le_refl _) (by omega)
    simp only [for_rounds, if_pos h0]
    cases body round s with
    | none => rfl
    | some s1 =>
      simp only [Option.some_bind]
      exact ih (round + 1) s1 (fun r h1 h2 => h r (by omega) (by omega))

theorem chilow_decrypt_32_reduced_total (g : Matrices) (C T : Nat) (K : uint128_t)
    (R : Int) (hR : R ≤ 9) : ∃ v, chilow_decrypt_32_reduced g C T K R = some v := by
  obtain ⟨s, hs⟩ := rounds_32_total g (R - 1).toNat (whitening_32 C T K) (by omega)
  exact ⟨_, by rw [chilow_decrypt_32_reduced, hs, Option.map_some']⟩

theorem chilow_decrypt_32_half_reduced_total (g : Matrices) (C T : Nat) (K : uint128_t)
    (R : Int) (hR : R ≤ 9) : ∃ v, chilow_decrypt_32_half_reduced g C T K R = some v := by
  obtain ⟨s, hs⟩ := rounds_32_total g (R - 1).toNat (whitening_32 C T K) (by omega)
  exact ⟨_, by rw [chilow_decrypt_32_half_reduced, hs, Option.map_some']⟩

/-- C15: for every round count `R` in 1..8 and every input, the four reduced-round entry
points return a value, and every round-constant lookup of their round loops uses an index
`r` with `r ≤ R − 2 ≤ 6`, inside the 8-entry tables: making every lookup at an index above
`R − 2` or outside the table fail does not change the result of the loop. -/
theorem C15_round_constant_lookups_in_bounds (g : Matrices) (C T K_hi K_lo : Nat) (R : Int)
    (h1 : 1 ≤ R) (h8 : R ≤ 8) :
    (∃ v, chilow_reduced_round_32bit g C T K_hi K_lo R = some v) ∧
    (∃ v, chilow_half_reduced_round_32bit g C T K_hi K_lo R = some v) ∧
    (∃ v, chilow_reduced_round_40bit g C T K_hi K_lo R = some v) ∧
    (∃ v, chilow_half_reduced_round_40bit g C T K_hi K_lo R = some v) ∧
    R - 2 ≤ 6 ∧
    (∀ s, for_rounds (fun r u =>
          if (r : Int) ≤ R - 2 ∧ r < ROUND_CONSTANTS.length then main_round_32 g r u
          else none) (R - 1).toNat 0 s =
        for_rounds (main_round_32 g) (R - 1).toNat 0 s) ∧
    (∀ s, for_rounds (fun r u =>
          if (r : Int) ≤ R - 2 ∧ r < ROUND_CONSTANTS_40.length then main_round_40 g r u
          else none) (R - 1).toNat 0 s =
        for_rounds (main_round_40 g) (R - 1).toNat 0 s) := by
  have hlen : ROUND_CONSTANTS.length = 8 := rfl
  have hlen40 : ROUND_CONSTANTS_40.length = 8 := rfl
  refine ⟨chilow_decrypt_32_reduced_total g C T _ R (by omega),
    chilow_decrypt_32_half_reduced_total g C T _ R (by omega),
    chilow_decrypt_40_reduced_total g C T _ R (by omega),
    chilow_decrypt_40_half_reduced_total g C T _ R (by omega), by omega, ?_, ?_⟩
  · intro s
    apply for_rounds_guard
    intro r _ hr
    rw [hlen]
    omega
  · intro s
    apply for_rounds_guard
    intro r _ hr
    rw [hlen40]
    omega

/-- C15 at the published 32+tau vector and `R = 8`. -/
theorem C15_round_constant_lookups_in_bounds_witness :
    (∃ v, chilow_reduced_round_32bit (chilow_init zero_matrices) 0x01234567
        0x0011223344556677 0xFEDCBA9876543210 0x7766554433221100 8 = some v) ∧
    (∃ v, chilow_half_reduced_round_32bit (chilow_init zero_matrices) 0x01234567
        0x0011223344556677 0xFEDCBA9876543210 0x7766554433221100 8 = some v) ∧
    (∃ v, chilow_reduced_round_40bit (chilow_init zero_matrices) 0x01234567
        0x0011223344556677 0xFEDCBA9876543210 0x7766554433221100 8 = some v) ∧
    (∃ v, chilow_half_reduced_round_40bit (chilow_init zero_matrices) 0x01234567
        0x0011223344556677 0xFEDCBA9876543210 0x7766554433221100 8 = some v) ∧
    (8 : Int) - 2 ≤ 6 ∧
    (∀ s, for_rounds (fun r u =>
          if (r : Int) ≤ 8 - 2 ∧ r < ROUND_CONSTANTS.length
          then main_round_32 (chilow_init zero_matrices) r u
          else none) ((8 : Int) - 1).toNat 0 s =
        for_rounds (main_round_32 (chilow_init zero_matrices)) ((8 : Int) - 1).toNat 0 s) ∧
    (∀ s, for_rounds (fun r u =>
          if (r : Int) ≤ 8 - 2 ∧ r < ROUND_CONSTANTS_40.length
          then main_round_40 (chilow_init zero_matrices) r u
          else none) ((8 : Int) - 1).toNat 0 s =
        for_rounds (main_round_40 (chilow_init zero_matrices)) ((8 : Int) - 1).toNat 0 s) :=
  C15_round_constant_lookups_in_bounds (chilow_init zero_matrices) 0x01234567
    0x0011223344556677 0xFEDCBA9876543210 0x7766554433221100 8 (by decide) (by decide)

/-! ## Width of the chi and chichi outputs -/

/-- The mask computed by `rotr64` is `2^width − 1` for every width below 64. -/
theorem rotr64_mask_eq (w : Nat) (h : w < 64) : u64 (shl64 1 w + 2 ^ 64 - 1) = 2 ^ w - 1 := by
  have hlt : 2 ^ w < 2 ^ 64 := Nat.pow_lt_pow_right (by decide) h
  have hpos : 0 < 2 ^ w := Nat.pow_pos (by decide)
  have e1 : shl64 1 w = 2 ^ w := by
    rw [shl64, u64, Nat.shiftLeft_eq, Nat.one_mul, Nat.mod_eq_of_lt hlt]
  rw [e1, u64]
  have e2 : 2 ^ w + 2 ^ 64 - 1 = (2 ^ w - 1) + 2 ^ 64 := by omega
  rw [e2, Nat.add_mod_right, Nat.mod_eq_of_lt (by omega)]

theorem rotr64_of_mask (x s w : Nat) (h : w < 64) :
    rotr64 (x &&& (2 ^ w - 1)) s w = rotr64 x s w := by
  simp only [rotr64, rotr64_mask_eq w h, Nat.and_assoc, Nat.and_self]

/-- The chi output reads its input only through the bits selected by `2^w − 1`. -/
theorem chi_transform_congr (x y w : Nat) (h : w < 64)
    (hxy : x &&& (2 ^ w - 1) = y &&& (2 ^ w - 1)) :
    chi_transform x (2 ^ w - 1) w = chi_transform y (2 ^ w - 1) w := by
  have hr : ∀ s, rotr64 x s w = rotr64 y s w := fun s => by
    rw [← rotr64_of_mask x s w h, hxy, rotr64_of_mask y s w h]
  simp only [chi_transform, Nat.and_xor_distrib_right, hr, hxy]

/-- C16: for every `x` and every width `w` among 15, 17, 19, 21, 31, 33, 63, with
`mask_w = 2^w − 1`, the value `chi_transform(x, mask_w, w)` is below `2^w` (every bit from
position `w` upwards is zero) and depends only on the low `w` bits of `x`: two inputs with
the same low `w` bits give the same value. -/
theorem C16_chi_width (x w : Nat) (hw : w ∈ [15, 17, 19, 21, 31, 33, 63]) :
    chi_transform x (2 ^ w - 1) w < 2 ^ w ∧
    (∀ i, w ≤ i → (chi_transform x (2 ^ w - 1) w).testBit i = false) ∧
    (∀ y, x &&& (2 ^ w - 1) = y &&& (2 ^ w - 1) →
      chi_transform x (2 ^ w - 1) w = chi_transform y (2 ^ w - 1) w) := by
  have h64 : w < 64 := by
    simp only [List.mem_cons, List.mem_singleton, List.not_mem_nil, or_false] at hw
    omega
  have hlt : chi_transform x (2 ^ w - 1) w < 2 ^ w :=
    chi_transform_lt x _ w w (Nat.sub_lt (Nat.pow_pos (by decide)) (by decide))
  refine ⟨hlt, fun i hi => ?_, fun y hxy => chi_transform_congr x y w h64 hxy⟩
  exact Nat.testBit_eq_false_of_lt (lt_of_lt_of_le hlt (Nat.pow_le_pow_right (by decide) hi))

/-- C16 at `x = 0xFFFFFFFFFFFFFFFF` and `w = 17`. -/
theorem C16_chi_width_witness :
    chi_transform 0xFFFFFFFFFFFFFFFF (2 ^ 17 - 1) 17 < 2 ^ 17 ∧
    (∀ i, 17 ≤ i → (chi_transform 0xFFFFFFFFFFFFFFFF (2 ^ 17 - 1) 17).testBit i = false) ∧
    (∀ y, 0xFFFFFFFFFFFFFFFF &&& (2 ^ 17 - 1) = y &&& (2 ^ 17 - 1) →
      chi_transform 0xFFFFFFFFFFFFFFFF (2 ^ 17 - 1) 17 = chi_transform y (2 ^ 17 - 1) 17) :=
  C16_chi_width 0xFFFFFFFFFFFFFFFF 17 (by decide)

/-- The chichi output fits in `2m` bits when the masks are those of the split `m`. -/
theorem chichi_transform_lt (x m : Nat) (h3 : 3 ≤ m) :
    chichi_transform x (2 ^ (m - 1) - 1) (2 ^ (m + 1) - 1) m < 2 ^ (2 * m) := by
  have mono : ∀ {a k : Nat}, a < 2 ^ k → k ≤ 2 * m → a < 2 ^ (2 * m) := fun h hk =>
    lt_of_lt_of_le h (Nat.pow_le_pow_right (by decide) hk)
  have hmask : ∀ k, 2 ^ k - 1 < 2 ^ k := fun k =>
    Nat.sub_lt (Nat.pow_pos (by decide)) (by decide)
  have hup : ∀ y, shl64 (chi_transform y (2 ^ (m + 1) - 1) (m + 1)) (m - 1) < 2 ^ (2 * m) :=
    fun y => mono (shl64_lt_of_lt _ (m - 1) (m + 1) (chi_transform_lt _ _ _ _ (hmask _)))
      (by omega)
  have hlo : ∀ y, chi_transform y (2 ^ (m - 1) - 1) (m - 1) < 2 ^ (2 * m) := fun y =>
    mono (chi_transform_lt _ _ _ (m - 1) (hmask _)) (by omega)
  have hbit : ∀ y k, k ≤ m → shl64 (y &&& 1) k < 2 ^ (2 * m) := fun y k hk =>
    mono (shl64_lt_of_lt _ k 1 (and_one_lt y)) (by omega)
  have h0 : (0 : Nat) < 2 ^ (2 * m) := Nat.pow_pos (by decide)
  simp only [chichi_transform]
  exact Nat.xor_lt_two_pow (Nat.or_lt_two_pow (hup _) (hlo _))
    (Nat.or_lt_two_pow (Nat.or_lt_two_pow (Nat.or_lt_two_pow (Nat.or_lt_two_pow h0
      (hbit _ (m - 3) (by omega))) (hbit _ (m - 2) (by omega))) (hbit _ (m - 1) (by omega)))
      (hbit _ m (le_refl m)))

/-- C17: for every `x` and every split position `m` among 16, 20, 32, with
`mask_lo = 2^(m−1) − 1` and `mask_hi = 2^(m+1) − 1`, the value
`chichi_transform(x, mask_lo, mask_hi, m)` is below `2^(2m)`: every bit from position `2m`
upwards is zero. -/
theorem C17_chichi_width (x m : Nat) (hm : m ∈ [16, 20, 32]) :
    chichi_transform x (2 ^ (m - 1) - 1) (2 ^ (m + 1) - 1) m < 2 ^ (2 * m) ∧
    ∀ i, 2 * m ≤ i →
      (chichi_transform x (2 ^ (m - 1) - 1) (2 ^ (m + 1) - 1) m).testBit i = false := by
  have h3 : 3 ≤ m := by
    simp only [List.mem_cons, List.mem_singleton, List.not_mem_nil, or_false] at hm
    omega
  have hlt := chichi_transform_lt x m h3
  exact ⟨hlt, fun i hi => Nat.testBit_eq_false_of_lt
    (lt_of_lt_of_le hlt (Nat.pow_le_pow_right (by decide) hi))⟩

/-- C17 at `x = 0xFFFFFFFFFFFFFFFF` and `m = 20`. -/
theorem C17_chichi_width_witness :
    chichi_transform 0xFFFFFFFFFFFFFFFF (2 ^ (20 - 1) - 1) (2 ^ (20 + 1) - 1) 20
        < 2 ^ (2 * 20) ∧
    ∀ i, 2 * 20 ≤ i →
      (chichi_transform 0xFFFFFFFFFFFFFFFF (2 ^ (20 - 1) - 1) (2 ^ (20 + 1) - 1)
        20).testBit i = false :=
  C17_chichi_width 0xFFFFFFFFFFFFFFFF 20 (by decide)

/-! ## Weight of the generated rows -/

set_option maxRecDepth 100000 in
theorem generated_rows_weight :
    (∀ i, i < 32 → popcount32 (matrix_row_32 state_params i) = 3) ∧
    (∀ i, i < 32 → popcount32 (matrix_row_32 prf_params i) = 3) ∧
    (∀ i, i < 40 → popcount64 (matrix_row_40 state40_params i) = 3) ∧
    (∀ i, i < 64 → popcount64 (matrix_row_64 tweak_params i) = 3) ∧
    (∀ i, i < 128 → popcount64 (matrix_row_128 key_params i).lo +
        popcount64 (matrix_row_128 key_params i).hi = 3) := by
  decide!

/-- C18: after `chilow_init` (from any previous contents of the arrays), every row of each
of the five linear matrices has exactly three set bits: the 32 rows of State32 and of
Prf32, the 40 rows of State40, the 64 rows of Tweak64, and the 128 rows of Key128, whose
weight is the sum of the population counts of the low and of the high word. -/
theorem C18_generated_rows_have_weight_three (g : Matrices) :
    (∀ i, i < 32 → popcount32 ((chilow_init g).linear_matrix_32_state i) = 3) ∧
    (∀ i, i < 32 → popcount32 ((chilow_init g).linear_matrix_32_prf i) = 3) ∧
    (∀ i, i < 40 → popcount64 ((chilow_init g).linear_matrix_40 i) = 3) ∧
    (∀ i, i < 64 → popcount64 ((chilow_init g).linear_matrix_64 i) = 3) ∧
    (∀ i, i < 128 → popcount64 ((chilow_init g).linear_matrix_128 i).lo +
        popcount64 ((chilow_init g).linear_matrix_128 i).hi = 3) := by
  obtain ⟨h1, h2, h3, h4, h5⟩ := generated_rows_weight
  rw [chilow_init_eq]
  refine ⟨fun i hi => ?_, fun i hi => ?_, fun i hi => ?_, fun i hi => ?_, fun i hi => ?_⟩
  · simpa only [generated_matrices, if_pos hi] using h1 i hi
  · simpa only [generated_matrices, if_pos hi] using h2 i hi
  · simpa only [generated_matrices, if_pos hi] using h3 i hi
  · simpa only [generated_matrices, if_pos hi] using h4 i hi
  · simpa only [generated_matrices, if_pos hi] using h5 i hi

/-! ## Weight of a generated row for arbitrary parameters -/

theorem shr_and_one_eq (x w : Nat) : (x >>> w) &&& 1 = if x.testBit w then 1 else 0 := by
  rw [Nat.and_one_is_mod, Nat.shiftRight_eq_div_pow]
  by_cases h : x.testBit w
  · rw [if_pos h]
    rw [Nat.testBit_to_div_mod] at h
    simpa using h
  · rw [if_neg h]
    rw [Nat.testBit_to_div_mod] at h
    have := Nat.mod_two_eq_zero_or_one (x / 2 ^ w)
    rcases this with h0 | h1
    · exact h0
    · exact absurd (by simp [h1]) h

/-- The bit count is the number of positions below `w` whose bit is set. -/
theorem popcount_bits_eq_card (x : Nat) :
    ∀ w, popcount_bits w x = ((Finset.range w).filter (fun j => x.testBit j = true)).card := by
  intro w
  induction w with
  | zero => rfl
  | succ k ih =>
    rw [popcount_bits, shr_and_one_eq, ih, Finset.range_succ, Finset.filter_insert]
    by_cases h : x.testBit k = true
    · rw [if_pos h, if_pos h, Finset.card_insert_of_not_mem (by simp)]
      omega
    · rw [if_neg h, if_neg h]
      omega

theorem shl32_one (c : Nat) (h : c < 32) : shl32 1 c = 2 ^ c := by
  rw [shl32, u32, Nat.shiftLeft_eq, Nat.one_mul,
    Nat.mod_eq_of_lt (Nat.pow_lt_pow_right (by decide) h)]

theorem shl64_one (c : Nat) (h : c < 64) : shl64 1 c = 2 ^ c := by
  rw [shl64, u64, Nat.shiftLeft_eq, Nat.one_mul,
    Nat.mod_eq_of_lt (Nat.pow_lt_pow_right (by decide) h)]

theorem testBit_three_bits (a b c j : Nat) :
    (0 ||| 2 ^ a ||| 2 ^ b ||| 2 ^ c).testBit j = true ↔ j = a ∨ j = b ∨ j = c := by
  simp only [Nat.testBit_or, Nat.zero_testBit, Nat.testBit_two_pow, Bool.false_or,
    Bool.or_eq_true, decide_eq_true_eq, or_assoc]
  omega

/-- The number of set bits below `w` of a word with bits set exactly at three columns
below `w` is the number of distinct columns. -/
theorem popcount_bits_three_bits (w a b c : Nat) (ha : a < w) (hb : b < w) (hc : c < w) :
    popcount_bits w (0 ||| 2 ^ a ||| 2 ^ b ||| 2 ^ c) = ({a, b, c} : Finset Nat).card := by
  rw [popcount_bits_eq_card]
  congr 1
  ext j
  simp only [Finset.mem_filter, Finset.mem_range, testBit_three_bits, Finset.mem_insert,
    Finset.mem_singleton]
  constructor
  · exact fun h => h.2
  · intro h
    refine ⟨?_, h⟩
    rcases h with h | h | h <;> omega

theorem column_lt (params : linear_params_t) (w row term : Nat) (hw : 0 < w) :
    column params w row term < w := Nat.mod_lt _ hw

theorem matrix_row_32_eq (params : linear_params_t) (row : Nat) :
    matrix_row_32 params row = 0 ||| 2 ^ column params 32 row 0 |||
      2 ^ column params 32 row 1 ||| 2 ^ column params 32 row 2 := by
  have h := fun t => shl32_one _ (column_lt params 32 row t (by decide))
  simp only [column] at h
  simp only [matrix_row_32, column, List.range, List.range.loop, List.foldl_cons,
    List.foldl_nil, h]

theorem matrix_row_40_eq (params : linear_params_t) (row : Nat) :
    matrix_row_40 params row = 0 ||| 2 ^ column params 40 row 0 |||
      2 ^ column params 40 row 1 ||| 2 ^ column params 40 row 2 := by
  have h := fun t => shl64_one _
    (lt_trans (column_lt params 40 row t (by decide)) (by decide : 40 < 64))
  simp only [column] at h
  simp only [matrix_row_40, column, List.range, List.range.loop, List.foldl_cons,
    List.foldl_nil, h]

theorem matrix_row_64_eq (params : linear_params_t) (row : Nat) :
    matrix_row_64 params row = 0 ||| 2 ^ column params 64 row 0 |||
      2 ^ column params 64 row 1 ||| 2 ^ column params 64 row 2 := by
  have h := fun t => shl64_one _ (column_lt params 64 row t (by decide))
  simp only [column] at h
  simp only [matrix_row_64, column, List.range, List.range.loop, List.foldl_cons,
    List.foldl_nil, h]

theorem row_128_step_testBit (r : uint128_t) (c j : Nat) (hc : c < 128) :
    (((row_128_step r c).lo.testBit j = true) ↔ (r.lo.testBit j = true ∨ (j < 64 ∧ j = c))) ∧
    (((row_128_step r c).hi.testBit j = true) ↔ (r.hi.testBit j = true ∨ j + 64 = c)) := by
  by_cases a : c < 64
  · simp only [row_128_step, if_pos a, shl64_one c a, Nat.testBit_or, Nat.testBit_two_pow,
      Bool.or_eq_true, decide_eq_true_eq]
    constructor
    · by_cases hb : r.lo.testBit j = true <;> simp [hb]
      omega
    · by_cases hb : r.hi.testBit j = true <;> simp [hb]
      omega
  · simp only [row_128_step, if_neg a, shl64_one (c - 64) (by omega), Nat.testBit_or,
      Nat.testBit_two_pow, Bool.or_eq_true, decide_eq_true_eq]
    constructor
    · by_cases hb : r.lo.testBit j = true <;> simp [hb]
      omega
    · by_cases hb : r.hi.testBit j = true <;> simp [hb]
      omega

theorem matrix_row_128_eq (params : linear_params_t) (row : Nat) :
    matrix_row_128 params row =
      row_128_step (row_128_step (row_128_step ⟨0, 0⟩ (column params 128 row 0))
        (column params 128 row 1)) (column params 128 row 2) := rfl

theorem matrix_row_128_testBit (params : linear_params_t) (row j : Nat) :
    (((matrix_row_128 params row).lo.testBit j = true) ↔
      (j < 64 ∧ j ∈ columns params 128 row)) ∧
    (((matrix_row_128 params row).hi.testBit j = true) ↔
      (j + 64 ∈ columns params 128 row)) := by
  have hc := fun t => column_lt params 128 row t (by decide)
  rw [matrix_row_128_eq]
  simp only [columns, Finset.mem_insert, Finset.mem_singleton]
  constructor
  · rw [(row_128_step_testBit _ _ j (hc 2)).1, (row_128_step_testBit _ _ j (hc 1)).1,
      (row_128_step_testBit _ _ j (hc 0)).1]
    simp only [Nat.zero_testBit, Bool.false_eq_true, false_or]
    constructor
    · intro h; rcases h with (h | h) | h
      · exact ⟨h.1, Or.inl h.2⟩
      · exact ⟨h.1, Or.inr (Or.inl h.2)⟩
      · exact ⟨h.1, Or.inr (Or.inr h.2)⟩
    · intro h; rcases h with ⟨h, h' | h' | h'⟩
      · exact Or.inl (Or.inl ⟨h, h'⟩)
      · exact Or.inl (Or.inr ⟨h, h'⟩)
      · exact Or.inr ⟨h, h'⟩
  · rw [(row_128_step_testBit _ _ j (hc 2)).2, (row_128_step_testBit _ _ j (hc 1)).2,
      (row_128_step_testBit _ _ j (hc 0)).2]
    simp only [Nat.zero_testBit, Bool.false_eq_true, false_or, or_assoc]

/-- The weight of a 128-bit row is the number of distinct columns. -/
theorem matrix_row_128_weight (params : linear_params_t) (row : Nat) :
    popcount_bits 64 (matrix_row_128 params row).lo +
      popcount_bits 64 (matrix_row_128 params row).hi = (columns params 128 row).card := by
  have hlt : ∀ c, c ∈ columns params 128 row → c < 128 := by
    intro c hc
    simp only [columns, Finset.mem_insert, Finset.mem_singleton] at hc
    rcases hc with h | h | h <;> rw [h] <;> exact column_lt params 128 row _ (by decide)
  rw [popcount_bits_eq_card, popcount_bits_eq_card]
  have elo : (Finset.range 64).filter (fun j => (matrix_row_128 params row).lo.testBit j = true)
      = (columns params 128 row).filter (fun c => c < 64) := by
    ext j
    simp only [Finset.mem_filter, Finset.mem_range, (matrix_row_128_testBit params row j).1]
    constructor
    · exact fun h => ⟨h.2.2, h.1⟩
    · exact fun h => ⟨h.2, h.2, h.1⟩
  have ehi : ((Finset.range 64).filter
      (fun j => (matrix_row_128 params row).hi.testBit j = true)).image (fun j => j + 64)
      = (columns params 128 row).filter (fun c => ¬ c < 64) := by
    ext c
    simp only [Finset.mem_image, Finset.mem_filter, Finset.mem_range,
      (matrix_row_128_testBit params row _).2]
    constructor
    · rintro ⟨j, ⟨_, hj⟩, rfl⟩
      exact ⟨hj, by omega⟩
    · intro h
      have := hlt c h.1
      exact ⟨c - 64, ⟨by omega, by rw [Nat.sub_add_cancel (by omega)]; exact h.1⟩,
        Nat.sub_add_cancel (by omega)⟩
  have hcard := Finset.card_image_of_injective ((Finset.range 64).filter
    (fun j => (matrix_row_128 params row).hi.testBit j = true)) (add_left_injective 64)
  rw [elo, ← hcard, ehi]
  exact Finset.filter_card_add_filter_neg_card_eq_card _

theorem columns_card (params : linear_params_t) (w row : Nat) :
    ((column params w row 0 ≠ column params w row 1 ∧
        column params w row 0 ≠ column params w row 2 ∧
        column params w row 1 ≠ column params w row 2) →
      (columns params w row).card = 3) ∧
    (¬ (column params w row 0 ≠ column params w row 1 ∧
        column params w row 0 ≠ column params w row 2 ∧
        column params w row 1 ≠ column params w row 2) →
      (columns params w row).card = 1 ∨ (columns params w row).card = 2) := by
  unfold columns
  generalize column params w row 0 = a
  generalize column params w row 1 = b
  generalize column params w row 2 = c
  by_cases hab : a = b <;> by_cases hac : a = c <;> by_cases hbc : b = c <;>
    simp [hab, hac, hbc, Finset.card_insert_of_not_mem]

/-! ## The original implementation computes the same function -/

theorem chi_eq_chi_transform (x w : Nat) (h : w < 64) :
    chi (x &&& (2 ^ w - 1)) (2 ^ w - 1) w =
      chi_transform (x &&& (2 ^ w - 1)) (2 ^ w - 1) w := by
  simp only [chi, chi_transform, rotr64, rotr64_mask_eq w h, Nat.and_assoc, Nat.and_self]

theorem chichi_eq_chichi_transform (x m : Nat) (h3 : 1 ≤ m) (h : m + 1 < 64) :
    chichi x (2 ^ (m - 1) - 1) (2 ^ (m + 1) - 1) m =
      chichi_transform x (2 ^ (m - 1) - 1) (2 ^ (m + 1) - 1) m := by
  simp only [chichi, chichi_transform, chi_eq_chi_transform _ (m - 1) (by omega),
    chi_eq_chi_transform _ (m + 1) h]

theorem chichi_16_eq (x : Nat) :
    chichi x MASK15 MASK17 16 = chichi_transform x BITMASK_15 BITMASK_17 16 :=
  chichi_eq_chichi_transform x 16 (by decide) (by decide)

theorem chichi_20_eq (x : Nat) :
    chichi x MASK19 MASK21 20 = chichi_transform x BITMASK_19 BITMASK_21 20 :=
  chichi_eq_chichi_transform x 20 (by decide) (by decide)

theorem chichi_32_eq (x : Nat) :
    chichi x MASK31 MASK33 32 = chichi_transform x BITMASK_31 BITMASK_33 32 :=
  chichi_eq_chichi_transform x 32 (by decide) (by decide)

theorem chichi128_eq (x : U128) :
    (chichi128 x).toUint128 = chichi_transform_128 x.toUint128 := by
  have h63 : chi (x.low &&& MASK63) MASK63 63 = chi_transform (x.low &&& MASK63) MASK63 63 :=
    chi_eq_chi_transform x.low 63 (by decide)
  simp only [chichi128, chichi_transform_128, rotate65, Nat.reduceSub, h63, U128.toUint128]
  rfl

theorem linearLayer32_eq (x : Nat) (M : Nat → Nat) :
    linearLayer32 x M = apply_linear_32 x M := by
  simp only [linearLayer32, apply_linear_32, builtin_parity, Nat.and_one_is_mod]

theorem linearLayer40_eq (x : Nat) (M : Nat → Nat) :
    linearLayer40 x M = apply_linear_40 x M := by
  simp only [linearLayer40, apply_linear_40, builtin_parityl, Nat.and_one_is_mod,
    Nat.and_assoc]
  rfl

theorem linearLayer64_eq (x : Nat) (M : Nat → Nat) :
    linearLayer64 x M = apply_linear_64 x M := by
  simp only [linearLayer64, apply_linear_64, builtin_parityl, Nat.and_one_is_mod]

theorem parityl_xor_and_one (a b : Nat) :
    (builtin_parityl a ^^^ builtin_parityl b) &&& 0x01 =
      (popcount64 a ^^^ popcount64 b) &&& 1 := by
  simp only [builtin_parityl, ← Nat.and_one_is_mod, Nat.and_xor_distrib_right, Nat.and_assoc,
    Nat.and_self]

theorem foldl_low_hom (f : Nat → Nat) :
    ∀ (l : List Nat) (y : U128),
      (l.foldl (fun (y : U128) i => { y with low := y.low ||| f i }) y).toUint128 =
        l.foldl (fun (o : uint128_t) i => { o with lo := o.lo ||| f i }) y.toUint128 := by
  intro l
  induction l with
  | nil => intro y; rfl
  | cons b l ih => intro y; rw [List.foldl_cons, List.foldl_cons, ih]; rfl

theorem foldl_high_hom (f : Nat → Nat) :
    ∀ (l : List Nat) (y : U128),
      (l.foldl (fun (y : U128) i => { y with high := y.high ||| f i }) y).toUint128 =
        l.foldl (fun (o : uint128_t) i => { o with hi := o.hi ||| f i }) y.toUint128 := by
  intro l
  induction l with
  | nil => intro y; rfl
  | cons b l ih => intro y; rw [List.foldl_cons, List.foldl_cons, ih]; rfl

theorem linearLayer128_eq (x : U128) (M : Nat → U128) :
    (linearLayer128 x M).toUint128 =
      apply_linear_128 x.toUint128 (fun i => (M i).toUint128) := by
  simp only [linearLayer128, apply_linear_128, parityl_xor_and_one]
  rw [foldl_high_hom, foldl_low_hom]
  rfl

theorem generateMatrix32_eq (M : Nat → Nat) (alpha beta : Nat → Nat) :
    generateMatrix32 M alpha beta =
      fun i => if i < 32 then generateMatrix32_row alpha beta i else M i :=
  foldl_store_range (generateMatrix32_row alpha beta) M 32

theorem generateMatrix40_eq (M : Nat → Nat) (alpha beta : Nat → Nat) :
    generateMatrix40 M alpha beta =
      fun i => if i < 40 then generateMatrix64_row 40 alpha beta i else M i :=
  foldl_store_range (generateMatrix64_row 40 alpha beta) M 40

theorem generateMatrix64_eq (M : Nat → Nat) (alpha beta : Nat → Nat) :
    generateMatrix64 M alpha beta =
      fun i => if i < 64 then generateMatrix64_row 64 alpha beta i else M i :=
  foldl_store_range (generateMatrix64_row 64 alpha beta) M 64

theorem generateMatrix128_eq (M : Nat → U128) (alpha beta : Nat → Nat) :
    generateMatrix128 M alpha beta =
      fun i => if i < 128 then generateMatrix128_row alpha beta i else M i :=
  foldl_store_range (generateMatrix128_row alpha beta) M 128

set_option maxRecDepth 100000 in
/-- With the parameters of `kiki.c`, the rows built by `setLinearLayer` are the rows built
by `chilow_init`. -/
theorem setLinearLayer_rows :
    (∀ i, i < 32 → generateMatrix32_row alphaState betaState i
        = matrix_row_32 state_params i) ∧
    (∀ i, i < 32 → generateMatrix32_row alphaPrf betaPrf i = matrix_row_32 prf_params i) ∧
    (∀ i, i < 40 → generateMatrix64_row 40 alphaState40 betaState40 i
        = matrix_row_40 state40_params i) ∧
    (∀ i, i < 64 → generateMatrix64_row 64 alphaTweak betaTweak i
        = matrix_row_64 tweak_params i) ∧
    (∀ i, i < 128 → (generateMatrix128_row alphaKey betaKey i).toUint128
        = matrix_row_128 key_params i) := by
  decide!

theorem same_rows_setLinearLayer (k : KikiMatrices) (g : Matrices) :
    same_rows (setLinearLayer k).toMatrices (chilow_init g) := by
  obtain ⟨h1, h2, h3, h4, h5⟩ := setLinearLayer_rows
  rw [chilow_init_eq]
  simp only [setLinearLayer, KikiMatrices.toMatrices, generated_matrices,
    generateMatrix32_eq, generateMatrix40_eq, generateMatrix64_eq, generateMatrix128_eq]
  refine ⟨fun i hi => ?_, fun i hi => ?_, fun i hi => ?_, fun i hi => ?_, fun i hi => ?_⟩
  · simp only [if_pos hi, h1 i hi]
  · simp only [if_pos hi, h2 i hi]
  · simp only [if_pos hi, h3 i hi]
  · simp only [if_pos hi, h4 i hi]
  · simp only [if_pos hi, h5 i hi]

theorem for_rounds_sim {σ τ : Type} (f : σ → τ) (body1 : Nat → σ → Option σ)
    (body2 : Nat → τ → Option τ) (h : ∀ r s, (body1 r s).map f = body2 r (f s)) :
    ∀ (count round : Nat) (s : σ),
      (for_rounds body1 count round s).map f = for_rounds body2 count round (f s) := by
  intro count
  induction count with
  | zero => intro round s; rfl
  | succ n ih =>
    intro round s
    simp only [for_rounds, ← h round s]
    cases body1 round s with
    | none => rfl
    | some s1 => simp only [Option.some_bind, Option.map_some', ih]

theorem linearLayer128_low (x : U128) (M : Nat → U128) :
    (linearLayer128 x M).low =
      (apply_linear_128 x.toUint128 (fun i => (M i).toUint128)).lo :=
  congrArg uint128_t.lo (linearLayer128_eq x M)

theorem decryption_round_sim (k : KikiMatrices) (r : Nat) (s : KikiState) :
    (decryption_round k r s).map KikiState.toState32 =
      main_round_32 k.toMatrices r s.toState32 := by
  have hrc : RC = ROUND_CONSTANTS := rfl
  have hm : MASK32 = BITMASK_32 := rfl
  simp only [decryption_round, main_round_32, Option.map_map, hrc, hm]
  congr 1
  funext rc
  simp only [Function.comp, KikiState.toState32, KikiMatrices.toMatrices, chichi_16_eq,
    chichi_32_eq, linearLayer32_eq, linearLayer64_eq, linearLayer128_eq, linearLayer128_low,
    chichi128_eq]
  simp only [U128.toUint128]

theorem decryption40_round_sim (k : KikiMatrices) (r : Nat) (s : KikiState40) :
    (decryption40_round k r s).map KikiState40.toState40 =
      main_round_40 k.toMatrices r s.toState40 := by
  have hrc : RC40 = ROUND_CONSTANTS_40 := rfl
  have hm : MASK40 = BITMASK_40 := rfl
  simp only [decryption40_round, main_round_40, Option.map_map, hrc, hm]
  congr 1
  funext rc
  simp only [Function.comp, KikiState40.toState40, KikiMatrices.toMatrices, chichi_20_eq,
    chichi_32_eq, linearLayer40_eq, linearLayer64_eq, linearLayer128_eq, linearLayer128_low,
    chichi128_eq]
  simp only [U128.toUint128]

theorem chilow_decrypt_32_reduced_congr (g h : Matrices) (hs : same_rows g h) (C T : Nat)
    (K : uint128_t) (R : Int) :
    chilow_decrypt_32_reduced g C T K R = chilow_decrypt_32_reduced h C T K R := by
  simp only [chilow_decrypt_32_reduced, main_round_32_congr g h hs,
    apply_linear_64_congr _ _ _ hs.2.2.2.1]

theorem chilow_decrypt_40_reduced_congr (g h : Matrices) (hs : same_rows g h) (C T : Nat)
    (K : uint128_t) (R : Int) :
    chilow_decrypt_40_reduced g C T K R = chilow_decrypt_40_reduced h C T K R := by
  simp only [chilow_decrypt_40_reduced, main_round_40_congr g h hs,
    apply_linear_64_congr _ _ _ hs.2.2.2.1]

/-- `decryption` of `kiki.c` is `chilow_decrypt_32_reduced` on the same matrices, for at
least one round. -/
theorem decryption_eq_reduced (k : KikiMatrices) (C T : Nat) (K : U128) (R : Int)
    (h1 : 1 ≤ R) :
    decryption k C T K R = chilow_decrypt_32_reduced k.toMatrices C T K.toUint128 R := by
  have hpos : R > 0 := by omega
  have hm : MASK32 = BITMASK_32 := rfl
  have hsim := for_rounds_sim KikiState.toState32 (decryption_round k)
    (main_round_32 k.toMatrices) (decryption_round_sim k) (R - 1).toNat 0
    ⟨u32 (C ^^^ (K.high &&& MASK32)), u32 (C ^^^ ((K.high >>> 32) &&& MASK32)),
      T ^^^ K.low, K⟩
  have hw : KikiState.toState32 ⟨u32 (C ^^^ (K.high &&& MASK32)),
      u32 (C ^^^ ((K.high >>> 32) &&& MASK32)), T ^^^ K.low, K⟩ =
      whitening_32 C T K.toUint128 := by
    simp only [KikiState.toState32, whitening_32, U128.toUint128, hm]
  rw [hw] at hsim
  rw [chilow_decrypt_32_reduced, ← hsim, Option.map_map, decryption]
  refine congrArg (fun f => Option.map f _) (funext fun s => ?_)
  simp only [Function.comp, if_pos hpos, KikiState.toState32, KikiMatrices.toMatrices,
    chichi_16_eq, linearLayer64_eq, pack_32, hm]

/-- `decryption40` of `kiki.c` is `chilow_decrypt_40_reduced` on the same matrices, for at
least one round. -/
theorem decryption40_eq_reduced (k : KikiMatrices) (C T : Nat) (K : U128) (R : Int)
    (h1 : 1 ≤ R) :
    decryption40 k C T K R = chilow_decrypt_40_reduced k.toMatrices C T K.toUint128 R := by
  have hpos : R > 0 := by omega
  have hm : MASK40 = BITMASK_40 := rfl
  have hsim := for_rounds_sim KikiState40.toState40 (decryption40_round k)
    (main_round_40 k.toMatrices) (decryption40_round_sim k) (R - 1).toNat 0
    ⟨C ^^^ (K.high &&& MASK40), T ^^^ K.low, K⟩
  have hw : KikiState40.toState40 ⟨C ^^^ (K.high &&& MASK40), T ^^^ K.low, K⟩ =
      whitening_40 C T K.toUint128 := by
    simp only [KikiState40.toState40, whitening_40, U128.toUint128, hm]
  rw [hw] at hsim
  rw [chilow_decrypt_40_reduced, ← hsim, Option.map_map, decryption40]
  refine congrArg (fun f => Option.map f _) (funext fun s => ?_)
  simp only [Function.comp, if_pos hpos, KikiState40.toState40, KikiMatrices.toMatrices,
    chichi_20_eq, linearLayer64_eq, hm]

/-- C12: the original implementation agrees with the independent one on the 32+tau
variant.  For every ciphertext, tweak, key and round count `R` in 1..8, `decryption` of
`kiki.c`, run on the matrices built by `setLinearLayer` (from any previous contents, printing
left out), returns a value, and `chilow_reduced_round_32bit`, run after `chilow_init`,
returns the same value for the key words `K.high`, `K.low`. -/
theorem C12_original_agrees_32 (k : KikiMatrices) (g : Matrices) (C T : Nat) (K : U128)
    (R : Int) (h1 : 1 ≤ R) (h8 : R ≤ 8) :
    ∃ v, decryption (setLinearLayer k) C T K R = some v ∧
      chilow_reduced_round_32bit (chilow_init g) C T K.high K.low R = some v := by
  obtain ⟨v, hv⟩ := chilow_decrypt_32_reduced_total (chilow_init g) C T ⟨K.low, K.high⟩ R
    (by omega)
  refine ⟨v, ?_, hv⟩
  rw [decryption_eq_reduced _ C T K R h1,
    chilow_decrypt_32_reduced_congr _ _ (same_rows_setLinearLayer k g)]
  exact hv

/-- C12 at the published 32+tau vector and `R = 3`. -/
theorem C12_original_agrees_32_witness :
    ∃ v, decryption (setLinearLayer ⟨fun _ => 0, fun _ => 0, fun _ => 0, fun _ => 0,
          fun _ => ⟨0, 0⟩⟩) 0x01234567 0x0011223344556677
          ⟨0xFEDCBA9876543210, 0x7766554433221100⟩ 3 = some v ∧
      chilow_reduced_round_32bit (chilow_init zero_matrices) 0x01234567 0x0011223344556677
          (U128.mk 0xFEDCBA9876543210 0x7766554433221100).high
          (U128.mk 0xFEDCBA9876543210 0x7766554433221100).low 3 = some v :=
  C12_original_agrees_32 ⟨fun _ => 0, fun _ => 0, fun _ => 0, fun _ => 0, fun _ => ⟨0, 0⟩⟩
    zero_matrices 0x01234567 0x0011223344556677 ⟨0xFEDCBA9876543210, 0x7766554433221100⟩ 3
    (by decide) (by decide)

/-- C13: the original implementation agrees with the independent one on the 40-bit
variant.  For every ciphertext argument, tweak, key and round count `R` in 1..8,
`decryption40` of `kiki.c`, run on the matrices built by `setLinearLayer` (from any previous
contents, printing left out), returns a value, and `chilow_reduced_round_40bit`, run after
`chilow_init`, returns the same value for the key words `K.high`, `K.low`. -/
theorem C13_original_agrees_40 (k : KikiMatrices) (g : Matrices) (C T : Nat) (K : U128)
    (R : Int) (h1 : 1 ≤ R) (h8 : R ≤ 8) :
    ∃ v, decryption40 (setLinearLayer k) C T K R = some v ∧
      chilow_reduced_round_40bit (chilow_init g) C T K.high K.low R = some v := by
  obtain ⟨v, hv⟩ := chilow_decrypt_40_reduced_total (chilow_init g) C T ⟨K.low, K.high⟩ R
    (by omega)
  refine ⟨v, ?_, hv⟩
  rw [decryption40_eq_reduced _ C T K R h1,
    chilow_decrypt_40_reduced_congr _ _ (same_rows_setLinearLayer k g)]
  exact hv

/-- C13 at the published 40-bit vector and `R = 3`. -/
theorem C13_original_agrees_40_witness :
    ∃ v, decryption40 (setLinearLayer ⟨fun _ => 0, fun _ => 0, fun _ => 0, fun _ => 0,
          fun _ => ⟨0, 0⟩⟩) 0x317C83E4A7 0x0011223344556677
          ⟨0xFEDCBA9876543210, 0x7766554433221100⟩ 3 = some v ∧
      chilow_reduced_round_40bit (chilow_init zero_matrices) 0x317C83E4A7 0x0011223344556677
          (U128.mk 0xFEDCBA9876543210 0x7766554433221100).high
          (U128.mk 0xFEDCBA9876543210 0x7766554433221100).low 3 = some v :=
  C13_original_agrees_40 ⟨fun _ => 0, fun _ => 0, fun _ => 0, fun _ => 0, fun _ => ⟨0, 0⟩⟩
    zero_matrices 0x317C83E4A7 0x0011223344556677 ⟨0xFEDCBA9876543210, 0x7766554433221100⟩ 3
    (by decide) (by decide)

/-! ## Bit-level form of the rotation and of chi -/

theorem testBit_u64 (x i : Nat) : (u64 x).testBit i = (decide (i < 64) && x.testBit i) :=
  Nat.testBit_mod_two_pow x 64 i

theorem testBit_shl64 (x k i : Nat) :
    (shl64 x k).testBit i = (decide (i < 64) && (decide (k ≤ i) && x.testBit (i - k))) := by
  rw [shl64, testBit_u64, Nat.testBit_shiftLeft]

theorem testBit_not64 (x i : Nat) :
    (not64 x).testBit i = (decide (i < 64) && !x.testBit i) := by
  have h : (0xFFFFFFFFFFFFFFFF : Nat) = 2 ^ 64 - 1 := by decide
  rw [not64, Nat.testBit_xor, testBit_u64, h, Nat.testBit_two_pow_sub_one]
  by_cases hi : i < 64 <;> simp [hi]

/-- `rotr64` is a right rotation of the low `w` bits. -/
theorem rotr64_testBit (x s w i : Nat) (hw : w < 64) (hs : s ≤ w) :
    (rotr64 x s w).testBit i = (decide (i < w) && x.testBit ((i + s) % w)) := by
  simp only [rotr64, rotr64_mask_eq w hw, Nat.testBit_and, Nat.testBit_or,
    Nat.testBit_shiftRight, testBit_shl64, Nat.testBit_two_pow_sub_one]
  by_cases hi : i < w
  · have hi64 : i < 64 := by omega
    by_cases h1 : s + i < w
    · have e : (i + s) % w = s + i := by rw [Nat.add_comm]; exact Nat.mod_eq_of_lt h1
      have h2 : ¬ (w - s ≤ i) := by omega
      simp [hi, h1, h2, e]
    · have e : (i + s) % w = i - (w - s) := by
        rw [Nat.mod_eq_sub_mod (by omega), Nat.mod_eq_of_lt (by omega)]
        omega
      have h2 : w - s ≤ i := by omega
      have h3 : i - (w - s) < w := by omega
      simp [hi, hi64, h1, h2, h3, e]
  · simp [hi]

/-- Bit `i` of the chi output on the ring of width `w`. -/
theorem chi_transform_testBit (x w i : Nat) (hw : w < 64) (h2 : 2 ≤ w) :
    (chi_transform x (2 ^ w - 1) w).testBit i =
      (decide (i < w) &&
        xor (x.testBit i) (!x.testBit ((i + 1) % w) && x.testBit ((i + 2) % w))) := by
  simp only [chi_transform, Nat.testBit_and, Nat.testBit_xor, testBit_not64,
    rotr64_testBit x 1 w _ hw (by omega), rotr64_testBit x 2 w _ hw h2,
    Nat.testBit_two_pow_sub_one]
  by_cases hi : i < w
  · have hi64 : i < 64 := by omega
    simp [hi, hi64]
  · simp [hi]

theorem rotr_wide_testBit (x s w i : Nat) (hs : s ≤ w) :
    (rotr_wide x s w).testBit i = (decide (i < w) && x.testBit ((i + s) % w)) := by
  simp only [rotr_wide, Nat.testBit_or, Nat.testBit_shiftRight, Nat.testBit_shiftLeft,
    Nat.testBit_mod_two_pow]
  by_cases hi : i < w
  · by_cases h1 : s + i < w
    · have e : (i + s) % w = s + i := by rw [Nat.add_comm]; exact Nat.mod_eq_of_lt h1
      have h2 : ¬ (i ≥ w - s) := by omega
      simp [hi, h1, h2, e]
    · have e : (i + s) % w = i - (w - s) := by
        rw [Nat.mod_eq_sub_mod (by omega), Nat.mod_eq_of_lt (by omega)]
        omega
      have h2 : i ≥ w - s := by omega
      have h3 : i - (w - s) < w := by omega
      simp [hi, h1, h2, h3, e]
  · have h1 : ¬ s + i < w := by omega
    simp [hi, h1]

theorem chi_wide_testBit (x w i : Nat) (h2 : 2 ≤ w) :
    (chi_wide x w).testBit i =
      (decide (i < w) &&
        xor (x.testBit i) (!x.testBit ((i + 1) % w) && x.testBit ((i + 2) % w))) := by
  simp only [chi_wide, Nat.testBit_mod_two_pow, Nat.testBit_and, Nat.testBit_xor,
    rotr_wide_testBit x 1 w _ (by omega), rotr_wide_testBit x 2 w _ h2,
    Nat.testBit_two_pow_sub_one]
  by_cases hi : i < w
  · simp [hi]
  · simp [hi]

/-- On a ring of fewer than 64 bits the code's chi is the chi of the description. -/
theorem chi_transform_eq_chi_wide (x w : Nat) (hw : w < 64) (h2 : 2 ≤ w) :
    chi_transform x (2 ^ w - 1) w = chi_wide x w := by
  apply Nat.eq_of_testBit_eq
  intro i
  rw [chi_transform_testBit x w i hw h2, chi_wide_testBit x w i h2]

theorem bit_at_testBit (b : Bool) (k i : Nat) :
    (bit_at b k).testBit i = (b && decide (k = i)) := by
  cases b <;> simp [bit_at, Nat.testBit_two_pow]

theorem testBit_and_one (x i : Nat) : (x &&& 1).testBit i = (x.testBit 0 && decide (i = 0)) := by
  have h1 : (1 : Nat) = 2 ^ 1 - 1 := by decide
  rw [Nat.testBit_and, h1, Nat.testBit_two_pow_sub_one]
  by_cases hi : i = 0
  · subst hi; simp
  · have : ¬ i < 1 := by omega
    simp [hi, this]

theorem testBit_one_eq (i : Nat) : Nat.testBit 1 i = decide (i = 0) := by
  cases i with
  | zero => rfl
  | succ n =>
    rw [Nat.testBit_succ]
    simp

set_option maxHeartbeats 2000000 in
theorem chichi_128_bits (lo hi i : Nat) (hlo : lo < 2 ^ 64) (hhi : hi < 2 ^ 64) :
    (((chichi_transform_128 ⟨lo, hi⟩).hi <<< 64) |||
        (chichi_transform_128 ⟨lo, hi⟩).lo).testBit i =
      (chichi_wide ((hi <<< 64) ||| lo) 64).testBit i := by
  have h63 : BITMASK_63 = 2 ^ 63 - 1 := by decide
  have hl : ∀ k, 64 ≤ k → lo.testBit k = false := fun k hk =>
    Nat.testBit_eq_false_of_lt (lt_of_lt_of_le hlo (Nat.pow_le_pow_right (by decide) hk))
  have hh : ∀ k, 64 ≤ k → hi.testBit k = false := fun k hk =>
    Nat.testBit_eq_false_of_lt (lt_of_lt_of_le hhi (Nat.pow_le_pow_right (by decide) hk))
  simp only [chichi_transform_128, chichi_wide, correction_wide, h63,
    Nat.testBit_or, Nat.testBit_xor, Nat.testBit_and, Nat.testBit_shiftLeft,
    Nat.testBit_shiftRight, testBit_shl64, testBit_not64, bit_at_testBit,
    Nat.testBit_mod_two_pow, Nat.testBit_two_pow_sub_one, Nat.zero_testBit, testBit_one_eq,
    chi_transform_testBit _ 63 _ (by decide) (by decide),
    chi_wide_testBit _ 63 _ (by decide), chi_wide_testBit _ 65 _ (by decide)]
  rcases Nat.lt_or_ge i 61 with c1 | c1
  · simp (disch := omega) only [decide_eq_true, decide_eq_false, Nat.mod_eq_of_lt, hl, hh,
      Bool.true_and, Bool.false_and, Bool.and_true, Bool.and_false, Bool.or_false,
      Bool.false_or, Bool.not_true, Bool.not_false, Bool.true_or, Bool.or_true,
      Bool.xor_false, Bool.false_xor]
  rcases Nat.lt_or_ge i 65 with c2 | c2
  · have : i = 61 ∨ i = 62 ∨ i = 63 ∨ i = 64 := by omega
    rcases this with rfl | rfl | rfl | rfl <;> simp [hl, hh]
  rcases Nat.lt_or_ge i 125 with c3 | c3
  · obtain ⟨j, rfl⟩ : ∃ j, i = j + 65 := ⟨i - 65, by omega⟩
    have e1 : 1 + (j + 65 - 64) - 1 = j + 1 := by omega
    have e2 : 1 + (1 + (j + 65 - 64)) - 1 = j + 2 := by omega
    have e3 : 1 + (1 + (1 + (j + 65 - 64))) - 1 = j + 3 := by omega
    have f1 : 64 - 1 + (j + 65 - (64 - 1)) - 64 = j + 1 := by omega
    have f2 : 64 - 1 + (j + 65 - (64 - 1) + 1) - 64 = j + 2 := by omega
    have f3 : 64 - 1 + (j + 65 - (64 - 1) + 2) - 64 = j + 3 := by omega
    simp (disch := omega) only [decide_eq_true, decide_eq_false, Nat.mod_eq_of_lt, hl, hh,
      Bool.true_and, Bool.false_and, Bool.and_true, Bool.and_false, Bool.or_false,
      Bool.false_or, Bool.not_true, Bool.not_false, Bool.true_or, Bool.or_true,
      Bool.xor_false, Bool.false_xor]
    simp (disch := omega) only [e1, e2, e3, f1, f2, f3, decide_eq_true, decide_eq_false,
      Bool.true_and, Bool.false_and, Bool.and_true, Bool.and_false, Bool.or_false,
      Bool.false_or]
  rcases Nat.lt_or_ge i 128 with c4 | c4
  · have : i = 125 ∨ i = 126 ∨ i = 127 := by omega
    rcases this with rfl | rfl | rfl <;> simp [hl, hh]
  · simp (disch := omega) only [decide_eq_true, decide_eq_false, Nat.mod_eq_of_lt, hl, hh,
      Bool.true_and, Bool.false_and, Bool.and_true, Bool.and_false, Bool.or_false,
      Bool.false_or, Bool.not_true, Bool.not_false, Bool.true_or, Bool.or_true,
      Bool.xor_false, Bool.false_xor]

theorem chichi_transform_128_lt (x : uint128_t) :
    (chichi_transform_128 x).lo < 2 ^ 64 ∧ (chichi_transform_128 x).hi < 2 ^ 64 := by
  have h63 : ∀ y, y &&& BITMASK_63 < 2 ^ 64 := fun y =>
    Nat.and_lt_two_pow y (by decide : BITMASK_63 < 2 ^ 64)
  have h1 : ∀ y, y &&& 1 < 2 ^ 64 := fun y => Nat.and_lt_two_pow y (by decide : 1 < 2 ^ 64)
  have h0 : (0 : Nat) < 2 ^ 64 := by decide
  simp only [chichi_transform_128]
  exact ⟨Nat.xor_lt_two_pow (Nat.or_lt_two_pow (h63 _) (shl64_lt _ _))
      (Nat.or_lt_two_pow (Nat.or_lt_two_pow (Nat.or_lt_two_pow h0 (shl64_lt _ _))
        (shl64_lt _ _)) (shl64_lt _ _)),
    Nat.xor_lt_two_pow (Nat.or_lt_two_pow (h63 _) (shl64_lt _ _))
      (Nat.or_lt_two_pow h0 (h1 _))⟩

/-- C20: `chichi_transform_128` is the generic chichi construction at `m = 64`.  For every
128-bit `x = (hi << 64) | lo`, the two words it returns fit in 64 bits each, and the 128-bit
value they encode is `((chi65(x >> 63) << 63) OR chi63(x AND (2^63 − 1))) XOR L`, where
`chi_w` is chi on a ring of `w` bits computed on unbounded integers (`chi_wide`) and `L` is
the 4-bit correction at positions 61, 62, 63, 64 (`correction_wide`: bit 61 is
`x[64]^x[61]`, bit 62 is `x[63]^x[62]`, bit 63 is `x[61]^x[63]^x[64]`, bit 64 is
`x[64]^x[62]`). -/
theorem C20_chichi128_is_generic_chichi (lo hi : Nat) (hlo : lo < 2 ^ 64)
    (hhi : hi < 2 ^ 64) :
    (chichi_transform_128 ⟨lo, hi⟩).lo < 2 ^ 64 ∧
    (chichi_transform_128 ⟨lo, hi⟩).hi < 2 ^ 64 ∧
    ((chichi_transform_128 ⟨lo, hi⟩).hi <<< 64) ||| (chichi_transform_128 ⟨lo, hi⟩).lo =
      ((chi_wide (((hi <<< 64) ||| lo) >>> 63) 65 <<< 63) |||
          chi_wide (((hi <<< 64) ||| lo) &&& (2 ^ 63 - 1)) 63) ^^^
        correction_wide ((hi <<< 64) ||| lo) 64 := by
  refine ⟨(chichi_transform_128_lt _).1, (chichi_transform_128_lt _).2, ?_⟩
  have h := Nat.eq_of_testBit_eq (fun i => chichi_128_bits lo hi i hlo hhi)
  rw [h, chichi_wide, Nat.and_pow_two_sub_one_eq_mod]

/-- C20 at the key of the published test vectors. -/
theorem C20_chichi128_is_generic_chichi_witness :
    (chichi_transform_128 ⟨0x7766554433221100, 0xFEDCBA9876543210⟩).lo < 2 ^ 64 ∧
    (chichi_transform_128 ⟨0x7766554433221100, 0xFEDCBA9876543210⟩).hi < 2 ^ 64 ∧
    ((chichi_transform_128 ⟨0x7766554433221100, 0xFEDCBA9876543210⟩).hi <<< 64) |||
        (chichi_transform_128 ⟨0x7766554433221100, 0xFEDCBA9876543210⟩).lo =
      ((chi_wide (((0xFEDCBA9876543210 <<< 64) ||| 0x7766554433221100) >>> 63) 65 <<< 63) |||
          chi_wide (((0xFEDCBA9876543210 <<< 64) ||| 0x7766554433221100) &&& (2 ^ 63 - 1))
            63) ^^^
        correction_wide ((0xFEDCBA9876543210 <<< 64) ||| 0x7766554433221100) 64 :=
  C20_chichi128_is_generic_chichi 0x7766554433221100 0xFEDCBA9876543210
    (by decide) (by decide)

/-! ## Derivatives of word functions: soundness of the masks -/

theorem within_refl (v : Nat) : within v v := fun _ h => h

theorem within_zero (m : Nat) : within 0 m := fun i h => by simp at h

theorem eq_zero_of_within_zero (v : Nat) (h : within v 0) : v = 0 := by
  apply Nat.eq_of_testBit_eq
  intro i
  rw [Nat.zero_testBit]
  cases hv : v.testBit i
  · rfl
  · have := h i hv
    simp at this

theorem within_xor (v w a b : Nat) (hv : within v a) (hw : within w b) :
    within (v ^^^ w) (a ||| b) := by
  intro i h
  rw [Nat.testBit_xor] at h
  rw [Nat.testBit_or]
  cases hvi : v.testBit i
  · rw [hvi] at h
    simp only [Bool.false_xor] at h
    rw [hw i h, Bool.or_true]
  · rw [hv i hvi, Bool.true_or]

theorem within_and (v w a b : Nat) (hv : within v a) (hw : within w b) :
    within (v &&& w) (a &&& b) := by
  intro i h
  rw [Nat.testBit_and, Bool.and_eq_true] at h
  rw [Nat.testBit_and, hv i h.1, hw i h.2, Bool.and_self]

theorem within_and_const (c v m : Nat) (h : within v m) : within (v &&& c) (m &&& c) :=
  within_and v c m c h (within_refl c)

theorem within_and_left (v c : Nat) : within (v &&& c) c := by
  intro i h
  rw [Nat.testBit_and, Bool.and_eq_true] at h
  exact h.2

theorem within_shr (k v m : Nat) (h : within v m) : within (v >>> k) (m >>> k) := by
  intro i hi
  rw [Nat.testBit_shiftRight] at hi ⊢
  exact h _ hi

theorem within_mod (n v m : Nat) (h : within v m) : within (v % 2 ^ n) (m % 2 ^ n) := by
  intro i hi
  rw [Nat.testBit_mod_two_pow, Bool.and_eq_true] at hi
  rw [Nat.testBit_mod_two_pow, hi.1, h i hi.2, Bool.and_self]

theorem within_shl (k v m : Nat) (h : within v m) : within (v <<< k) (m <<< k) := by
  intro i hi
  rw [Nat.testBit_shiftLeft, Bool.and_eq_true] at hi
  rw [Nat.testBit_shiftLeft, hi.1, h _ hi.2, Bool.and_self]

theorem within_shl64 (k v m : Nat) (h : within v m) : within (shl64 v k) (shl64 m k) :=
  within_mod 64 _ _ (within_shl k v m h)

theorem within_u32 (v m : Nat) (h : within v m) : within (u32 v) (u32 m) := within_mod 32 v m h

theorem within_u64 (v m : Nat) (h : within v m) : within (u64 v) (u64 m) := within_mod 64 v m h

theorem xor_mod_two_pow (a b n : Nat) : (a ^^^ b) % 2 ^ n = a % 2 ^ n ^^^ b % 2 ^ n := by
  apply Nat.eq_of_testBit_eq
  intro i
  simp only [Nat.testBit_mod_two_pow, Nat.testBit_xor]
  cases decide (i < n) <;> simp

theorem xor_shr (a b k : Nat) : (a ^^^ b) >>> k = a >>> k ^^^ b >>> k := by
  apply Nat.eq_of_testBit_eq
  intro i
  simp only [Nat.testBit_shiftRight, Nat.testBit_xor]

theorem xor_shl (a b k : Nat) : (a ^^^ b) <<< k = a <<< k ^^^ b <<< k := by
  apply Nat.eq_of_testBit_eq
  intro i
  simp only [Nat.testBit_shiftLeft, Nat.testBit_xor]
  cases decide (k ≤ i) <;> simp

theorem xor_shl64 (a b k : Nat) : shl64 (a ^^^ b) k = shl64 a k ^^^ shl64 b k := by
  rw [shl64, shl64, shl64, u64, u64, u64, xor_shl, xor_mod_two_pow]

theorem xor_and_const (a b c : Nat) : (a ^^^ b) &&& c = a &&& c ^^^ b &&& c := by
  apply Nat.eq_of_testBit_eq
  intro i
  simp only [Nat.testBit_and, Nat.testBit_xor]
  cases c.testBit i <;> simp

/-- The derivative of a product. -/
theorem and_diff (f g f1 g1 : Nat) :
    f &&& g ^^^ f1 &&& g1 =
      (f ^^^ f1) &&& g ^^^ f &&& (g ^^^ g1) ^^^ (f ^^^ f1) &&& (g ^^^ g1) := by
  apply Nat.eq_of_testBit_eq
  intro i
  simp only [Nat.testBit_and, Nat.testBit_xor]
  cases f.testBit i <;> cases g.testBit i <;> cases f1.testBit i <;> cases g1.testBit i <;> rfl

theorem or_eq_xor_and (a b : Nat) : a ||| b = a ^^^ b ^^^ a &&& b := by
  apply Nat.eq_of_testBit_eq
  intro i
  simp only [Nat.testBit_and, Nat.testBit_xor, Nat.testBit_or]
  cases a.testBit i <;> cases b.testBit i <;> rfl

theorem xor_diff_const (k c : Nat) : xor_diff k (fun _ => c) = fun _ => 0 := by
  funext x
  simp only [xor_diff, Nat.xor_self]

theorem xor_diff_xor (k : Nat) (f g : Nat → Nat) :
    xor_diff k (fun x => f x ^^^ g x) = fun x => xor_diff k f x ^^^ xor_diff k g x := by
  funext x
  simp only [xor_diff]
  ac_rfl

theorem xor_diff_and (k : Nat) (f g : Nat → Nat) :
    xor_diff k (fun x => f x &&& g x) =
      fun x => xor_diff k f x &&& g x ^^^ f x &&& xor_diff k g x ^^^
        xor_diff k f x &&& xor_diff k g x := by
  funext x
  simp only [xor_diff]
  exact and_diff _ _ _ _

theorem xor_diff_map (k : Nat) (op : Nat → Nat) (hom : ∀ a b, op (a ^^^ b) = op a ^^^ op b)
    (f : Nat → Nat) : xor_diff k (fun x => op (f x)) = fun x => op (xor_diff k f x) := by
  funext x
  simp only [xor_diff, hom]

theorem bounded_const (c m : Nat) (h : within c m) :
    ∀ (ks : List Nat) (t : MaskTree) (f : Nat → Nat), bounded ks t f →
      bounded ks (mask_like t m) (fun _ => c) := by
  intro ks
  induction ks generalizing c m with
  | nil =>
    intro t f hf
    cases t with
    | leaf a => exact fun _ => h
    | node a b => exact hf.elim
  | cons k ks ih =>
    intro t f hf
    cases t with
    | leaf a => exact hf.elim
    | node a b =>
      refine ⟨ih c m h a f hf.1, ?_⟩
      rw [xor_diff_const]
      exact ih 0 0 (within_zero 0) b _ hf.2

theorem bounded_xor : ∀ (ks : List Nat) (a b : MaskTree) (f g : Nat → Nat),
    bounded ks a f → bounded ks b g → bounded ks (mask_join a b) (fun x => f x ^^^ g x) := by
  intro ks
  induction ks with
  | nil =>
    intro a b f g hf hg
    cases a with
    | node a0 a1 => exact hf.elim
    | leaf ma =>
      cases b with
      | node b0 b1 => exact hg.elim
      | leaf mb => exact fun x => within_xor _ _ _ _ (hf x) (hg x)
  | cons k ks ih =>
    intro a b f g hf hg
    cases a with
    | leaf ma => exact hf.elim
    | node a0 a1 =>
      cases b with
      | leaf mb => exact hg.elim
      | node b0 b1 =>
        refine ⟨ih a0 b0 f g hf.1 hg.1, ?_⟩
        rw [xor_diff_xor]
        exact ih a1 b1 _ _ hf.2 hg.2

theorem bounded_and : ∀ (ks : List Nat) (a b : MaskTree) (f g : Nat → Nat),
    bounded ks a f → bounded ks b g → bounded ks (mask_meet a b) (fun x => f x &&& g x) := by
  intro ks
  induction ks with
  | nil =>
    intro a b f g hf hg
    cases a with
    | node a0 a1 => exact hf.elim
    | leaf ma =>
      cases b with
      | node b0 b1 => exact hg.elim
      | leaf mb => exact fun x => within_and _ _ _ _ (hf x) (hg x)
  | cons k ks ih =>
    intro a b f g hf hg
    cases a with
    | leaf ma => exact hf.elim
    | node a0 a1 =>
      cases b with
      | leaf mb => exact hg.elim
      | node b0 b1 =>
        refine ⟨ih a0 b0 f g hf.1 hg.1, ?_⟩
        rw [xor_diff_and]
        exact bounded_xor ks _ _ _ _
          (bounded_xor ks _ _ _ _ (ih a1 b0 _ _ hf.2 hg.1) (ih a0 b1 _ _ hf.1 hg.2))
          (ih a1 b1 _ _ hf.2 hg.2)

theorem bounded_or (ks : List Nat) (a b : MaskTree) (f g : Nat → Nat)
    (hf : bounded ks a f) (hg : bounded ks b g) :
    bounded ks (mask_or a b) (fun x => f x ||| g x) := by
  have e : (fun x => f x ||| g x) = fun x => f x ^^^ g x ^^^ f x &&& g x :=
    funext fun x => or_eq_xor_and _ _
  rw [e]
  exact bounded_xor ks _ _ _ _ (bounded_xor ks _ _ _ _ hf hg) (bounded_and ks _ _ _ _ hf hg)

theorem bounded_map (op aop : Nat → Nat) (hom : ∀ a b, op (a ^^^ b) = op a ^^^ op b)
    (snd : ∀ v m, within v m → within (op v) (aop m)) :
    ∀ (ks : List Nat) (t : MaskTree) (f : Nat → Nat), bounded ks t f →
      bounded ks (mask_map aop t) (fun x => op (f x)) := by
  intro ks
  induction ks with
  | nil =>
    intro t f hf
    cases t with
    | node a b => exact hf.elim
    | leaf m => exact fun x => snd _ _ (hf x)
  | cons k ks ih =>
    intro t f hf
    cases t with
    | leaf m => exact hf.elim
    | node a b =>
      refine ⟨ih a f hf.1, ?_⟩
      rw [xor_diff_map k op hom]
      exact ih b _ hf.2

theorem bounded_and_const (c : Nat) (ks : List Nat) (t : MaskTree) (f : Nat → Nat)
    (h : bounded ks t f) : bounded ks (mask_map (fun m => m &&& c) t) (fun x => f x &&& c) :=
  bounded_map (fun v => v &&& c) (fun m => m &&& c) (fun a b => xor_and_const a b c)
    (fun v m => within_and_const c v m) ks t f h

theorem bounded_shr (k : Nat) (ks : List Nat) (t : MaskTree) (f : Nat → Nat)
    (h : bounded ks t f) : bounded ks (mask_map (fun m => m >>> k) t) (fun x => f x >>> k) :=
  bounded_map (fun v => v >>> k) (fun m => m >>> k) (fun a b => xor_shr a b k)
    (fun v m => within_shr k v m) ks t f h

theorem bounded_shl64 (k : Nat) (ks : List Nat) (t : MaskTree) (f : Nat → Nat)
    (h : bounded ks t f) :
    bounded ks (mask_map (fun m => shl64 m k) t) (fun x => shl64 (f x) k) :=
  bounded_map (fun v => shl64 v k) (fun m => shl64 m k) (fun a b => xor_shl64 a b k)
    (fun v m => within_shl64 k v m) ks t f h

theorem bounded_u32 (ks : List Nat) (t : MaskTree) (f : Nat → Nat) (h : bounded ks t f) :
    bounded ks (mask_map u32 t) (fun x => u32 (f x)) :=
  bounded_map u32 u32 (fun a b => xor_mod_two_pow a b 32) within_u32 ks t f h

theorem bounded_u64 (ks : List Nat) (t : MaskTree) (f : Nat → Nat) (h : bounded ks t f) :
    bounded ks (mask_map u64 t) (fun x => u64 (f x)) :=
  bounded_map u64 u64 (fun a b => xor_mod_two_pow a b 64) within_u64 ks t f h

theorem bounded_top : ∀ (ks : List Nat) (t : MaskTree) (f : Nat → Nat), bounded ks t f →
    ∀ x, within (xor_diffs ks f x) (mask_top t) := by
  intro ks
  induction ks with
  | nil =>
    intro t f hf
    cases t with
    | node a b => exact hf.elim
    | leaf m => exact hf
  | cons k ks ih =>
    intro t f hf
    cases t with
    | leaf m => exact hf.elim
    | node a b => exact ih b _ hf.2

theorem bounded_rotr64 (shift width : Nat) (ks : List Nat) (t : MaskTree) (f : Nat → Nat)
    (h : bounded ks t f) :
    bounded ks (mask_rotr64 t shift width) (fun x => rotr64 (f x) shift width) := by
  simp only [mask_rotr64, rotr64]
  exact bounded_and_const _ ks _ _ (bounded_or ks _ _ _ _
    (bounded_shr _ ks _ _ (bounded_and_const _ ks _ _ h))
    (bounded_shl64 _ ks _ _ (bounded_and_const _ ks _ _ h)))

theorem bounded_not64 (ks : List Nat) (t : MaskTree) (f : Nat → Nat) (h : bounded ks t f) :
    bounded ks (mask_not64 t) (fun x => not64 (f x)) := by
  simp only [mask_not64, not64]
  exact bounded_xor ks _ _ _ _ (bounded_u64 ks _ _ h)
    (bounded_const _ _ (within_refl _) ks t f h)

theorem bounded_chi_transform (mask bit_width : Nat) (ks : List Nat) (t : MaskTree)
    (f : Nat → Nat) (h : bounded ks t f) :
    bounded ks (mask_chi_transform t mask bit_width)
      (fun x => chi_transform (f x) mask bit_width) := by
  simp only [mask_chi_transform, chi_transform]
  exact bounded_and_const _ ks _ _ (bounded_xor ks _ _ _ _ h
    (bounded_and ks _ _ _ _
      (bounded_not64 ks _ _ (bounded_and_const _ ks _ _ (bounded_rotr64 _ _ ks _ _ h)))
      (bounded_and_const _ ks _ _ (bounded_rotr64 _ _ ks _ _ h))))

theorem bounded_mix2 (a b pos : Nat) (ks : List Nat) (t : MaskTree) (f : Nat → Nat)
    (h : bounded ks t f) :
    bounded ks (mask_mix2 t a b pos)
      (fun x => shl64 (((f x >>> a) ^^^ (f x >>> b)) &&& 1) pos) := by
  simp only [mask_mix2]
  exact bounded_shl64 _ ks _ _ (bounded_and_const _ ks _ _
    (bounded_xor ks _ _ _ _ (bounded_shr _ ks _ _ h) (bounded_shr _ ks _ _ h)))

theorem bounded_mix3 (a b c pos : Nat) (ks : List Nat) (t : MaskTree) (f : Nat → Nat)
    (h : bounded ks t f) :
    bounded ks (mask_mix3 t a b c pos)
      (fun x => shl64 (((f x >>> a) ^^^ (f x >>> b) ^^^ (f x >>> c)) &&& 1) pos) := by
  simp only [mask_mix3]
  exact bounded_shl64 _ ks _ _ (bounded_and_const _ ks _ _
    (bounded_xor ks _ _ _ _
      (bounded_xor ks _ _ _ _ (bounded_shr _ ks _ _ h) (bounded_shr _ ks _ _ h))
      (bounded_shr _ ks _ _ h)))

theorem bounded_chichi_transform (small_mask large_mask split_pos : Nat) (ks : List Nat)
    (t : MaskTree) (f : Nat → Nat) (h : bounded ks t f) :
    bounded ks (mask_chichi_transform t small_mask large_mask split_pos)
      (fun x => chichi_transform (f x) small_mask large_mask split_pos) := by
  simp only [mask_chichi_transform, chichi_transform]
  exact bounded_xor ks _ _ _ _
    (bounded_or ks _ _ _ _
      (bounded_shl64 _ ks _ _ (bounded_chi_transform _ _ ks _ _
        (bounded_and_const _ ks _ _ (bounded_shr _ ks _ _ h))))
      (bounded_chi_transform _ _ ks _ _ (bounded_and_const _ ks _ _ h)))
    (bounded_or ks _ _ _ _
      (bounded_or ks _ _ _ _
        (bounded_or ks _ _ _ _
          (bounded_or ks _ _ _ _ (bounded_const 0 0 (within_zero 0) ks t f h)
            (bounded_mix2 _ _ _ ks _ _ h))
          (bounded_mix2 _ _ _ ks _ _ h))
        (bounded_mix3 _ _ _ _ ks _ _ h))
      (bounded_mix2 _ _ _ ks _ _ h))

theorem testBit_shl32 (x k i : Nat) :
    (shl32 x k).testBit i = (decide (i < 32) && (decide (k ≤ i) && x.testBit (i - k))) := by
  rw [shl32, u32, Nat.testBit_mod_two_pow, Nat.testBit_shiftLeft]

/-- Bit `i` of a word assembled from one-bit values `p bit` at the positions `bit < n`. -/
theorem foldl_or_shl32_testBit (p : Nat → Nat) (hp : ∀ b, p b < 2) (i : Nat) :
    ∀ n, n ≤ 32 →
      ((List.range n).foldl (fun output bit => output ||| shl32 (p bit) bit) 0).testBit i =
        (decide (i < n) && decide (p i = 1)) := by
  intro n
  induction n with
  | zero => intro _; simp
  | succ n ih =>
    intro hn
    rw [List.range_succ, List.foldl_append, List.foldl_cons, List.foldl_nil, Nat.testBit_or,
      ih (by omega), testBit_shl32]
    have h2 := hp n
    by_cases hin : i < n
    · have h1 : ¬ n ≤ i := by omega
      have h3 : i < n + 1 := by omega
      simp [hin, h1, h3]
    · by_cases hie : i = n
      · subst hie
        have h01 : p i = 0 ∨ p i = 1 := by omega
        rcases h01 with h0 | h1
        · simp [h0]
        · simp [h1]
          omega
      · have h3 : ¬ i < n + 1 := by omega
        have h4 : i - n ≠ 0 := by omega
        have h01 : p n = 0 ∨ p n = 1 := by omega
        rcases h01 with h0 | h1
        · simp [hin, h3, h0]
        · simp [hin, h3, h1, testBit_one_eq, h4]

theorem popcount_bits_xor (x y : Nat) :
    ∀ w, popcount_bits w (x ^^^ y) % 2 = (popcount_bits w x + popcount_bits w y) % 2 := by
  intro w
  induction w with
  | zero => rfl
  | succ k ih =>
    simp only [popcount_bits, shr_and_one_eq, Nat.testBit_xor]
    cases x.testBit k <;> cases y.testBit k <;> simp <;> omega

theorem popcount_bits_zero : ∀ w, popcount_bits w 0 = 0 := by
  intro w
  induction w with
  | zero => rfl
  | succ k ih => simp [popcount_bits, ih]

theorem apply_linear_32_testBit (v : Nat) (matrix : Nat → Nat) (i : Nat) :
    (apply_linear_32 v matrix).testBit i =
      (decide (i < 32) && decide (popcount_bits 32 (matrix i &&& v) % 2 = 1)) := by
  rw [apply_linear_32]
  rw [foldl_or_shl32_testBit (fun bit => popcount32 (matrix bit &&& v) &&& 1)
    (fun b => and_one_lt _) i 32 (Nat.le_refl _)]
  simp only [popcount32_eq_bits, Nat.and_one_is_mod]

theorem mask_linear_32_testBit (m : Nat) (matrix : Nat → Nat) (i : Nat) :
    (mask_linear_32 m matrix).testBit i =
      (decide (i < 32) && decide (matrix i &&& m ≠ 0)) := by
  rw [mask_linear_32]
  rw [foldl_or_shl32_testBit (fun bit => if matrix bit &&& m = 0 then 0 else 1)
    (fun b => by dsimp only; split <;> omega) i 32 (Nat.le_refl _)]
  by_cases h : matrix i &&& m = 0 <;> simp [h]

theorem apply_linear_32_xor (a b : Nat) (matrix : Nat → Nat) :
    apply_linear_32 (a ^^^ b) matrix = apply_linear_32 a matrix ^^^ apply_linear_32 b matrix := by
  apply Nat.eq_of_testBit_eq
  intro i
  rw [Nat.testBit_xor, apply_linear_32_testBit, apply_linear_32_testBit,
    apply_linear_32_testBit, Nat.and_xor_distrib_left]
  have h := popcount_bits_xor (matrix i &&& a) (matrix i &&& b) 32
  by_cases hi : i < 32
  · simp only [hi, decide_True, Bool.true_and]
    have ha := Nat.mod_two_eq_zero_or_one (popcount_bits 32 (matrix i &&& a))
    have hb := Nat.mod_two_eq_zero_or_one (popcount_bits 32 (matrix i &&& b))
    rcases ha with ha | ha <;> rcases hb with hb | hb <;>
      · have hx : popcount_bits 32 (matrix i &&& a ^^^ matrix i &&& b) % 2 = 0 ∨
            popcount_bits 32 (matrix i &&& a ^^^ matrix i &&& b) % 2 = 1 :=
          Nat.mod_two_eq_zero_or_one _
        rcases hx with hx | hx
        · simp [ha, hb, hx] <;> omega
        · simp [ha, hb, hx] <;> omega
  · simp [hi]

theorem within_apply_linear_32 (matrix : Nat → Nat) (v m : Nat) (h : within v m) :
    within (apply_linear_32 v matrix) (mask_linear_32 m matrix) := by
  intro i hi
  rw [apply_linear_32_testBit, Bool.and_eq_true, decide_eq_true_eq, decide_eq_true_eq] at hi
  rw [mask_linear_32_testBit, Bool.and_eq_true, decide_eq_true_eq, decide_eq_true_eq]
  refine ⟨hi.1, fun h0 => ?_⟩
  have hw : within (matrix i &&& v) (matrix i &&& m) :=
    within_and _ _ _ _ (within_refl _) h
  rw [h0] at hw
  have hz := eq_zero_of_within_zero _ hw
  rw [hz, popcount_bits_zero] at hi
  exact absurd hi.2 (by decide)

theorem bounded_apply_linear_32 (matrix : Nat → Nat) (ks : List Nat) (t : MaskTree)
    (f : Nat → Nat) (h : bounded ks t f) :
    bounded ks (mask_map (fun m => mask_linear_32 m matrix) t)
      (fun x => apply_linear_32 (f x) matrix) :=
  bounded_map (fun v => apply_linear_32 v matrix) (fun m => mask_linear_32 m matrix)
    (fun a b => apply_linear_32_xor a b matrix) (within_apply_linear_32 matrix) ks t f h

theorem bounded_plaintext_round (g : Matrices) (tw : Nat) (ks : List Nat) (t : MaskTree)
    (f : Nat → Nat) (h : bounded ks t f) :
    bounded ks (mask_plaintext_round g t) (fun x => plaintext_round g tw (f x)) := by
  simp only [mask_plaintext_round, plaintext_round]
  exact bounded_u32 ks _ _ (bounded_xor ks _ _ _ _
    (bounded_apply_linear_32 _ ks _ _ (bounded_u32 ks _ _
      (bounded_chichi_transform _ _ _ ks _ _ h)))
    (bounded_const _ _ (within_and_left _ _) ks t f h))

theorem bounded_plaintext_final (tw : Nat) (ks : List Nat) (t : MaskTree)
    (f : Nat → Nat) (h : bounded ks t f) :
    bounded ks (mask_plaintext_final t) (fun x => plaintext_final tw (f x)) := by
  simp only [mask_plaintext_final, plaintext_final]
  exact bounded_u32 ks _ _ (bounded_xor ks _ _ _ _
    (bounded_u32 ks _ _ (bounded_chichi_transform _ _ _ ks _ _ h))
    (bounded_const _ _ (within_and_left _ _) ks t f h))

theorem xor_diff_whitening (k k0 : Nat) (hk : k < 32) :
    xor_diff k (fun C => u32 (C ^^^ k0)) = fun _ => 2 ^ k := by
  funext x
  simp only [xor_diff, u32]
  apply Nat.eq_of_testBit_eq
  intro i
  simp only [Nat.testBit_xor, Nat.testBit_mod_two_pow, Nat.testBit_two_pow]
  by_cases hi : i < 32
  · by_cases hki : k = i
    · subst hki
      cases x.testBit k <;> cases k0.testBit k <;> simp [hi]
    · cases x.testBit i <;> cases k0.testBit i <;> simp [hi, hki]
  · have hki : k ≠ i := by omega
    simp [hi, hki]

theorem within_u32_mask (v : Nat) : within (u32 v) BITMASK_32 := by
  intro i hi
  rw [u32, Nat.testBit_mod_two_pow, Bool.and_eq_true, decide_eq_true_eq] at hi
  rw [BITMASK_32_eq, Nat.testBit_two_pow_sub_one, decide_eq_true_eq]
  exact hi.1

theorem bounded_whitening (k0 : Nat) :
    ∀ ks : List Nat, (∀ k ∈ ks, k < 32) →
      bounded ks (mask_whitening ks) (fun C => u32 (C ^^^ k0)) := by
  intro ks
  induction ks with
  | nil => exact fun _ x => within_u32_mask _
  | cons k ks ih =>
    intro h
    have hks := ih (fun j hj => h j (List.mem_cons_of_mem _ hj))
    refine ⟨hks, ?_⟩
    rw [xor_diff_whitening k k0 (h k (List.mem_cons_self _ _))]
    exact bounded_const _ _ (within_refl _) ks _ _ hks

theorem bounded_plaintext_lane_3 (g : Matrices) (k0 t1 t2 t3 : Nat) (ks : List Nat)
    (h : ∀ k ∈ ks, k < 32) :
    bounded ks (mask_plaintext_lane_3 g ks) (plaintext_lane_3 g k0 t1 t2 t3) :=
  bounded_plaintext_final t3 ks _ _ (bounded_plaintext_round g t2 ks _ _
    (bounded_plaintext_round g t1 ks _ _ (bounded_whitening k0 ks h)))

/-! ## The integral property of three rounds of the 32+tau variant -/

theorem pack_32_and_low (s : State32) : pack_32 s &&& BITMASK_32 = s.plaintext &&& BITMASK_32 := by
  apply Nat.eq_of_testBit_eq
  intro i
  rw [pack_32, BITMASK_32_eq]
  simp only [Nat.testBit_and, Nat.testBit_or, testBit_shl64, Nat.testBit_two_pow_sub_one]
  by_cases hi : i < 32
  · have h1 : ¬ 32 ≤ i := by omega
    simp [hi, h1]
  · simp [hi]

/-- With three rounds, the low word of the value returned by `chilow_decrypt_32_reduced` is
`plaintext_lane_3` of the ciphertext, with tweak words that do not depend on the
ciphertext. -/
theorem chilow_decrypt_32_reduced_3 (g : Matrices) (T : Nat) (K : uint128_t) :
    ∃ t1 t2 t3, ∀ C, ∃ out,
      chilow_decrypt_32_reduced g C T K 3 = some out ∧
        out &&& BITMASK_32 = plaintext_lane_3 g (K.hi &&& BITMASK_32) t1 t2 t3 C := by
  have hpos : (3 : Int) > 0 := by decide
  have hc : ((3 : Int) - 1).toNat = 2 := by decide
  refine ⟨tweak_round g (T ^^^ K.lo),
    tweak_round g (tweak_round g (T ^^^ K.lo) ^^^ (key_round g 0x0000001000000000 K).lo),
    apply_linear_64 (tweak_round g (tweak_round g (T ^^^ K.lo) ^^^
        (key_round g 0x0000001000000000 K).lo) ^^^
      (key_round g 0x0000002100000000 (key_round g 0x0000001000000000 K)).lo)
      g.linear_matrix_64, fun C => ?_⟩
  simp only [chilow_decrypt_32_reduced, if_pos hpos, hc, for_rounds, main_round_32,
    ROUND_CONSTANTS, List.get?, Option.map_some', Option.some_bind, whitening_32]
  refine ⟨_, rfl, ?_⟩
  rw [pack_32_and_low]
  simp only [plaintext_lane_3, plaintext_round, plaintext_final, tweak_round, key_round]
  exact and_BITMASK_32_of_lt _ (u32_lt _)

set_option maxRecDepth 100000 in
/-- The mask of the third derivative of the plaintext lane in the directions 21, 23, 25. -/
theorem mask_plaintext_lane_3_top :
    mask_top (mask_plaintext_lane_3 (generated_matrices zero_matrices) [21, 23, 25]) =
      0x60F65B01 := by
  decide!

set_option maxRecDepth 100000 in
/-- The eight outputs of the integral experiment with base ciphertext, tweak and key zero. -/
theorem integral_outputs_zero :
    (List.range 8).map (fun cnt =>
        chilow_decrypt_32_reduced (generated_matrices zero_matrices) (integral_input 0 cnt) 0
          ⟨0, 0⟩ 3) =
      [some 0xDBED532584957799, some 0x388EFC6138019688, some 0x0B0BAEB9BAC91DDF,
       some 0x5EAA3AB5C66B3AFD, some 0x40099BA72681FA9E, some 0x1B29C722F517A384,
       some 0xBDAF8D32B6D5EEE8, some 0x5C0DEAF7E5B133C1] := by
  decide!

theorem and_eq_zero_of_within (v m c : Nat) (h : within v m) (hm : m &&& c = 0) :
    v &&& c = 0 := by
  apply eq_zero_of_within_zero
  rw [← hm]
  exact within_and_const c v m h

theorem integral_input_eq (rnd cnt : Nat) :
    integral_input rnd cnt =
      u32 rnd ^^^ u32 (shl32 (cnt &&& 1) 21 ^^^ shl32 (cnt &&& 2) 22 ^^^ shl32 (cnt &&& 4) 23) := by
  have e : ∀ a b c : Nat, a ^^^ rnd ^^^ b ^^^ c = rnd ^^^ (a ^^^ b ^^^ c) := by
    intro a b c
    ac_rfl
  rw [integral_input, e, u32, xor_mod_two_pow]
  rfl

/-- The XOR of a function over the eight ciphertexts of the integral experiment is its third
derivative in the directions 21, 23, 25. -/
theorem xor_diffs_integral (F : Nat → Nat) (rnd : Nat) :
    (List.range 8).foldl (fun OUT cnt => OUT ^^^ F (integral_input rnd cnt)) 0 =
      xor_diffs [21, 23, 25] F (u32 rnd) := by
  have e : List.range 8 = [0, 1, 2, 3, 4, 5, 6, 7] := by decide
  have p0 : u32 (shl32 (0 &&& 1) 21 ^^^ shl32 (0 &&& 2) 22 ^^^ shl32 (0 &&& 4) 23) = 0 := by
    decide
  have p1 : u32 (shl32 (1 &&& 1) 21 ^^^ shl32 (1 &&& 2) 22 ^^^ shl32 (1 &&& 4) 23) =
      2 ^ 21 := by decide
  have p2 : u32 (shl32 (2 &&& 1) 21 ^^^ shl32 (2 &&& 2) 22 ^^^ shl32 (2 &&& 4) 23) =
      2 ^ 23 := by decide
  have p3 : u32 (shl32 (3 &&& 1) 21 ^^^ shl32 (3 &&& 2) 22 ^^^ shl32 (3 &&& 4) 23) =
      2 ^ 23 ^^^ 2 ^ 21 := by decide
  have p4 : u32 (shl32 (4 &&& 1) 21 ^^^ shl32 (4 &&& 2) 22 ^^^ shl32 (4 &&& 4) 23) =
      2 ^ 25 := by decide
  have p5 : u32 (shl32 (5 &&& 1) 21 ^^^ shl32 (5 &&& 2) 22 ^^^ shl32 (5 &&& 4) 23) =
      2 ^ 25 ^^^ 2 ^ 21 := by decide
  have p6 : u32 (shl32 (6 &&& 1) 21 ^^^ shl32 (6 &&& 2) 22 ^^^ shl32 (6 &&& 4) 23) =
      2 ^ 25 ^^^ 2 ^ 23 := by decide
  have p7 : u32 (shl32 (7 &&& 1) 21 ^^^ shl32 (7 &&& 2) 22 ^^^ shl32 (7 &&& 4) 23) =
      2 ^ 25 ^^^ (2 ^ 23 ^^^ 2 ^ 21) := by decide
  rw [e]
  simp only [List.foldl_cons, List.foldl_nil, integral_input_eq, p0, p1, p2, p3, p4, p5, p6,
    p7, xor_diffs, xor_diff, Nat.xor_zero, Nat.zero_xor, Nat.xor_assoc]
  ac_rfl

theorem foldl_xor_and (F : Nat → Nat) (c : Nat) :
    ∀ (l : List Nat) (acc : Nat),
      l.foldl (fun OUT cnt => OUT ^^^ F cnt) acc &&& c =
        l.foldl (fun OUT cnt => OUT ^^^ (F cnt &&& c)) (acc &&& c) := by
  intro l
  induction l with
  | nil => intro acc; rfl
  | cons a l ih =>
    intro acc
    rw [List.foldl_cons, List.foldl_cons, ih, xor_and_const]

theorem foldl_xor_congr (F G : Nat → Nat) :
    ∀ (l : List Nat) (acc : Nat), (∀ cnt ∈ l, F cnt = G cnt) →
      l.foldl (fun OUT cnt => OUT ^^^ F cnt) acc = l.foldl (fun OUT cnt => OUT ^^^ G cnt) acc := by
  intro l
  induction l with
  | nil => intro acc _; rfl
  | cons a l ih =>
    intro acc h
    rw [List.foldl_cons, List.foldl_cons, h a (List.mem_cons_self _ _)]
    exact ih _ (fun cnt hc => h cnt (List.mem_cons_of_mem _ hc))

/-- C11 (counterexample): with base ciphertext, tweak and key all zero, the eight outputs of
`chilow_reduced_round_32bit` with three rounds over the cube of the ciphertext bits 21, 23,
25 are as listed; their XOR is `0x0C40000840C44200`, whose bit 14 is set, so the XOR-sum
AND `0x0600400C` is `0x4000`, not zero. -/
theorem C11_counterexample :
    (List.range 8).map (fun cnt =>
        chilow_reduced_round_32bit (chilow_init zero_matrices) (integral_input 0 cnt) 0 0 0 3) =
      [some 0xDBED532584957799, some 0x388EFC6138019688, some 0x0B0BAEB9BAC91DDF,
       some 0x5EAA3AB5C66B3AFD, some 0x40099BA72681FA9E, some 0x1B29C722F517A384,
       some 0xBDAF8D32B6D5EEE8, some 0x5C0DEAF7E5B133C1] ∧
    (0xDBED532584957799 ^^^ 0x388EFC6138019688 ^^^ 0x0B0BAEB9BAC91DDF ^^^ 0x5EAA3AB5C66B3AFD ^^^
      0x40099BA72681FA9E ^^^ 0x1B29C722F517A384 ^^^ 0xBDAF8D32B6D5EEE8 ^^^
      0x5C0DEAF7E5B133C1) &&& 0x0600400C = 0x4000 ∧
    (List.range 8).map (integral_input 0) =
      [0, 0x200000, 0x800000, 0xA00000, 0x2000000, 0x2200000, 0x2800000, 0x2A00000] := by
  refine ⟨?_, by decide, by decide⟩
  have h : ∀ cnt, chilow_reduced_round_32bit (chilow_init zero_matrices)
      (integral_input 0 cnt) 0 0 0 3 =
      chilow_decrypt_32_reduced (generated_matrices zero_matrices) (integral_input 0 cnt) 0
        ⟨0, 0⟩ 3 := by
    intro cnt
    rw [chilow_reduced_round_32bit, chilow_init_eq]
  simp only [h]
  exact integral_outputs_zero

theorem plaintext_lane_3_within (g : Matrices) (k0 t1 t2 t3 : Nat) (ks : List Nat)
    (h : ∀ k ∈ ks, k < 32) (x : Nat) :
    within (xor_diffs ks (plaintext_lane_3 g k0 t1 t2 t3) x)
      (mask_top (mask_plaintext_lane_3 g ks)) :=
  bounded_top ks _ _ (bounded_plaintext_lane_3 g k0 t1 t2 t3 ks h) x

/-- A sum of eight words whose low halves are the plaintext lane of three rounds at the
eight ciphertexts of the integral experiment has zero bits at positions 2, 3, 25, 26. -/
theorem integral_sum_zero (k0 t1 t2 t3 B : Nat) (out : Nat → Nat)
    (hout : ∀ cnt, out cnt &&& BITMASK_32 =
      plaintext_lane_3 (generated_matrices zero_matrices) k0 t1 t2 t3 (integral_input B cnt)) :
    (List.range 8).foldl (fun OUT cnt => OUT ^^^ out cnt) 0 &&& 0x0600000C = 0 := by
  have hc : BITMASK_32 &&& 0x0600000C = 0x0600000C := by decide
  have step : ∀ X : Nat, X &&& 0x0600000C = (X &&& BITMASK_32) &&& 0x0600000C := by
    intro X
    rw [Nat.and_assoc, hc]
  have hk : ∀ k ∈ [21, 23, 25], k < 32 := by
    intro k hk
    simp only [List.mem_cons, List.mem_singleton, List.not_mem_nil, or_false] at hk
    omega
  have hm : mask_top (mask_plaintext_lane_3 (generated_matrices zero_matrices) [21, 23, 25])
      &&& 0x0600000C = 0 := by
    rw [mask_plaintext_lane_3_top]
    decide
  have h1 : (List.range 8).foldl (fun OUT cnt => OUT ^^^ out cnt) 0 &&& BITMASK_32 =
      xor_diffs [21, 23, 25]
        (plaintext_lane_3 (generated_matrices zero_matrices) k0 t1 t2 t3) (u32 B) := by
    rw [foldl_xor_and out BITMASK_32,
      foldl_xor_congr (fun cnt => out cnt &&& BITMASK_32)
        (fun cnt => plaintext_lane_3 (generated_matrices zero_matrices) k0 t1 t2 t3
          (integral_input B cnt)) _ _ (fun cnt _ => hout cnt),
      Nat.zero_and]
    exact xor_diffs_integral
      (plaintext_lane_3 (generated_matrices zero_matrices) k0 t1 t2 t3) B
  have h2 := plaintext_lane_3_within (generated_matrices zero_matrices) k0 t1 t2 t3
    [21, 23, 25] hk (u32 B)
  rw [step, h1]
  exact and_eq_zero_of_within _ _ _ h2 hm

/-- C11 (amended): once `chilow_init` has run, for every base ciphertext `B`, every tweak
`T` and every key, the eight calls `chilow_reduced_round_32bit(C, T, K, 3)` with `C` running
over `B` with the bits 21, 23, 25 flipped in all 8 combinations each return a value, and
the XOR of the eight values has zero bits at the output positions 2, 3, 25 and 26: XOR-sum
AND `0x0600000C` is 0. -/
theorem C11_integral_bits_2_3_25_26 (g : Matrices) (B T K_hi K_lo : Nat) :
    ∃ out : Nat → Nat,
      (∀ cnt, chilow_reduced_round_32bit (chilow_init g) (integral_input B cnt) T K_hi K_lo 3 =
        some (out cnt)) ∧
      (List.range 8).foldl (fun OUT cnt => OUT ^^^ out cnt) 0 &&& 0x0600000C = 0 := by
  obtain ⟨t1, t2, t3, hlane⟩ :=
    chilow_decrypt_32_reduced_3 (generated_matrices zero_matrices) T ⟨K_lo, K_hi⟩
  have hred : ∀ C, chilow_reduced_round_32bit (chilow_init g) C T K_hi K_lo 3 =
      chilow_decrypt_32_reduced (generated_matrices zero_matrices) C T ⟨K_lo, K_hi⟩ 3 := by
    intro C
    rw [chilow_reduced_round_32bit, chilow_init_eq,
      chilow_decrypt_32_reduced_congr _ _ (same_rows_generated g zero_matrices)]
  have hsome : ∀ cnt, chilow_reduced_round_32bit (chilow_init g) (integral_input B cnt) T
      K_hi K_lo 3 = some ((chilow_decrypt_32_reduced (generated_matrices zero_matrices)
        (integral_input B cnt) T ⟨K_lo, K_hi⟩ 3).getD 0) := by
    intro cnt
    obtain ⟨o, ho, _⟩ := hlane (integral_input B cnt)
    rw [hred, ho, Option.getD_some]
  have hlow : ∀ cnt, (chilow_decrypt_32_reduced (generated_matrices zero_matrices)
        (integral_input B cnt) T ⟨K_lo, K_hi⟩ 3).getD 0 &&& BITMASK_32 =
      plaintext_lane_3 (generated_matrices zero_matrices) (K_hi &&& BITMASK_32) t1 t2 t3
        (integral_input B cnt) := by
    intro cnt
    obtain ⟨o, ho, hl⟩ := hlane (integral_input B cnt)
    rw [ho, Option.getD_some, hl]
  exact ⟨_, hsome, integral_sum_zero _ t1 t2 t3 B _ hlow⟩

/-! ## Rotation, round constants, storage -/

/-- C24: `rotr64` is a right rotation of the low `w` bits.  For every `x`, every width
`w ≤ 63` and every shift `s < w` (so `1 ≤ w`; the shifts `1 ≤ s < w` of the claim are
among them), bit `i` of `rotr64(x, s, w)` is bit `(i + s) mod w` of `x` for every `i < w`,
and every bit at a position `≥ w` is zero. -/
theorem C24_rotr64_is_rotation (x s w : Nat) (hw : w ≤ 63) (hs : s < w) :
    (∀ i, i < w → (rotr64 x s w).testBit i = x.testBit ((i + s) % w)) ∧
    (∀ i, w ≤ i → (rotr64 x s w).testBit i = false) := by
  have h := fun i => rotr64_testBit x s w i (by omega) (by omega)
  refine ⟨fun i hi => ?_, fun i hi => ?_⟩
  · rw [h, decide_eq_true hi, Bool.true_and]
  · have hn : ¬ i < w := by omega
    rw [h, decide_eq_false hn, Bool.false_and]

/-- C24 at `x = 0x0123456789ABCDEF`, `s = 2`, `w = 17`. -/
theorem C24_rotr64_is_rotation_witness :
    (∀ i, i < 17 → (rotr64 0x0123456789ABCDEF 2 17).testBit i =
      Nat.testBit 0x0123456789ABCDEF ((i + 2) % 17)) ∧
    (∀ i, 17 ≤ i → (rotr64 0x0123456789ABCDEF 2 17).testBit i = false) :=
  C24_rotr64_is_rotation 0x0123456789ABCDEF 2 17 (by decide) (by decide)

/-- C25: for every `r` in `0..7`, `ROUND_CONSTANTS[r]` is `((16 << r) OR r) << 32`, its top
bit and its low 32 bits are zero, and `ROUND_CONSTANTS_40[r]` is `ROUND_CONSTANTS[r]` with
the top bit set (`OR 0x8000000000000000`); the array `RC` of `decryption40` in the original
implementation holds the same constant. -/
theorem C25_round_constants_40_top_bit (r : Nat) (hr : r < 8) :
    ∃ rc rc40, ROUND_CONSTANTS.get? r = some rc ∧ ROUND_CONSTANTS_40.get? r = some rc40 ∧
      RC40.get? r = some rc40 ∧
      rc40 = rc ||| 0x8000000000000000 ∧ rc = ((16 <<< r) ||| r) <<< 32 ∧
      rc.testBit 63 = false ∧ rc &&& 0xFFFFFFFF = 0 := by
  have h : r = 0 ∨ r = 1 ∨ r = 2 ∨ r = 3 ∨ r = 4 ∨ r = 5 ∨ r = 6 ∨ r = 7 := by omega
  rcases h with rfl | rfl | rfl | rfl | rfl | rfl | rfl | rfl <;>
    exact ⟨_, _, rfl, rfl, rfl, by decide, by decide, by decide, by decide⟩

/-- C25 at `r = 3`: the constants `0x0000008300000000` and `0x8000008300000000`. -/
theorem C25_round_constants_40_top_bit_witness :
    ∃ rc rc40, ROUND_CONSTANTS.get? 3 = some rc ∧ ROUND_CONSTANTS_40.get? 3 = some rc40 ∧
      RC40.get? 3 = some rc40 ∧
      rc40 = rc ||| 0x8000000000000000 ∧ rc = ((16 <<< 3) ||| 3) <<< 32 ∧
      rc.testBit 63 = false ∧ rc &&& 0xFFFFFFFF = 0 :=
  C25_round_constants_40_top_bit 3 (by decide)

/-- C27 (counterexample): the five arrays as declared take
`32·4 + 32·4 + 40·8 + 64·8 + 128·16 = 3136` bytes, which is not 2880. -/
theorem C27_counterexample :
    linear_matrix_bytes = 32 * 4 + 32 * 4 + 40 * 8 + 64 * 8 + 128 * 16 ∧
    linear_matrix_bytes ≠ 2880 := by
  decide

/-- C27 (amended): the storage of the five linear matrices (32 rows of 4 bytes, 32 rows of
4 bytes, 40 rows of 8 bytes, 64 rows of 8 bytes, 128 rows of 16 bytes) totals
`32·4 + 32·4 + 40·8 + 64·8 + 128·16 = 3136` bytes. -/
theorem C27_linear_matrix_bytes :
    linear_matrix_bytes = 32 * 4 + 32 * 4 + 40 * 8 + 64 * 8 + 128 * 16 ∧
    linear_matrix_bytes = 3136 := by
  decide

/-! ## Bit-level form of chichi -/

set_option maxHeartbeats 2000000 in
/-- Every bit of `chichi_transform` at split position 16. -/
theorem chichi_transform_testBit_16 (x i : Nat) :
    (chichi_transform x (2 ^ 15 - 1) (2 ^ 17 - 1) 16).testBit i = chichi_bit 16 x i := by
  simp only [chichi_transform, chichi_bit, chichi_next, Nat.reduceSub, Nat.reduceAdd,
    Nat.reduceMul,
    Nat.testBit_or, Nat.testBit_xor, Nat.testBit_and, Nat.testBit_shiftLeft,
    Nat.testBit_shiftRight, testBit_shl64, testBit_not64,
    Nat.testBit_two_pow_sub_one, Nat.zero_testBit, testBit_one_eq,
    chi_transform_testBit _ 15 _ (by decide) (by decide),
    chi_transform_testBit _ 17 _ (by decide) (by decide)]
  rcases Nat.lt_or_ge i 13 with c1 | c1
  · simp (disch := omega) only [decide_eq_true, decide_eq_false, Nat.mod_eq_of_lt,
      if_pos, if_neg, Nat.reduceAdd, Nat.reduceSub, Nat.reduceMod, Nat.reduceMul,
      Bool.true_and, Bool.false_and, Bool.and_true, Bool.and_false, Bool.or_false,
      Bool.false_or, Bool.not_true, Bool.not_false, Bool.true_or, Bool.or_true,
      Bool.xor_false, Bool.false_xor]
  rcases Nat.lt_or_ge i 17 with c2 | c2
  · have : i = 13 ∨ i = 14 ∨ i = 15 ∨ i = 16 := by omega
    rcases this with rfl | rfl | rfl | rfl
    · simp (disch := omega) only [decide_eq_true, decide_eq_false, Nat.mod_eq_of_lt,
        if_pos, if_neg, Nat.reduceAdd, Nat.reduceSub, Nat.reduceMod, Nat.reduceMul,
        Bool.true_and, Bool.false_and, Bool.and_true, Bool.and_false, Bool.or_false,
        Bool.false_or, Bool.not_true, Bool.not_false, Bool.true_or, Bool.or_true,
        Bool.xor_false, Bool.false_xor]
      cases x.testBit 13 <;> cases x.testBit 14 <;> cases x.testBit 0 <;> cases x.testBit 16 <;> rfl
    · simp (disch := omega) only [decide_eq_true, decide_eq_false, Nat.mod_eq_of_lt,
        if_pos, if_neg, Nat.reduceAdd, Nat.reduceSub, Nat.reduceMod, Nat.reduceMul,
        Bool.true_and, Bool.false_and, Bool.and_true, Bool.and_false, Bool.or_false,
        Bool.false_or, Bool.not_true, Bool.not_false, Bool.true_or, Bool.or_true,
        Bool.xor_false, Bool.false_xor]
      cases x.testBit 14 <;> cases x.testBit 0 <;> cases x.testBit 1 <;> cases x.testBit 15 <;> rfl
    · simp (disch := omega) only [decide_eq_true, decide_eq_false, Nat.mod_eq_of_lt,
        if_pos, if_neg, Nat.reduceAdd, Nat.reduceSub, Nat.reduceMod, Nat.reduceMul,
        Bool.true_and, Bool.false_and, Bool.and_true, Bool.and_false, Bool.or_false,
        Bool.false_or, Bool.not_true, Bool.not_false, Bool.true_or, Bool.or_true,
        Bool.xor_false, Bool.false_xor]
      cases x.testBit 15 <;> cases x.testBit 16 <;> cases x.testBit 17 <;> cases x.testBit 13 <;> rfl
    · simp (disch := omega) only [decide_eq_true, decide_eq_false, Nat.mod_eq_of_lt,
        if_pos, if_neg, Nat.reduceAdd, Nat.reduceSub, Nat.reduceMod, Nat.reduceMul,
        Bool.true_and, Bool.false_and, Bool.and_true, Bool.and_false, Bool.or_false,
        Bool.false_or, Bool.not_true, Bool.not_false, Bool.true_or, Bool.or_true,
        Bool.xor_false, Bool.false_xor]
      cases x.testBit 16 <;> cases x.testBit 17 <;> cases x.testBit 18 <;> cases x.testBit 14 <;> rfl
  rcases Nat.lt_or_ge i 30 with c3 | c3
  · obtain ⟨j, rfl⟩ : ∃ j, i = j + 17 := ⟨i - 17, by omega⟩
    have e0 : 15 + (j + 17 - 15) = j + 17 := by omega
    have e1 : 15 + (j + 17 - 15 + 1) = j + 17 + 1 := by omega
    have e2 : 15 + (j + 17 - 15 + 2) = j + 17 + 1 + 1 := by omega
    simp (disch := omega) only [decide_eq_true, decide_eq_false, Nat.mod_eq_of_lt,
      if_pos, if_neg, Nat.reduceAdd, Nat.reduceSub, Nat.reduceMod, Nat.reduceMul,
      Bool.true_and, Bool.false_and, Bool.and_true, Bool.and_false, Bool.or_false,
      Bool.false_or, Bool.not_true, Bool.not_false, Bool.true_or, Bool.or_true,
      Bool.xor_false, Bool.false_xor, e0, e1, e2]
  rcases Nat.lt_or_ge i 32 with c4 | c4
  · have : i = 30 ∨ i = 31 := by omega
    rcases this with rfl | rfl
    · simp (disch := omega) only [decide_eq_true, decide_eq_false, Nat.mod_eq_of_lt,
        if_pos, if_neg, Nat.reduceAdd, Nat.reduceSub, Nat.reduceMod, Nat.reduceMul,
        Bool.true_and, Bool.false_and, Bool.and_true, Bool.and_false, Bool.or_false,
        Bool.false_or, Bool.not_true, Bool.not_false, Bool.true_or, Bool.or_true,
        Bool.xor_false, Bool.false_xor]
    · simp (disch := omega) only [decide_eq_true, decide_eq_false, Nat.mod_eq_of_lt,
        if_pos, if_neg, Nat.reduceAdd, Nat.reduceSub, Nat.reduceMod, Nat.reduceMul,
        Bool.true_and, Bool.false_and, Bool.and_true, Bool.and_false, Bool.or_false,
        Bool.false_or, Bool.not_true, Bool.not_false, Bool.true_or, Bool.or_true,
        Bool.xor_false, Bool.false_xor]
  · simp (disch := omega) only [decide_eq_true, decide_eq_false, Nat.mod_eq_of_lt,
      if_pos, if_neg, Nat.reduceAdd, Nat.reduceSub, Nat.reduceMod, Nat.reduceMul,
      Bool.true_and, Bool.false_and, Bool.and_true, Bool.and_false, Bool.or_false,
      Bool.false_or, Bool.not_true, Bool.not_false, Bool.true_or, Bool.or_true,
      Bool.xor_false, Bool.false_xor]

set_option maxHeartbeats 2000000 in
/-- Every bit of `chichi_transform` at split position 20. -/
theorem chichi_transform_testBit_20 (x i : Nat) :
    (chichi_transform x (2 ^ 19 - 1) (2 ^ 21 - 1) 20).testBit i = chichi_bit 20 x i := by
  simp only [chichi_transform, chichi_bit, chichi_next, Nat.reduceSub, Nat.reduceAdd,
    Nat.reduceMul,
    Nat.testBit_or, Nat.testBit_xor, Nat.testBit_and, Nat.testBit_shiftLeft,
    Nat.testBit_shiftRight, testBit_shl64, testBit_not64,
    Nat.testBit_two_pow_sub_one, Nat.zero_testBit, testBit_one_eq,
    chi_transform_testBit _ 19 _ (by decide) (by decide),
    chi_transform_testBit _ 21 _ (by decide) (by decide)]
  rcases Nat.lt_or_ge i 17 with c1 | c1
  · simp (disch := omega) only [decide_eq_true, decide_eq_false, Nat.mod_eq_of_lt,
      if_pos, if_neg, Nat.reduceAdd, Nat.reduceSub, Nat.reduceMod, Nat.reduceMul,
      Bool.true_and, Bool.false_and, Bool.and_true, Bool.and_false, Bool.or_false,
      Bool.false_or, Bool.not_true, Bool.not_false, Bool.true_or, Bool.or_true,
      Bool.xor_false, Bool.false_xor]
  rcases Nat.lt_or_ge i 21 with c2 | c2
  · have : i = 17 ∨ i = 18 ∨ i = 19 ∨ i = 20 := by omega
    rcases this with rfl | rfl | rfl | rfl
    · simp (disch := omega) only [decide_eq_true, decide_eq_false, Nat.mod_eq_of_lt,
        if_pos, if_neg, Nat.reduceAdd, Nat.reduceSub, Nat.reduceMod, Nat.reduceMul,
        Bool.true_and, Bool.false_and, Bool.and_true, Bool.and_false, Bool.or_false,
        Bool.false_or, Bool.not_true, Bool.not_false, Bool.true_or, Bool.or_true,
        Bool.xor_false, Bool.false_xor]
      cases x.testBit 17 <;> cases x.testBit 18 <;> cases x.testBit 0 <;> cases x.testBit 20 <;> rfl
    · simp (disch := omega) only [decide_eq_true, decide_eq_false, Nat.mod_eq_of_lt,
        if_pos, if_neg, Nat.reduceAdd, Nat.reduceSub, Nat.reduceMod, Nat.reduceMul,
        Bool.true_and, Bool.false_and, Bool.and_true, Bool.and_false, Bool.or_false,
        Bool.false_or, Bool.not_true, Bool.not_false, Bool.true_or, Bool.or_true,
        Bool.xor_false, Bool.false_xor]
      cases x.testBit 18 <;> cases x.testBit 0 <;> cases x.testBit 1 <;> cases x.testBit 19 <;> rfl
    · simp (disch := omega) only [decide_eq_true, decide_eq_false, Nat.mod_eq_of_lt,
        if_pos, if_neg, Nat.reduceAdd, Nat.reduceSub, Nat.reduceMod, Nat.reduceMul,
        Bool.true_and, Bool.false_and, Bool.and_true, Bool.and_false, Bool.or_false,
        Bool.false_or, Bool.not_true, Bool.not_false, Bool.true_or, Bool.or_true,
        Bool.xor_false, Bool.false_xor]
      cases x.testBit 19 <;> cases x.testBit 20 <;> cases x.testBit 21 <;> cases x.testBit 17 <;> rfl
    · simp (disch := omega) only [decide_eq_true, decide_eq_false, Nat.mod_eq_of_lt,
        if_pos, if_neg, Nat.reduceAdd, Nat.reduceSub, Nat.reduceMod, Nat.reduceMul,
        Bool.true_and, Bool.false_and, Bool.and_true, Bool.and_false, Bool.or_false,
        Bool.false_or, Bool.not_true, Bool.not_false, Bool.true_or, Bool.or_true,
        Bool.xor_false, Bool.false_xor]
      cases x.testBit 20 <;> cases x.testBit 21 <;> cases x.testBit 22 <;> cases x.testBit 18 <;> rfl
  rcases Nat.lt_or_ge i 38 with c3 | c3
  · obtain ⟨j, rfl⟩ : ∃ j, i = j + 21 := ⟨i - 21, by omega⟩
    have e0 : 19 + (j + 21 - 19) = j + 21 := by omega
    have e1 : 19 + (j + 21 - 19 + 1) = j + 21 + 1 := by omega
    have e2 : 19 + (j + 21 - 19 + 2) = j + 21 + 1 + 1 := by omega
    simp (disch := omega) only [decide_eq_true, decide_eq_false, Nat.mod_eq_of_lt,
      if_pos, if_neg, Nat.reduceAdd, Nat.reduceSub, Nat.reduceMod, Nat.reduceMul,
      Bool.true_and, Bool.false_and, Bool.and_true, Bool.and_false, Bool.or_false,
      Bool.false_or, Bool.not_true, Bool.not_false, Bool.true_or, Bool.or_true,
      Bool.xor_false, Bool.false_xor, e0, e1, e2]
  rcases Nat.lt_or_ge i 40 with c4 | c4
  · have : i = 38 ∨ i = 39 := by omega
    rcases this with rfl | rfl
    · simp (disch := omega) only [decide_eq_true, decide_eq_false, Nat.mod_eq_of_lt,
        if_pos, if_neg, Nat.reduceAdd, Nat.reduceSub, Nat.reduceMod, Nat.reduceMul,
        Bool.true_and, Bool.false_and, Bool.and_true, Bool.and_false, Bool.or_false,
        Bool.false_or, Bool.not_true, Bool.not_false, Bool.true_or, Bool.or_true,
        Bool.xor_false, Bool.false_xor]
    · simp (disch := omega) only [decide_eq_true, decide_eq_false, Nat.mod_eq_of_lt,
        if_pos, if_neg, Nat.reduceAdd, Nat.reduceSub, Nat.reduceMod, Nat.reduceMul,
        Bool.true_and, Bool.false_and, Bool.and_true, Bool.and_false, Bool.or_false,
        Bool.false_or, Bool.not_true, Bool.not_false, Bool.true_or, Bool.or_true,
        Bool.xor_false, Bool.false_xor]
  · simp (disch := omega) only [decide_eq_true, decide_eq_false, Nat.mod_eq_of_lt,
      if_pos, if_neg, Nat.reduceAdd, Nat.reduceSub, Nat.reduceMod, Nat.reduceMul,
      Bool.true_and, Bool.false_and, Bool.and_true, Bool.and_false, Bool.or_false,
      Bool.false_or, Bool.not_true, Bool.not_false, Bool.true_or, Bool.or_true,
      Bool.xor_false, Bool.false_xor]

set_option maxHeartbeats 2000000 in
/-- Every bit of `chichi_transform` at split position 32. -/
theorem chichi_transform_testBit_32 (x i : Nat) :
    (chichi_transform x (2 ^ 31 - 1) (2 ^ 33 - 1) 32).testBit i = chichi_bit 32 x i := by
  simp only [chichi_transform, chichi_bit, chichi_next, Nat.reduceSub, Nat.reduceAdd,
    Nat.reduceMul,
    Nat.testBit_or, Nat.testBit_xor, Nat.testBit_and, Nat.testBit_shiftLeft,
    Nat.testBit_shiftRight, testBit_shl64, testBit_not64,
    Nat.testBit_two_pow_sub_one, Nat.zero_testBit, testBit_one_eq,
    chi_transform_testBit _ 31 _ (by decide) (by decide),
    chi_transform_testBit _ 33 _ (by decide) (by decide)]
  rcases Nat.lt_or_ge i 29 with c1 | c1
  · simp (disch := omega) only [decide_eq_true, decide_eq_false, Nat.mod_eq_of_lt,
      if_pos, if_neg, Nat.reduceAdd, Nat.reduceSub, Nat.reduceMod, Nat.reduceMul,
      Bool.true_and, Bool.false_and, Bool.and_true, Bool.and_false, Bool.or_false,
      Bool.false_or, Bool.not_true, Bool.not_false, Bool.true_or, Bool.or_true,
      Bool.xor_false, Bool.false_xor]
  rcases Nat.lt_or_ge i 33 with c2 | c2
  · have : i = 29 ∨ i = 30 ∨ i = 31 ∨ i = 32 := by omega
    rcases this with rfl | rfl | rfl | rfl
    · simp (disch := omega) only [decide_eq_true, decide_eq_false, Nat.mod_eq_of_lt,
        if_pos, if_neg, Nat.reduceAdd, Nat.reduceSub, Nat.reduceMod, Nat.reduceMul,
        Bool.true_and, Bool.false_and, Bool.and_true, Bool.and_false, Bool.or_false,
        Bool.false_or, Bool.not_true, Bool.not_false, Bool.true_or, Bool.or_true,
        Bool.xor_false, Bool.false_xor]
      cases x.testBit 29 <;> cases x.testBit 30 <;> cases x.testBit 0 <;> cases x.testBit 32 <;> rfl
    · simp (disch := omega) only [decide_eq_true, decide_eq_false, Nat.mod_eq_of_lt,
        if_pos, if_neg, Nat.reduceAdd, Nat.reduceSub, Nat.reduceMod, Nat.reduceMul,
        Bool.true_and, Bool.false_and, Bool.and_true, Bool.and_false, Bool.or_false,
        Bool.false_or, Bool.not_true, Bool.not_false, Bool.true_or, Bool.or_true,
        Bool.xor_false, Bool.false_xor]
      cases x.testBit 30 <;> cases x.testBit 0 <;> cases x.testBit 1 <;> cases x.testBit 31 <;> rfl
    · simp (disch := omega) only [decide_eq_true, decide_eq_false, Nat.mod_eq_of_lt,
        if_pos, if_neg, Nat.reduceAdd, Nat.reduceSub, Nat.reduceMod, Nat.reduceMul,
        Bool.true_and, Bool.false_and, Bool.and_true, Bool.and_false, Bool.or_false,
        Bool.false_or, Bool.not_true, Bool.not_false, Bool.true_or, Bool.or_true,
        Bool.xor_false, Bool.false_xor]
      cases x.testBit 31 <;> cases x.testBit 32 <;> cases x.testBit 33 <;> cases x.testBit 29 <;> rfl
    · simp (disch := omega) only [decide_eq_true, decide_eq_false, Nat.mod_eq_of_lt,
        if_pos, if_neg, Nat.reduceAdd, Nat.reduceSub, Nat.reduceMod, Nat.reduceMul,
        Bool.true_and, Bool.false_and, Bool.and_true, Bool.and_false, Bool.or_false,
        Bool.false_or, Bool.not_true, Bool.not_false, Bool.true_or, Bool.or_true,
        Bool.xor_false, Bool.false_xor]
      cases x.testBit 32 <;> cases x.testBit 33 <;> cases x.testBit 34 <;> cases x.testBit 30 <;> rfl
  rcases Nat.lt_or_ge i 62 with c3 | c3
  · obtain ⟨j, rfl⟩ : ∃ j, i = j + 33 := ⟨i - 33, by omega⟩
    have e0 : 31 + (j + 33 - 31) = j + 33 := by omega
    have e1 : 31 + (j + 33 - 31 + 1) = j + 33 + 1 := by omega
    have e2 : 31 + (j + 33 - 31 + 2) = j + 33 + 1 + 1 := by omega
    simp (disch := omega) only [decide_eq_true, decide_eq_false, Nat.mod_eq_of_lt,
      if_pos, if_neg, Nat.reduceAdd, Nat.reduceSub, Nat.reduceMod, Nat.reduceMul,
      Bool.true_and, Bool.false_and, Bool.and_true, Bool.and_false, Bool.or_false,
      Bool.false_or, Bool.not_true, Bool.not_false, Bool.true_or, Bool.or_true,
      Bool.xor_false, Bool.false_xor, e0, e1, e2]
  rcases Nat.lt_or_ge i 64 with c4 | c4
  · have : i = 62 ∨ i = 63 := by omega
    rcases this with rfl | rfl
    · simp (disch := omega) only [decide_eq_true, decide_eq_false, Nat.mod_eq_of_lt,
        if_pos, if_neg, Nat.reduceAdd, Nat.reduceSub, Nat.reduceMod, Nat.reduceMul,
        Bool.true_and, Bool.false_and, Bool.and_true, Bool.and_false, Bool.or_false,
        Bool.false_or, Bool.not_true, Bool.not_false, Bool.true_or, Bool.or_true,
        Bool.xor_false, Bool.false_xor]
    · simp (disch := omega) only [decide_eq_true, decide_eq_false, Nat.mod_eq_of_lt,
        if_pos, if_neg, Nat.reduceAdd, Nat.reduceSub, Nat.reduceMod, Nat.reduceMul,
        Bool.true_and, Bool.false_and, Bool.and_true, Bool.and_false, Bool.or_false,
        Bool.false_or, Bool.not_true, Bool.not_false, Bool.true_or, Bool.or_true,
        Bool.xor_false, Bool.false_xor]
  · simp (disch := omega) only [decide_eq_true, decide_eq_false, Nat.mod_eq_of_lt,
      if_pos, if_neg, Nat.reduceAdd, Nat.reduceSub, Nat.reduceMod, Nat.reduceMul,
      Bool.true_and, Bool.false_and, Bool.and_true, Bool.and_false, Bool.or_false,
      Bool.false_or, Bool.not_true, Bool.not_false, Bool.true_or, Bool.or_true,
      Bool.xor_false, Bool.false_xor]

/-- C21: bit-level form of chichi.  For every split position `m` among 16, 20, 32, every
`x` and `y = chichi_transform(x, 2^(m−1) − 1, 2^(m+1) − 1, m)`:
`y[i] = x[i] ^ (~x[i+1] & x[i+2])` for `i ≤ m − 4`;
`y[m−3] = x[m] ^ (~x[m−2] & x[0])`; `y[m−2] = x[m−1] ^ (~x[0] & x[1])`;
`y[m−1] = x[m−3] ^ x[m] ^ (~x[m] & x[m+1])`; `y[m] = x[m−2] ^ (~x[m+1] & x[m+2])`; and for
`m + 1 ≤ i ≤ 2m − 1`, `y[i] = x[i] ^ (~x[n(i)] & x[n(n(i))])` with `n(i) = i + 1` for
`i < 2m − 1` and `n(2m − 1) = m − 1` (`chichi_next`). -/
theorem C21_chichi_bits (m x : Nat) (hm : m ∈ [16, 20, 32]) :
    (∀ i, i ≤ m - 4 →
      (chichi_transform x (2 ^ (m - 1) - 1) (2 ^ (m + 1) - 1) m).testBit i =
        xor (x.testBit i) (!x.testBit (i + 1) && x.testBit (i + 2))) ∧
    (chichi_transform x (2 ^ (m - 1) - 1) (2 ^ (m + 1) - 1) m).testBit (m - 3) =
      xor (x.testBit m) (!x.testBit (m - 2) && x.testBit 0) ∧
    (chichi_transform x (2 ^ (m - 1) - 1) (2 ^ (m + 1) - 1) m).testBit (m - 2) =
      xor (x.testBit (m - 1)) (!x.testBit 0 && x.testBit 1) ∧
    (chichi_transform x (2 ^ (m - 1) - 1) (2 ^ (m + 1) - 1) m).testBit (m - 1) =
      xor (xor (x.testBit (m - 3)) (x.testBit m)) (!x.testBit m && x.testBit (m + 1)) ∧
    (chichi_transform x (2 ^ (m - 1) - 1) (2 ^ (m + 1) - 1) m).testBit m =
      xor (x.testBit (m - 2)) (!x.testBit (m + 1) && x.testBit (m + 2)) ∧
    (∀ i, m + 1 ≤ i → i ≤ 2 * m - 1 →
      (chichi_transform x (2 ^ (m - 1) - 1) (2 ^ (m + 1) - 1) m).testBit i =
        xor (x.testBit i)
          (!x.testBit (chichi_next m i) && x.testBit (chichi_next m (chichi_next m i)))) := by
  have h4 : 4 ≤ m := by
    simp only [List.mem_cons, List.mem_singleton, List.not_mem_nil, or_false] at hm
    omega
  have key : ∀ i, (chichi_transform x (2 ^ (m - 1) - 1) (2 ^ (m + 1) - 1) m).testBit i =
      chichi_bit m x i := by
    intro i
    simp only [List.mem_cons, List.mem_singleton, List.not_mem_nil, or_false] at hm
    rcases hm with rfl | rfl | rfl
    · exact chichi_transform_testBit_16 x i
    · exact chichi_transform_testBit_20 x i
    · exact chichi_transform_testBit_32 x i
  refine ⟨fun i hi => ?_, ?_, ?_, ?_, ?_, fun i h1 h2 => ?_⟩
  · rw [key, chichi_bit, if_pos (by omega)]
  · rw [key, chichi_bit, if_neg (by omega), if_pos rfl]
  · rw [key, chichi_bit, if_neg (by omega), if_neg (by omega), if_pos rfl]
  · rw [key, chichi_bit, if_neg (by omega), if_neg (by omega), if_neg (by omega), if_pos rfl]
  · rw [key, chichi_bit, if_neg (by omega), if_neg (by omega), if_neg (by omega),
      if_neg (by omega), if_pos rfl]
  · rw [key, chichi_bit, if_neg (by omega), if_neg (by omega), if_neg (by omega),
      if_neg (by omega), if_neg (by omega), if_pos (by omega)]

/-- C21 at `m = 16` and `x = 0x89ABCDEF`. -/
theorem C21_chichi_bits_witness :
    (∀ i, i ≤ 16 - 4 →
      (chichi_transform 0x89ABCDEF (2 ^ (16 - 1) - 1) (2 ^ (16 + 1) - 1) 16).testBit i =
        xor (Nat.testBit 0x89ABCDEF i)
          (!Nat.testBit 0x89ABCDEF (i + 1) && Nat.testBit 0x89ABCDEF (i + 2))) ∧
    (chichi_transform 0x89ABCDEF (2 ^ (16 - 1) - 1) (2 ^ (16 + 1) - 1) 16).testBit (16 - 3) =
      xor (Nat.testBit 0x89ABCDEF 16)
        (!Nat.testBit 0x89ABCDEF (16 - 2) && Nat.testBit 0x89ABCDEF 0) ∧
    (chichi_transform 0x89ABCDEF (2 ^ (16 - 1) - 1) (2 ^ (16 + 1) - 1) 16).testBit (16 - 2) =
      xor (Nat.testBit 0x89ABCDEF (16 - 1))
        (!Nat.testBit 0x89ABCDEF 0 && Nat.testBit 0x89ABCDEF 1) ∧
    (chichi_transform 0x89ABCDEF (2 ^ (16 - 1) - 1) (2 ^ (16 + 1) - 1) 16).testBit (16 - 1) =
      xor (xor (Nat.testBit 0x89ABCDEF (16 - 3)) (Nat.testBit 0x89ABCDEF 16))
        (!Nat.testBit 0x89ABCDEF 16 && Nat.testBit 0x89ABCDEF (16 + 1)) ∧
    (chichi_transform 0x89ABCDEF (2 ^ (16 - 1) - 1) (2 ^ (16 + 1) - 1) 16).testBit 16 =
      xor (Nat.testBit 0x89ABCDEF (16 - 2))
        (!Nat.testBit 0x89ABCDEF (16 + 1) && Nat.testBit 0x89ABCDEF (16 + 2)) ∧
    (∀ i, 16 + 1 ≤ i → i ≤ 2 * 16 - 1 →
      (chichi_transform 0x89ABCDEF (2 ^ (16 - 1) - 1) (2 ^ (16 + 1) - 1) 16).testBit i =
        xor (Nat.testBit 0x89ABCDEF i)
          (!Nat.testBit 0x89ABCDEF (chichi_next 16 i) &&
            Nat.testBit 0x89ABCDEF (chichi_next 16 (chichi_next 16 i)))) :=
  C21_chichi_bits 16 0x89ABCDEF (by decide)

/-! ## Bit-level form of the linear layers -/

/-- Bit `i` of a 64-bit word assembled from one-bit values `p bit` at the positions
`bit < n`. -/
theorem foldl_or_shl64_testBit (p : Nat → Nat) (hp : ∀ b, p b < 2) (i : Nat) :
    ∀ n, n ≤ 64 →
      ((List.range n).foldl (fun output bit => output ||| shl64 (p bit) bit) 0).testBit i =
        (decide (i < n) && decide (p i = 1)) := by
  intro n
  induction n with
  | zero => intro _; simp
  | succ n ih =>
    intro hn
    rw [List.range_succ, List.foldl_append, List.foldl_cons, List.foldl_nil, Nat.testBit_or,
      ih (by omega), testBit_shl64]
    have h2 := hp n
    by_cases hin : i < n
    · have h1 : ¬ n ≤ i := by omega
      have h3 : i < n + 1 := by omega
      simp [hin, h1, h3]
    · by_cases hie : i = n
      · subst hie
        have h01 : p i = 0 ∨ p i = 1 := by omega
        rcases h01 with h0 | h1
        · simp [h0]
        · simp [h1]
          omega
      · have h3 : ¬ i < n + 1 := by omega
        have h4 : i - n ≠ 0 := by omega
        have h01 : p n = 0 ∨ p n = 1 := by omega
        rcases h01 with h0 | h1
        · simp [hin, h3, h0]
        · simp [hin, h3, h1, testBit_one_eq, h4]

/-- The parity of the population count is additive over XOR. -/
theorem parity_xor (w a b : Nat) :
    decide (popcount_bits w (a ^^^ b) % 2 = 1) =
      xor (decide (popcount_bits w a % 2 = 1)) (decide (popcount_bits w b % 2 = 1)) := by
  have h := popcount_bits_xor a b w
  have ha := Nat.mod_two_eq_zero_or_one (popcount_bits w a)
  have hb := Nat.mod_two_eq_zero_or_one (popcount_bits w b)
  have hx := Nat.mod_two_eq_zero_or_one (popcount_bits w (a ^^^ b))
  rcases ha with ha | ha <;> rcases hb with hb | hb <;> rcases hx with hx | hx <;>
    first
    | (exfalso; omega)
    | simp [ha, hb, hx]

theorem parity_zero (w : Nat) : decide (popcount_bits w 0 % 2 = 1) = false := by
  rw [popcount_bits_zero]
  rfl

theorem apply_linear_40_testBit (v : Nat) (matrix : Nat → Nat) (i : Nat) :
    (apply_linear_40 v matrix).testBit i =
      (decide (i < 40) &&
        decide (popcount_bits 64 (matrix i &&& (v &&& BITMASK_40)) % 2 = 1)) := by
  rw [apply_linear_40]
  rw [foldl_or_shl64_testBit (fun bit => popcount64 (matrix bit &&& (v &&& BITMASK_40)) &&& 1)
    (fun b => and_one_lt _) i 40 (by decide)]
  simp only [popcount64_eq_bits, Nat.and_one_is_mod]

theorem apply_linear_64_testBit (v : Nat) (matrix : Nat → Nat) (i : Nat) :
    (apply_linear_64 v matrix).testBit i =
      (decide (i < 64) && decide (popcount_bits 64 (matrix i &&& v) % 2 = 1)) := by
  rw [apply_linear_64]
  rw [foldl_or_shl64_testBit (fun bit => popcount64 (matrix bit &&& v) &&& 1)
    (fun b => and_one_lt _) i 64 (Nat.le_refl _)]
  simp only [popcount64_eq_bits, Nat.and_one_is_mod]

theorem apply_linear_40_xor (a b : Nat) (matrix : Nat → Nat) :
    apply_linear_40 (a ^^^ b) matrix = apply_linear_40 a matrix ^^^ apply_linear_40 b matrix := by
  apply Nat.eq_of_testBit_eq
  intro i
  rw [Nat.testBit_xor, apply_linear_40_testBit, apply_linear_40_testBit,
    apply_linear_40_testBit, xor_and_const, Nat.and_xor_distrib_left, parity_xor]
  cases decide (i < 40) <;> simp

theorem apply_linear_64_xor (a b : Nat) (matrix : Nat → Nat) :
    apply_linear_64 (a ^^^ b) matrix = apply_linear_64 a matrix ^^^ apply_linear_64 b matrix := by
  apply Nat.eq_of_testBit_eq
  intro i
  rw [Nat.testBit_xor, apply_linear_64_testBit, apply_linear_64_testBit,
    apply_linear_64_testBit, Nat.and_xor_distrib_left, parity_xor]
  cases decide (i < 64) <;> simp

theorem foldl_lo_eq (f : Nat → Nat) :
    ∀ (l : List Nat) (acc : uint128_t),
      l.foldl (fun (output : uint128_t) bit => { output with lo := output.lo ||| f bit }) acc =
        ⟨l.foldl (fun output bit => output ||| f bit) acc.lo, acc.hi⟩ := by
  intro l
  induction l with
  | nil => intro acc; rfl
  | cons b l ih => intro acc; rw [List.foldl_cons, List.foldl_cons, ih]

theorem foldl_hi_eq (f : Nat → Nat) :
    ∀ (l : List Nat) (acc : uint128_t),
      l.foldl (fun (output : uint128_t) bit => { output with hi := output.hi ||| f bit }) acc =
        ⟨acc.lo, l.foldl (fun output bit => output ||| f bit) acc.hi⟩ := by
  intro l
  induction l with
  | nil => intro acc; rfl
  | cons b l ih => intro acc; rw [List.foldl_cons, List.foldl_cons, ih]

/-- The parity bit of row `bit` in `apply_linear_128`. -/
theorem parity_128_eq (a b : Nat) :
    (popcount64 a ^^^ popcount64 b) &&& 1 =
      (popcount_bits 64 a + popcount_bits 64 b) % 2 := by
  rw [popcount64_eq_bits, popcount64_eq_bits, Nat.and_one_is_mod]
  have h := xor_mod_two_pow (popcount_bits 64 a) (popcount_bits 64 b) 1
  rw [Nat.pow_one] at h
  rw [h]
  have ha := Nat.mod_two_eq_zero_or_one (popcount_bits 64 a)
  have hb := Nat.mod_two_eq_zero_or_one (popcount_bits 64 b)
  rcases ha with ha | ha <;> rcases hb with hb | hb <;> rw [ha, hb] <;>
    simp only [Nat.xor_self, Nat.zero_xor, Nat.xor_zero] <;> omega

/-- The two words returned by `apply_linear_128`, bit by bit. -/
theorem apply_linear_128_testBit (x : uint128_t) (matrix : Nat → uint128_t) (i : Nat) :
    (apply_linear_128 x matrix).lo.testBit i =
      (decide (i < 64) &&
        decide ((popcount_bits 64 ((matrix i).lo &&& x.lo) +
          popcount_bits 64 ((matrix i).hi &&& x.hi)) % 2 = 1)) ∧
    (apply_linear_128 x matrix).hi.testBit i =
      (decide (i < 64) &&
        decide ((popcount_bits 64 ((matrix (i + 64)).lo &&& x.lo) +
          popcount_bits 64 ((matrix (i + 64)).hi &&& x.hi)) % 2 = 1)) := by
  have e : apply_linear_128 x matrix =
      ⟨(List.range 64).foldl (fun output bit => output ||| shl64
          ((popcount64 ((matrix bit).lo &&& x.lo) ^^^ popcount64 ((matrix bit).hi &&& x.hi))
            &&& 1) bit) 0,
       (List.range 64).foldl (fun output bit => output ||| shl64
          ((popcount64 ((matrix (bit + 64)).lo &&& x.lo) ^^^
            popcount64 ((matrix (bit + 64)).hi &&& x.hi)) &&& 1) bit) 0⟩ := by
    simp only [apply_linear_128]
    rw [foldl_lo_eq (fun bit => shl64
      ((popcount64 ((matrix bit).lo &&& x.lo) ^^^ popcount64 ((matrix bit).hi &&& x.hi))
        &&& 1) bit)]
    rw [foldl_hi_eq (fun bit => shl64
      ((popcount64 ((matrix bit).lo &&& x.lo) ^^^ popcount64 ((matrix bit).hi &&& x.hi))
        &&& 1) (bit - 64))]
    congr 1
  rw [e]
  constructor
  · rw [foldl_or_shl64_testBit (fun bit =>
      (popcount64 ((matrix bit).lo &&& x.lo) ^^^ popcount64 ((matrix bit).hi &&& x.hi)) &&& 1)
      (fun b => and_one_lt _) i 64 (Nat.le_refl _)]
    simp only [parity_128_eq]
  · rw [foldl_or_shl64_testBit (fun bit =>
      (popcount64 ((matrix (bit + 64)).lo &&& x.lo) ^^^
        popcount64 ((matrix (bit + 64)).hi &&& x.hi)) &&& 1)
      (fun b => and_one_lt _) i 64 (Nat.le_refl _)]
    simp only [parity_128_eq]

theorem parity_add_xor (n1 n2 a b c d : Nat) (h1 : n1 % 2 = (a + b) % 2)
    (h2 : n2 % 2 = (c + d) % 2) :
    decide ((n1 + n2) % 2 = 1) =
      xor (decide ((a + c) % 2 = 1)) (decide ((b + d) % 2 = 1)) := by
  by_cases p : (a + c) % 2 = 1 <;> by_cases q : (b + d) % 2 = 1 <;>
    by_cases r : (n1 + n2) % 2 = 1 <;> simp [p, q, r] <;> omega

theorem uint128_t_eq (a b : uint128_t) (h1 : a.lo = b.lo) (h2 : a.hi = b.hi) : a = b := by
  cases a
  cases b
  simp only [uint128_t.mk.injEq]
  exact ⟨h1, h2⟩

theorem apply_linear_128_xor (x y : uint128_t) (matrix : Nat → uint128_t) :
    apply_linear_128 ⟨x.lo ^^^ y.lo, x.hi ^^^ y.hi⟩ matrix =
      ⟨(apply_linear_128 x matrix).lo ^^^ (apply_linear_128 y matrix).lo,
       (apply_linear_128 x matrix).hi ^^^ (apply_linear_128 y matrix).hi⟩ := by
  apply uint128_t_eq
  · apply Nat.eq_of_testBit_eq
    intro i
    rw [Nat.testBit_xor, (apply_linear_128_testBit _ matrix i).1,
      (apply_linear_128_testBit x matrix i).1, (apply_linear_128_testBit y matrix i).1,
      Nat.and_xor_distrib_left, Nat.and_xor_distrib_left,
      parity_add_xor _ _ _ _ _ _ (popcount_bits_xor _ _ 64) (popcount_bits_xor _ _ 64)]
    cases decide (i < 64) <;> simp
  · apply Nat.eq_of_testBit_eq
    intro i
    rw [Nat.testBit_xor, (apply_linear_128_testBit _ matrix i).2,
      (apply_linear_128_testBit x matrix i).2, (apply_linear_128_testBit y matrix i).2,
      Nat.and_xor_distrib_left, Nat.and_xor_distrib_left,
      parity_add_xor _ _ _ _ _ _ (popcount_bits_xor _ _ 64) (popcount_bits_xor _ _ 64)]
    cases decide (i < 64) <;> simp

theorem apply_linear_128_zero (matrix : Nat → uint128_t) :
    apply_linear_128 ⟨0, 0⟩ matrix = ⟨0, 0⟩ := by
  apply uint128_t_eq
  · apply Nat.eq_of_testBit_eq
    intro i
    rw [(apply_linear_128_testBit _ matrix i).1]
    simp [popcount_bits_zero]
  · apply Nat.eq_of_testBit_eq
    intro i
    rw [(apply_linear_128_testBit _ matrix i).2]
    simp [popcount_bits_zero]

theorem eq_zero_of_xor_self_eq (f : Nat → Nat) (h : ∀ a b, f (a ^^^ b) = f a ^^^ f b) :
    f 0 = 0 := by
  have h0 := h 0 0
  rw [Nat.xor_self, Nat.xor_self] at h0
  exact h0

/-- C28: every linear-layer application is XOR-linear in its input, whatever the matrix
holds.  For all matrices and all inputs `x`, `y`:
`apply_linear_64(x XOR y, M) = apply_linear_64(x, M) XOR apply_linear_64(y, M)` and
`apply_linear_64(0, M) = 0`; the same for `apply_linear_32` and `apply_linear_40`; and for
`apply_linear_128` word by word on the two halves. -/
theorem C28_linear_layers_are_xor_linear (x y : Nat) (X Y : uint128_t) (m32 m40 m64 : Nat → Nat)
    (m128 : Nat → uint128_t) :
    (apply_linear_64 (x ^^^ y) m64 = apply_linear_64 x m64 ^^^ apply_linear_64 y m64 ∧
      apply_linear_64 0 m64 = 0) ∧
    (apply_linear_32 (x ^^^ y) m32 = apply_linear_32 x m32 ^^^ apply_linear_32 y m32 ∧
      apply_linear_32 0 m32 = 0) ∧
    (apply_linear_40 (x ^^^ y) m40 = apply_linear_40 x m40 ^^^ apply_linear_40 y m40 ∧
      apply_linear_40 0 m40 = 0) ∧
    (apply_linear_128 ⟨X.lo ^^^ Y.lo, X.hi ^^^ Y.hi⟩ m128 =
        ⟨(apply_linear_128 X m128).lo ^^^ (apply_linear_128 Y m128).lo,
         (apply_linear_128 X m128).hi ^^^ (apply_linear_128 Y m128).hi⟩ ∧
      apply_linear_128 ⟨0, 0⟩ m128 = ⟨0, 0⟩) :=
  ⟨⟨apply_linear_64_xor x y m64,
      eq_zero_of_xor_self_eq (fun v => apply_linear_64 v m64)
        (fun a b => apply_linear_64_xor a b m64)⟩,
    ⟨apply_linear_32_xor x y m32,
      eq_zero_of_xor_self_eq (fun v => apply_linear_32 v m32)
        (fun a b => apply_linear_32_xor a b m32)⟩,
    ⟨apply_linear_40_xor x y m40,
      eq_zero_of_xor_self_eq (fun v => apply_linear_40 v m40)
        (fun a b => apply_linear_40_xor a b m40)⟩,
    ⟨apply_linear_128_xor X Y m128, apply_linear_128_zero m128⟩⟩

/-! ## The linear layers as three-tap XORs -/

theorem two_pow_and_eq (a x : Nat) : 2 ^ a &&& x = if x.testBit a = true then 2 ^ a else 0 := by
  apply Nat.eq_of_testBit_eq
  intro j
  by_cases h : x.testBit a = true
  · rw [if_pos h, Nat.testBit_and, Nat.testBit_two_pow]
    by_cases hj : a = j
    · subst hj
      simp [h]
    · simp [hj]
  · rw [if_neg h, Nat.testBit_and, Nat.testBit_two_pow, Nat.zero_testBit]
    by_cases hj : a = j
    · subst hj
      simp [h]
    · simp [hj]

theorem popcount_bits_two_pow (w a : Nat) (h : a < w) : popcount_bits w (2 ^ a) = 1 := by
  have h3 := popcount_bits_three_bits w a a a h h h
  simp only [Nat.zero_or, Nat.or_self, Finset.mem_singleton, Finset.insert_eq_of_mem,
    Finset.card_singleton] at h3
  exact h3

/-- The parity of a word masked to one bit is that bit. -/
theorem parity_single (w a x : Nat) (h : a < w) :
    decide (popcount_bits w (2 ^ a &&& x) % 2 = 1) = x.testBit a := by
  rw [two_pow_and_eq]
  by_cases hx : x.testBit a = true
  · rw [if_pos hx, popcount_bits_two_pow w a h, hx]
    rfl
  · rw [if_neg hx, popcount_bits_zero]
    simp only [Bool.not_eq_true] at hx
    rw [hx]
    rfl

theorem three_bits_eq_xor (a b c : Nat) (hab : a ≠ b) (hac : a ≠ c) (hbc : b ≠ c) :
    0 ||| 2 ^ a ||| 2 ^ b ||| 2 ^ c = 2 ^ a ^^^ 2 ^ b ^^^ 2 ^ c := by
  apply Nat.eq_of_testBit_eq
  intro j
  simp only [Nat.testBit_or, Nat.testBit_xor, Nat.zero_testBit, Nat.testBit_two_pow,
    Bool.false_or]
  by_cases h1 : a = j
  · have h2 : ¬ b = j := by omega
    have h3 : ¬ c = j := by omega
    simp [h1, h2, h3]
  · by_cases h2 : b = j
    · have h3 : ¬ c = j := by omega
      simp [h1, h2, h3]
    · by_cases h3 : c = j <;> simp [h1, h2, h3]

/-- The parity of a word masked to three distinct bits below `w` is the XOR of the three
bits. -/
theorem three_tap (w a b c x : Nat) (ha : a < w) (hb : b < w) (hc : c < w) (hab : a ≠ b)
    (hac : a ≠ c) (hbc : b ≠ c) :
    decide (popcount_bits w ((0 ||| 2 ^ a ||| 2 ^ b ||| 2 ^ c) &&& x) % 2 = 1) =
      xor (xor (x.testBit a) (x.testBit b)) (x.testBit c) := by
  rw [three_bits_eq_xor a b c hab hac hbc, xor_and_const, xor_and_const, parity_xor,
    parity_xor, parity_single w a x ha, parity_single w b x hb, parity_single w c x hc]

theorem chilow_init_rows (g : Matrices) :
    (∀ i, i < 32 → (chilow_init g).linear_matrix_32_state i = matrix_row_32 state_params i) ∧
    (∀ i, i < 32 → (chilow_init g).linear_matrix_32_prf i = matrix_row_32 prf_params i) ∧
    (∀ i, i < 40 → (chilow_init g).linear_matrix_40 i = matrix_row_40 state40_params i) ∧
    (∀ i, i < 64 → (chilow_init g).linear_matrix_64 i = matrix_row_64 tweak_params i) ∧
    (∀ i, i < 128 → (chilow_init g).linear_matrix_128 i = matrix_row_128 key_params i) := by
  rw [chilow_init_eq]
  refine ⟨?_, ?_, ?_, ?_, ?_⟩ <;> intro i hi <;> simp only [generated_matrices, if_pos hi]

/-- C22: after `chilow_init` (from any previous contents of the arrays), each of the four
single-word linear layers computes the three-tap XOR given by its parameters: for every
input `x` and every output position `i`, bit `i` of `M·x` is
`x[(a·i+b0) mod w] ^ x[(a·i+b1) mod w] ^ x[(a·i+b2) mod w]` when `i < w` and zero when
`i ≥ w`, with `(w, a, b0, b1, b2) = (32, 11, 5, 9, 12)` for State32, `(32, 11, 1, 26, 30)` for
Prf32, `(40, 17, 1, 9, 30)` for State40 and `(64, 3, 1, 26, 50)` for Tweak64. -/
theorem C22_linear_layers_three_tap (g : Matrices) (x i : Nat) :
    (apply_linear_32 x (chilow_init g).linear_matrix_32_state).testBit i =
      (decide (i < 32) && xor (xor (x.testBit ((11 * i + 5) % 32))
        (x.testBit ((11 * i + 9) % 32))) (x.testBit ((11 * i + 12) % 32))) ∧
    (apply_linear_32 x (chilow_init g).linear_matrix_32_prf).testBit i =
      (decide (i < 32) && xor (xor (x.testBit ((11 * i + 1) % 32))
        (x.testBit ((11 * i + 26) % 32))) (x.testBit ((11 * i + 30) % 32))) ∧
    (apply_linear_40 x (chilow_init g).linear_matrix_40).testBit i =
      (decide (i < 40) && xor (xor (x.testBit ((17 * i + 1) % 40))
        (x.testBit ((17 * i + 9) % 40))) (x.testBit ((17 * i + 30) % 40))) ∧
    (apply_linear_64 x (chilow_init g).linear_matrix_64).testBit i =
      (decide (i < 64) && xor (xor (x.testBit ((3 * i + 1) % 64))
        (x.testBit ((3 * i + 26) % 64))) (x.testBit ((3 * i + 50) % 64))) := by
  obtain ⟨r1, r2, r3, r4, _⟩ := chilow_init_rows g
  refine ⟨?_, ?_, ?_, ?_⟩
  · rw [apply_linear_32_testBit]
    by_cases hi : i < 32
    · rw [r1 i hi, matrix_row_32_eq]
      simp only [column, state_params, triple, List.getD_cons_zero, List.getD_cons_succ]
      rw [three_tap 32 _ _ _ x (Nat.mod_lt _ (by decide)) (Nat.mod_lt _ (by decide))
        (Nat.mod_lt _ (by decide)) (by omega) (by omega) (by omega)]
    · simp [hi]
  · rw [apply_linear_32_testBit]
    by_cases hi : i < 32
    · rw [r2 i hi, matrix_row_32_eq]
      simp only [column, prf_params, triple, List.getD_cons_zero, List.getD_cons_succ]
      rw [three_tap 32 _ _ _ x (Nat.mod_lt _ (by decide)) (Nat.mod_lt _ (by decide))
        (Nat.mod_lt _ (by decide)) (by omega) (by omega) (by omega)]
    · simp [hi]
  · rw [apply_linear_40_testBit]
    by_cases hi : i < 40
    · rw [r3 i hi, matrix_row_40_eq]
      simp only [column, state40_params, triple, List.getD_cons_zero, List.getD_cons_succ]
      have h40 : ∀ c, c < 40 → (x &&& BITMASK_40).testBit c = x.testBit c := by
        intro c hc
        rw [Nat.testBit_and, BITMASK_40_eq, Nat.testBit_two_pow_sub_one, decide_eq_true hc,
          Bool.and_true]
      rw [three_tap 64 _ _ _ _
        (lt_trans (Nat.mod_lt _ (by decide)) (by decide : 40 < 64))
        (lt_trans (Nat.mod_lt _ (by decide)) (by decide : 40 < 64))
        (lt_trans (Nat.mod_lt _ (by decide)) (by decide : 40 < 64))
        (by omega) (by omega) (by omega),
        h40 _ (Nat.mod_lt _ (by decide)), h40 _ (Nat.mod_lt _ (by decide)),
        h40 _ (Nat.mod_lt _ (by decide))]
    · simp [hi]
  · rw [apply_linear_64_testBit]
    by_cases hi : i < 64
    · rw [r4 i hi, matrix_row_64_eq]
      simp only [column, tweak_params, triple, List.getD_cons_zero, List.getD_cons_succ]
      rw [three_tap 64 _ _ _ x (Nat.mod_lt _ (by decide)) (Nat.mod_lt _ (by decide))
        (Nat.mod_lt _ (by decide)) (by omega) (by omega) (by omega)]
    · simp [hi]

theorem popcount_bits_congr (w a b : Nat) (h : ∀ j, j < w → a.testBit j = b.testBit j) :
    popcount_bits w a = popcount_bits w b := by
  rw [popcount_bits_eq_card, popcount_bits_eq_card]
  congr 1
  apply Finset.filter_congr
  intro j hj
  rw [h j (Finset.mem_range.mp hj)]

/-- The population count of a 128-bit value is the sum over its two words. -/
theorem popcount_bits_128 (v a b : Nat) (hlo : ∀ j, j < 64 → v.testBit j = a.testBit j)
    (hhi : ∀ j, j < 64 → v.testBit (j + 64) = b.testBit j) :
    popcount_bits 128 v = popcount_bits 64 a + popcount_bits 64 b := by
  have h := popcount_bits_split 64 v 64
  rw [show (64 : Nat) + 64 = 128 from rfl] at h
  rw [h, popcount_bits_congr 64 v a hlo, popcount_bits_congr 64 (v >>> 64) b]
  intro j hj
  rw [Nat.testBit_shiftRight, Nat.add_comm, hhi j hj]

/-- A row of the 128-bit matrix, read as one 128-bit value, has its set bits at the three
columns. -/
theorem matrix_row_128_value (params : linear_params_t) (row : Nat) :
    ((matrix_row_128 params row).hi <<< 64) ||| (matrix_row_128 params row).lo =
      0 ||| 2 ^ column params 128 row 0 ||| 2 ^ column params 128 row 1 |||
        2 ^ column params 128 row 2 := by
  apply Nat.eq_of_testBit_eq
  intro j
  rw [Bool.eq_iff_iff, testBit_three_bits, Nat.testBit_or, Bool.or_eq_true,
    Nat.testBit_shiftLeft, Bool.and_eq_true, decide_eq_true_eq,
    (matrix_row_128_testBit params row j).1, (matrix_row_128_testBit params row (j - 64)).2]
  have hc := fun t => column_lt params 128 row t (by decide : 0 < 128)
  simp only [columns, Finset.mem_insert, Finset.mem_singleton]
  have h0 := hc 0
  have h1 := hc 1
  have h2 := hc 2
  omega

/-- C23: after `chilow_init`, the 128-bit key linear layer on the two-word representation
computes the three-tap XOR over the 128-bit value.  For every `(lo, hi)` with a 64-bit `lo`,
`X = (hi << 64) | lo` and every `i < 128`, bit `i` of the result (bit `i` of the low word if
`i < 64`, else bit `i − 64` of the high word) is
`X[(17i+7) mod 128] ^ X[(17i+11) mod 128] ^ X[(17i+14) mod 128]`. -/
theorem C23_key_linear_layer_three_tap (g : Matrices) (lo hi i : Nat) (hlo : lo < 2 ^ 64)
    (hi128 : i < 128) :
    (if i < 64 then
        (apply_linear_128 ⟨lo, hi⟩ (chilow_init g).linear_matrix_128).lo.testBit i
      else (apply_linear_128 ⟨lo, hi⟩ (chilow_init g).linear_matrix_128).hi.testBit (i - 64)) =
      xor (xor (((hi <<< 64) ||| lo).testBit ((17 * i + 7) % 128))
        (((hi <<< 64) ||| lo).testBit ((17 * i + 11) % 128)))
        (((hi <<< 64) ||| lo).testBit ((17 * i + 14) % 128)) := by
  have hrow := (chilow_init_rows g).2.2.2.2 i hi128
  have hX : ∀ (r : uint128_t), (∀ j, 64 ≤ j → r.lo.testBit j = false) →
      popcount_bits 64 (r.lo &&& lo) + popcount_bits 64 (r.hi &&& hi) =
        popcount_bits 128 (((r.hi <<< 64) ||| r.lo) &&& ((hi <<< 64) ||| lo)) := by
    intro r hr
    symm
    apply popcount_bits_128
    · intro j hj
      have hn : ¬ 64 ≤ j := by omega
      simp [Nat.testBit_and, Nat.testBit_or, Nat.testBit_shiftLeft, hn]
    · intro j hj
      have h1 : lo.testBit (j + 64) = false :=
        Nat.testBit_eq_false_of_lt (lt_of_lt_of_le hlo (Nat.pow_le_pow_right (by decide)
          (by omega)))
      simp [Nat.testBit_and, Nat.testBit_or, Nat.testBit_shiftLeft, h1, hr (j + 64) (by omega)]
  have hr : ∀ j, 64 ≤ j → (matrix_row_128 key_params i).lo.testBit j = false := by
    intro j hj
    cases h : (matrix_row_128 key_params i).lo.testBit j
    · rfl
    · have := ((matrix_row_128_testBit key_params i j).1.mp h).1
      omega
  have key : decide ((popcount_bits 64 ((matrix_row_128 key_params i).lo &&& lo) +
      popcount_bits 64 ((matrix_row_128 key_params i).hi &&& hi)) % 2 = 1) =
      xor (xor (((hi <<< 64) ||| lo).testBit ((17 * i + 7) % 128))
        (((hi <<< 64) ||| lo).testBit ((17 * i + 11) % 128)))
        (((hi <<< 64) ||| lo).testBit ((17 * i + 14) % 128)) := by
    rw [hX _ hr, matrix_row_128_value]
    simp only [column, key_params, triple, List.getD_cons_zero, List.getD_cons_succ]
    rw [three_tap 128 _ _ _ _ (Nat.mod_lt _ (by decide)) (Nat.mod_lt _ (by decide))
      (Nat.mod_lt _ (by decide)) (by omega) (by omega) (by omega)]
  by_cases h64 : i < 64
  · rw [if_pos h64, (apply_linear_128_testBit _ _ i).1, hrow, decide_eq_true h64,
      Bool.true_and]
    exact key
  · have e : i - 64 + 64 = i := by omega
    have h2 : i - 64 < 64 := by omega
    rw [if_neg h64, (apply_linear_128_testBit _ _ (i - 64)).2, e, hrow, decide_eq_true h2,
      Bool.true_and]
    exact key

/-- C23 at the key of the published test vectors and `i = 100`. -/
theorem C23_key_linear_layer_three_tap_witness :
    (if 100 < 64 then
        (apply_linear_128 ⟨0x7766554433221100, 0xFEDCBA9876543210⟩
          (chilow_init zero_matrices).linear_matrix_128).lo.testBit 100
      else (apply_linear_128 ⟨0x7766554433221100, 0xFEDCBA9876543210⟩
          (chilow_init zero_matrices).linear_matrix_128).hi.testBit (100 - 64)) =
      xor (xor (((0xFEDCBA9876543210 <<< 64) ||| 0x7766554433221100).testBit
          ((17 * 100 + 7) % 128))
        (((0xFEDCBA9876543210 <<< 64) ||| 0x7766554433221100).testBit
          ((17 * 100 + 11) % 128)))
        (((0xFEDCBA9876543210 <<< 64) ||| 0x7766554433221100).testBit
          ((17 * 100 + 14) % 128)) :=
  C23_key_linear_layer_three_tap zero_matrices 0x7766554433221100 0xFEDCBA9876543210 100
    (by decide) (by decide)

/-! ## Confinement of the 40-bit data lane -/

theorem main_round_40_traced_snd (g : Matrices) (r : Nat) (ts : List Nat × State40) :
    (main_round_40_traced g r ts).map Prod.snd = main_round_40 g r ts.2 := by
  simp only [main_round_40_traced, main_round_40, Option.map_map]
  rfl

theorem chichi_20_lt (x : Nat) : chichi_transform x BITMASK_19 BITMASK_21 20 < 2 ^ 40 := by
  rw [BITMASK_19_eq, BITMASK_21_eq]
  exact chichi_transform_lt x 20 (by decide)

theorem apply_linear_40_lt (x : Nat) (m : Nat → Nat) : apply_linear_40 x m < 2 ^ 40 := by
  apply Nat.lt_pow_two_of_testBit
  intro i hi
  have hn : ¬ i < 40 := by omega
  rw [apply_linear_40_testBit, decide_eq_false hn, Bool.false_and]

/-- One traced round keeps the recorded values and the lane below `2^40` and records three
values. -/
theorem main_round_40_traced_inv (g : Matrices) (r : Nat) (ts ts' : List Nat × State40)
    (h : main_round_40_traced g r ts = some ts') (hl : ∀ p ∈ ts.1, p < 2 ^ 40) :
    (∀ p ∈ ts'.1, p < 2 ^ 40) ∧ ts'.2.plaintext < 2 ^ 40 ∧
      ts'.1.length = ts.1.length + 3 ∧ ∃ l, ts'.1 = ts.1 ++ l := by
  simp only [main_round_40_traced, Option.map_eq_some'] at h
  obtain ⟨rc, _, rfl⟩ := h
  have h3 : ∀ t : Nat, apply_linear_40 (chichi_transform ts.2.plaintext BITMASK_19
      BITMASK_21 20) g.linear_matrix_40 ^^^ (t &&& BITMASK_40) < 2 ^ 40 := fun t =>
    Nat.xor_lt_two_pow (apply_linear_40_lt _ _) (and_BITMASK_40_lt _)
  refine ⟨?_, h3 _, ?_, ⟨_, rfl⟩⟩
  · intro p hp
    simp only [List.mem_append, List.mem_cons, List.mem_singleton, List.not_mem_nil,
      or_false] at hp
    rcases hp with hp | rfl | rfl | rfl
    · exact hl p hp
    · exact chichi_20_lt _
    · exact apply_linear_40_lt _ _
    · exact h3 _
  · simp only [List.length_append, List.length_cons, List.length_nil]

theorem rounds_40_traced_inv (g : Matrices) :
    ∀ (count round : Nat) (ts ts' : List Nat × State40),
      for_rounds (main_round_40_traced g) count round ts = some ts' →
      (∀ p ∈ ts.1, p < 2 ^ 40) → ts.2.plaintext < 2 ^ 40 →
      (∀ p ∈ ts'.1, p < 2 ^ 40) ∧ ts'.2.plaintext < 2 ^ 40 ∧
        ts'.1.length = ts.1.length + 3 * count ∧ ∃ l, ts'.1 = ts.1 ++ l := by
  intro count
  induction count with
  | zero =>
    intro round ts ts' h hl hp
    simp only [for_rounds, Option.some.injEq] at h
    subst h
    exact ⟨hl, hp, rfl, [], (List.append_nil _).symm⟩
  | succ k ih =>
    intro round ts ts' h hl _
    simp only [for_rounds, Option.bind_eq_some] at h
    obtain ⟨t1, h1, h2⟩ := h
    obtain ⟨a, b, c, l1, d⟩ := main_round_40_traced_inv g round ts t1 h1 hl
    obtain ⟨a2, b2, c2, l2, d2⟩ := ih (round + 1) t1 ts' h2 a b
    exact ⟨a2, b2, by rw [c2, c]; omega, l1 ++ l2, by rw [d2, d, List.append_assoc]⟩

/-- C26: 40-bit lane confinement.  For every ciphertext `C < 2^40`, every tweak, every key,
every matrix contents and every round count `R` in `1..8`, the routine
`chilow_decrypt_40_reduced` returns a value, and the `3R` values that its variable
`plaintext` takes (after the initial whitening, after chichi, the State40 linear layer and
the interaction XOR of each of the `R − 1` main rounds, and after chichi and the masked
interaction XOR of the final round) are all at most `0xFFFFFFFFFF`. -/
theorem C26_lane_40_confined (g : Matrices) (C T K_hi K_lo : Nat) (R : Int)
    (hC : C < 2 ^ 40) (h1 : 1 ≤ R) (h8 : R ≤ 8) :
    ∃ steps v,
      chilow_decrypt_40_reduced_traced g C T ⟨K_lo, K_hi⟩ R = some (steps, v) ∧
      chilow_reduced_round_40bit g C T K_hi K_lo R = some v ∧
      steps.length = 3 * R.toNat ∧
      steps.head? = some (C ^^^ (K_hi &&& BITMASK_40)) ∧
      steps.getLast? = some v ∧
      ∀ p ∈ steps, p ≤ 0xFFFFFFFFFF := by
  have hpos : R > 0 := by omega
  have hw : (whitening_40 C T ⟨K_lo, K_hi⟩).plaintext < 2 ^ 40 :=
    Nat.xor_lt_two_pow hC (and_BITMASK_40_lt _)
  obtain ⟨s, hs⟩ := rounds_40_total g (R - 1).toNat (whitening_40 C T ⟨K_lo, K_hi⟩) (by omega)
  have hsim := for_rounds_sim Prod.snd (main_round_40_traced g) (main_round_40 g)
    (main_round_40_traced_snd g) (R - 1).toNat 0
    ([(whitening_40 C T ⟨K_lo, K_hi⟩).plaintext], whitening_40 C T ⟨K_lo, K_hi⟩)
  rw [hs, Option.map_eq_some'] at hsim
  obtain ⟨ts, hts, hsnd⟩ := hsim
  obtain ⟨a, _, c, l, d⟩ := rounds_40_traced_inv g _ _ _ _ hts
    (by
      intro p hp
      simp only [List.mem_singleton] at hp
      rw [hp]
      exact hw) hw
  have hlast : (chichi_transform ts.2.plaintext BITMASK_19 BITMASK_21 20 ^^^
      (apply_linear_64 ts.2.tweak g.linear_matrix_64 &&& BITMASK_40)) &&& BITMASK_40 < 2 ^ 40 :=
    and_BITMASK_40_lt _
  have hle : ∀ p : Nat, p < 2 ^ 40 → p ≤ 0xFFFFFFFFFF := by
    intro p hp
    have e : (2 : Nat) ^ 40 = 0xFFFFFFFFFF + 1 := by decide
    omega
  refine ⟨_, _, by rw [chilow_decrypt_40_reduced_traced, hts, Option.map_some', if_pos hpos],
    ?_, ?_, ?_, ?_, ?_⟩
  · rw [chilow_reduced_round_40bit, chilow_decrypt_40_reduced, hs, Option.map_some',
      if_pos hpos, hsnd]
  · simp only [List.length_append, List.length_cons, List.length_nil, c]
    omega
  · rw [d]
    rfl
  · simp
  · intro p hp
    simp only [List.mem_append, List.mem_cons, List.mem_singleton, List.not_mem_nil,
      or_false] at hp
    rcases hp with hp | rfl | rfl
    · exact hle _ (a p hp)
    · exact hle _ (chichi_20_lt _)
    · exact hle _ hlast

/-- C26 at the published 40-bit vector and `R = 3`. -/
theorem C26_lane_40_confined_witness :
    ∃ steps v,
      chilow_decrypt_40_reduced_traced (chilow_init zero_matrices) 0x317C83E4A7
        0x0011223344556677 ⟨0x7766554433221100, 0xFEDCBA9876543210⟩ 3 = some (steps, v) ∧
      chilow_reduced_round_40bit (chilow_init zero_matrices) 0x317C83E4A7 0x0011223344556677
        0xFEDCBA9876543210 0x7766554433221100 3 = some v ∧
      steps.length = 3 * (3 : Int).toNat ∧
      steps.head? = some (0x317C83E4A7 ^^^ (0xFEDCBA9876543210 &&& BITMASK_40)) ∧
      steps.getLast? = some v ∧
      ∀ p ∈ steps, p ≤ 0xFFFFFFFFFF :=
  C26_lane_40_confined (chilow_init zero_matrices) 0x317C83E4A7 0x0011223344556677
    0xFEDCBA9876543210 0x7766554433221100 3 (by decide) (by decide) (by decide)

/-! ## Invertibility of the data-lane linear layers -/

set_option maxRecDepth 100000 in
/-- The listed rows are a two-sided inverse of State32: the selected rows of one matrix XOR
to the unit vectors. -/
theorem state32_inverse_check :
    ∀ i, i < 32 →
      row_combination (state32_inverse i) (matrix_row_32 state_params) 32 = 2 ^ i ∧
      row_combination (matrix_row_32 state_params i) state32_inverse 32 = 2 ^ i ∧
      state32_inverse i < 2 ^ 32 := by
  decide!

set_option maxRecDepth 100000 in
/-- The listed rows are a two-sided inverse of State40. -/
theorem state40_inverse_check :
    ∀ i, i < 40 →
      row_combination (state40_inverse i) (matrix_row_40 state40_params) 40 = 2 ^ i ∧
      row_combination (matrix_row_40 state40_params i) state40_inverse 40 = 2 ^ i ∧
      state40_inverse i < 2 ^ 40 := by
  decide!

theorem popcount_bits_of_lt (v k W : Nat) (hv : v < 2 ^ k) (hk : k ≤ W) :
    popcount_bits W v = popcount_bits k v := by
  have h := popcount_bits_split k v (W - k)
  have e : k + (W - k) = W := by omega
  rw [e, Nat.shiftRight_eq_div_pow, Nat.div_eq_of_lt hv, popcount_bits_zero] at h
  exact h

theorem parity_succ (k v : Nat) :
    decide (popcount_bits (k + 1) v % 2 = 1) =
      xor (v.testBit k) (decide (popcount_bits k v % 2 = 1)) := by
  rw [popcount_bits, shr_and_one_eq]
  have hp := Nat.mod_two_eq_zero_or_one (popcount_bits k v)
  cases hv : v.testBit k <;> rcases hp with hp | hp <;> simp [hp] <;> omega

/-- Composition of linear layers: the parity of a selection of output bits of a linear layer
is the parity of the input under the XOR of the selected rows. -/
theorem parity_row_combination (W n : Nat) (matrix : Nat → Nat) (sel x y : Nat)
    (hy : ∀ j, j < n → y.testBit j = decide (popcount_bits W (matrix j &&& x) % 2 = 1)) :
    ∀ k, k ≤ n → decide (popcount_bits k (sel &&& y) % 2 = 1) =
      decide (popcount_bits W (row_combination sel matrix k &&& x) % 2 = 1) := by
  intro k
  induction k with
  | zero =>
    intro _
    simp only [popcount_bits, row_combination, Nat.zero_and, popcount_bits_zero]
  | succ k ih =>
    intro hk
    rw [parity_succ, ih (by omega), row_combination, xor_and_const, parity_xor,
      Nat.testBit_and, hy k (by omega)]
    cases hs : sel.testBit k
    · simp [popcount_bits_zero]
    · simp [Bool.xor_comm]

theorem apply_linear_32_lt (x : Nat) (m : Nat → Nat) : apply_linear_32 x m < 2 ^ 32 := by
  apply Nat.lt_pow_two_of_testBit
  intro i hi
  have hn : ¬ i < 32 := by omega
  rw [apply_linear_32_testBit, decide_eq_false hn, Bool.false_and]

theorem and_BITMASK_40_of_lt (x : Nat) (h : x < 2 ^ 40) : x &&& BITMASK_40 = x := by
  rw [BITMASK_40_eq, Nat.and_pow_two_sub_one_eq_mod, Nat.mod_eq_of_lt h]

/-- A matrix whose rows select unit vectors out of `M` undoes `apply_linear_32 · M`. -/
theorem apply_linear_32_inverse (M N : Nat → Nat)
    (h : ∀ i, i < 32 → row_combination (N i) M 32 = 2 ^ i) (x : Nat) (hx : x < 2 ^ 32) :
    apply_linear_32 (apply_linear_32 x M) N = x := by
  apply Nat.eq_of_testBit_eq
  intro i
  rw [apply_linear_32_testBit]
  by_cases hi : i < 32
  · rw [decide_eq_true hi, Bool.true_and,
      parity_row_combination 32 32 M (N i) x (apply_linear_32 x M)
        (fun j hj => by rw [apply_linear_32_testBit, decide_eq_true hj, Bool.true_and])
        32 (Nat.le_refl _),
      h i hi, parity_single 32 i x hi]
  · rw [decide_eq_false hi, Bool.false_and]
    exact (Nat.testBit_eq_false_of_lt
      (lt_of_lt_of_le hx (Nat.pow_le_pow_right (by decide) (by omega)))).symm

/-- A matrix whose rows select unit vectors out of `M` undoes `apply_linear_40 · M`. -/
theorem apply_linear_40_inverse (M N : Nat → Nat)
    (h : ∀ i, i < 40 → row_combination (N i) M 40 = 2 ^ i) (x : Nat) (hx : x < 2 ^ 40) :
    apply_linear_40 (apply_linear_40 x M) N = x := by
  apply Nat.eq_of_testBit_eq
  intro i
  rw [apply_linear_40_testBit, and_BITMASK_40_of_lt _ (apply_linear_40_lt x M)]
  by_cases hi : i < 40
  · rw [decide_eq_true hi, Bool.true_and,
      popcount_bits_of_lt _ 40 64
        (Nat.lt_of_le_of_lt Nat.and_le_right (apply_linear_40_lt x M)) (by decide),
      parity_row_combination 64 40 M (N i) x (apply_linear_40 x M)
        (fun j hj => by
          rw [apply_linear_40_testBit, decide_eq_true hj, Bool.true_and,
            and_BITMASK_40_of_lt x hx])
        40 (Nat.le_refl _),
      h i hi, parity_single 64 i x (by omega)]
  · rw [decide_eq_false hi, Bool.false_and]
    exact (Nat.testBit_eq_false_of_lt
      (lt_of_lt_of_le hx (Nat.pow_le_pow_right (by decide) (by omega)))).symm

/-- C29: the State32 linear layer of the 32-bit data lane is invertible over GF(2).  After
`chilow_init` (the matrix generated from `alpha = (11,11,11)`, `beta = (5,9,12)`),
`apply_linear_32` with `linear_matrix_32_state` is injective on 32-bit inputs, and every
32-bit value is the image of a 32-bit input (a bijection of the 32-bit values). -/
theorem C29_state32_invertible (g : Matrices) (x y : Nat) (hx : x < 2 ^ 32) (hy : y < 2 ^ 32) :
    (apply_linear_32 x (chilow_init g).linear_matrix_32_state =
        apply_linear_32 y (chilow_init g).linear_matrix_32_state → x = y) ∧
    apply_linear_32 x (chilow_init g).linear_matrix_32_state < 2 ^ 32 ∧
    ∃ z, z < 2 ^ 32 ∧ apply_linear_32 z (chilow_init g).linear_matrix_32_state = y := by
  have hM : ∀ v, apply_linear_32 v (chilow_init g).linear_matrix_32_state =
      apply_linear_32 v (matrix_row_32 state_params) := fun v =>
    apply_linear_32_congr v _ _ (chilow_init_rows g).1
  have hinv := apply_linear_32_inverse (matrix_row_32 state_params) state32_inverse
    (fun i hi => (state32_inverse_check i hi).1)
  refine ⟨fun h => ?_, apply_linear_32_lt _ _, apply_linear_32 y state32_inverse,
    apply_linear_32_lt _ _, ?_⟩
  · rw [hM, hM] at h
    rw [← hinv x hx, ← hinv y hy, h]
  · rw [hM]
    exact apply_linear_32_inverse state32_inverse (matrix_row_32 state_params)
      (fun i hi => (state32_inverse_check i hi).2.1) y hy

/-- C29 at `x = 0x01234567` and `y = 0x89ABCDEF`. -/
theorem C29_state32_invertible_witness :
    (apply_linear_32 0x01234567 (chilow_init zero_matrices).linear_matrix_32_state =
        apply_linear_32 0x89ABCDEF (chilow_init zero_matrices).linear_matrix_32_state →
      0x01234567 = 0x89ABCDEF) ∧
    apply_linear_32 0x01234567 (chilow_init zero_matrices).linear_matrix_32_state < 2 ^ 32 ∧
    ∃ z, z < 2 ^ 32 ∧
      apply_linear_32 z (chilow_init zero_matrices).linear_matrix_32_state = 0x89ABCDEF :=
  C29_state32_invertible zero_matrices 0x01234567 0x89ABCDEF (by decide) (by decide)

/-- C30: the State40 linear layer of the 40-bit data lane is invertible over GF(2).  After
`chilow_init` (the matrix generated from `alpha = (17,17,17)`, `beta = (1,9,30)`),
`apply_linear_40` with `linear_matrix_40` is injective on inputs below `2^40`, and every
value below `2^40` is the image of an input below `2^40` (a bijection of the 40-bit
values). -/
theorem C30_state40_invertible (g : Matrices) (x y : Nat) (hx : x < 2 ^ 40) (hy : y < 2 ^ 40) :
    (apply_linear_40 x (chilow_init g).linear_matrix_40 =
        apply_linear_40 y (chilow_init g).linear_matrix_40 → x = y) ∧
    apply_linear_40 x (chilow_init g).linear_matrix_40 < 2 ^ 40 ∧
    ∃ z, z < 2 ^ 40 ∧ apply_linear_40 z (chilow_init g).linear_matrix_40 = y := by
  have hM : ∀ v, apply_linear_40 v (chilow_init g).linear_matrix_40 =
      apply_linear_40 v (matrix_row_40 state40_params) := fun v =>
    apply_linear_40_congr v _ _ (chilow_init_rows g).2.2.1
  have hinv := apply_linear_40_inverse (matrix_row_40 state40_params) state40_inverse
    (fun i hi => (state40_inverse_check i hi).1)
  refine ⟨fun h => ?_, apply_linear_40_lt _ _, apply_linear_40 y state40_inverse,
    apply_linear_40_lt _ _, ?_⟩
  · rw [hM, hM] at h
    rw [← hinv x hx, ← hinv y hy, h]
  · rw [hM]
    exact apply_linear_40_inverse state40_inverse (matrix_row_40 state40_params)
      (fun i hi => (state40_inverse_check i hi).2.1) y hy

/-- C30 at `x = 0x317C83E4A7` and `y = 0x0090545706`. -/
theorem C30_state40_invertible_witness :
    (apply_linear_40 0x317C83E4A7 (chilow_init zero_matrices).linear_matrix_40 =
        apply_linear_40 0x0090545706 (chilow_init zero_matrices).linear_matrix_40 →
      0x317C83E4A7 = 0x0090545706) ∧
    apply_linear_40 0x317C83E4A7 (chilow_init zero_matrices).linear_matrix_40 < 2 ^ 40 ∧
    ∃ z, z < 2 ^ 40 ∧
      apply_linear_40 z (chilow_init zero_matrices).linear_matrix_40 = 0x0090545706 :=
  C30_state40_invertible zero_matrices 0x317C83E4A7 0x0090545706 (by decide) (by decide)

/-! ## Weight of the columns of the generated matrices -/

set_option maxRecDepth 100000 in
theorem generated_columns_weight :
    (∀ j, j < 32 → column_weight 32 (matrix_row_32 state_params) j = 3) ∧
    (∀ j, j < 32 → column_weight 32 (matrix_row_32 prf_params) j = 3) ∧
    (∀ j, j < 40 → column_weight 40 (matrix_row_40 state40_params) j = 3) ∧
    (∀ j, j < 64 → column_weight 64 (matrix_row_64 tweak_params) j = 3) ∧
    (∀ j, j < 128 → column_weight_128 (matrix_row_128 key_params) j = 3) := by
  decide!

theorem column_weight_congr (w : Nat) (m n : Nat → Nat) (h : ∀ i, i < w → m i = n i) (j : Nat) :
    column_weight w m j = column_weight w n j := by
  unfold column_weight
  congr 1
  apply List.filter_congr
  intro i hi
  rw [h i (List.mem_range.mp hi)]

theorem column_weight_128_congr (m n : Nat → uint128_t) (h : ∀ i, i < 128 → m i = n i)
    (j : Nat) : column_weight_128 m j = column_weight_128 n j := by
  unfold column_weight_128
  congr 1
  apply List.filter_congr
  intro i hi
  rw [h i (List.mem_range.mp hi)]

theorem popcount_bits_eq_filter (x : Nat) :
    ∀ w, popcount_bits w x = ((List.range w).filter fun i => x.testBit i).length := by
  intro w
  induction w with
  | zero => rfl
  | succ k ih =>
    rw [popcount_bits, shr_and_one_eq, ih, List.range_succ, List.filter_append,
      List.length_append, Nat.add_comm]
    by_cases h : x.testBit k = true
    · simp [h]
    · simp [h]

/-- The number of set bits of a word whose bit `i < w` is `p i`. -/
theorem popcount_bits_of_testBit (w v : Nat) (p : Nat → Bool)
    (h : ∀ i, i < w → v.testBit i = p i) :
    popcount_bits w v = ((List.range w).filter p).length := by
  rw [popcount_bits_eq_filter]
  congr 1
  apply List.filter_congr
  intro i hi
  exact h i (List.mem_range.mp hi)

theorem xor_flip_cancel (f : Nat → Nat) (h : ∀ a b, f (a ^^^ b) = f a ^^^ f b) (x u : Nat) :
    f (x ^^^ u) ^^^ f x = f u := by
  rw [h, Nat.xor_comm (f x) (f u), Nat.xor_assoc, Nat.xor_self, Nat.xor_zero]

/-- Flipping input bit `j` of the 32-bit linear layer flips as many output bits as column
`j` of the matrix has ones. -/
theorem apply_linear_32_flip (M : Nat → Nat) (x j : Nat) (hj : j < 32) :
    popcount_bits 32 (apply_linear_32 (x ^^^ 2 ^ j) M ^^^ apply_linear_32 x M) =
      column_weight 32 M j := by
  rw [xor_flip_cancel (fun v => apply_linear_32 v M) (fun a b => apply_linear_32_xor a b M)]
  apply popcount_bits_of_testBit
  intro i hi
  rw [apply_linear_32_testBit, decide_eq_true hi, Bool.true_and, Nat.and_comm,
    parity_single 32 j (M i) hj]

theorem apply_linear_40_flip (M : Nat → Nat) (x j : Nat) (hj : j < 40) :
    popcount_bits 40 (apply_linear_40 (x ^^^ 2 ^ j) M ^^^ apply_linear_40 x M) =
      column_weight 40 M j := by
  rw [xor_flip_cancel (fun v => apply_linear_40 v M) (fun a b => apply_linear_40_xor a b M)]
  apply popcount_bits_of_testBit
  intro i hi
  rw [apply_linear_40_testBit, decide_eq_true hi, Bool.true_and,
    and_BITMASK_40_of_lt _ (Nat.pow_lt_pow_right (by decide) hj), Nat.and_comm,
    parity_single 64 j (M i) (by omega)]

theorem apply_linear_64_flip (M : Nat → Nat) (x j : Nat) (hj : j < 64) :
    popcount_bits 64 (apply_linear_64 (x ^^^ 2 ^ j) M ^^^ apply_linear_64 x M) =
      column_weight 64 M j := by
  rw [xor_flip_cancel (fun v => apply_linear_64 v M) (fun a b => apply_linear_64_xor a b M)]
  apply popcount_bits_of_testBit
  intro i hi
  rw [apply_linear_64_testBit, decide_eq_true hi, Bool.true_and, Nat.and_comm,
    parity_single 64 j (M i) hj]

theorem parity_unit_128 (r : uint128_t) (j : Nat) (hj : j < 128) :
    decide ((popcount_bits 64 (r.lo &&& (unit_128 j).lo) +
      popcount_bits 64 (r.hi &&& (unit_128 j).hi)) % 2 = 1) = row_128_bit r j := by
  unfold unit_128 row_128_bit
  by_cases h : j < 64
  · simp only [if_pos h, Nat.and_zero, popcount_bits_zero, Nat.add_zero]
    rw [Nat.and_comm, parity_single 64 j r.lo h]
  · simp only [if_neg h, Nat.and_zero, popcount_bits_zero, Nat.zero_add]
    rw [Nat.and_comm, parity_single 64 (j - 64) r.hi (by omega)]

theorem filter_range_double (n : Nat) (p : Nat → Bool) :
    ((List.range (n + n)).filter p).length =
      ((List.range n).filter p).length + ((List.range n).filter fun i => p (i + n)).length := by
  have e : (fun i => p (i + n)) = p ∘ fun x => n + x := by
    funext i
    simp only [Function.comp, Nat.add_comm]
  rw [List.range_add, List.filter_append, List.length_append, List.filter_map,
    List.length_map, e]

theorem column_weight_128_split (M : Nat → uint128_t) (j : Nat) :
    column_weight_128 M j =
      ((List.range 64).filter fun i => row_128_bit (M i) j).length +
        ((List.range 64).filter fun i => row_128_bit (M (i + 64)) j).length :=
  filter_range_double 64 (fun i => row_128_bit (M i) j)

/-- Flipping input bit `j` of the 128-bit linear layer flips as many output bits as column
`j` of the matrix has ones. -/
theorem apply_linear_128_flip (M : Nat → uint128_t) (x : uint128_t) (j : Nat) (hj : j < 128) :
    popcount_128 (xor_128 (apply_linear_128 (xor_128 x (unit_128 j)) M)
      (apply_linear_128 x M)) = column_weight_128 M j := by
  have e : xor_128 (apply_linear_128 (xor_128 x (unit_128 j)) M) (apply_linear_128 x M) =
      apply_linear_128 (unit_128 j) M := by
    unfold xor_128
    rw [apply_linear_128_xor]
    apply uint128_t_eq
    · show _ ^^^ _ ^^^ _ = _
      rw [Nat.xor_comm (apply_linear_128 x M).lo, Nat.xor_assoc, Nat.xor_self, Nat.xor_zero]
    · show _ ^^^ _ ^^^ _ = _
      rw [Nat.xor_comm (apply_linear_128 x M).hi, Nat.xor_assoc, Nat.xor_self, Nat.xor_zero]
  rw [e, popcount_128, column_weight_128_split,
    popcount_bits_of_testBit 64 _ (fun i => row_128_bit (M i) j) (fun i hi => by
      rw [(apply_linear_128_testBit _ M i).1, decide_eq_true hi, Bool.true_and,
        parity_unit_128 _ j hj]),
    popcount_bits_of_testBit 64 _ (fun i => row_128_bit (M (i + 64)) j) (fun i hi => by
      rw [(apply_linear_128_testBit _ M i).2, decide_eq_true hi, Bool.true_and,
        parity_unit_128 _ j hj])]

/-- C31: after `chilow_init` (from any previous contents of the arrays), every column of
each of the five linear matrices has exactly three ones: for each matrix of width `w` and
each column `j < w` there are exactly 3 rows `i < w` whose bit `j` is set (for the 128-bit
matrix, bit `j` of a row is bit `j` of its low word if `j < 64`, else bit `j − 64` of its
high word).  So every input bit of a linear layer influences exactly 3 output bits: for
every input `x`, flipping bit `j < w` of `x` flips exactly 3 bits of the output. -/
theorem C31_columns_have_weight_three (g : Matrices) :
    ((∀ j, j < 32 → column_weight 32 (chilow_init g).linear_matrix_32_state j = 3) ∧
      (∀ j, j < 32 → column_weight 32 (chilow_init g).linear_matrix_32_prf j = 3) ∧
      (∀ j, j < 40 → column_weight 40 (chilow_init g).linear_matrix_40 j = 3) ∧
      (∀ j, j < 64 → column_weight 64 (chilow_init g).linear_matrix_64 j = 3) ∧
      (∀ j, j < 128 → column_weight_128 (chilow_init g).linear_matrix_128 j = 3)) ∧
    ((∀ x j, j < 32 →
        popcount_bits 32 (apply_linear_32 (x ^^^ 2 ^ j) (chilow_init g).linear_matrix_32_state ^^^
          apply_linear_32 x (chilow_init g).linear_matrix_32_state) = 3) ∧
      (∀ x j, j < 32 →
        popcount_bits 32 (apply_linear_32 (x ^^^ 2 ^ j) (chilow_init g).linear_matrix_32_prf ^^^
          apply_linear_32 x (chilow_init g).linear_matrix_32_prf) = 3) ∧
      (∀ x j, j < 40 →
        popcount_bits 40 (apply_linear_40 (x ^^^ 2 ^ j) (chilow_init g).linear_matrix_40 ^^^
          apply_linear_40 x (chilow_init g).linear_matrix_40) = 3) ∧
      (∀ x j, j < 64 →
        popcount_bits 64 (apply_linear_64 (x ^^^ 2 ^ j) (chilow_init g).linear_matrix_64 ^^^
          apply_linear_64 x (chilow_init g).linear_matrix_64) = 3) ∧
      (∀ x j, j < 128 →
        popcount_128 (xor_128
          (apply_linear_128 (xor_128 x (unit_128 j)) (chilow_init g).linear_matrix_128)
          (apply_linear_128 x (chilow_init g).linear_matrix_128)) = 3)) := by
  obtain ⟨r1, r2, r3, r4, r5⟩ := chilow_init_rows g
  obtain ⟨c1, c2, c3, c4, c5⟩ := generated_columns_weight
  have w1 : ∀ j, j < 32 → column_weight 32 (chilow_init g).linear_matrix_32_state j = 3 :=
    fun j hj => by rw [column_weight_congr 32 _ _ r1]; exact c1 j hj
  have w2 : ∀ j, j < 32 → column_weight 32 (chilow_init g).linear_matrix_32_prf j = 3 :=
    fun j hj => by rw [column_weight_congr 32 _ _ r2]; exact c2 j hj
  have w3 : ∀ j, j < 40 → column_weight 40 (chilow_init g).linear_matrix_40 j = 3 :=
    fun j hj => by rw [column_weight_congr 40 _ _ r3]; exact c3 j hj
  have w4 : ∀ j, j < 64 → column_weight 64 (chilow_init g).linear_matrix_64 j = 3 :=
    fun j hj => by rw [column_weight_congr 64 _ _ r4]; exact c4 j hj
  have w5 : ∀ j, j < 128 → column_weight_128 (chilow_init g).linear_matrix_128 j = 3 :=
    fun j hj => by rw [column_weight_128_congr _ _ r5]; exact c5 j hj
  refine ⟨⟨w1, w2, w3, w4, w5⟩, fun x j hj => ?_, fun x j hj => ?_, fun x j hj => ?_,
    fun x j hj => ?_, fun x j hj => ?_⟩
  · rw [apply_linear_32_flip _ x j hj]
    exact w1 j hj
  · rw [apply_linear_32_flip _ x j hj]
    exact w2 j hj
  · rw [apply_linear_40_flip _ x j hj]
    exact w3 j hj
  · rw [apply_linear_64_flip _ x j hj]
    exact w4 j hj
  · rw [apply_linear_128_flip _ x j hj]
    exact w5 j hj

/-! ## Chi and rotation -/

theorem ring_index_shift (i a k w : Nat) :
    ((i + a) % w + k) % w = ((i + k) % w + a) % w := by
  rw [Nat.mod_add_mod, Nat.mod_add_mod]
  congr 1
  omega

/-- Chi commutes with the rotation of its ring, for every ring width up to 63. -/
theorem chi_transform_rotr64 (x k w : Nat) (hw : w < 64) (h2 : 2 ≤ w) (hk : k ≤ w) :
    chi_transform (rotr64 x k w) (2 ^ w - 1) w = rotr64 (chi_transform x (2 ^ w - 1) w) k w := by
  apply Nat.eq_of_testBit_eq
  intro i
  rw [chi_transform_testBit _ w i hw h2, rotr64_testBit _ k w i hw hk,
    rotr64_testBit _ k w _ hw hk, rotr64_testBit _ k w _ hw hk, rotr64_testBit _ k w _ hw hk,
    chi_transform_testBit _ w _ hw h2]
  have hw0 : 0 < w := by omega
  have m0 : (i + k) % w < w := Nat.mod_lt _ hw0
  have m1 : (i + 1) % w < w := Nat.mod_lt _ hw0
  have m2 : (i + 2) % w < w := Nat.mod_lt _ hw0
  rw [ring_index_shift i 1 k w, ring_index_shift i 2 k w]
  by_cases hi : i < w
  · simp [hi, m0, m1, m2]
  · simp [hi]

/-- C32: chi commutes with rotation of its ring: for every width `w` in
{15, 17, 19, 21, 31, 33, 63} with mask `2^w − 1`, every `x` and every `k` with
`1 ≤ k < w`, `chi_transform(rotr64(x, k, w), mask_w, w) =
rotr64(chi_transform(x, mask_w, w), k, w)`. -/
theorem C32_chi_commutes_with_rotation (w x k : Nat)
    (hw : w ∈ [15, 17, 19, 21, 31, 33, 63]) (hk1 : 1 ≤ k) (hk : k < w) :
    chi_transform (rotr64 x k w) (2 ^ w - 1) w =
      rotr64 (chi_transform x (2 ^ w - 1) w) k w := by
  have h : w < 64 ∧ 2 ≤ w := by
    simp only [List.mem_cons, List.mem_singleton, List.mem_nil_iff, or_false] at hw
    omega
  exact chi_transform_rotr64 x k w h.1 h.2 (by omega)

theorem C32_chi_commutes_with_rotation_witness :
    17 ∈ [15, 17, 19, 21, 31, 33, 63] ∧ 1 ≤ 5 ∧ 5 < 17 ∧
      chi_transform (rotr64 0x123456789ABCDEF0 5 17) (2 ^ 17 - 1) 17 =
        rotr64 (chi_transform 0x123456789ABCDEF0 (2 ^ 17 - 1) 17) 5 17 :=
  ⟨by decide, by decide, by decide,
    C32_chi_commutes_with_rotation 17 0x123456789ABCDEF0 5 (by decide) (by decide) (by decide)⟩

/-! ## The routines before initialization -/

theorem apply_linear_32_zero_matrix (x : Nat) : apply_linear_32 x (fun _ => 0) = 0 := by
  apply Nat.eq_of_testBit_eq
  intro i
  rw [apply_linear_32_testBit]
  simp [popcount_bits_zero]

theorem apply_linear_40_zero_matrix (x : Nat) : apply_linear_40 x (fun _ => 0) = 0 := by
  apply Nat.eq_of_testBit_eq
  intro i
  rw [apply_linear_40_testBit]
  simp [popcount_bits_zero]

theorem apply_linear_64_zero_matrix (x : Nat) : apply_linear_64 x (fun _ => 0) = 0 := by
  apply Nat.eq_of_testBit_eq
  intro i
  rw [apply_linear_64_testBit]
  simp [popcount_bits_zero]

theorem apply_linear_128_zero_matrix (x : uint128_t) :
    apply_linear_128 x (fun _ => ⟨0, 0⟩) = ⟨0, 0⟩ := by
  apply uint128_t_eq
  · apply Nat.eq_of_testBit_eq
    intro i
    rw [(apply_linear_128_testBit x _ i).1]
    simp [popcount_bits_zero]
  · apply Nat.eq_of_testBit_eq
    intro i
    rw [(apply_linear_128_testBit x _ i).2]
    simp [popcount_bits_zero]

/-- With all-zero matrices a main round leaves every lane zero. -/
theorem main_round_32_zero_matrices (round : Nat) (s : State32) (h : round < 8) :
    main_round_32 zero_matrices round s = some ⟨0, 0, 0, ⟨0, 0⟩⟩ := by
  obtain ⟨rc, hrc⟩ := round_constants_get round h
  rw [main_round_32, hrc, Option.map_some']
  simp only [zero_matrices, apply_linear_32_zero_matrix, apply_linear_64_zero_matrix,
    apply_linear_128_zero_matrix]
  rfl

theorem main_round_40_zero_matrices (round : Nat) (s : State40) (h : round < 8) :
    main_round_40 zero_matrices round s = some ⟨0, 0, ⟨0, 0⟩⟩ := by
  obtain ⟨rc, hrc⟩ := round_constants_40_get round h
  rw [main_round_40, hrc, Option.map_some']
  simp only [zero_matrices, apply_linear_40_zero_matrix, apply_linear_64_zero_matrix,
    apply_linear_128_zero_matrix]
  rfl

/-- A loop of at least one iteration whose body always yields the same state ends in
that state. -/
theorem for_rounds_constant {σ : Type} (body : Nat → σ → Option σ) (z : σ) (n : Nat)
    (hbody : ∀ r s, r < n → body r s = some z) :
    ∀ (count round : Nat) (s : σ), round + (count + 1) ≤ n →
      for_rounds body (count + 1) round s = some z := by
  intro count
  induction count with
  | zero =>
    intro round s h
    simp [for_rounds, hbody round s (by omega)]
  | succ k ih =>
    intro round s h
    rw [for_rounds, hbody round s (by omega), Option.some_bind]
    exact ih (round + 1) z (by omega)

theorem rounds_32_zero_matrices (count : Nat) (s : State32) (h1 : 1 ≤ count) (h8 : count ≤ 8) :
    for_rounds (main_round_32 zero_matrices) count 0 s = some ⟨0, 0, 0, ⟨0, 0⟩⟩ := by
  obtain ⟨k, rfl⟩ : ∃ k, count = k + 1 := ⟨count - 1, by omega⟩
  exact for_rounds_constant _ _ 8 (fun r s hr => main_round_32_zero_matrices r s hr) k 0 s
    (by omega)

theorem rounds_40_zero_matrices (count : Nat) (s : State40) (h1 : 1 ≤ count) (h8 : count ≤ 8) :
    for_rounds (main_round_40 zero_matrices) count 0 s = some ⟨0, 0, ⟨0, 0⟩⟩ := by
  obtain ⟨k, rfl⟩ : ∃ k, count = k + 1 := ⟨count - 1, by omega⟩
  exact for_rounds_constant _ _ 8 (fun r s hr => main_round_40_zero_matrices r s hr) k 0 s
    (by omega)

theorem chichi_zero_16 : chichi_transform 0 BITMASK_15 BITMASK_17 16 = 0 := by decide!

theorem chichi_zero_20 : chichi_transform 0 BITMASK_19 BITMASK_21 20 = 0 := by decide!

theorem reduced_count (R : Int) (h2 : 2 ≤ R) (h9 : R ≤ 9) :
    1 ≤ (R - 1).toNat ∧ (R - 1).toNat ≤ 8 := by
  omega

/-! ## The reduced-round routines with zero matrices, reads past the table included -/

theorem read_table_none (table : List Nat) (round : Nat) :
    read_table table (fun _ => none) round = table.get? round := by
  unfold read_table
  by_cases h : round < table.length
  · rw [if_pos h]
  · rw [if_neg h, List.get?_eq_none.mpr (by omega)]

/-- With no readable word after the tables the routines in a process image are the
routines whose out-of-table reads fail. -/
theorem reduced_mem_none (g : Matrices) (C T : Nat) (K : uint128_t) (R : Int) :
    chilow_decrypt_32_reduced_mem (fun _ => none) g C T K R = chilow_decrypt_32_reduced g C T K R ∧
    chilow_decrypt_32_half_reduced_mem (fun _ => none) g C T K R =
      chilow_decrypt_32_half_reduced g C T K R ∧
    chilow_decrypt_40_reduced_mem (fun _ => none) g C T K R = chilow_decrypt_40_reduced g C T K R ∧
    chilow_decrypt_40_half_reduced_mem (fun _ => none) g C T K R =
      chilow_decrypt_40_half_reduced g C T K R := by
  have e32 : main_round_32_mem (fun _ => none) g = main_round_32 g := by
    funext round s
    simp only [main_round_32_mem, main_round_32, read_table_none]
  have e40 : main_round_40_mem (fun _ => none) g = main_round_40 g := by
    funext round s
    simp only [main_round_40_mem, main_round_40, read_table_none]
  simp only [chilow_decrypt_32_reduced_mem, chilow_decrypt_32_half_reduced_mem,
    chilow_decrypt_40_reduced_mem, chilow_decrypt_40_half_reduced_mem,
    chilow_decrypt_32_reduced, chilow_decrypt_32_half_reduced, chilow_decrypt_40_reduced,
    chilow_decrypt_40_half_reduced, e32, e40, and_self]

/-- With all-zero matrices a main round leaves every lane zero, whatever word was read as
round constant. -/
theorem main_round_32_mem_zero_matrices (beyond : Nat → Option Nat) (round : Nat)
    (s : State32) (rc : Nat) (h : read_table ROUND_CONSTANTS beyond round = some rc) :
    main_round_32_mem beyond zero_matrices round s = some ⟨0, 0, 0, ⟨0, 0⟩⟩ := by
  rw [main_round_32_mem, h, Option.map_some']
  simp only [zero_matrices, apply_linear_32_zero_matrix, apply_linear_64_zero_matrix,
    apply_linear_128_zero_matrix]
  rfl

theorem main_round_40_mem_zero_matrices (beyond : Nat → Option Nat) (round : Nat)
    (s : State40) (rc : Nat) (h : read_table ROUND_CONSTANTS_40 beyond round = some rc) :
    main_round_40_mem beyond zero_matrices round s = some ⟨0, 0, ⟨0, 0⟩⟩ := by
  rw [main_round_40_mem, h, Option.map_some']
  simp only [zero_matrices, apply_linear_40_zero_matrix, apply_linear_64_zero_matrix,
    apply_linear_128_zero_matrix]
  rfl

/-- The reads of a loop of `count` rounds succeed when the words it needs past an 8-entry
table are readable. -/
theorem read_table_some (table : List Nat) (hlen : table.length = 8)
    (beyond : Nat → Option Nat) (count : Nat)
    (hread : ∀ k, k + 8 < count → beyond k ≠ none) (round : Nat) (hr : round < count) :
    ∃ rc, read_table table beyond round = some rc := by
  unfold read_table
  by_cases h : round < table.length
  · rw [if_pos h]
    exact ⟨table.get ⟨round, h⟩, List.get?_eq_get h⟩
  · rw [if_neg h]
    exact Option.ne_none_iff_exists'.mp (hread (round - table.length) (by omega))

theorem rounds_32_mem_zero_matrices (beyond : Nat → Option Nat) (count : Nat) (s : State32)
    (h1 : 1 ≤ count) (hread : ∀ k, k + 8 < count → beyond k ≠ none) :
    for_rounds (main_round_32_mem beyond zero_matrices) count 0 s =
      some ⟨0, 0, 0, ⟨0, 0⟩⟩ := by
  obtain ⟨k, rfl⟩ : ∃ k, count = k + 1 := ⟨count - 1, by omega⟩
  exact for_rounds_constant _ _ (k + 1) (fun r s hr => by
    obtain ⟨rc, hrc⟩ := read_table_some ROUND_CONSTANTS rfl beyond (k + 1) hread r hr
    exact main_round_32_mem_zero_matrices beyond r s rc hrc) k 0 s (by omega)

theorem rounds_40_mem_zero_matrices (beyond : Nat → Option Nat) (count : Nat) (s : State40)
    (h1 : 1 ≤ count) (hread : ∀ k, k + 8 < count → beyond k ≠ none) :
    for_rounds (main_round_40_mem beyond zero_matrices) count 0 s =
      some ⟨0, 0, ⟨0, 0⟩⟩ := by
  obtain ⟨k, rfl⟩ : ∃ k, count = k + 1 := ⟨count - 1, by omega⟩
  exact for_rounds_constant _ _ (k + 1) (fun r s hr => by
    obtain ⟨rc, hrc⟩ := read_table_some ROUND_CONSTANTS_40 rfl beyond (k + 1) hread r hr
    exact main_round_40_mem_zero_matrices beyond r s rc hrc) k 0 s (by omega)

/-- A loop one of whose iterations fails in every state has no result. -/
theorem for_rounds_fails {σ : Type} (body : Nat → σ → Option σ) :
    ∀ (k count round : Nat) (s : σ), (∀ u, body (round + k) u = none) → k < count →
      for_rounds body count round s = none := by
  intro k
  induction k with
  | zero =>
    intro count round s h hk
    obtain ⟨c, rfl⟩ : ∃ c, count = c + 1 := ⟨count - 1, by omega⟩
    have h0 : body round s = none := h s
    rw [for_rounds, h0]
    rfl
  | succ k ih =>
    intro count round s h hk
    obtain ⟨c, rfl⟩ : ∃ c, count = c + 1 := ⟨count - 1, by omega⟩
    rw [for_rounds]
    cases hb : body round s with
    | none => rfl
    | some u =>
      rw [Option.some_bind]
      exact ih c (round + 1) u (fun v => by
        rw [show round + 1 + k = round + (k + 1) by omega]
        exact h v) (by omega)

/-- C33 as stated fails for very large `R`: the round loop of the reduced-round routines
reads `ROUND_CONSTANTS[0 .. R − 2]` with no bound on `R`.  In a process image in which
`2^20` words after the table are readable and the next one is not (`small_process`), the
call with `R = 2147483647` (`INT_MAX`) faults in round `8 + 2^20` and returns nothing,
although the matrices are all zero. -/
theorem C33_counterexample :
    chilow_reduced_round_32bit_mem small_process zero_matrices 0 0 0 0 2147483647 = none := by
  have hc : ((2147483647 : Int) - 1).toNat = 2147483646 := by omega
  have hread : read_table ROUND_CONSTANTS small_process (0 + (8 + 2 ^ 20)) = none := by decide
  rw [chilow_reduced_round_32bit_mem, chilow_decrypt_32_reduced_mem, hc,
    for_rounds_fails _ (8 + 2 ^ 20) 2147483646 0 _
      (fun u => by rw [main_round_32_mem, hread, Option.map_none']) (by decide)]
  rfl

/-- C33 (amended): with all-zero linear matrices (the static arrays before `chilow_init`),
for every ciphertext, tweak and key the full 8-round `chilow_decrypt_32bit` and
`chilow_decrypt_40bit` return 0, and the reduced-round and half-reduced-round entry points
return 0 for every round count `R ≥ 2` whose round-constant reads
`ROUND_CONSTANTS[0 .. R − 2]` (`ROUND_CONSTANTS_40` in the 40-bit routines) are readable:
the `R − 9` words read past the end of the 8-entry table, whatever their values.  For
`2 ≤ R ≤ 9` every read lies inside the table and the entry points return 0 in every
process image, also in the model whose out-of-table reads fail. -/
theorem C33_zero_matrices_return_zero (beyond beyond_40 : Nat → Option Nat)
    (C T K_hi K_lo : Nat) (R : Int) (h2 : 2 ≤ R)
    (hread : ∀ k : Nat, (k : Int) + 10 ≤ R → beyond k ≠ none ∧ beyond_40 k ≠ none) :
    chilow_decrypt_32bit zero_matrices C T K_hi K_lo = some 0 ∧
    chilow_decrypt_40bit zero_matrices C T K_hi K_lo = some 0 ∧
    chilow_reduced_round_32bit_mem beyond zero_matrices C T K_hi K_lo R = some 0 ∧
    chilow_reduced_round_40bit_mem beyond_40 zero_matrices C T K_hi K_lo R = some 0 ∧
    chilow_half_reduced_round_32bit_mem beyond zero_matrices C T K_hi K_lo R = some 0 ∧
    chilow_half_reduced_round_40bit_mem beyond_40 zero_matrices C T K_hi K_lo R = some 0 ∧
    (R ≤ 9 →
      chilow_reduced_round_32bit zero_matrices C T K_hi K_lo R = some 0 ∧
      chilow_reduced_round_40bit zero_matrices C T K_hi K_lo R = some 0 ∧
      chilow_half_reduced_round_32bit zero_matrices C T K_hi K_lo R = some 0 ∧
      chilow_half_reduced_round_40bit zero_matrices C T K_hi K_lo R = some 0) := by
  have c1 : 1 ≤ (R - 1).toNat := by omega
  have hpos : R > 0 := by omega
  have r32 : ∀ k, k + 8 < (R - 1).toNat → beyond k ≠ none :=
    fun k hk => (hread k (by omega)).1
  have r40 : ∀ k, k + 8 < (R - 1).toNat → beyond_40 k ≠ none :=
    fun k hk => (hread k (by omega)).2
  have z : ∀ x, apply_linear_64 x zero_matrices.linear_matrix_64 = 0 :=
    fun x => apply_linear_64_zero_matrix x
  refine ⟨?_, ?_, ?_, ?_, ?_, ?_, fun h9 => ?_⟩
  · rw [chilow_decrypt_32bit, chilow_decrypt_32,
      rounds_32_zero_matrices _ _ (by decide) (by decide), Option.map_some']
    simp only [chichi_zero_16, z]
    rfl
  · rw [chilow_decrypt_40bit, chilow_decrypt_40,
      rounds_40_zero_matrices _ _ (by decide) (by decide), Option.map_some']
    simp only [chichi_zero_20, z]
    rfl
  · rw [chilow_reduced_round_32bit_mem, chilow_decrypt_32_reduced_mem,
      rounds_32_mem_zero_matrices _ _ _ c1 r32, Option.map_some', if_pos hpos]
    simp only [chichi_zero_16, z]
    rfl
  · rw [chilow_reduced_round_40bit_mem, chilow_decrypt_40_reduced_mem,
      rounds_40_mem_zero_matrices _ _ _ c1 r40, Option.map_some', if_pos hpos]
    simp only [chichi_zero_20, z]
    rfl
  · rw [chilow_half_reduced_round_32bit_mem, chilow_decrypt_32_half_reduced_mem,
      rounds_32_mem_zero_matrices _ _ _ c1 r32, Option.map_some', if_pos hpos]
    simp only [chichi_zero_16]
    rfl
  · rw [chilow_half_reduced_round_40bit_mem, chilow_decrypt_40_half_reduced_mem,
      rounds_40_mem_zero_matrices _ _ _ c1 r40, Option.map_some', if_pos hpos]
    simp only [chichi_zero_20]
    rfl
  · obtain ⟨_, c8⟩ := reduced_count R h2 h9
    refine ⟨?_, ?_, ?_, ?_⟩
    · rw [chilow_reduced_round_32bit, chilow_decrypt_32_reduced,
        rounds_32_zero_matrices _ _ c1 c8, Option.map_some', if_pos hpos]
      simp only [chichi_zero_16, z]
      rfl
    · rw [chilow_reduced_round_40bit, chilow_decrypt_40_reduced,
        rounds_40_zero_matrices _ _ c1 c8, Option.map_some', if_pos hpos]
      simp only [chichi_zero_20, z]
      rfl
    · rw [chilow_half_reduced_round_32bit, chilow_decrypt_32_half_reduced,
        rounds_32_zero_matrices _ _ c1 c8, Option.map_some', if_pos hpos]
      simp only [chichi_zero_16]
      rfl
    · rw [chilow_half_reduced_round_40bit, chilow_decrypt_40_half_reduced,
        rounds_40_zero_matrices _ _ c1 c8, Option.map_some', if_pos hpos]
      simp only [chichi_zero_20]
      rfl

/-- C33 (amended) at `R = 12` in `small_process`: the loop reads three words past each
table. -/
theorem C33_zero_matrices_return_zero_witness :
    (2 : Int) ≤ 12 ∧
    (∀ k : Nat, (k : Int) + 10 ≤ 12 → small_process k ≠ none ∧ small_process k ≠ none) ∧
    chilow_decrypt_32bit zero_matrices 0x01234567 0x0011223344556677
      0x8899AABBCCDDEEFF 0x0123456789ABCDEF = some 0 ∧
    chilow_decrypt_40bit zero_matrices 0x01234567 0x0011223344556677
      0x8899AABBCCDDEEFF 0x0123456789ABCDEF = some 0 ∧
    chilow_reduced_round_32bit_mem small_process zero_matrices 0x01234567 0x0011223344556677
      0x8899AABBCCDDEEFF 0x0123456789ABCDEF 12 = some 0 ∧
    chilow_reduced_round_40bit_mem small_process zero_matrices 0x01234567 0x0011223344556677
      0x8899AABBCCDDEEFF 0x0123456789ABCDEF 12 = some 0 ∧
    chilow_half_reduced_round_32bit_mem small_process zero_matrices 0x01234567
      0x0011223344556677 0x8899AABBCCDDEEFF 0x0123456789ABCDEF 12 = some 0 ∧
    chilow_half_reduced_round_40bit_mem small_process zero_matrices 0x01234567
      0x0011223344556677 0x8899AABBCCDDEEFF 0x0123456789ABCDEF 12 = some 0 ∧
    ((12 : Int) ≤ 9 →
      chilow_reduced_round_32bit zero_matrices 0x01234567 0x0011223344556677
        0x8899AABBCCDDEEFF 0x0123456789ABCDEF 12 = some 0 ∧
      chilow_reduced_round_40bit zero_matrices 0x01234567 0x0011223344556677
        0x8899AABBCCDDEEFF 0x0123456789ABCDEF 12 = some 0 ∧
      chilow_half_reduced_round_32bit zero_matrices 0x01234567 0x0011223344556677
        0x8899AABBCCDDEEFF 0x0123456789ABCDEF 12 = some 0 ∧
      chilow_half_reduced_round_40bit zero_matrices 0x01234567 0x0011223344556677
        0x8899AABBCCDDEEFF 0x0123456789ABCDEF 12 = some 0) :=
  have hread : ∀ k : Nat, (k : Int) + 10 ≤ 12 → small_process k ≠ none ∧ small_process k ≠ none :=
    fun k hk => by
      have h : k < 2 ^ 20 := by omega
      unfold small_process
      rw [if_pos h]
      exact ⟨Option.some_ne_none _, Option.some_ne_none _⟩
  ⟨by decide, hread,
    C33_zero_matrices_return_zero small_process small_process 0x01234567 0x0011223344556677
      0x8899AABBCCDDEEFF 0x0123456789ABCDEF 12 (by decide) hread⟩

/-! ## Injectivity of chichi at split position 16 -/

theorem pair_step_even :
    ∀ a0 a1 a2 a3 a4 b0 b1 b2 b3 b4 : Bool,
      pair_table PAIRS_EVEN a0 a1 a2 a3 b0 b1 b2 b3 = true →
      chi_bit a2 a3 a4 = chi_bit b2 b3 b4 →
      pair_table PAIRS_ODD a0 a1 a3 a4 b0 b1 b3 b4 = true := by
  decide!

theorem pair_step_odd :
    ∀ a0 a1 a2 a3 a4 b0 b1 b2 b3 b4 : Bool,
      pair_table PAIRS_ODD a0 a1 a2 a3 b0 b1 b2 b3 = true →
      chi_bit a2 a3 a4 = chi_bit b2 b3 b4 →
      pair_table PAIRS_EVEN a0 a1 a3 a4 b0 b1 b3 b4 = true := by
  decide!

theorem pair_base :
    ∀ a0 a1 a2 a3 a4 a5 b0 b1 b2 b3 b4 b5 : Bool,
      chi_bit a0 a1 a2 = chi_bit b0 b1 b2 →
      chi_bit a1 a2 a3 = chi_bit b1 b2 b3 →
      chi_bit a2 a3 a4 = chi_bit b2 b3 b4 →
      chi_bit a3 a4 a5 = chi_bit b3 b4 b5 →
      pair_table PAIRS_EVEN a0 a1 a4 a5 b0 b1 b4 b5 = true := by
  decide!

/-- Two bit sequences with equal chi outputs at the positions `0 .. n − 1`: the pair of
their values at `0, 1, k, k + 1` lies in the table of the parity of `k`. -/
theorem pair_chain (a b : Nat → Bool) (n : Nat)
    (h : ∀ i, i < n →
      chi_bit (a i) (a (i + 1)) (a (i + 2)) = chi_bit (b i) (b (i + 1)) (b (i + 2))) :
    ∀ k, 4 ≤ k → k ≤ n →
      pair_table (if k % 2 = 0 then PAIRS_EVEN else PAIRS_ODD)
        (a 0) (a 1) (a k) (a (k + 1)) (b 0) (b 1) (b k) (b (k + 1)) = true := by
  intro k hk
  induction k, hk using Nat.le_induction with
  | base =>
    intro hn
    exact pair_base _ _ (a 2) (a 3) _ _ _ _ (b 2) (b 3) _ _
      (h 0 (by omega)) (h 1 (by omega)) (h 2 (by omega)) (h 3 (by omega))
  | succ k hk ih =>
    intro hn
    have t := ih (by omega)
    have e := h k (by omega)
    by_cases hp : k % 2 = 0
    · have hq : ¬ (k + 1) % 2 = 0 := by omega
      rw [if_pos hp] at t
      rw [if_neg hq]
      exact pair_step_even _ _ _ _ _ _ _ _ _ _ t e
    · have hq : (k + 1) % 2 = 0 := by omega
      rw [if_neg hp] at t
      rw [if_pos hq]
      exact pair_step_odd _ _ _ _ _ _ _ _ _ _ t e

theorem pair_stage_lower :
    ∀ a0 a1 a13 a14 a15 a16 b0 b1 b13 b14 b15 b16 : Bool,
      pair_table PAIRS_ODD a0 a1 a13 a14 b0 b1 b13 b14 = true →
      chi_bit a16 a14 a0 = chi_bit b16 b14 b0 →
      chi_bit a15 a0 a1 = chi_bit b15 b0 b1 →
      pair_table PAIRS_LOWER a13 a14 a15 a16 b13 b14 b15 b16 = true := by
  decide!

theorem pair_stage_upper :
    ∀ a13 a14 a15 a16 a17 a18 b13 b14 b15 b16 b17 b18 : Bool,
      pair_table PAIRS_ODD a17 a18 a15 a16 b17 b18 b15 b16 = true →
      chi_bit (xor a13 a16) a16 a17 = chi_bit (xor b13 b16) b16 b17 →
      chi_bit a14 a17 a18 = chi_bit b14 b17 b18 →
      pair_table PAIRS_UPPER a13 a14 a15 a16 b13 b14 b15 b16 = true := by
  decide!

theorem pair_stage_both :
    ∀ a13 a14 a15 a16 b13 b14 b15 b16 : Bool,
      pair_table PAIRS_LOWER a13 a14 a15 a16 b13 b14 b15 b16 = true →
      pair_table PAIRS_UPPER a13 a14 a15 a16 b13 b14 b15 b16 = true →
      a13 = b13 ∧ a14 = b14 ∧ a15 = b15 ∧ a16 = b16 := by
  decide!

theorem chi_bit_back :
    ∀ a0 a1 a2 b0 b1 b2 : Bool,
      chi_bit a0 a1 a2 = chi_bit b0 b1 b2 → a1 = b1 → a2 = b2 → a0 = b0 := by
  decide

/-- Two bit sequences with equal chi outputs at the positions `0 .. n − 1` that agree at
`n` and `n + 1` agree at every position up to `n + 1`. -/
theorem ring_back (a b : Nat → Bool) (n : Nat)
    (h : ∀ i, i < n →
      chi_bit (a i) (a (i + 1)) (a (i + 2)) = chi_bit (b i) (b (i + 1)) (b (i + 2)))
    (h1 : a n = b n) (h2 : a (n + 1) = b (n + 1)) :
    ∀ i, i ≤ n + 1 → a i = b i := by
  have step : ∀ d i, i + d = n → a i = b i ∧ a (i + 1) = b (i + 1) := by
    intro d
    induction d with
    | zero =>
      intro i hi
      have e : i = n := by omega
      subst e
      exact ⟨h1, h2⟩
    | succ d ih =>
      intro i hi
      obtain ⟨p, q⟩ := ih (i + 1) (by omega)
      exact ⟨chi_bit_back _ _ _ _ _ _ (h i (by omega)) p q, p⟩
  intro i hi
  by_cases hn : i ≤ n
  · exact (step (n - i) i (by omega)).1
  · have e : i = n + 1 := by omega
    rw [e]
    exact h2

theorem chichi_bit_lower (x i : Nat) (hi : i < 13) :
    chichi_bit 16 x i = chi_bit (x.testBit i) (x.testBit (i + 1)) (x.testBit (i + 2)) := by
  unfold chichi_bit
  rw [if_pos (by omega)]
  rfl

theorem chichi_bit_upper (x j : Nat) (hj : j < 15) :
    chichi_bit 16 x (j + 17) =
      chi_bit (x.testBit (upper_ring j)) (x.testBit (upper_ring (j + 1)))
        (x.testBit (upper_ring (j + 2))) := by
  interval_cases j <;> rfl

/-- Two inputs whose chichi outputs (split position 16) agree in every bit agree in their
low 32 bits. -/
theorem chichi_bit_16_injective (x y : Nat) (h : ∀ i, chichi_bit 16 x i = chichi_bit 16 y i) :
    ∀ i, i < 32 → x.testBit i = y.testBit i := by
  have lo : ∀ i, i < 13 →
      chi_bit (x.testBit i) (x.testBit (i + 1)) (x.testBit (i + 2)) =
        chi_bit (y.testBit i) (y.testBit (i + 1)) (y.testBit (i + 2)) := fun i hi => by
    rw [← chichi_bit_lower x i hi, ← chichi_bit_lower y i hi]
    exact h i
  have up : ∀ j, j < 15 →
      chi_bit (x.testBit (upper_ring j)) (x.testBit (upper_ring (j + 1)))
          (x.testBit (upper_ring (j + 2))) =
        chi_bit (y.testBit (upper_ring j)) (y.testBit (upper_ring (j + 1)))
          (y.testBit (upper_ring (j + 2))) := fun j hj => by
    rw [← chichi_bit_upper x j hj, ← chichi_bit_upper y j hj]
    exact h (j + 17)
  have tl : pair_table PAIRS_ODD (x.testBit 0) (x.testBit 1) (x.testBit 13) (x.testBit 14)
      (y.testBit 0) (y.testBit 1) (y.testBit 13) (y.testBit 14) = true :=
    pair_chain (fun i => x.testBit i) (fun i => y.testBit i) 13 lo 13 (by decide) (by decide)
  have tu : pair_table PAIRS_ODD (x.testBit 17) (x.testBit 18) (x.testBit 15) (x.testBit 16)
      (y.testBit 17) (y.testBit 18) (y.testBit 15) (y.testBit 16) = true :=
    pair_chain (fun j => x.testBit (upper_ring j)) (fun j => y.testBit (upper_ring j)) 15 up 15
      (by decide) (by decide)
  have e13 : chi_bit (x.testBit 16) (x.testBit 14) (x.testBit 0) =
      chi_bit (y.testBit 16) (y.testBit 14) (y.testBit 0) := h 13
  have e14 : chi_bit (x.testBit 15) (x.testBit 0) (x.testBit 1) =
      chi_bit (y.testBit 15) (y.testBit 0) (y.testBit 1) := h 14
  have e15 : chi_bit (xor (x.testBit 13) (x.testBit 16)) (x.testBit 16) (x.testBit 17) =
      chi_bit (xor (y.testBit 13) (y.testBit 16)) (y.testBit 16) (y.testBit 17) := h 15
  have e16 : chi_bit (x.testBit 14) (x.testBit 17) (x.testBit 18) =
      chi_bit (y.testBit 14) (y.testBit 17) (y.testBit 18) := h 16
  obtain ⟨d13, d14, d15, d16⟩ := pair_stage_both _ _ _ _ _ _ _ _
    (pair_stage_lower _ _ _ _ _ _ _ _ _ _ _ _ tl e13 e14)
    (pair_stage_upper _ _ _ _ _ _ _ _ _ _ _ _ tu e15 e16)
  have bl := ring_back (fun i => x.testBit i) (fun i => y.testBit i) 13 lo d13 d14
  have bu := ring_back (fun j => x.testBit (upper_ring j)) (fun j => y.testBit (upper_ring j))
    15 up d15 d16
  intro i hi
  by_cases h15 : i < 15
  · exact bl i (by omega)
  · by_cases h17 : i < 17
    · have e := bu i (by omega)
      have r : upper_ring i = i := by unfold upper_ring; rw [if_neg (by omega)]
      simp only [r] at e
      exact e
    · have e := bu (i - 17) (by omega)
      have r : upper_ring (i - 17) = i := by unfold upper_ring; rw [if_pos (by omega)]; omega
      simp only [r] at e
      exact e

/-- The nonlinear layer of the 32-bit lanes is injective on 32-bit values. -/
theorem chichi_16_injective (x y : Nat) (hx : x < 2 ^ 32) (hy : y < 2 ^ 32)
    (h : chichi_transform x BITMASK_15 BITMASK_17 16 =
      chichi_transform y BITMASK_15 BITMASK_17 16) : x = y := by
  have m15 : BITMASK_15 = 2 ^ 15 - 1 := by decide
  have m17 : BITMASK_17 = 2 ^ 17 - 1 := by decide
  rw [m15, m17] at h
  have hb : ∀ i, chichi_bit 16 x i = chichi_bit 16 y i := fun i => by
    rw [← chichi_transform_testBit_16, ← chichi_transform_testBit_16, h]
  apply Nat.eq_of_testBit_eq
  intro i
  by_cases hi : i < 32
  · exact chichi_bit_16_injective x y hb i hi
  · have hp : 2 ^ 32 ≤ 2 ^ i := Nat.pow_le_pow_right (by decide) (by omega)
    rw [Nat.testBit_eq_false_of_lt (lt_of_lt_of_le hx hp),
      Nat.testBit_eq_false_of_lt (lt_of_lt_of_le hy hp)]

/-! ## The plaintext lane as a function of the ciphertext -/

theorem xor_right_cancel (a b m : Nat) (h : a ^^^ m = b ^^^ m) : a = b := by
  have e : ∀ c : Nat, c ^^^ m ^^^ m = c := fun c => by
    rw [Nat.xor_assoc, Nat.xor_self, Nat.xor_zero]
  rw [← e a, ← e b, h]

theorem and_BITMASK_32_lt (t : Nat) : t &&& BITMASK_32 < 2 ^ 32 :=
  Nat.and_lt_two_pow _ (by decide)

/-- After `chilow_init` the State32 layer is injective on 32-bit values. -/
theorem apply_linear_32_state_injective (g : Matrices) (x y : Nat) (hx : x < 2 ^ 32)
    (hy : y < 2 ^ 32)
    (h : apply_linear_32 x (chilow_init g).linear_matrix_32_state =
      apply_linear_32 y (chilow_init g).linear_matrix_32_state) : x = y := by
  have hM : ∀ v, apply_linear_32 v (chilow_init g).linear_matrix_32_state =
      apply_linear_32 v (matrix_row_32 state_params) := fun v =>
    apply_linear_32_congr v _ _ (chilow_init_rows g).1
  have hinv := apply_linear_32_inverse (matrix_row_32 state_params) state32_inverse
    (fun i hi => (state32_inverse_check i hi).1)
  rw [hM, hM] at h
  rw [← hinv x hx, ← hinv y hy, h]

/-- One round of the plaintext lane is injective on 32-bit values, for every tweak word. -/
theorem plaintext_round_injective (g : Matrices) (t p q : Nat) (hp : p < 2 ^ 32)
    (hq : q < 2 ^ 32)
    (h : plaintext_round (chilow_init g) t p = plaintext_round (chilow_init g) t q) : p = q := by
  unfold plaintext_round at h
  rw [u32_of_lt _ (Nat.xor_lt_two_pow (apply_linear_32_lt _ _) (and_BITMASK_32_lt t)),
    u32_of_lt _ (Nat.xor_lt_two_pow (apply_linear_32_lt _ _) (and_BITMASK_32_lt t))] at h
  have h1 := apply_linear_32_state_injective g _ _ (u32_lt _) (u32_lt _)
    (xor_right_cancel _ _ _ h)
  rw [u32_of_lt _ (chichi_32_lt p), u32_of_lt _ (chichi_32_lt q)] at h1
  exact chichi_16_injective p q hp hq h1

/-- The final round of the plaintext lane is injective on 32-bit values. -/
theorem plaintext_final_injective (t p q : Nat) (hp : p < 2 ^ 32) (hq : q < 2 ^ 32)
    (h : plaintext_final t p = plaintext_final t q) : p = q := by
  unfold plaintext_final at h
  rw [u32_of_lt _ (Nat.xor_lt_two_pow (u32_lt _) (and_BITMASK_32_lt t)),
    u32_of_lt _ (Nat.xor_lt_two_pow (u32_lt _) (and_BITMASK_32_lt t))] at h
  have h1 := xor_right_cancel _ _ _ h
  rw [u32_of_lt _ (chichi_32_lt p), u32_of_lt _ (chichi_32_lt q)] at h1
  exact chichi_16_injective p q hp hq h1

/-- A relation between the states of two runs of a round loop that every iteration
preserves holds between their final states. -/
theorem for_rounds_rel {σ : Type} (body : Nat → σ → Option σ) (Rel : σ → σ → Prop)
    (hbody : ∀ r s1 s2 t1 t2, Rel s1 s2 → body r s1 = some t1 → body r s2 = some t2 →
      Rel t1 t2) :
    ∀ (count round : Nat) (s1 s2 t1 t2 : σ), Rel s1 s2 →
      for_rounds body count round s1 = some t1 → for_rounds body count round s2 = some t2 →
      Rel t1 t2 := by
  intro count
  induction count with
  | zero =>
    intro round s1 s2 t1 t2 hr h1 h2
    simp only [for_rounds, Option.some.injEq] at h1 h2
    rw [← h1, ← h2]
    exact hr
  | succ k ih =>
    intro round s1 s2 t1 t2 hr h1 h2
    rw [for_rounds] at h1 h2
    cases hb1 : body round s1 with
    | none => rw [hb1] at h1; exact absurd h1 (by simp)
    | some u1 =>
      cases hb2 : body round s2 with
      | none => rw [hb2] at h2; exact absurd h2 (by simp)
      | some u2 =>
        rw [hb1, Option.some_bind] at h1
        rw [hb2, Option.some_bind] at h2
        exact ih (round + 1) u1 u2 t1 t2 (hbody round s1 s2 u1 u2 hr hb1 hb2) h1 h2

theorem main_round_32_related (g : Matrices) (Q : Prop) (r : Nat) (s1 s2 t1 t2 : State32)
    (hr : lanes_related Q s1 s2) (h1 : main_round_32 (chilow_init g) r s1 = some t1)
    (h2 : main_round_32 (chilow_init g) r s2 = some t2) : lanes_related Q t1 t2 := by
  obtain ⟨ht, hk, hp1, hp2, hq⟩ := hr
  rw [main_round_32, Option.map_eq_some'] at h1 h2
  obtain ⟨rc, hrc, e1⟩ := h1
  obtain ⟨rc2, hrc2, e2⟩ := h2
  rw [hrc] at hrc2
  cases hrc2
  subst e1
  subst e2
  refine ⟨?_, ?_, u32_lt _, u32_lt _, fun h => ?_⟩
  · simp only [ht, hk]
  · simp only [hk]
  · apply hq
    have h3 : plaintext_round (chilow_init g) (tweak_round (chilow_init g) s1.tweak)
        s1.plaintext =
        plaintext_round (chilow_init g) (tweak_round (chilow_init g) s1.tweak)
          s2.plaintext := by
      simp only [ht] at h ⊢
      exact h
    exact plaintext_round_injective g _ _ _ hp1 hp2 h3

/-- For a fixed tweak and key, two 32-bit ciphertexts with the same plaintext lane (the low
32 bits of the result of `chilow_decrypt_32`) are equal. -/
theorem chilow_decrypt_32_lane_injective (g : Matrices) (T : Nat) (K : uint128_t)
    (C1 C2 o1 o2 : Nat) (hC1 : C1 < 2 ^ 32) (hC2 : C2 < 2 ^ 32)
    (e1 : chilow_decrypt_32 (chilow_init g) C1 T K = some o1)
    (e2 : chilow_decrypt_32 (chilow_init g) C2 T K = some o2)
    (ho : o1 &&& BITMASK_32 = o2 &&& BITMASK_32) : C1 = C2 := by
  rw [chilow_decrypt_32, Option.map_eq_some'] at e1 e2
  obtain ⟨s1, hs1, f1⟩ := e1
  obtain ⟨s2, hs2, f2⟩ := e2
  have hk : K.hi &&& BITMASK_32 < 2 ^ 32 := and_BITMASK_32_lt _
  have h0 : lanes_related (C1 = C2) (whitening_32 C1 T K) (whitening_32 C2 T K) := by
    refine ⟨rfl, rfl, u32_lt _, u32_lt _, fun h => ?_⟩
    simp only [whitening_32] at h
    rw [u32_of_lt _ (Nat.xor_lt_two_pow hC1 hk), u32_of_lt _ (Nat.xor_lt_two_pow hC2 hk)] at h
    exact xor_right_cancel _ _ _ h
  obtain ⟨ht, _, hp1, hp2, hq⟩ := for_rounds_rel (main_round_32 (chilow_init g))
    (lanes_related (C1 = C2)) (fun r a b c d => main_round_32_related g (C1 = C2) r a b c d)
    _ _ _ _ s1 s2 h0 hs1 hs2
  apply hq
  rw [← f1, ← f2, pack_32_and_low, pack_32_and_low] at ho
  have h3 : plaintext_final (apply_linear_64 s1.tweak (chilow_init g).linear_matrix_64)
      s1.plaintext =
      plaintext_final (apply_linear_64 s1.tweak (chilow_init g).linear_matrix_64)
        s2.plaintext := by
    have a1 := and_BITMASK_32_of_lt _ (u32_lt
      (u32 (chichi_transform s1.plaintext BITMASK_15 BITMASK_17 16) ^^^
        (apply_linear_64 s1.tweak (chilow_init g).linear_matrix_64 &&& BITMASK_32)))
    have a2 := and_BITMASK_32_of_lt _ (u32_lt
      (u32 (chichi_transform s2.plaintext BITMASK_15 BITMASK_17 16) ^^^
        (apply_linear_64 s2.tweak (chilow_init g).linear_matrix_64 &&& BITMASK_32)))
    simp only [a1, a2] at ho
    rw [← ht] at ho
    exact ho
  exact plaintext_final_injective _ _ _ hp1 hp2 h3

/-- An injective map of `{0, …, n − 1}` into itself is onto. -/
theorem surjective_of_injective_below (n : Nat) (f : Nat → Nat) (hf : ∀ a, a < n → f a < n)
    (hinj : ∀ a b, a < n → b < n → f a = f b → a = b) :
    ∀ y, y < n → ∃ a, a < n ∧ f a = y := by
  intro y hy
  obtain ⟨a, ha, e⟩ := Finset.surj_on_of_inj_on_of_card_le
    (fun a (_ : a ∈ Finset.range n) => f a)
    (fun a ha => Finset.mem_range.mpr (hf a (Finset.mem_range.mp ha)))
    (fun a b ha hb h => hinj a b (Finset.mem_range.mp ha) (Finset.mem_range.mp hb) h)
    (le_refl _) y (Finset.mem_range.mpr hy)
  exact ⟨a, Finset.mem_range.mp ha, e.symm⟩

/-- C34: the nonlinear layer of the 32-bit data lane is a permutation of the 32-bit values:
`chichi_transform(x, 0x7FFF, 0x1FFFF, 16)` is injective on 32-bit inputs (`x1 ≠ x2` gives
different outputs), its outputs are 32-bit values and every 32-bit value is an output.
Together with the invertible State32 layer (the matrices after `chilow_init`), for every
fixed tweak and key the map from the ciphertext to the plaintext lane (the low 32 bits of
the result of `chilow_decrypt_32bit`) is a bijection of the 32-bit values: the routine
returns a value on both inputs, different ciphertexts give different plaintext lanes, and
every 32-bit value `P` is the plaintext lane of some 32-bit ciphertext. -/
theorem C34_chichi_permutation_lane_bijection (g : Matrices) (T K_hi K_lo x1 x2 P : Nat)
    (h1 : x1 < 2 ^ 32) (h2 : x2 < 2 ^ 32) (hne : x1 ≠ x2) (hP : P < 2 ^ 32) :
    chichi_transform x1 0x7FFF 0x1FFFF 16 ≠ chichi_transform x2 0x7FFF 0x1FFFF 16 ∧
    chichi_transform x1 0x7FFF 0x1FFFF 16 < 2 ^ 32 ∧
    (∃ z, z < 2 ^ 32 ∧ chichi_transform z 0x7FFF 0x1FFFF 16 = P) ∧
    (∃ o1 o2, chilow_decrypt_32bit (chilow_init g) x1 T K_hi K_lo = some o1 ∧
      chilow_decrypt_32bit (chilow_init g) x2 T K_hi K_lo = some o2 ∧
      o1 &&& 0xFFFFFFFF ≠ o2 &&& 0xFFFFFFFF) ∧
    (∃ C o, C < 2 ^ 32 ∧ chilow_decrypt_32bit (chilow_init g) C T K_hi K_lo = some o ∧
      o &&& 0xFFFFFFFF = P) := by
  have total : ∀ C, ∃ o, chilow_decrypt_32 (chilow_init g) C T ⟨K_lo, K_hi⟩ = some o := by
    intro C
    obtain ⟨s, hs⟩ := rounds_32_total (chilow_init g) (NUM_ROUNDS - 1)
      (whitening_32 C T ⟨K_lo, K_hi⟩) (by decide)
    exact ⟨_, by rw [chilow_decrypt_32, hs, Option.map_some']⟩
  refine ⟨fun h => hne (chichi_16_injective x1 x2 h1 h2 h), chichi_32_lt x1, ?_, ?_, ?_⟩
  · exact surjective_of_injective_below (2 ^ 32)
      (fun x => chichi_transform x BITMASK_15 BITMASK_17 16) (fun a _ => chichi_32_lt a)
      (fun a b ha hb h => chichi_16_injective a b ha hb h) P hP
  · obtain ⟨o1, e1⟩ := total x1
    obtain ⟨o2, e2⟩ := total x2
    exact ⟨o1, o2, e1, e2, fun h =>
      hne (chilow_decrypt_32_lane_injective g T ⟨K_lo, K_hi⟩ x1 x2 o1 o2 h1 h2 e1 e2 h)⟩
  · obtain ⟨C, hC, e⟩ := surjective_of_injective_below (2 ^ 32)
      (fun C => (chilow_decrypt_32 (chilow_init g) C T ⟨K_lo, K_hi⟩).getD 0 &&& BITMASK_32)
      (fun a _ => and_BITMASK_32_lt _)
      (fun a b ha hb h => by
        obtain ⟨o1, e1⟩ := total a
        obtain ⟨o2, e2⟩ := total b
        simp only [e1, e2, Option.getD_some] at h
        exact chilow_decrypt_32_lane_injective g T ⟨K_lo, K_hi⟩ a b o1 o2 ha hb e1 e2 h)
      P hP
    obtain ⟨o, eo⟩ := total C
    simp only [eo, Option.getD_some] at e
    exact ⟨C, o, hC, eo, e⟩

theorem C34_chichi_permutation_lane_bijection_witness :
    0x01234567 < 2 ^ 32 ∧ 0x89ABCDEF < 2 ^ 32 ∧ 0x01234567 ≠ 0x89ABCDEF ∧
    0xDEADBEEF < 2 ^ 32 ∧
    chichi_transform 0x01234567 0x7FFF 0x1FFFF 16 ≠
      chichi_transform 0x89ABCDEF 0x7FFF 0x1FFFF 16 ∧
    chichi_transform 0x01234567 0x7FFF 0x1FFFF 16 < 2 ^ 32 ∧
    (∃ z, z < 2 ^ 32 ∧ chichi_transform z 0x7FFF 0x1FFFF 16 = 0xDEADBEEF) ∧
    (∃ o1 o2,
      chilow_decrypt_32bit (chilow_init zero_matrices) 0x01234567 0x0011223344556677
        0x8899AABBCCDDEEFF 0x0123456789ABCDEF = some o1 ∧
      chilow_decrypt_32bit (chilow_init zero_matrices) 0x89ABCDEF 0x0011223344556677
        0x8899AABBCCDDEEFF 0x0123456789ABCDEF = some o2 ∧
      o1 &&& 0xFFFFFFFF ≠ o2 &&& 0xFFFFFFFF) ∧
    (∃ C o, C < 2 ^ 32 ∧
      chilow_decrypt_32bit (chilow_init zero_matrices) C 0x0011223344556677
        0x8899AABBCCDDEEFF 0x0123456789ABCDEF = some o ∧
      o &&& 0xFFFFFFFF = 0xDEADBEEF) :=
  ⟨by decide, by decide, by decide, by decide,
    C34_chichi_permutation_lane_bijection zero_matrices 0x0011223344556677
      0x8899AABBCCDDEEFF 0x0123456789ABCDEF 0x01234567 0x89ABCDEF 0xDEADBEEF
      (by decide) (by decide) (by decide) (by decide)⟩

/-! ## The integral harness on degenerate lists of active positions -/

theorem testBit_shl64_one (p i : Nat) (hp : p < 64) :
    (shl64 1 p).testBit i = decide (i = p) := by
  rw [testBit_shl64, testBit_one_eq]
  by_cases h : i = p
  · subst h
    simp [hp]
  · by_cases h1 : p ≤ i
    · have h2 : ¬ i - p = 0 := by omega
      simp [h, h1, h2]
    · simp [h, h1]

theorem testBit_set_bit_value (v p b i : Nat) (hp : p < 64) :
    (set_bit_value v p b).testBit i =
      if b ≠ 0 then (v.testBit i || decide (i = p))
      else (v.testBit i && (decide (i < 64) && !decide (i = p))) := by
  unfold set_bit_value
  by_cases hb : b ≠ 0
  · rw [if_pos hb, if_pos hb, Nat.testBit_or, testBit_shl64_one p i hp]
  · rw [if_neg hb, if_neg hb, Nat.testBit_and, testBit_not64, testBit_shl64_one p i hp]

theorem set_bit_eq (v : Nat) (p : Int) (b : Nat) (hp : 0 ≤ p ∧ p < 64) :
    set_bit v p b = some (set_bit_value v p.toNat b) := by
  unfold set_bit set_bit_value
  rw [if_pos hp]
  by_cases hb : b ≠ 0
  · rw [if_pos hb, if_pos hb]
  · rw [if_neg hb, if_neg hb]

theorem toNat_lt_64 (p : Int) (hp : 0 ≤ p ∧ p < 64) : p.toNat < 64 := by omega

theorem set_bit_value_lt (v p b : Nat) (hv : v < 2 ^ 64) : set_bit_value v p b < 2 ^ 64 := by
  unfold set_bit_value
  split
  · exact Nat.or_lt_two_pow hv (shl64_lt _ _)
  · exact lt_of_le_of_lt Nat.and_le_left hv

theorem agree_set_same (p q b v w : Nat) (hq : q < 64) (h : agree_off p v w) :
    agree_off p (set_bit_value v q b) (set_bit_value w q b) := by
  intro i hi
  rw [testBit_set_bit_value v q b i hq, testBit_set_bit_value w q b i hq, h i hi]

theorem agree_set_diff (p b c v : Nat) (hp : p < 64) (hv : v < 2 ^ 64) :
    agree_off p (set_bit_value v p b) (set_bit_value v p c) := by
  have key : ∀ d i, i ≠ p → (set_bit_value v p d).testBit i = v.testBit i := by
    intro d i hi
    rw [testBit_set_bit_value v p d i hp]
    by_cases hd : d ≠ 0
    · rw [if_pos hd]
      simp [hi]
    · rw [if_neg hd]
      by_cases h64 : i < 64
      · simp [hi, h64]
      · have hz : v.testBit i = false :=
          Nat.testBit_eq_false_of_lt
            (lt_of_lt_of_le hv (Nat.pow_le_pow_right (by decide) (by omega)))
        simp [hz]
  intro i hi
  rw [key b i hi, key c i hi]

theorem agree_set_close (p b v w : Nat) (hp : p < 64) (h : agree_off p v w) :
    set_bit_value v p b = set_bit_value w p b := by
  apply Nat.eq_of_testBit_eq
  intro i
  rw [testBit_set_bit_value v p b i hp, testBit_set_bit_value w p b i hp]
  by_cases hi : i = p
  · subst hi
    by_cases hb : b ≠ 0
    · rw [if_pos hb, if_pos hb]
      simp
    · rw [if_neg hb, if_neg hb]
      simp
  · rw [h i hi]

theorem agree_u32 (p v w : Nat) (h : agree_off p v w) : agree_off p (u32 v) (u32 w) := by
  intro i hi
  unfold u32
  rw [Nat.testBit_mod_two_pow, Nat.testBit_mod_two_pow, h i hi]

theorem u32_set_high (v q b c : Nat) (hq : q < 64) (h32 : 32 ≤ q) :
    u32 (set_bit_value v q b) = u32 (set_bit_value v q c) := by
  have key : ∀ d, u32 (set_bit_value v q d) = u32 v := by
    intro d
    apply Nat.eq_of_testBit_eq
    intro i
    unfold u32
    rw [Nat.testBit_mod_two_pow, Nat.testBit_mod_two_pow,
      testBit_set_bit_value v q d i hq]
    by_cases hi : i < 32
    · have h1 : i ≠ q := by omega
      have h2 : i < 64 := by omega
      by_cases hd : d ≠ 0
      · rw [if_pos hd]
        simp [h1]
      · rw [if_neg hd]
        simp [h1, h2]
    · simp [hi]
  rw [key b, key c]

theorem build_lane_congr (cast : Nat → Nat) (bv bw : Nat → Nat) :
    ∀ (ps : List Int) (bit v : Nat), (∀ b, bit ≤ b → bv b = bw b) →
      build_lane cast bv ps bit v = build_lane cast bw ps bit v := by
  intro ps
  induction ps with
  | nil => intro bit v _; rfl
  | cons p ps ih =>
    intro bit v h
    rw [build_lane, build_lane, h bit (le_refl _)]
    exact ih (bit + 1) _ (fun b hb => h b (by omega))

/-- Once the position `p` is written again, a difference confined to bit `p` is gone. -/
theorem build_lane_absorb (cast : Nat → Nat)
    (hc : ∀ p v w, agree_off p v w → agree_off p (cast v) (cast w)) (bv bw : Nat → Nat)
    (p : Int) (hp : 0 ≤ p ∧ p < 64) :
    ∀ (ps : List Int) (bit v w : Nat), p ∈ ps → (∀ q, q ∈ ps → 0 ≤ q ∧ q < 64) →
      agree_off p.toNat v w → (∀ b, bit ≤ b → bv b = bw b) →
      build_lane cast bv ps bit v = build_lane cast bw ps bit w := by
  intro ps
  induction ps with
  | nil => intro bit v w hm; exact absurd hm (List.not_mem_nil p)
  | cons q qs ih =>
    intro bit v w hm hq ha h
    rw [build_lane, build_lane, ← h bit (le_refl _)]
    by_cases e : q = p
    · subst e
      rw [agree_set_close q.toNat (bv bit) v w (toNat_lt_64 q hp) ha]
      exact build_lane_congr cast bv bw qs (bit + 1) _ (fun b hb => h b (by omega))
    · have hm2 : p ∈ qs := by
        rcases List.mem_cons.mp hm with h1 | h1
        · exact absurd h1.symm e
        · exact h1
      exact ih (bit + 1) _ _ hm2 (fun r hr => hq r (List.mem_cons_of_mem _ hr))
        (hc _ _ _ (agree_set_same p.toNat q.toNat (bv bit) v w
          (toNat_lt_64 q (hq q (List.mem_cons_self _ _))) ha))
        (fun b hb => h b (by omega))

/-- With a repeated position in the list, the lane built does not depend on the value
written at some loop index `j`. -/
theorem build_lane_duplicate (cast : Nat → Nat)
    (hc : ∀ p v w, agree_off p v w → agree_off p (cast v) (cast w))
    (hb : ∀ v, v < 2 ^ 64 → cast v < 2 ^ 64) :
    ∀ (ps : List Int), ¬ ps.Nodup → (∀ q, q ∈ ps → 0 ≤ q ∧ q < 64) → ∀ bit : Nat,
      ∃ j, j < ps.length ∧ ∀ bv bw : Nat → Nat, (∀ b, b ≠ bit + j → bv b = bw b) →
        ∀ v, v < 2 ^ 64 → build_lane cast bv ps bit v = build_lane cast bw ps bit v := by
  intro ps
  induction ps with
  | nil => intro hn; exact absurd List.nodup_nil hn
  | cons p ps ih =>
    intro hn hq bit
    have hp := hq p (List.mem_cons_self _ _)
    have hq2 : ∀ q, q ∈ ps → 0 ≤ q ∧ q < 64 := fun r hr => hq r (List.mem_cons_of_mem _ hr)
    by_cases hm : p ∈ ps
    · refine ⟨0, by simp, fun bv bw h v hv => ?_⟩
      rw [build_lane, build_lane]
      exact build_lane_absorb cast hc bv bw p hp ps (bit + 1) _ _ hm hq2
        (hc _ _ _ (agree_set_diff p.toNat (bv bit) (bw bit) v (toNat_lt_64 p hp) hv))
        (fun b hb => h b (by omega))
    · have hn2 : ¬ ps.Nodup := fun h => hn (List.nodup_cons.mpr ⟨hm, h⟩)
      obtain ⟨j, hj, hrec⟩ := ih hn2 hq2 (bit + 1)
      refine ⟨j + 1, by simp [hj], fun bv bw h v hv => ?_⟩
      rw [build_lane, build_lane, ← h bit (by omega)]
      exact hrec bv bw (fun b hb => h b (by omega)) _ (hb _ (set_bit_value_lt _ _ _ hv))

/-- With a position from 32 on in the list, the 32-bit lane built does not depend on the
value written at some loop index `j`. -/
theorem build_lane_high :
    ∀ (ps : List Int), (∃ p, p ∈ ps ∧ 32 ≤ p) → (∀ q, q ∈ ps → 0 ≤ q ∧ q < 64) →
      ∀ bit : Nat,
      ∃ j, j < ps.length ∧ ∀ bv bw : Nat → Nat, (∀ b, b ≠ bit + j → bv b = bw b) →
        ∀ v : Nat, build_lane u32 bv ps bit v = build_lane u32 bw ps bit v := by
  intro ps
  induction ps with
  | nil =>
    intro hex
    obtain ⟨p, hp, _⟩ := hex
    exact absurd hp (List.not_mem_nil p)
  | cons q qs ih =>
    intro hex hq bit
    have hq1 := hq q (List.mem_cons_self _ _)
    have hq2 : ∀ r, r ∈ qs → 0 ≤ r ∧ r < 64 := fun r hr => hq r (List.mem_cons_of_mem _ hr)
    by_cases h32 : 32 ≤ q
    · refine ⟨0, by simp, fun bv bw h v => ?_⟩
      rw [build_lane, build_lane,
        u32_set_high v q.toNat (bv bit) (bw bit) (toNat_lt_64 q hq1) (by omega)]
      exact build_lane_congr u32 bv bw qs (bit + 1) _ (fun b hb => h b (by omega))
    · have hex2 : ∃ p, p ∈ qs ∧ 32 ≤ p := by
        obtain ⟨p, hp, hp32⟩ := hex
        rcases List.mem_cons.mp hp with h1 | h1
        · rw [h1] at hp32
          exact absurd hp32 h32
        · exact ⟨p, h1, hp32⟩
      obtain ⟨j, hj, hrec⟩ := ih hex2 hq2 (bit + 1)
      refine ⟨j + 1, by simp [hj], fun bv bw h v => ?_⟩
      rw [build_lane, build_lane, ← h bit (by omega)]
      exact hrec bv bw (fun b hb => h b (by omega)) _

theorem set_active_bits_eq (use_40bit : Int) (bv : Nat → Nat) :
    ∀ (ps : List Int) (bit : Nat) (c : Nat × Nat), (∀ q, q ∈ ps → 0 ≤ q ∧ q < 64) →
      set_active_bits use_40bit bv ps bit c =
        some (if use_40bit ≠ 0 then (c.1, build_lane id bv ps bit c.2)
          else (build_lane u32 bv ps bit c.1, c.2)) := by
  intro ps
  induction ps with
  | nil =>
    intro bit c _
    simp only [set_active_bits, build_lane]
    split <;> rfl
  | cons p ps ih =>
    intro bit c hq
    have hp := hq p (List.mem_cons_self _ _)
    have hq2 : ∀ q, q ∈ ps → 0 ≤ q ∧ q < 64 := fun r hr => hq r (List.mem_cons_of_mem _ hr)
    rw [set_active_bits]
    by_cases hu : use_40bit ≠ 0
    · rw [if_pos hu, set_bit_eq _ p _ hp, Option.some_bind, ih _ _ hq2, if_pos hu, if_pos hu]
      rfl
    · rw [if_neg hu, set_bit_eq _ p _ hp, Option.some_bind, ih _ _ hq2, if_neg hu, if_neg hu]
      rfl

theorem bit_value_flip (n j b : Nat) (h : b ≠ j) :
    ((n ^^^ 2 ^ j) >>> b) &&& 1 = (n >>> b) &&& 1 := by
  rw [shr_and_one_eq, shr_and_one_eq, Nat.testBit_xor, Nat.testBit_two_pow]
  have hj : ¬ j = b := fun e => h e.symm
  simp [hj]

/-! ### The XOR over all inputs -/

theorem for_rounds_xor (body : Nat → Nat → Option Nat) (f : Nat → Nat)
    (h : ∀ input acc, body input acc = some (acc ^^^ f input)) :
    ∀ count r acc, for_rounds body count r acc = some (acc ^^^ xor_range f r count) := by
  intro count
  induction count with
  | zero =>
    intro r acc
    simp [for_rounds, xor_range]
  | succ k ih =>
    intro r acc
    rw [for_rounds, h, Option.some_bind, ih, xor_range, Nat.xor_assoc]

theorem xor_range_congr (f g : Nat → Nat) :
    ∀ count r, (∀ n, r ≤ n → n < r + count → f n = g n) →
      xor_range f r count = xor_range g r count := by
  intro count
  induction count with
  | zero => intro r _; rfl
  | succ k ih =>
    intro r h
    rw [xor_range, xor_range, h r (le_refl _) (by omega),
      ih (r + 1) (fun n h1 h2 => h n (by omega) (by omega))]

theorem xor_range_add (f : Nat → Nat) :
    ∀ a b r, xor_range f r (a + b) = xor_range f r a ^^^ xor_range f (r + a) b := by
  intro a
  induction a with
  | zero =>
    intro b r
    simp [xor_range]
  | succ k ih =>
    intro b r
    rw [show k + 1 + b = (k + b) + 1 by omega, xor_range, xor_range, ih b (r + 1),
      Nat.xor_assoc, show r + 1 + k = r + (k + 1) by omega]

theorem xor_range_shift (f : Nat → Nat) (a : Nat) :
    ∀ count r, xor_range f (r + a) count = xor_range (fun n => f (n + a)) r count := by
  intro count
  induction count with
  | zero => intro r; rfl
  | succ k ih =>
    intro r
    rw [xor_range, xor_range, show r + a + 1 = (r + 1) + a by omega, ih (r + 1)]

theorem add_two_pow_eq_xor (m k : Nat) (h : m < 2 ^ k) : m + 2 ^ k = m ^^^ 2 ^ k := by
  rw [Nat.add_comm]
  apply Nat.eq_of_testBit_eq
  intro i
  rw [Nat.testBit_xor, Nat.testBit_two_pow]
  rcases Nat.lt_trichotomy i k with hi | hi | hi
  · have hn : ¬ k = i := by omega
    rw [Nat.testBit_two_pow_add_gt hi, decide_eq_false hn, Bool.xor_false]
  · subst hi
    rw [Nat.testBit_two_pow_add_eq, Nat.testBit_eq_false_of_lt h]
    simp
  · have hn : ¬ k = i := by omega
    have hp : 2 ^ (k + 1) ≤ 2 ^ i := Nat.pow_le_pow_right (by decide) (by omega)
    have hs : 2 ^ k + m < 2 ^ i := by
      rw [Nat.pow_succ] at hp
      omega
    have hm : m < 2 ^ i := by omega
    rw [Nat.testBit_eq_false_of_lt hs, Nat.testBit_eq_false_of_lt hm, decide_eq_false hn]
    rfl

/-- A function of the input that ignores one of the `k` input bits has XOR zero over the
`2^k` inputs. -/
theorem xor_range_pairing (j : Nat) :
    ∀ (k : Nat) (f : Nat → Nat), j < k → (∀ n, n < 2 ^ k → f (n ^^^ 2 ^ j) = f n) →
      xor_range f 0 (2 ^ k) = 0 := by
  intro k
  induction k with
  | zero => intro f hj; exact absurd hj (by omega)
  | succ k ih =>
    intro f hj hf
    have hlt : ∀ n, n < 2 ^ k → n < 2 ^ (k + 1) := fun n hn => by
      rw [Nat.pow_succ]
      omega
    rw [show 2 ^ (k + 1) = 2 ^ k + 2 ^ k by rw [Nat.pow_succ]; omega, xor_range_add,
      xor_range_shift]
    by_cases e : j = k
    · subst e
      rw [xor_range_congr (fun n => f (n + 2 ^ j)) f (2 ^ j) 0 (fun n _ hn => by
        have hn2 : n < 2 ^ j := by omega
        show f (n + 2 ^ j) = f n
        rw [add_two_pow_eq_xor n j hn2]
        exact hf n (hlt n hn2)), Nat.xor_self]
    · have hjk : j < k := by omega
      have hpow : 2 ^ j < 2 ^ k := Nat.pow_lt_pow_right (by decide) hjk
      rw [ih f hjk (fun n hn => hf n (hlt n hn)),
        ih (fun n => f (n + 2 ^ k)) hjk (fun n hn => by
          show f ((n ^^^ 2 ^ j) + 2 ^ k) = f (n + 2 ^ k)
          rw [add_two_pow_eq_xor _ k (Nat.xor_lt_two_pow hn hpow), add_two_pow_eq_xor n k hn,
            Nat.xor_assoc, Nat.xor_comm (2 ^ j), ← Nat.xor_assoc]
          apply hf
          rw [← add_two_pow_eq_xor n k hn, Nat.pow_succ]
          omega)]
      rfl

theorem get_bit_zero (p : Int) (hp : 0 ≤ p ∧ p < 64) : get_bit 0 p = some 0 := by
  unfold get_bit
  rw [if_pos hp, Nat.zero_shiftRight, Nat.zero_and]

theorem check_balanced_zero :
    ∀ (ps : List Int) (st : Nat × Nat), (∀ q, q ∈ ps → 0 ≤ q ∧ q < 64) →
      check_balanced 0 ps st = some (st.1, st.2 + ps.length) := by
  intro ps
  induction ps with
  | nil => intro st _; rfl
  | cons p ps ih =>
    intro st hq
    rw [check_balanced, get_bit_zero p (hq p (List.mem_cons_self _ _)), Option.some_bind,
      if_pos rfl, ih _ (fun r hr => hq r (List.mem_cons_of_mem _ hr))]
    simp only [List.length_cons]
    congr 2
    omega

theorem build_lane_lt (cast : Nat → Nat) (hb : ∀ v, v < 2 ^ 64 → cast v < 2 ^ 64)
    (bv : Nat → Nat) :
    ∀ (ps : List Int) (bit v : Nat), v < 2 ^ 64 → build_lane cast bv ps bit v < 2 ^ 64 := by
  intro ps
  induction ps with
  | nil => intro bit v hv; exact hv
  | cons p ps ih =>
    intro bit v hv
    rw [build_lane]
    exact ih (bit + 1) _ (hb _ (set_bit_value_lt _ _ _ hv))

theorem u32_lt_64 (v : Nat) (_ : v < 2 ^ 64) : u32 v < 2 ^ 64 :=
  lt_of_lt_of_le (u32_lt v) (by decide)

/-- The loop over the inputs of `test_integral_distinguisher`, started from any pair of
base words, leaves `xor_sum = 0` when the list of active positions is degenerate. -/
theorem xor_sum_loop_zero (cipher_32 cipher_40 : Nat → Nat → Nat → Nat → Int → Nat)
    (rounds : Int) (active : List Int) (use_40bit : Int) (c : Nat × Nat)
    (tweak key_hi key_lo : Nat) (h1 : c.1 < 2 ^ 64) (h2 : c.2 < 2 ^ 64)
    (hact : ∀ p, p ∈ active → 0 ≤ p ∧ p < 64)
    (hdeg : ¬ active.Nodup ∨ (use_40bit = 0 ∧ ∃ p, p ∈ active ∧ 32 ≤ p)) :
    for_rounds (fun input xor_sum =>
        (set_active_bits use_40bit (fun bit => (input >>> bit) &&& 1) active 0 c).map
          fun d =>
            xor_sum ^^^
              (if use_40bit ≠ 0 then cipher_40 d.2 tweak key_hi key_lo rounds
                else cipher_32 d.1 tweak key_hi key_lo rounds))
      (1 <<< active.length) 0 0 = some 0 := by
  have flip : ∀ j n b, b ≠ 0 + j →
      (fun bit => ((n ^^^ 2 ^ j) >>> bit) &&& 1) b = (fun bit => (n >>> bit) &&& 1) b :=
    fun j n b hb => bit_value_flip n j b (by omega)
  by_cases hu : use_40bit ≠ 0
  · obtain ⟨j, hj, hins⟩ := build_lane_duplicate id (fun _ _ _ h => h) (fun _ h => h) active
      (hdeg.resolve_right (fun h => hu h.1)) hact 0
    rw [for_rounds_xor _
      (fun input => cipher_40 (build_lane id (fun bit => (input >>> bit) &&& 1) active 0 c.2)
        tweak key_hi key_lo rounds)
      (fun input acc => by
        rw [set_active_bits_eq _ _ _ _ _ hact, Option.map_some', if_pos hu, if_pos hu]),
      Nat.one_shiftLeft,
      xor_range_pairing j _ _ hj (fun n _ => by
        show cipher_40 _ _ _ _ _ = cipher_40 _ _ _ _ _
        rw [hins _ _ (flip j n) c.2 h2])]
    rfl
  · have hu0 : use_40bit = 0 := not_not.mp hu
    have hex : ∃ j, j < active.length ∧ ∀ bv bw : Nat → Nat,
        (∀ b, b ≠ 0 + j → bv b = bw b) →
          build_lane u32 bv active 0 c.1 = build_lane u32 bw active 0 c.1 := by
      rcases hdeg with hd | hd
      · obtain ⟨j, hj, hins⟩ := build_lane_duplicate u32 agree_u32 u32_lt_64 active hd hact 0
        exact ⟨j, hj, fun bv bw h => hins bv bw h c.1 h1⟩
      · obtain ⟨j, hj, hins⟩ := build_lane_high active hd.2 hact 0
        exact ⟨j, hj, fun bv bw h => hins bv bw h c.1⟩
    obtain ⟨j, hj, hins⟩ := hex
    rw [for_rounds_xor _
      (fun input => cipher_32 (build_lane u32 (fun bit => (input >>> bit) &&& 1) active 0 c.1)
        tweak key_hi key_lo rounds)
      (fun input acc => by
        rw [set_active_bits_eq _ _ _ _ _ hact, Option.map_some', if_neg hu, if_neg hu]),
      Nat.one_shiftLeft,
      xor_range_pairing j _ _ hj (fun n _ => by
        show cipher_32 _ _ _ _ _ = cipher_32 _ _ _ _ _
        rw [hins _ _ (flip j n)])]
    rfl

/-- With a single active position and the identity as cipher the harness does see an
unbalanced bit: the two inputs are the base with bit 0 cleared and set. -/
theorem integral_repetition_identity :
    integral_repetition (fun c _ _ _ _ => c) (fun c _ _ _ _ => c) 3 [0] [0, 1] 0
        0x01234567 0 0 0 0 =
      some { xor_sum := 1, all_balanced := 0, balanced_count := 1 } := by
  decide

/-- C35: in the integral harness, `test_integral_distinguisher` builds its `2^k` inputs by
clearing and then setting the listed active positions.  If the list of active positions
contains a duplicate (or, in the 32-bit variant, a position from 32 on, which the `uint32_t`
cast discards), then for every pair of cipher functions, every base value, tweak and key
the accumulated `xor_sum` is 0, so every requested output bit is reported balanced
(`all_balanced = 1`, `balanced_count = num_balanced`) regardless of the cipher.  The
positions are taken in `0 .. 63` and `k ≤ 30`, where the shifts of the harness are
defined. -/
theorem C35_degenerate_active_positions
    (cipher_32 cipher_40 : Nat → Nat → Nat → Nat → Int → Nat) (rounds : Int)
    (active_positions balanced_positions : List Int) (use_40bit : Int)
    (base_ciphertext_32 base_ciphertext_40 base_tweak base_key_hi base_key_lo : Nat)
    (h32 : base_ciphertext_32 < 2 ^ 32) (h40 : base_ciphertext_40 < 2 ^ 64)
    (hk : active_positions.length ≤ 30)
    (hact : ∀ p, p ∈ active_positions → 0 ≤ p ∧ p < 64)
    (hbal : ∀ p, p ∈ balanced_positions → 0 ≤ p ∧ p < 64)
    (hdeg : ¬ active_positions.Nodup ∨
      (use_40bit = 0 ∧ ∃ p, p ∈ active_positions ∧ 32 ≤ p)) :
    integral_repetition cipher_32 cipher_40 rounds active_positions balanced_positions
        use_40bit base_ciphertext_32 base_ciphertext_40 base_tweak base_key_hi base_key_lo =
      some { xor_sum := 0, all_balanced := 1, balanced_count := balanced_positions.length } := by
  have hlt : active_positions.length < 31 := by omega
  have hb32 : base_ciphertext_32 < 2 ^ 64 := lt_of_lt_of_le h32 (by decide)
  simp only [integral_repetition]
  rw [if_pos hlt, Option.some_bind, set_active_bits_eq _ _ _ _ _ hact, Option.some_bind,
    xor_sum_loop_zero cipher_32 cipher_40 rounds active_positions use_40bit _ base_tweak
      base_key_hi base_key_lo ?_ ?_ hact hdeg,
    Option.some_bind, check_balanced_zero _ _ hbal, Option.map_some']
  · simp
  · split
    · exact hb32
    · exact build_lane_lt u32 u32_lt_64 _ _ _ _ hb32
  · split
    · exact build_lane_lt id (fun _ h => h) _ _ _ _ h40
    · exact h40

theorem C35_degenerate_active_positions_witness :
    (0x01234567 : Nat) < 2 ^ 32 ∧ (0x89ABCDEF01 : Nat) < 2 ^ 64 ∧
    ([21, 23, 21] : List Int).length ≤ 30 ∧
    (∀ p, p ∈ ([21, 23, 21] : List Int) → 0 ≤ p ∧ p < 64) ∧
    (∀ p, p ∈ ([2, 3, 14] : List Int) → 0 ≤ p ∧ p < 64) ∧
    (¬ ([21, 23, 21] : List Int).Nodup ∨
      ((0 : Int) = 0 ∧ ∃ p, p ∈ ([21, 23, 21] : List Int) ∧ 32 ≤ p)) ∧
    integral_repetition (fun c t _ _ _ => c + t) (fun c _ _ _ _ => c) 3 [21, 23, 21]
        [2, 3, 14] 0 0x01234567 0x89ABCDEF01 0x0011223344556677 0x8899AABBCCDDEEFF
        0x0123456789ABCDEF =
      some { xor_sum := 0, all_balanced := 1, balanced_count := ([2, 3, 14] : List Int).length } :=
  ⟨by decide, by decide, by decide, by decide, by decide, Or.inl (by decide),
    C35_degenerate_active_positions (fun c t _ _ _ => c + t) (fun c _ _ _ _ => c) 3
      [21, 23, 21] [2, 3, 14] 0 0x01234567 0x89ABCDEF01 0x0011223344556677 0x8899AABBCCDDEEFF
      0x0123456789ABCDEF (by decide) (by decide) (by decide) (by decide) (by decide)
      (Or.inl (by decide))⟩

/-! ## Weight of a generated row for arbitrary parameters -/

theorem wrapped_column_32 (a b i : Nat) : u32 (u32 (a * i) + b) % 32 = (a * i + b) % 32 := by
  unfold u32
  omega

theorem wrapped_column_64 (a b i : Nat) : u32 (u32 (a * i) + b) % 64 = (a * i + b) % 64 := by
  unfold u32
  omega

theorem wrapped_column_128 (a b i : Nat) :
    u32 (u32 (a * i) + b) % 128 = (a * i + b) % 128 := by
  unfold u32
  omega

theorem unwrapped_column (a b i : Nat) (h : a * i + b < 2 ^ 32) :
    u32 (u32 (a * i) + b) = a * i + b := by
  unfold u32
  omega

theorem generateMatrix32_row_eq (alpha beta : Nat → Nat) (i : Nat) :
    generateMatrix32_row alpha beta i = matrix_row_32 ⟨alpha, beta⟩ i := by
  have hc := fun t => column_lt ⟨alpha, beta⟩ 32 i t (by decide)
  have h := fun t => shl64_one _ (lt_trans (hc t) (by decide : 32 < 64))
  have hp := fun t => Nat.pow_lt_pow_right (by decide : 1 < 2) (hc t)
  simp only [column] at h hp
  rw [matrix_row_32_eq]
  simp only [generateMatrix32_row, column, wrapped_column_32, h, Nat.zero_or]
  exact u32_of_lt _ (Nat.or_lt_two_pow (Nat.or_lt_two_pow (hp 0) (hp 1)) (hp 2))

theorem generateMatrix64_row_eq (alpha beta : Nat → Nat) (i : Nat) :
    generateMatrix64_row 64 alpha beta i = matrix_row_64 ⟨alpha, beta⟩ i := by
  have h := fun t => shl64_one _ (column_lt ⟨alpha, beta⟩ 64 i t (by decide))
  simp only [column] at h
  rw [matrix_row_64_eq]
  simp only [generateMatrix64_row, column, wrapped_column_64, h, Nat.zero_or]

theorem generateMatrix40_row_eq (alpha beta : Nat → Nat) (i : Nat)
    (hw : ∀ k, k < 3 → alpha k * i + beta k < 2 ^ 32) :
    generateMatrix64_row 40 alpha beta i = matrix_row_40 ⟨alpha, beta⟩ i := by
  have h := fun t => shl64_one _
    (lt_trans (column_lt ⟨alpha, beta⟩ 40 i t (by decide)) (by decide : 40 < 64))
  simp only [column] at h
  rw [matrix_row_40_eq]
  simp only [generateMatrix64_row, column, unwrapped_column _ _ _ (hw 0 (by decide)),
    unwrapped_column _ _ _ (hw 1 (by decide)), unwrapped_column _ _ _ (hw 2 (by decide)), h,
    Nat.zero_or]

theorem generateMatrix128_row_eq (alpha beta : Nat → Nat) (i : Nat) :
    (generateMatrix128_row alpha beta i).toUint128 = matrix_row_128 ⟨alpha, beta⟩ i := by
  rw [matrix_row_128_eq]
  simp only [generateMatrix128_row, U128.toUint128, row_128_step, column, wrapped_column_128]
  by_cases h0 : (alpha 0 * i + beta 0) % 128 < 64 <;>
    by_cases h1 : (alpha 1 * i + beta 1) % 128 < 64 <;>
      by_cases h2 : (alpha 2 * i + beta 2) % 128 < 64 <;>
        simp [h0, h1, h2]

theorem matrix_row_32_weight (params : linear_params_t) (i : Nat) :
    popcount32 (matrix_row_32 params i) = (columns params 32 i).card := by
  have hc := fun t => column_lt params 32 i t (by decide)
  rw [popcount32_eq_bits, matrix_row_32_eq]
  exact popcount_bits_three_bits 32 _ _ _ (hc 0) (hc 1) (hc 2)

theorem matrix_row_40_weight (params : linear_params_t) (i : Nat) :
    popcount64 (matrix_row_40 params i) = (columns params 40 i).card := by
  have hc := fun t => lt_trans (column_lt params 40 i t (by decide)) (by decide : 40 < 64)
  rw [popcount64_eq_bits, matrix_row_40_eq]
  exact popcount_bits_three_bits 64 _ _ _ (hc 0) (hc 1) (hc 2)

theorem matrix_row_64_weight (params : linear_params_t) (i : Nat) :
    popcount64 (matrix_row_64 params i) = (columns params 64 i).card := by
  have hc := fun t => column_lt params 64 i t (by decide)
  rw [popcount64_eq_bits, matrix_row_64_eq]
  exact popcount_bits_three_bits 64 _ _ _ (hc 0) (hc 1) (hc 2)

/-- C19 as stated fails for `generateMatrix40` of linearLayer.h, whose column arithmetic is
`uint32_t`: with `alpha = (2147483647, 0, 0)`, `beta = (0, 21, 30)` and row 3 the product
`3 * 2147483647` wraps modulo `2^32`, the generator sets the columns 5, 21, 30 and the row
has weight 3, while the three columns `(alpha_k * 3 + beta_k) mod 40` are 21, 21, 30: two
distinct values. -/
theorem C19_counterexample :
    popcount64 (generateMatrix40 (fun _ => 0) (triple 2147483647 0 0) (triple 0 21 30) 3) = 3 ∧
    generateMatrix40 (fun _ => 0) (triple 2147483647 0 0) (triple 0 21 30) 3 =
      2 ^ 5 ||| 2 ^ 21 ||| 2 ^ 30 ∧
    column ⟨triple 2147483647 0 0, triple 0 21 30⟩ 40 3 0 = 21 ∧
    column ⟨triple 2147483647 0 0, triple 0 21 30⟩ 40 3 1 = 21 ∧
    column ⟨triple 2147483647 0 0, triple 0 21 30⟩ 40 3 2 = 30 ∧
    (columns ⟨triple 2147483647 0 0, triple 0 21 30⟩ 40 3).card = 2 := by
  decide!

/-- C19 (amended): for every width `w` in {32, 40, 64, 128}, every parameter triple
`(alpha, beta)` of non-negative integers and every row index `i < w`, the row that the
matrix generator stores at index `i` has as many set bits as there are distinct values
among its three columns `(alpha_k * i + beta_k) mod w` (3 when they are pairwise distinct,
1 or 2 when they collide), as long as the arithmetic of the generator stays in its type:
for `generate_linear_matrix_32/40/64/128` of chilow.c (`int` arithmetic) when
`alpha_k * i + beta_k < 2^31`; for `generateMatrix40` of linearLayer.h (`uint32_t`
arithmetic) when `alpha_k * i + beta_k < 2^32`; for `generateMatrix32/64/128` of
linearLayer.h always, their width being a divisor of `2^32`.  For width 128 the weight is
the sum of the population counts of the two words. -/
theorem C19_generated_row_weight (params : linear_params_t) (m : Nat → Nat)
    (m128 : Nat → uint128_t) (M : Nat → Nat) (M128 : Nat → U128) (i : Nat) :
    ((∀ k, k < 3 → params.alpha k * i + params.beta k < 2 ^ 31) →
      (i < 32 → popcount32 (generate_linear_matrix_32 m params i)
          = (columns params 32 i).card) ∧
      (i < 40 → popcount64 (generate_linear_matrix_40 m params i)
          = (columns params 40 i).card) ∧
      (i < 64 → popcount64 (generate_linear_matrix_64 m params i)
          = (columns params 64 i).card) ∧
      (i < 128 → popcount64 (generate_linear_matrix_128 m128 params i).lo +
          popcount64 (generate_linear_matrix_128 m128 params i).hi
          = (columns params 128 i).card)) ∧
    (i < 32 → popcount32 (generateMatrix32 M params.alpha params.beta i)
        = (columns params 32 i).card) ∧
    (i < 64 → popcount64 (generateMatrix64 M params.alpha params.beta i)
        = (columns params 64 i).card) ∧
    (i < 128 → popcount64 (generateMatrix128 M128 params.alpha params.beta i).low +
        popcount64 (generateMatrix128 M128 params.alpha params.beta i).high
        = (columns params 128 i).card) ∧
    ((∀ k, k < 3 → params.alpha k * i + params.beta k < 2 ^ 32) → i < 40 →
      popcount64 (generateMatrix40 M params.alpha params.beta i)
        = (columns params 40 i).card) ∧
    (∀ w, ((column params w i 0 ≠ column params w i 1 ∧
            column params w i 0 ≠ column params w i 2 ∧
            column params w i 1 ≠ column params w i 2) →
          (columns params w i).card = 3) ∧
        (¬ (column params w i 0 ≠ column params w i 1 ∧
            column params w i 0 ≠ column params w i 2 ∧
            column params w i 1 ≠ column params w i 2) →
          (columns params w i).card = 1 ∨ (columns params w i).card = 2)) := by
  have g32 : generate_linear_matrix_32 m params =
      fun j => if j < 32 then matrix_row_32 params j else m j := foldl_store_range _ _ _
  have g40 : generate_linear_matrix_40 m params =
      fun j => if j < 40 then matrix_row_40 params j else m j := foldl_store_range _ _ _
  have g64 : generate_linear_matrix_64 m params =
      fun j => if j < 64 then matrix_row_64 params j else m j := foldl_store_range _ _ _
  have g128 : generate_linear_matrix_128 m128 params =
      fun j => if j < 128 then matrix_row_128 params j else m128 j := foldl_store_range _ _ _
  have e128 := generateMatrix128_row_eq params.alpha params.beta i
  refine ⟨fun _ => ⟨fun h => ?_, fun h => ?_, fun h => ?_, fun h => ?_⟩, fun h => ?_,
    fun h => ?_, fun h => ?_, fun hw h => ?_, fun w => columns_card params w i⟩
  · rw [g32]
    simp only [if_pos h]
    exact matrix_row_32_weight params i
  · rw [g40]
    simp only [if_pos h]
    exact matrix_row_40_weight params i
  · rw [g64]
    simp only [if_pos h]
    exact matrix_row_64_weight params i
  · rw [g128]
    simp only [if_pos h, popcount64_eq_bits]
    exact matrix_row_128_weight params i
  · rw [generateMatrix32_eq]
    simp only [if_pos h]
    rw [generateMatrix32_row_eq]
    exact matrix_row_32_weight params i
  · rw [generateMatrix64_eq]
    simp only [if_pos h]
    rw [generateMatrix64_row_eq]
    exact matrix_row_64_weight params i
  · rw [generateMatrix128_eq]
    simp only [if_pos h, popcount64_eq_bits]
    have el : (generateMatrix128_row params.alpha params.beta i).low =
        (matrix_row_128 params i).lo := congrArg uint128_t.lo e128
    have eh : (generateMatrix128_row params.alpha params.beta i).high =
        (matrix_row_128 params i).hi := congrArg uint128_t.hi e128
    rw [el, eh]
    exact matrix_row_128_weight params i
  · rw [generateMatrix40_eq]
    simp only [if_pos h]
    rw [generateMatrix40_row_eq _ _ _ hw]
    exact matrix_row_40_weight params i

/-- C19 (amended) at a parameter triple with a collision: `alpha = (1, 1, 2)`,
`beta = (0, 0, 5)`, row 7, where the three columns are 7, 7 and 19 at every width and
each generated row has weight 2. -/
theorem C19_generated_row_weight_witness :
    popcount32 (generate_linear_matrix_32 (fun _ => 0) ⟨triple 1 1 2, triple 0 0 5⟩ 7) = 2 ∧
    popcount64 (generate_linear_matrix_40 (fun _ => 0) ⟨triple 1 1 2, triple 0 0 5⟩ 7) = 2 ∧
    popcount64 (generate_linear_matrix_64 (fun _ => 0) ⟨triple 1 1 2, triple 0 0 5⟩ 7) = 2 ∧
    popcount64 (generate_linear_matrix_128 (fun _ => ⟨0, 0⟩)
        ⟨triple 1 1 2, triple 0 0 5⟩ 7).lo +
      popcount64 (generate_linear_matrix_128 (fun _ => ⟨0, 0⟩)
        ⟨triple 1 1 2, triple 0 0 5⟩ 7).hi = 2 ∧
    popcount32 (generateMatrix32 (fun _ => 0) (triple 1 1 2) (triple 0 0 5) 7) = 2 ∧
    popcount64 (generateMatrix64 (fun _ => 0) (triple 1 1 2) (triple 0 0 5) 7) = 2 ∧
    popcount64 (generateMatrix128 (fun _ => ⟨0, 0⟩) (triple 1 1 2) (triple 0 0 5) 7).low +
      popcount64 (generateMatrix128 (fun _ => ⟨0, 0⟩) (triple 1 1 2) (triple 0 0 5) 7).high
        = 2 ∧
    popcount64 (generateMatrix40 (fun _ => 0) (triple 1 1 2) (triple 0 0 5) 7) = 2 := by
  have c32 : (columns ⟨triple 1 1 2, triple 0 0 5⟩ 32 7).card = 2 := by decide
  have c40 : (columns ⟨triple 1 1 2, triple 0 0 5⟩ 40 7).card = 2 := by decide
  have c64 : (columns ⟨triple 1 1 2, triple 0 0 5⟩ 64 7).card = 2 := by decide
  have c128 : (columns ⟨triple 1 1 2, triple 0 0 5⟩ 128 7).card = 2 := by decide
  obtain ⟨h1, h2, h3, h4, h5, _⟩ :=
    C19_generated_row_weight ⟨triple 1 1 2, triple 0 0 5⟩ (fun _ => 0) (fun _ => ⟨0, 0⟩)
      (fun _ => 0) (fun _ => ⟨0, 0⟩) 7
  obtain ⟨a1, a2, a3, a4⟩ := h1 (by decide)
  exact ⟨(a1 (by decide)).trans c32, (a2 (by decide)).trans c40, (a3 (by decide)).trans c64,
    (a4 (by decide)).trans c128, (h2 (by decide)).trans c32, (h3 (by decide)).trans c64,
    (h4 (by decide)).trans c128, (h5 (by decide) (by decide)).trans c40⟩

end ChiLow
